import Mathlib

/-!
# Otterscan chunked per-address index: `StandardIndexHandler.Load`

A shallow embedding of

* `ots/indexer/counter.go` (the three counter serializers),
* `execution/stagedsync/ots_index_handler_standard.go`
  (`chunkKey`, `mergeLastChunk`, `writeOptimizedChunkAndCounter`,
  `writeRegularChunkAndCounter`, the body of `Load`, `TouchIndex`, `needFlush64`,
  `flushBitmaps64`, `Flush`), and
* `execution/stagedsync/ots_unwinder_executor_log_holdings.go`
  (`UnwindAddressHolding`),

followed by theorems about them.

Conventions.  A byte string is a `List Nat` whose elements are bytes.  A
`uint64` is a `Nat`; wrap-around is written `% 2 ^ 64` where the Go code can
wrap.  The key-value store is an ordered association list; a dup-sorted table
maps a key to the ascending list of its values.  Go panics (slice bounds) and
the `db possibly corrupted` errors are `Except.error`.
-/

namespace Ots

/-! ## Bytes and big-endian integers -/

/-- A byte string (`[]byte`): every element is meant to be below 256. -/
abbrev Bytes := List Nat

/-- Big-endian encoding of `n` on `w` bytes (the high bytes of a larger `n` are dropped). -/
def beBytes : Nat → Nat → Bytes
  | 0, _ => []
  | w + 1, n => (n / 256 ^ w % 256) :: beBytes w n

/-- The value of a big-endian byte string. -/
def beUint (b : Bytes) : Nat := b.foldl (fun acc x => acc * 256 + x) 0

/-- The largest `uint64`, Go's `^uint64(0)`. -/
def maxUint64 : Nat := 2 ^ 64 - 1

/-- Go's `binary.BigEndian.PutUint64` into a fresh 8-byte slice; the argument is a `uint64`. -/
def putUint64 (n : Nat) : Bytes := beBytes 8 n

/-- Go's `binary.BigEndian.Uint64`: the first 8 bytes read big-endian (callers check the length). -/
def getUint64 (b : Bytes) : Nat := beUint (b.take 8)

/-- Go's `bytes.Compare(a, b) == -1`: lexicographic order on byte strings. -/
def bytesLt : Bytes → Bytes → Bool
  | [], [] => false
  | [], _ :: _ => true
  | _ :: _, [] => false
  | a :: as, b :: bs => decide (a < b) || (decide (a = b) && bytesLt as bs)

/-! ## Constants of `common/length` -/

/-- Modelled from the spec: `length.Addr`, the 20 bytes of an address (the constant's
declaration is outside the given sources). -/
def lengthAddr : Nat := 20

/-- Modelled from the spec: `length.Counter`, the 8 bytes of a cumulative count. -/
def lengthCounter : Nat := 8

/-- Modelled from the spec: `length.Chunk`, the 8 bytes of a chunk terminator. -/
def lengthChunk : Nat := 8

/-! ## `ots/indexer/counter.go` -/

/-- `OptimizedCounterSerializer`: one byte, `byte(count - 1)` in `uint64` arithmetic. -/
def OptimizedCounterSerializer (count : Nat) : Bytes :=
  [(count + 2 ^ 64 - 1) % 2 ^ 64 % 256]

/-- Go's `copy(dst, src)` where `dst` is a zeroed slice of `n` bytes: the result `dst`. -/
def copyInto (n : Nat) (src : Bytes) : Bytes :=
  src.take n ++ List.replicate (n - src.length) 0

/-- `RegularCounterSerializer`: 16 bytes, the big-endian count then the chunk terminator. -/
def RegularCounterSerializer (count : Nat) (chunk : Bytes) : Bytes :=
  putUint64 count ++ copyInto lengthChunk chunk

/-- `LastCounterSerializer`: 16 bytes, the big-endian count then eight `0xff`. -/
def LastCounterSerializer (count : Nat) : Bytes :=
  putUint64 count ++ putUint64 maxUint64

/-! ## The roaring bitmap, as the ascending list of its elements -/

/-- A `roaring64.Bitmap`: a set of `uint64`, held as its strictly ascending enumeration
(what `Iterator()` yields). -/
abbrev Bitmap := List Nat

/-- `Bitmap.Add`: insert one element, keeping the enumeration ascending and duplicate-free. -/
def bmAdd (x : Nat) : Bitmap → Bitmap
  | [] => [x]
  | y :: ys => if x < y then x :: y :: ys else if x = y then y :: ys else y :: bmAdd x ys

/-- `Bitmap.Or`: in-place union, `a.Or(b)`. -/
def bmOr (a b : Bitmap) : Bitmap := b.foldl (fun acc x => bmAdd x acc) a

/-! ## The key-value store -/

/-- An ordered table: key/value pairs in ascending key order, one pair per key. -/
abbrev Table := List (Bytes × Bytes)

/-- `Get`: the value under a key, if any. -/
def tableGet (k : Bytes) : Table → Option Bytes
  | [] => none
  | (k', v') :: t => if k = k' then some v' else tableGet k t

/-- `Put`: insert or overwrite the value under a key, keeping the key order. -/
def tablePut (k v : Bytes) : Table → Table
  | [] => [(k, v)]
  | (k', v') :: t =>
    if bytesLt k k' then (k, v) :: (k', v') :: t
    else if k = k' then (k, v) :: t
    else (k', v') :: tablePut k v t

/-- A dup-sorted table: for each key the ascending list of its (distinct) values; a key
without values is absent. -/
abbrev DupTable := Bytes → List Bytes

/-- Insert a value into an ascending duplicate-free list of values. -/
def dupInsert (v : Bytes) : List Bytes → List Bytes
  | [] => [v]
  | w :: ws => if bytesLt v w then v :: w :: ws else if v = w then w :: ws else w :: dupInsert v ws

/-- `Put` on a dup-sorted table: add the value to the key's values. -/
def dupPut (k v : Bytes) (t : DupTable) : DupTable :=
  fun k' => if k' = k then dupInsert v (t k) else t k'

/-- The two tables `Load` works on: the chunk table (`indexBucket`) and the counter
table (`counterBucket`). -/
structure Store where
  index : Table
  counter : DupTable

/-- The empty store. -/
def Store.empty : Store := ⟨[], fun _ => []⟩

/-! ## `execution/stagedsync/ots_index_handler_standard.go` -/

/-- `chunkKey`: the 20 address bytes of `k`, then the big-endian terminator: all ones for
the last chunk, else `ethTx`. -/
def chunkKey (k : Bytes) (isLast : Bool) (ethTx : Nat) : Bytes :=
  copyInto lengthAddr (k.take lengthAddr) ++
    (if isLast then putUint64 maxUint64 else putUint64 ethTx)

/-- The loop of `mergeLastChunk`:
`for i := 0; i < len(v); i += 8 { chunkBm.Add(Uint64(v[i:i+8])) }`.
A tail of fewer than 8 bytes makes `v[i:i+8]` panic. -/
def decodeChunk : Bytes → Bitmap → Except String Bitmap
  | [], bm => .ok bm
  | b0 :: b1 :: b2 :: b3 :: b4 :: b5 :: b6 :: b7 :: rest, bm =>
    decodeChunk rest (bmAdd (getUint64 [b0, b1, b2, b3, b4, b5, b6, b7]) bm)
  | _, _ => .error "panic: slice bounds out of range"

/-- `mergeLastChunk`: read the chunk keyed `addr ‖ 0xffffffffffffffff` (it may not exist)
and merge its ids into `addrBm`. -/
def mergeLastChunk (addrBm : Bitmap) (addr : Bytes) (index : Table) : Except String Bitmap :=
  let key := copyInto lengthAddr addr ++ putUint64 maxUint64
  match tableGet key index with
  | none => .ok addrBm
  | some v =>
    match decodeChunk v [] with
    | .error e => .error e
    | .ok chunkBm => .ok (bmOr addrBm chunkBm)

/-- `writeOptimizedChunkAndCounter`: write the solo chunk and the 1-byte counter. -/
def writeOptimizedChunkAndCounter (st : Store) (k buf addr : Bytes) (prevCounter : Nat) :
    Nat × Store :=
  let key := chunkKey k true 0
  let index := tablePut key buf st.index
  let prevCounter := (prevCounter + buf.length / 8) % 2 ^ 64
  let v := OptimizedCounterSerializer prevCounter
  (prevCounter, ⟨index, dupPut addr v st.counter⟩)

/-- `writeRegularChunkAndCounter`: write one chunk and its 16-byte counter. -/
def writeRegularChunkAndCounter (st : Store) (k buf addr : Bytes) (ethTx : Nat) (isLast : Bool)
    (prevCounter : Nat) : Nat × Store :=
  let key := chunkKey k isLast ethTx
  let index := tablePut key buf st.index
  let prevCounter := (prevCounter + buf.length / 8) % 2 ^ 64
  let v := RegularCounterSerializer prevCounter (key.drop lengthAddr)
  (prevCounter, ⟨index, dupPut addr v st.counter⟩)

/-- The first loop of `Load` (optimized branch): all ids, 8 bytes each, into `buf`. -/
def encodeAll : List Nat → Bytes → Bytes
  | [], buf => buf
  | ethTx :: rest, buf => encodeAll rest (buf ++ putUint64 ethTx)

/-- The second loop of `Load` (regular branch): append each id to `buf` and cut a chunk
when no id remains or `buf.Len() >= ChunkLimit`. -/
def regularLoop (chunkLimit : Nat) (k addr : Bytes) : List Nat → Bytes → Nat → Store → Store
  | [], _, _, st => st
  | ethTx :: rest, buf, prevCounter, st =>
    let buf := buf ++ putUint64 ethTx
    if rest.isEmpty || decide (buf.length ≥ chunkLimit) then
      let r := writeRegularChunkAndCounter st k buf addr ethTx rest.isEmpty prevCounter
      regularLoop chunkLimit k addr rest [] r.1 r.2
    else
      regularLoop chunkLimit k addr rest buf prevCounter st

/-- What `Load` learns from the counter table: the previous cumulative count, whether the
address is in optimized form, whether it had any counter, and the table without the last
record. -/
structure CounterScan where
  prevCounter : Nat
  isUniqueChunk : Bool
  found : Bool
  counter : DupTable

/-- The test of line 172: `(counterK == nil || isUniqueChunk) &&
prevCounter+addrBm.GetCardinality() <= 256`. -/
def optimizedBranch (sc : CounterScan) (addrBm : Bitmap) : Bool :=
  (!sc.found || sc.isUniqueChunk) && decide ((sc.prevCounter + addrBm.length) % 2 ^ 64 ≤ 256)

/-- The Go panic a counter record of `n < 16` bytes (and not 1 byte) raises at line 147 or
148: `counterV[8:]` is out of bounds below 8 bytes, and `binary.BigEndian.Uint64` of the
remaining bytes reads index 7 of fewer than 8 bytes. -/
def shortRecordPanic (n : Nat) : String :=
  if n < 8 then "panic: slice bounds out of range" else "panic: index out of range"

/-- Lines 121-169 of `Load`: recover and delete the last counter record of `addr`.
`PrevDup` after `DeleteCurrent` on the last record yields the record that preceded it. -/
def scanCounter (addr : Bytes) (counter : DupTable) : Except String CounterScan :=
  let dups := counter addr
  match dups.getLast? with
  | none => .ok ⟨0, false, false, counter⟩
  | some counterV =>
    let rest := dups.dropLast
    let counter' : DupTable := fun a => if a = addr then rest else counter a
    if counterV.length = 1 then
      if dups.length ≠ 1 then
        .error "db possibly corrupted: optimized counter with duplicates"
      else .ok ⟨0, true, true, counter'⟩
    else if counterV.length < lengthCounter + lengthChunk then
      .error (shortRecordPanic counterV.length)
    else if getUint64 (counterV.drop 8) ≠ maxUint64 then
      .error "db possibly corrupted: last chunk is not 0xffffffffffffffff"
    else
      match rest.getLast? with
      | none => .ok ⟨0, false, true, counter'⟩
      | some prevV =>
        if prevV.length < 8 then .error "panic: slice bounds out of range"
        else .ok ⟨getUint64 (prevV.take 8), false, true, counter'⟩

/-- The `loadFunc` closure of `Load`, for one collector entry: the key `k` and the bitmap
deserialized from its value.  `chunkLimit` stands for `bitmapdb.ChunkLimit`. -/
def loadFunc (chunkLimit : Nat) (st : Store) (k : Bytes) (addrBm : Bitmap) :
    Except String Store :=
  if k.length < lengthAddr then .error "panic: slice bounds out of range" else
  let addr := k.take lengthAddr
  match mergeLastChunk addrBm addr st.index with
  | .error e => .error e
  | .ok addrBm =>
    match scanCounter addr st.counter with
    | .error e => .error e
    | .ok sc =>
      let st1 : Store := ⟨st.index, sc.counter⟩
      if optimizedBranch sc addrBm then
        .ok (writeOptimizedChunkAndCounter st1 k (encodeAll addrBm []) addr sc.prevCounter).2
      else
        .ok (regularLoop chunkLimit k addr addrBm [] sc.prevCounter st1)

/-- `Load`: run `loadFunc` on every entry the collector yields, stopping at the first error. -/
def Load (chunkLimit : Nat) : Store → List (Bytes × Bitmap) → Except String Store
  | st, [] => .ok st
  | st, (k, bm) :: rest =>
    match loadFunc chunkLimit st k bm with
    | .error e => .error e
    | .ok st' => Load chunkLimit st' rest

/-! ## Reading the store: chunks, ids and the cutter -/

/-- Ids packed 8 bytes each, big-endian: the value of a chunk holding these ids. -/
def encodeIds (ids : List Nat) : Bytes := (ids.map putUint64).flatten

/-- A chunk value read back 8 bytes at a time, in the order the bytes are stored. -/
def decodeIds : Bytes → List Nat
  | b0 :: b1 :: b2 :: b3 :: b4 :: b5 :: b6 :: b7 :: rest =>
    getUint64 [b0, b1, b2, b3, b4, b5, b6, b7] :: decodeIds rest
  | _ => []

/-- The chunk records of address `A`: the entries whose key starts with `A`, in key order. -/
def chunksOf (A : Bytes) (t : Table) : Table :=
  t.filter (fun e => decide (e.1.take lengthAddr = A))

/-- The ids stored for `A`: its chunk values concatenated in key order and decoded. -/
def storedIds (A : Bytes) (st : Store) : List Nat :=
  decodeIds ((chunksOf A st.index).map Prod.snd).flatten

/-- The chunks the regular branch closes while walking `ids`, `cur` being the ids already
in the buffer: the loop of `regularLoop` without the store. -/
def cutter (chunkLimit : Nat) : List Nat → List Nat → List (List Nat)
  | [], _ => []
  | x :: rest, cur =>
    if rest.isEmpty || decide (8 * (cur.length + 1) ≥ chunkLimit) then
      (cur ++ [x]) :: cutter chunkLimit rest []
    else cutter chunkLimit rest (cur ++ [x])

/-- `writeRegularChunkAndCounter` called once per chunk of a list of chunks, the last one
with `isLast = true`. -/
def writeChunks (k addr : Bytes) : List (List Nat) → Nat → Store → Store
  | [], _, st => st
  | c :: cs, prevCounter, st =>
    let r := writeRegularChunkAndCounter st k (encodeIds c) addr (c.getLast?.getD 0) cs.isEmpty
      prevCounter
    writeChunks k addr cs r.1 r.2

/-- One chunk as the store receives it: the chunk key, the chunk value, the counter record. -/
structure ChunkWrite where
  key : Bytes
  value : Bytes
  counter : Bytes

/-- The records of spec 4.2 step 2 for consecutive chunks `cs` of address `A` after `p`
earlier ids: a non-final chunk is keyed by its last id, the final one by all ones; the
counter record is the cumulative count followed by the key terminator. -/
def specWrites (A : Bytes) : Nat → List (List Nat) → List ChunkWrite
  | _, [] => []
  | p, c :: cs =>
    let term := if cs.isEmpty then putUint64 maxUint64 else putUint64 (c.getLast?.getD 0)
    ⟨A ++ term, encodeIds c, putUint64 (p + c.length) ++ term⟩ ::
      specWrites A (p + c.length) cs

/-- The store after the given records are written for address `A`, in order. -/
def applyWrites (A : Bytes) : List ChunkWrite → Store → Store
  | [], st => st
  | w :: ws, st => applyWrites A ws ⟨tablePut w.key w.value st.index, dupPut A w.counter st.counter⟩

/-- The split of spec 4.2 step 2, stated on the result: `cs` are consecutive non-empty
pieces of `ids`; a piece is closed as soon as its byte size reaches `chunkLimit` (no
earlier), and only the final piece may be closed below the limit. -/
def IsCut (chunkLimit : Nat) (ids : List Nat) (cs : List (List Nat)) : Prop :=
  cs.flatten = ids ∧
  (∀ c ∈ cs, c ≠ [] ∧ ∀ j, 0 < j → j < c.length → 8 * j < chunkLimit) ∧
  (∀ c ∈ cs.dropLast, chunkLimit ≤ 8 * c.length)

/-- The cumulative count `Load` starts from: the count of the record before the last one,
or 0 when there is none. -/
def prevCount (dups : List Bytes) : Nat :=
  match dups.dropLast.getLast? with
  | none => 0
  | some prevV => getUint64 (prevV.take 8)

/-- The counter table with the last record of `A` removed. -/
def dropLastCounter (A : Bytes) (counter : DupTable) : DupTable :=
  fun a => if a = A then (counter A).dropLast else counter a

/-- The key order of a table: keys strictly ascending (so no key occurs twice). -/
def TableSorted (t : Table) : Prop := t.Pairwise (fun a b => bytesLt a.1 b.1 = true)

/-- A well-formed bitmap enumeration: strictly ascending `uint64` values. -/
def BitmapOk (bm : Bitmap) : Prop := bm.Pairwise (fun a b => a < b) ∧ ∀ x ∈ bm, x < 2 ^ 64

/-- Records keyed by the last id of their chunk: what non-final chunks look like. -/
def nfWrites (A : Bytes) : Nat → List (List Nat) → List ChunkWrite
  | _, [] => []
  | p, c :: cs =>
    ⟨A ++ putUint64 (c.getLast?.getD 0), encodeIds c,
      putUint64 (p + c.length) ++ putUint64 (c.getLast?.getD 0)⟩ :: nfWrites A (p + c.length) cs

/-- The chunk-table entry of a record. -/
def ChunkWrite.entry (w : ChunkWrite) : Bytes × Bytes := (w.key, w.value)

/-- The chunk records of an address whose chunks are `cs`, in key order (data model 3.1):
every chunk but the last is keyed by its last id, the last one by all ones. -/
def chunkEntries (A : Bytes) (cs : List (List Nat)) : Table :=
  (specWrites A 0 cs).map ChunkWrite.entry

/-- The 16-byte counter records of an address whose chunks are `cs` (data model 3.1): one per
chunk, the cumulative count up to and including the chunk, then the chunk's terminator. -/
def regularCounters (A : Bytes) (cs : List (List Nat)) : List Bytes :=
  (specWrites A 0 cs).map ChunkWrite.counter

/-- The chunk invariants (I1, I2, P3) of address `A`, whose chunks hold the id lists `cs`:
the table is in key order; the records of `A` are exactly one record per chunk, keyed by the
chunk's last id except the final one, keyed by all ones; no chunk is empty; and the
concatenation of the chunks is a strictly ascending list of `uint64`. -/
def ChunkInv (A : Bytes) (st : Store) (cs : List (List Nat)) : Prop :=
  TableSorted st.index ∧ chunksOf A st.index = chunkEntries A cs ∧
    (∀ c ∈ cs, c ≠ []) ∧ BitmapOk cs.flatten

/-- The chunk-table writes of a list of records, in order. -/
def putAll : List ChunkWrite → Table → Table
  | [], t => t
  | w :: ws, t => putAll ws (tablePut w.key w.value t)

/-- The counter records of a list of records inserted among the values of one key, in order. -/
def insertAll : List ChunkWrite → List Bytes → List Bytes
  | [], l => l
  | w :: ws, l => insertAll ws (dupInsert w.counter l)

/-- The counter records `Load` accepts for an address: none, or a single optimized byte, or
16-byte records the last of which ends with the all-ones terminator. -/
def CounterReadable (dups : List Bytes) : Prop :=
  dups = [] ∨ (∃ b, dups = [[b]]) ∨
    ((∀ r ∈ dups, r.length = 16) ∧ ∃ pre cum, dups = pre ++ [cum ++ putUint64 maxUint64])

/-- The records one run of `loadFunc` writes for address `A`, given the counter scan and the
merged bitmap `M`: the solo chunk with the 1-byte counter on the optimized branch, the
cutter's chunks with their 16-byte counters on the regular branch. -/
def loadWrites (chunkLimit : Nat) (A : Bytes) (sc : CounterScan) (M : Bitmap) :
    List ChunkWrite :=
  if optimizedBranch sc M then
    [⟨A ++ putUint64 maxUint64, encodeIds M,
      OptimizedCounterSerializer ((sc.prevCounter + M.length) % 2 ^ 64)⟩]
  else specWrites A sc.prevCounter (cutter chunkLimit M [])

/-- The chunks `loadFunc` cuts the merged bitmap `M` into. -/
def loadChunks (chunkLimit : Nat) (sc : CounterScan) (M : Bitmap) : List (List Nat) :=
  if optimizedBranch sc M then [M] else cutter chunkLimit M []

/-- The store-level reading of the test of line 172 once the scan has succeeded: the counter
of the address is absent or a single 1-byte record, and the merged cardinality (a `uint64`)
is at most 256. -/
def OptimizedPath (dups : List Bytes) (M : Bitmap) : Prop :=
  (dups = [] ∨ (dups.length = 1 ∧ ∀ r ∈ dups, r.length = 1)) ∧ M.length % 2 ^ 64 ≤ 256

/-- A sample address: twenty zero bytes. -/
def addr0 : Bytes := List.replicate 20 0

/-- A sample store: `addr0` holds the ids 1, 2, 3 in two chunks, `[1, 2]` keyed by 2 and
`[3]` keyed by all ones, with the two 16-byte counter records of the regular form. -/
def sampleStore : Store :=
  ⟨[(addr0 ++ putUint64 2, encodeIds [1, 2]), (addr0 ++ putUint64 maxUint64, encodeIds [3])],
   fun a => if a = addr0 then [putUint64 2 ++ putUint64 2, putUint64 3 ++ putUint64 maxUint64]
     else []⟩

/-- The counter invariants (I3, I4, I6, P4) of address `A`, whose chunks hold the id lists
`cs`: no record when there is no chunk; or the single byte `count − 1` when there is one chunk
of at most 256 ids; or, when the address is not a single chunk of at most 256 ids, one
16-byte record per chunk, in order, holding the number of ids up to and including that chunk
followed by the chunk's terminator. -/
def CounterInv (A : Bytes) (st : Store) (cs : List (List Nat)) : Prop :=
  (cs = [] ∧ st.counter A = []) ∨
    (∃ c, cs = [c] ∧ c.length ≤ 256 ∧ st.counter A = [[c.length - 1]]) ∨
    (cs ≠ [] ∧ (2 ≤ cs.length ∨ 256 < cs.flatten.length) ∧
      st.counter A = regularCounters A cs)

/-- The read policy `count(A)` of spec 4.2: the largest counter record decoded, `byte + 1`
for the optimized form and `cumCount` for a 16-byte record (0 without records). -/
def countOf (dups : List Bytes) : Nat :=
  match dups.getLast? with
  | none => 0
  | some r => if r.length = 1 then r.headD 0 + 1 else getUint64 r

/-- The number of ids in the chunks of `A` whose key terminator is at most `term`. -/
def idsUpTo (A : Bytes) (st : Store) (term : Bytes) : Nat :=
  (((chunksOf A st.index).filter (fun e => !bytesLt term (e.1.drop lengthAddr))).map
    (fun e => e.2.length / 8)).sum

/-- The number of ids in all chunks of `A`. -/
def totalIds (A : Bytes) (st : Store) : Nat :=
  ((chunksOf A st.index).map (fun e => e.2.length / 8)).sum

/-- A sequence of `Load` calls, each on the entries its collector yields. -/
def LoadSeq (chunkLimit : Nat) : Store → List (List (Bytes × Bitmap)) → Except String Store
  | st, [] => .ok st
  | st, b :: bs =>
    match Load chunkLimit st b with
    | .error e => .error e
    | .ok st' => LoadSeq chunkLimit st' bs

/-- Well-formed collector entries: the key is a 20-byte address and the value a non-empty
bitmap of `uint64` (`TouchIndex` creates a bitmap only to add an id to it). -/
def DeltasOk (es : List (Bytes × Bitmap)) : Prop :=
  ∀ e ∈ es, e.1.length = lengthAddr ∧ e.2 ≠ [] ∧ BitmapOk e.2

/-- Deltas strictly increasing per address: every id of a later entry of an address is
greater than every id of an earlier entry of the same address. -/
def DeltasIncreasing (es : List (Bytes × Bitmap)) : Prop :=
  es.Pairwise (fun e1 e2 => e1.1 = e2.1 → ∀ x ∈ e1.2, ∀ y ∈ e2.2, x < y)

/-- The ids the entries hold for address `A`, in the order of the entries. -/
def idsFor (A : Bytes) (es : List (Bytes × Bitmap)) : List Nat :=
  ((es.filter (fun e => decide (e.1 = A))).map Prod.snd).flatten

/-- The largest id of a list (0 for the empty list). -/
def maxId (l : List Nat) : Nat := l.foldl max 0

/-- The state of the store after the entries `done` have been loaded in increasing order:
every address satisfies the chunk and counter invariants, and its chunks hold exactly the ids
loaded for it. -/
def StoreInv (st : Store) (done : List (Bytes × Bitmap)) : Prop :=
  ∀ A, A.length = lengthAddr →
    ∃ cs, cs.flatten = idsFor A done ∧ ChunkInv A st cs ∧ CounterInv A st cs

/-- What remains true of an address in regular form when deltas arrive in any order: its last
chunk holds the non-empty ascending ids `ids`; its counter records are 16-byte records, the
last one `(p0 + |ids|) ‖ all ones`, the earlier ones with counts at most `p0`, the count
`Load` reads back; the counts stay below `n`; and the address is not a single chunk of at
most 256 ids. -/
def RegularInv (A : Bytes) (st : Store) (n : Nat) : Prop :=
  ∃ (ids : List Nat) (pre : List Bytes) (p0 : Nat), BitmapOk ids ∧ ids ≠ [] ∧
    tableGet (A ++ putUint64 maxUint64) (chunksOf A st.index) = some (encodeIds ids) ∧
    st.counter A = pre ++ [putUint64 (p0 + ids.length) ++ putUint64 maxUint64] ∧
    (∀ r ∈ pre, ∃ q t, r = putUint64 q ++ t ∧ t.length = 8 ∧ q ≤ p0) ∧
    prevCount (st.counter A) = p0 ∧ p0 + ids.length ≤ n ∧
    (256 < ids.length ∨
      ∃ k, k ≠ A ++ putUint64 maxUint64 ∧ (tableGet k (chunksOf A st.index)).isSome = true)

/-- The state of an address after loads in any order: the chunk and counter invariants with
at most `n` ids, or the regular form of `RegularInv`. -/
def AnyOrderInv (A : Bytes) (st : Store) (n : Nat) : Prop :=
  (∃ cs, ChunkInv A st cs ∧ CounterInv A st cs ∧ cs.flatten.length ≤ n) ∨ RegularInv A st n

/-! ## The handler's in-memory bitmaps: `TouchIndex` and `Flush` -/

/-- The map `h.bitmaps` (`map[string]*roaring64.Bitmap`): one entry per address, the key
being the address bytes.  The order of the list is not an iteration order: a Go `range`
visits the entries in an unspecified order, which the functions that iterate take as an
argument. -/
abbrev BitmapMap := List (Bytes × Bitmap)

/-- Map lookup, `bm, ok := h.bitmaps[key]`. -/
def mapGet (k : Bytes) : BitmapMap → Option Bitmap
  | [] => none
  | (k', bm) :: m => if k = k' then some bm else mapGet k m

/-- Map assignment `h.bitmaps[key] = bm`; also the effect on the map of changing in place the
bitmap an entry points to. -/
def mapSet (k : Bytes) (bm : Bitmap) : BitmapMap → BitmapMap
  | [] => [(k, bm)]
  | (k', bm') :: m => if k = k' then (k, bm) :: m else (k', bm') :: mapSet k bm m

/-- `StandardIndexHandler`: the in-memory bitmaps and the collector, held as the entries it
has been handed, in order (a value is the bitmap `WriteTo` serialized, which `Load` reads
back with `ReadFrom`).  The two bucket names are constants of a handler and are left out. -/
structure StandardIndexHandler where
  bitmaps : BitmapMap
  collector : List (Bytes × Bitmap)

/-- `TouchIndex`: find the bitmap of `addr`, creating an empty one if there is none, and add
`idx` to it. -/
def TouchIndex (h : StandardIndexHandler) (addr : Bytes) (idx : Nat) : StandardIndexHandler :=
  match mapGet addr h.bitmaps with
  | some bm => ⟨mapSet addr (bmAdd idx bm) h.bitmaps, h.collector⟩
  | none => ⟨mapSet addr (bmAdd idx []) (mapSet addr [] h.bitmaps), h.collector⟩

/-- `bitmapsBufLimit`: 256 MiB. -/
def bitmapsBufLimit : Nat := 256 * 1024 * 1024

/-- The loop of `needFlush64` over the entries in the order the `range` visits them, `size`
being the running `uint64` sum.  `serializedSize` stands for `GetSerializedSizeInBytes` of
the roaring library. -/
def needFlush64Loop (serializedSize : Bitmap → Nat) (limit : Nat) :
    List (Bytes × Bitmap) → Nat → Bool
  | [], _ => false
  | (_, bm) :: rest, size =>
    let size := (size + serializedSize bm) % 2 ^ 64
    if size ≥ limit then true else needFlush64Loop serializedSize limit rest size

/-- `needFlush64`: does the running sum of the serialized sizes reach `limit`? -/
def needFlush64 (serializedSize : Bitmap → Nat) (bitmaps : List (Bytes × Bitmap))
    (limit : Nat) : Bool :=
  needFlush64Loop serializedSize limit bitmaps 0

/-- `flushBitmaps64`: hand every entry to the collector, in the order the `range` visits
them (`WriteTo` a memory buffer and `Collect` are taken not to fail). -/
def flushBitmaps64 (collector : List (Bytes × Bitmap)) :
    List (Bytes × Bitmap) → List (Bytes × Bitmap)
  | [] => collector
  | (addr, bm) :: rest => flushBitmaps64 (collector ++ [(addr, bm)]) rest

/-- `Flush`: `order1` and `order2` are the orders in which the `range` of `needFlush64` and
the `range` of `flushBitmaps64` visit the entries of `h.bitmaps`. -/
def Flush (serializedSize : Bitmap → Nat) (h : StandardIndexHandler) (force : Bool)
    (order1 order2 : List (Bytes × Bitmap)) : StandardIndexHandler :=
  if force || needFlush64 serializedSize order1 bitmapsBufLimit then
    ⟨[], flushBitmaps64 h.collector order2⟩
  else h

/-- The sum of the serialized sizes of the bitmaps of a map. -/
def totalSize (serializedSize : Bitmap → Nat) (m : List (Bytes × Bitmap)) : Nat :=
  (m.map (fun e => serializedSize e.2)).sum

/-- A sample handler: two addresses with one buffered id each, nothing collected yet. -/
def sampleHandler : StandardIndexHandler :=
  ⟨[(addr0, [7, 42]), (List.replicate 20 1, [2])], []⟩

/-- A sample size function: 8 bytes per id. -/
def sampleSize (bm : Bitmap) : Nat := 8 * bm.length

/-! ## `loadFunc` with the store it leaves behind when it fails -/

/-- Lines 121-169 of `Load` with the counter table threaded through: the table the lines
leave, and what they return.  `DeleteCurrent` (line 159) is their only write. -/
def scanCounterState (addr : Bytes) (counter : DupTable) :
    DupTable × Except String CounterScan :=
  let dups := counter addr
  match dups.getLast? with
  | none => (counter, .ok ⟨0, false, false, counter⟩)
  | some counterV =>
    let rest := dups.dropLast
    let counter' : DupTable := fun a => if a = addr then rest else counter a
    if counterV.length = 1 then
      if dups.length ≠ 1 then
        (counter, .error "db possibly corrupted: optimized counter with duplicates")
      else (counter', .ok ⟨0, true, true, counter'⟩)
    else if counterV.length < lengthCounter + lengthChunk then
      (counter, .error (shortRecordPanic counterV.length))
    else if getUint64 (counterV.drop 8) ≠ maxUint64 then
      (counter, .error "db possibly corrupted: last chunk is not 0xffffffffffffffff")
    else
      match rest.getLast? with
      | none => (counter', .ok ⟨0, false, true, counter'⟩)
      | some prevV =>
        if prevV.length < 8 then (counter', .error "panic: slice bounds out of range")
        else (counter', .ok ⟨getUint64 (prevV.take 8), false, true, counter'⟩)

/-- The `loadFunc` closure with the store threaded through: the store the call leaves, and
the error it returns, if any. -/
def loadFuncState (chunkLimit : Nat) (st : Store) (k : Bytes) (addrBm : Bitmap) :
    Store × Option String :=
  if k.length < lengthAddr then (st, some "panic: slice bounds out of range") else
  let addr := k.take lengthAddr
  match mergeLastChunk addrBm addr st.index with
  | .error e => (st, some e)
  | .ok addrBm =>
    match scanCounterState addr st.counter with
    | (counter, .error e) => (⟨st.index, counter⟩, some e)
    | (_, .ok sc) =>
      let st1 : Store := ⟨st.index, sc.counter⟩
      if optimizedBranch sc addrBm then
        ((writeOptimizedChunkAndCounter st1 k (encodeAll addrBm []) addr sc.prevCounter).2, none)
      else
        (regularLoop chunkLimit k addr addrBm [] sc.prevCounter st1, none)

/-- A store whose only counter record for `addr0` is 17 bytes long: the count 1, the all-ones
terminator and one more byte; the last chunk holds the id 3. -/
def longRecordStore : Store :=
  ⟨[(addr0 ++ putUint64 maxUint64, encodeIds [3])],
   fun a => if a = addr0 then [putUint64 1 ++ putUint64 maxUint64 ++ [0]] else []⟩

/-- A store whose only counter record for `addr0` is 2 bytes long. -/
def shortRecordStore : Store :=
  ⟨[(addr0 ++ putUint64 maxUint64, encodeIds [3])],
   fun a => if a = addr0 then [[0, 0]] else []⟩

/-- A store with a regular counter record for `addr0` (3 ids) and no chunk at all. -/
def orphanCounterStore : Store :=
  ⟨[], fun a => if a = addr0 then [putUint64 3 ++ putUint64 maxUint64] else []⟩

/-- The sample store with the terminator of its last counter record changed to 7. -/
def badTerminatorStore : Store :=
  ⟨sampleStore.index, fun a => if a = addr0 then
    [putUint64 2 ++ putUint64 2, putUint64 3 ++ putUint64 7] else []⟩

/-! ## `execution/stagedsync/ots_unwinder_executor_log_holdings.go` -/

/-- Go's `bytes.HasPrefix(s, prefix)`. -/
def hasPrefix (s pre : Bytes) : Bool := pre.isPrefixOf s

/-- `SeekBothRange(k, v)` on a dup-sorted table: the first value of key `k` that is not below
`v`; `nil` (read as the empty slice) when there is none. -/
def seekBothRange (t : DupTable) (k v : Bytes) : Bytes :=
  ((t k).find? (fun d => !bytesLt d v)).getD []

/-- `DeleteExact(k, v)`: remove the value `v` from the values of key `k`. -/
def deleteExact (t : DupTable) (k v : Bytes) : DupTable :=
  fun a => if a = k then (t k).erase v else t a

/-- `TransferLogHoldingsUnwinder.UnwindAddressHolding` on the holdings table `t` (key: the
holder, values: `token ‖ ethTx`): the table the call leaves and the error it returns, if any.
`addr` and `token` are the bytes of a `common.Address`; `k == nil` never holds. -/
def UnwindAddressHolding (t : DupTable) (addr token : Bytes) (ethTx : Nat) :
    DupTable × Option String :=
  let k := addr
  let v := seekBothRange t k token
  if !hasPrefix v token then (t, none)
  else if v.length < lengthAddr then (t, some "panic: slice bounds out of range")
  else if (v.drop lengthAddr).length < 8 then (t, some "panic: index out of range")
  else
    let existingEthTx := getUint64 (v.drop lengthAddr)
    if ethTx > existingEthTx then (t, none)
    else if ethTx < existingEthTx then (t, some "db possibly corrupted: trying to unwind")
    else (deleteExact t k v, none)

/-- A sample holdings table: `addr0` holds the token `1..1` since event 5 and the token
`2..2` since event 9. -/
def sampleHoldings : DupTable :=
  fun a => if a = addr0 then
    [List.replicate 20 1 ++ putUint64 5, List.replicate 20 2 ++ putUint64 9] else []

/-! ## `rpc/jsonrpc/otterscan2_api_contracts.go` -/

/-- `MAX_MATCH_COUNT` of `otterscan2_api.go`. -/
def MAX_MATCH_COUNT : Nat := 500

/-- Modelled from the spec: `hexutil.EncodeTs`, the 8-byte big-endian key of a number (the
function is declared outside the given sources). -/
def EncodeTs (n : Nat) : Bytes := putUint64 n

/-- `Cursor.Seek(k)`: the position of the first entry whose key is not below `k` (the length
of the table when there is none). -/
def cursorSeek (t : Table) (k : Bytes) : Nat := t.findIdx (fun e => !bytesLt e.1 k)

/-- The state of a `CursorDupSort` walk: the pairs of the table from the cursor position on
(key order, then value order); the head is the pair the cursor is on. -/
abbrev DupCursor := List (Bytes × Bytes)

/-- `CursorDupSort.SeekExact(k)`: the cursor on the first value of key `k`; no position when
the key is absent. -/
def dupSeekExact (t : Table) (k : Bytes) : DupCursor := t.dropWhile (fun e => decide (e.1 ≠ k))

/-- `NextDup`: the next value of the current key, if any; the cursor stays where it is when
there is none. -/
def nextDup : DupCursor → Option (Bytes × Bytes) × DupCursor
  | (k, v) :: (k', v') :: rest =>
    if k' = k then (some (k', v'), (k', v') :: rest) else (none, (k, v) :: (k', v') :: rest)
  | cur => (none, cur)

/-- `NextNoDup`: the first value of the next key, if any. -/
def nextNoDup : DupCursor → Option (Bytes × Bytes) × DupCursor
  | [] => (none, [])
  | (k, v) :: rest =>
    match rest.dropWhile (fun e => decide (e.1 = k)) with
    | [] => (none, (k, v) :: rest)
    | e :: r => (some e, e :: r)

/-- The loop `for i := uint64(0); i < startIdx-prevTotal-1; i++ { kk, vv, err =
contracts.NextDup() }`, `n` being the number of iterations. -/
def positionLoop : Nat → Option (Bytes × Bytes) × DupCursor → Option (Bytes × Bytes) × DupCursor
  | 0, s => s
  | n + 1, (_, cur) => positionLoop n (nextDup cur)

/-- The loop `for i := uint64(0); i < count && kk != nil; i++` that collects the matches:
`n` is what remains of `count`, `bytesToAddress` stands for `common.BytesToAddress`, declared
outside the given sources. -/
def collectLoop (bytesToAddress : Bytes → Bytes) :
    Nat → Option (Bytes × Bytes) → DupCursor → List (Nat × Bytes) →
      Except String (List (Nat × Bytes))
  | 0, _, _, ms => .ok ms
  | _ + 1, none, _, ms => .ok ms
  | n + 1, some (kk, vv), cur, ms =>
    if kk.length < 8 then .error "panic: index out of range" else
    let ms := ms ++ [(getUint64 kk, bytesToAddress vv)]
    match nextDup cur with
    | (some kv, cur) => collectLoop bytesToAddress n (some kv) cur ms
    | (none, cur) =>
      match nextNoDup cur with
      | (none, _) => .ok ms
      | (some kv, cur) => collectLoop bytesToAddress n (some kv) cur ms

/-- `genericMatchingList` on a counter table and a match table; a nil slice and an empty one
are both the empty list. -/
def genericMatchingList (bytesToAddress : Bytes → Bytes) (counterTable matchTable : Table)
    (idx count : Nat) : Except String (List (Nat × Bytes)) :=
  if count > MAX_MATCH_COUNT then .error "maximum allowed results: 500" else
  let startIdx := (idx + 1) % 2 ^ 64
  let i := cursorSeek counterTable (EncodeTs startIdx)
  match counterTable.get? i with
  | none => .ok []
  | some (counterK, blockNumV) =>
    let prevCounterK := if i = 0 then none else (counterTable.get? (i - 1)).map Prod.fst
    match (match prevCounterK with
      | none => Except.ok 0
      | some k => if k.length < 8 then .error "panic: index out of range"
        else .ok (getUint64 k)) with
    | .error e => .error e
    | .ok prevTotal =>
      match dupSeekExact matchTable blockNumV with
      | [] =>
        if blockNumV.length < 8 ∨ counterK.length < 8 then .error "panic: index out of range"
        else .error "couldn't find exact block for counter index"
      | (kk, vv) :: rest =>
        let s := positionLoop ((startIdx + 2 ^ 64 - prevTotal % 2 ^ 64 + 2 ^ 64 - 1) % 2 ^ 64)
          (some (kk, vv), (kk, vv) :: rest)
        collectLoop bytesToAddress count s.1 s.2 []

/-- The match table of a list of blocks with their matches: each match under the key of its
block number. -/
def matchTableOf (blocks : List (Nat × List Bytes)) : Table :=
  blocks.flatMap (fun b => b.2.map (fun v => (EncodeTs b.1, v)))

/-- The counter table of a list of blocks with their matches, after `p` earlier matches: for
each block, the cumulative number of matches up to and including it as the key and the block
number as the value. -/
def counterTableOf : Nat → List (Nat × List Bytes) → Table
  | _, [] => []
  | p, b :: bs => (EncodeTs (p + b.2.length), EncodeTs b.1) :: counterTableOf (p + b.2.length) bs

/-- The block-ordered then dup-ordered match sequence of a list of blocks. -/
def matchSeq (blocks : List (Nat × List Bytes)) : List (Nat × Bytes) :=
  blocks.flatMap (fun b => b.2.map (fun v => (b.1, v)))

/-- Sample blocks: block 3 with two matches, block 7 with one, block 9 with two. -/
def sampleBlocks : List (Nat × List Bytes) :=
  [(3, [List.replicate 20 1, List.replicate 20 2]), (7, [List.replicate 20 3]),
   (9, [List.replicate 20 4, List.replicate 20 5])]

/-- The head of `rest` is under another key than `k`. -/
def OtherKey (k : Bytes) (rest : DupCursor) : Prop := ∀ e, rest.head? = some e → e.1 ≠ k

/-! ## `execution/stagedsync/ots_stage_generic.go` -/

/-- `SHORT_RANGE_EXECUTION_THRESHOLD`. -/
def SHORT_RANGE_EXECUTION_THRESHOLD : Nat := 16

/-- What `genericStageForwardImpl` does to its surroundings, in order: open its own
transaction, call the executor (with `startBlock`, `endBlock`, `isInternalTx`,
`isShortInterval`), save the progress (`s.Update`), commit, and the deferred rollback. -/
inductive StageEvent where
  | beginRw
  | executor (startBlock endBlock : Nat) (isInternalTx isShortInterval : Bool)
  | update (blockNumber : Nat)
  | commit
  | rollback
  deriving DecidableEq, Repr

/-- The surroundings of one run of `genericStageForwardImpl`: the outcome of `BeginRw`, of
`stages.GetStageProgress(tx, parentStage)`, of the executor on its arguments, of `s.Update`
and of `tx.Commit` (`none` is a nil error). -/
structure StageEnv where
  beginRw : Option String
  parentProgress : Except String Nat
  executor : Nat → Nat → Bool → Bool → Except String Nat
  update : Nat → Option String
  commit : Option String

/-- The end of `genericStageForwardImpl`, from the call of the executor on: the events and the
error returned. -/
def stageForwardRun (env : StageEnv) (useExternalTx : Bool) (startBlock endBlock : Nat)
    (isShortInterval : Bool) : List StageEvent × Option String :=
  let call := StageEvent.executor startBlock endBlock (!useExternalTx) isShortInterval
  match env.executor startBlock endBlock (!useExternalTx) isShortInterval with
  | .error e => ([call], some e)
  | .ok lastFinishedBlock =>
    match env.update lastFinishedBlock with
    | some e => ([call, .update lastFinishedBlock], some e)
    | none =>
      if !useExternalTx then
        match env.commit with
        | some e => ([call, .update lastFinishedBlock, .commit], some e)
        | none => ([call, .update lastFinishedBlock, .commit], none)
      else ([call, .update lastFinishedBlock], none)

/-- The part of `genericStageForwardImpl` after the transaction is there (the deferred
rollback apart): the block range, then the run. -/
def stageForwardBody (env : StageEnv) (blockNumber : Nat) (useExternalTx debug : Bool)
    (debugStartBlock debugEndBlock : Nat) : List StageEvent × Option String :=
  let startBlock := if blockNumber > 0 then (blockNumber + 1) % 2 ^ 64 else blockNumber
  match env.parentProgress with
  | .error e => ([], some e)
  | .ok endBlock =>
    let startBlock := if debug then debugStartBlock else startBlock
    let endBlock := if debug then debugEndBlock else endBlock
    if startBlock > endBlock then ([], none) else
    let isShortInterval :=
      decide ((endBlock + 2 ^ 64 - startBlock + 1) % 2 ^ 64 ≤ SHORT_RANGE_EXECUTION_THRESHOLD)
    let isShortInterval := if debug then false else isShortInterval
    stageForwardRun env useExternalTx startBlock endBlock isShortInterval

/-- `genericStageForwardImpl`: `blockNumber` is `s.BlockNumber`, `useExternalTx` is
`tx != nil`. -/
def genericStageForwardImpl (env : StageEnv) (blockNumber : Nat) (useExternalTx debug : Bool)
    (debugStartBlock debugEndBlock : Nat) : List StageEvent × Option String :=
  if !useExternalTx then
    match env.beginRw with
    | some e => ([], some e)
    | none =>
      let r := stageForwardBody env blockNumber useExternalTx debug debugStartBlock
        debugEndBlock
      (StageEvent.beginRw :: r.1 ++ [StageEvent.rollback], r.2)
  else stageForwardBody env blockNumber useExternalTx debug debugStartBlock debugEndBlock

/-- A sample surrounding: the parent stage is at block `q`, the executor runs the whole range
and nothing fails. -/
def sampleStageEnv (q : Nat) : StageEnv :=
  ⟨none, .ok q, fun _ endBlock _ _ => .ok endBlock, fun _ => none, none⟩

/-- A sample surrounding whose executor is stopped: it returns `startBlock` and the error of
`common.ErrStopped`. -/
def stoppedStageEnv (q : Nat) : StageEnv :=
  ⟨none, .ok q, fun _ _ _ _ => .error "stopped", fun _ => none, none⟩

/-- In the list `l` the event `a` occurs before an occurrence of the event `b`. -/
def Precedes (a b : StageEvent) (l : List StageEvent) : Prop :=
  ∃ pre post, l = pre ++ b :: post ∧ a ∈ pre

/-! ## `rpc/jsonrpc/otterscan2_erc20_721_holdings.go` -/

/-- The storage as `getHoldings` meets it: the error of `BeginRo` and of `CursorDupSort`, if
they fail; what `SeekExact(holder)` returns, an error or the values of the holder (none when
the key is absent); and the error of the `i`-th call of `NextDup`, if it fails. -/
structure HoldingsStorage where
  beginRo : Option String
  cursorDupSort : Option String
  seekExact : Except String (List Bytes)
  nextDup : Nat → Option String

/-- The loop `for k != nil` of `getHoldings`: `i` counts the calls of `NextDup`, the list is
the values from the cursor position on, `bytesToAddress` stands for `common.BytesToAddress`
(declared outside the given sources). -/
def holdingsLoop (bytesToAddress : Bytes → Bytes) (nextDupErr : Nat → Option String) :
    Nat → List Bytes → List (Bytes × Nat) → Except String (List (Bytes × Nat))
  | _, [], ret => .ok ret
  | i, v :: rest, ret =>
    if v.length < lengthAddr then .error "panic: slice bounds out of range"
    else if (v.drop lengthAddr).length < 8 then .error "panic: index out of range"
    else
      let token := bytesToAddress (v.take lengthAddr)
      let ethTx := getUint64 (v.drop lengthAddr)
      let ret := ret ++ [(token, ethTx)]
      match nextDupErr i with
      | some err => .error err
      | none => holdingsLoop bytesToAddress nextDupErr (i + 1) rest ret

/-- `getHoldings`: the `(token, ethTx)` pairs of a holder, or the error returned; a nil slice
and an empty one are both the empty list. -/
def getHoldings (bytesToAddress : Bytes → Bytes) (db : HoldingsStorage) :
    Except String (List (Bytes × Nat)) :=
  match db.beginRo with
  | some _ => .ok []
  | none =>
    match db.cursorDupSort with
    | some err => .error err
    | none =>
      match db.seekExact with
      | .error err => .error err
      | .ok vs => holdingsLoop bytesToAddress db.nextDup 0 vs []

/-! ## `execution/stagedsync/ots_unwinder_withdrawals_runner.go` -/

/-- A withdrawal of a block body: its index and its address (the other fields play no part). -/
structure Withdrawal where
  Index : Nat
  Address : Bytes
  deriving DecidableEq

/-- What a run of `RunWithdrawalsBlockUnwind` leaves: the `OtsWithdrawalIdx2Block` table, the
state of the unwinder's tables, the key given to `unwindUint64KeyBasedTable` if it was
called, the `UnwindAddress` calls in order, and the error returned. -/
structure WithdrawalsUnwind (σ : Type) where
  idx2Block : Table
  unwinder : σ
  rewoundTo : Option Nat
  calls : List (Bytes × Nat)
  err : Option String

/-- The first loop of `RunWithdrawalsBlockUnwind`: from `blockNum` down to 1, the index of
the last withdrawal of the first block met that has withdrawals.  `body` stands for
`CanonicalHash` followed by `Body`. -/
def findLastWithdrawal (body : Nat → Except String (List Withdrawal)) :
    Nat → Except String (Option Nat)
  | 0 => .ok none
  | n + 1 =>
    match body (n + 1) with
    | .error e => .error e
    | .ok ws =>
      match ws.getLast? with
      | some lastWithdrawal => .ok (some lastWithdrawal.Index)
      | none => findLastWithdrawal body n

/-- The loop `for _, w := range body.Withdrawals` with its `UnwindAddress` calls. -/
def unwindWithdrawals {σ : Type} (UnwindAddress : σ → Bytes → Nat → Except String σ) :
    List Withdrawal → σ → List (Bytes × Nat) → σ × List (Bytes × Nat) × Option String
  | [], st, calls => (st, calls, none)
  | w :: ws, st, calls =>
    match UnwindAddress st w.Address w.Index with
    | .error e => (st, calls ++ [(w.Address, w.Index)], some e)
    | .ok st' => unwindWithdrawals UnwindAddress ws st' (calls ++ [(w.Address, w.Index)])

/-- The second loop of `RunWithdrawalsBlockUnwind`, `n` blocks from `blockNum` on (the loop
counter does not wrap: `CurrentBlockNumber` is below `2^64 − 1`).  `stopped blockNum` tells
whether the `select` takes the `ctx.Done()` case after that block. -/
def unwindLoop {σ : Type} (body : Nat → Except String (List Withdrawal))
    (UnwindAddress : σ → Bytes → Nat → Except String σ) (stopped : Nat → Bool) :
    Nat → Nat → σ → List (Bytes × Nat) → σ × List (Bytes × Nat) × Option String
  | 0, _, st, calls => (st, calls, none)
  | n + 1, blockNum, st, calls =>
    match body blockNum with
    | .error e => (st, calls, some e)
    | .ok ws =>
      if ws.length = 0 then unwindLoop body UnwindAddress stopped n (blockNum + 1) st calls
      else
        match unwindWithdrawals UnwindAddress ws st calls with
        | (st, calls, some e) => (st, calls, some e)
        | (st, calls, none) =>
          if stopped blockNum then (st, calls, some "stopped")
          else unwindLoop body UnwindAddress stopped n (blockNum + 1) st calls

/-- `RunWithdrawalsBlockUnwind`.  `rewind` stands for `unwindUint64KeyBasedTable`, declared
outside the given sources: from the table and the key it gives the table it leaves and the
key it reports or an error.  `UnwindAddress` is the unwinder's method, acting on the state
`σ` of its tables, which do not include `OtsWithdrawalIdx2Block`. -/
def RunWithdrawalsBlockUnwind {σ : Type} (body : Nat → Except String (List Withdrawal))
    (rewind : Table → Nat → Table × Except String Nat)
    (UnwindAddress : σ → Bytes → Nat → Except String σ) (stopped : Nat → Bool)
    (idx2Block : Table) (st : σ) (unwindPoint currentBlockNumber : Nat) :
    WithdrawalsUnwind σ :=
  let startBlock := (unwindPoint + 1) % 2 ^ 64
  match findLastWithdrawal body unwindPoint with
  | .error e => ⟨idx2Block, st, none, [], some e⟩
  | .ok none =>
    let r := unwindLoop body UnwindAddress stopped (currentBlockNumber + 1 - startBlock)
      startBlock st []
    ⟨idx2Block, r.1, none, r.2.1, r.2.2⟩
  | .ok (some withdrawalId) =>
    match rewind idx2Block withdrawalId with
    | (t, .error e) => ⟨t, st, some withdrawalId, [], some e⟩
    | (t, .ok unwoundToIndex) =>
      if unwoundToIndex ≠ withdrawalId then
        ⟨t, st, some withdrawalId, [], some "couldn't find k to unwind; probably DB corruption"⟩
      else
        let r := unwindLoop body UnwindAddress stopped (currentBlockNumber + 1 - startBlock)
          startBlock st []
        ⟨t, r.1, some withdrawalId, r.2.1, r.2.2⟩

/-- A sample chain: every even block from 2 on holds two withdrawals, of indexes `b` and
`b + 1`; the other blocks hold none. -/
def sampleChain (b : Nat) : List Withdrawal :=
  if b % 2 = 0 ∧ 0 < b then [⟨b, addr0⟩, ⟨b + 1, List.replicate 20 1⟩] else []

/-- A sample rewind: the entries whose key is at most the given one are kept, and the largest
key kept is reported (0 when nothing is kept). -/
def sampleRewind (t : Table) (key : Nat) : Table × Except String Nat :=
  (t.filter (fun e => decide (getUint64 e.1 ≤ key)),
    .ok (((t.filter (fun e => decide (getUint64 e.1 ≤ key))).map
      (fun e => getUint64 e.1)).foldl max 0))

/-- A sample `OtsWithdrawalIdx2Block` table for the blocks 2, 4 and 6 of the sample chain:
last withdrawal index of a block ↦ block. -/
def sampleIdx2Block : Table :=
  [(EncodeTs 3, EncodeTs 2), (EncodeTs 5, EncodeTs 4), (EncodeTs 7, EncodeTs 6)]

/-- Modelled from the spec: the deletions of steps 2 and 3 of `unwindAddress` (spec 4.5),
`Delete` on the chunk table for each of the keys `ks`. -/
def deleteKeys (ks : List Bytes) (t : Table) : Table :=
  t.filter (fun e => !ks.contains e.1)

/-- Modelled from the spec: the count `unwindAddress` (spec 4.5) resumes from, the cumulative
count held by the last of the given counter records, 0 when there is none. -/
def lastCum (ctrs : List Bytes) : Nat :=
  match ctrs.getLast? with
  | none => 0
  | some r => getUint64 (r.take 8)

/-- Modelled from the spec: the end of steps 2 and 4 of `unwindAddress` (spec 4.5) for the
chunk that ends the address after the unwind.  Its value is written under the all-ones
terminator; with `nBefore` chunks and the counter records `ctrsBefore` left before it, its
counter is the sentinel record `count ‖ 0xFF…FF`, or, when it is the one remaining chunk and
holds at most 256 ids, the counter records of the address collapse to the optimized byte. -/
def writeLastChunk (addr : Bytes) (nBefore : Nat) (value : Bytes) (index : Table)
    (ctrsBefore : List Bytes) (counter : DupTable) : Store :=
  let count := lastCum ctrsBefore + value.length / 8
  let ctrs :=
    if nBefore = 0 ∧ count ≤ 256 then [OptimizedCounterSerializer count]
    else dupInsert (LastCounterSerializer count) ctrsBefore
  ⟨tablePut (addr ++ putUint64 maxUint64) value index,
    fun a => if a = addr then ctrs else counter a⟩

/-- Modelled from the spec: `unwindAddress(addr, eventId)` (spec 4.5), the function the two
`UnwindAddress` methods call.  Step 1: `found` is the first chunk of `addr`, in key order,
that holds an id `≥ eventId`; without one nothing is done.  Step 2: `found` is truncated to
the ids `< eventId`; a non-empty rest is rewritten as the last chunk of the address
(`writeLastChunk`), an empty one is deleted with its counter record.  Step 3: the chunk and
counter records that followed `found` are deleted.  Step 4: with one remaining chunk of at
most 256 ids the counter records collapse to the optimized byte.  No step touches the chunks
before `found`: when `found` is emptied they keep their keys. -/
def unwindAddress (addr : Bytes) (eventId : Nat) (st : Store) : Except String Store :=
  let recs := chunksOf addr st.index
  let below : Bytes × Bytes → Bool :=
    fun r => (decodeIds r.2).all (fun x => decide (x < eventId))
  let before := recs.takeWhile below
  match recs.dropWhile below with
  | [] => .ok st
  | found :: following =>
    let kept := (decodeIds found.2).filter (fun x => decide (x < eventId))
    let index1 := deleteKeys ((found :: following).map Prod.fst) st.index
    let ctrs1 := (st.counter addr).take before.length
    if kept.isEmpty then
      let ctrs :=
        if before.length = 1 ∧ lastCum ctrs1 ≤ 256 then
          [OptimizedCounterSerializer (lastCum ctrs1)]
        else ctrs1
      .ok ⟨index1, fun a => if a = addr then ctrs else st.counter a⟩
    else .ok (writeLastChunk addr before.length (encodeIds kept) index1 ctrs1 st.counter)

/-- `BlockIndexerIndexerUnwinder.UnwindAddress` and `TransferLogIndexerUnwinder.UnwindAddress`
(the same one-line body): `return unwindAddress(tx, u.target, u.targetDel, u.counter,
u.indexBucket, u.counterBucket, addr, ethTx)`.  The cursors and bucket names stand for the two
tables of the store; `addr` is the 20 bytes of a `common.Address`. -/
def UnwindAddress (st : Store) (addr : Bytes) (ethTx : Nat) : Except String Store :=
  unwindAddress addr ethTx st

/-- `UnwindAddress` applied to the given (address, index) arguments one after the other, from
the state `st` of the unwinder's tables: the state reached, or the first error. -/
def runCalls {σ : Type} (UnwindAddress : σ → Bytes → Nat → Except String σ) :
    List (Bytes × Nat) → σ → Except String σ
  | [], st => .ok st
  | c :: cs, st =>
    match UnwindAddress st c.1 c.2 with
    | .error e => .error e
    | .ok st' => runCalls UnwindAddress cs st'

/-- A sample unwinder whose state is the list of the `UnwindAddress` calls it has served. -/
def recordingUnwinder (s : List (Bytes × Nat)) (a : Bytes) (i : Nat) :
    Except String (List (Bytes × Nat)) := .ok (s ++ [(a, i)])

/-- Whether the event id `e` falls on a chunk boundary inside an address whose chunks are
`cs`: some chunks hold only ids below `e`, and the chunk after them holds only ids at or
above `e`. -/
def onChunkBoundary (e : Nat) (cs : List (List Nat)) : Bool :=
  !(cs.takeWhile (fun c => c.all (fun x => decide (x < e)))).isEmpty &&
    match cs.dropWhile (fun c => c.all (fun x => decide (x < e))) with
    | [] => false
    | f :: _ => f.all (fun x => decide (e ≤ x))

/-- A sample store: `addr0` holds the ids 1 to 5 in three chunks, `[1, 2]` keyed by 2,
`[3, 4]` keyed by 4 and `[5]` keyed by all ones, with the three 16-byte counter records of
the regular form. -/
def threeChunkStore : Store :=
  ⟨[(addr0 ++ putUint64 2, encodeIds [1, 2]), (addr0 ++ putUint64 4, encodeIds [3, 4]),
    (addr0 ++ putUint64 maxUint64, encodeIds [5])],
   fun a => if a = addr0 then
      [putUint64 2 ++ putUint64 2, putUint64 4 ++ putUint64 4,
        putUint64 5 ++ putUint64 maxUint64]
     else []⟩

/-! # Theorems -/

/-! ## Big-endian integers and the byte order -/

theorem beBytes_length (w n : Nat) : (beBytes w n).length = w := by
  induction w with
  | zero => rfl
  | succ w ih => simp [beBytes, ih]

theorem beUint_foldl (l : Bytes) (a : Nat) :
    l.foldl (fun acc x => acc * 256 + x) a = a * 256 ^ l.length + beUint l := by
  induction l generalizing a with
  | nil => simp [beUint]
  | cons x l ih =>
    simp only [List.foldl_cons, List.length_cons, beUint]
    rw [ih, ih (0 * 256 + x)]
    ring

theorem beUint_cons (x : Nat) (l : Bytes) : beUint (x :: l) = x * 256 ^ l.length + beUint l := by
  simp only [beUint, List.foldl_cons]
  rw [beUint_foldl]; simp [beUint]

theorem beUint_beBytes (w n : Nat) : beUint (beBytes w n) = n % 256 ^ w := by
  induction w with
  | zero => simp [beBytes, beUint, Nat.mod_one]
  | succ w ih =>
    rw [beBytes, beUint_cons, ih, beBytes_length]
    rw [pow_succ, Nat.mod_mul, Nat.add_comm, Nat.mul_comm]

theorem getUint64_putUint64 (n : Nat) (h : n < 2 ^ 64) (rest : Bytes) :
    getUint64 (putUint64 n ++ rest) = n := by
  unfold getUint64 putUint64
  rw [List.take_left' (beBytes_length 8 n), beUint_beBytes]
  apply Nat.mod_eq_of_lt
  calc n < 2 ^ 64 := h
    _ = 256 ^ 8 := by norm_num


theorem beBytes_lt (w n : Nat) : ∀ b ∈ beBytes w n, b < 256 := by
  induction w with
  | zero => simp [beBytes]
  | succ w ih =>
    intro b hb
    simp only [beBytes, List.mem_cons] at hb
    rcases hb with hb | hb
    · subst hb; exact Nat.mod_lt _ (by norm_num)
    · exact ih b hb

theorem putUint64_length (n : Nat) : (putUint64 n).length = 8 := beBytes_length 8 n

theorem beUint_putUint64 (n : Nat) (h : n < 2 ^ 64) : beUint (putUint64 n) = n := by
  unfold putUint64
  rw [beUint_beBytes]
  apply Nat.mod_eq_of_lt
  calc n < 2 ^ 64 := h
    _ = 256 ^ 8 := by norm_num

theorem bytesLt_irrefl (a : Bytes) : bytesLt a a = false := by
  induction a with
  | nil => rfl
  | cons x a ih => simp [bytesLt, ih]

theorem bytesLt_trans {a b c : Bytes} (h1 : bytesLt a b = true) (h2 : bytesLt b c = true) :
    bytesLt a c = true := by
  induction a generalizing b c with
  | nil =>
    cases b with
    | nil => simp [bytesLt] at h1
    | cons y b =>
      cases c with
      | nil => simp [bytesLt] at h2
      | cons z c => simp [bytesLt]
  | cons x a ih =>
    cases b with
    | nil => simp [bytesLt] at h1
    | cons y b =>
      cases c with
      | nil => simp [bytesLt] at h2
      | cons z c =>
        simp only [bytesLt, Bool.or_eq_true, Bool.and_eq_true, decide_eq_true_eq] at h1 h2 ⊢
        rcases h1 with h1 | ⟨h1, h1'⟩
        · rcases h2 with h2 | ⟨h2, _⟩
          · left; omega
          · left; omega
        · rcases h2 with h2 | ⟨h2, h2'⟩
          · left; omega
          · right; exact ⟨by omega, ih h1' h2'⟩

theorem bytesLt_asymm {a b : Bytes} (h : bytesLt a b = true) : bytesLt b a = false := by
  cases hba : bytesLt b a with
  | false => rfl
  | true =>
    have := bytesLt_trans h hba
    rw [bytesLt_irrefl] at this
    exact absurd this (by simp)

theorem bytesLt_total {a b : Bytes} (h1 : bytesLt a b = false) (h2 : bytesLt b a = false) :
    a = b := by
  induction a generalizing b with
  | nil =>
    cases b with
    | nil => rfl
    | cons y b => simp [bytesLt] at h1
  | cons x a ih =>
    cases b with
    | nil => simp [bytesLt] at h2
    | cons y b =>
      simp only [bytesLt, Bool.or_eq_false_iff, Bool.and_eq_false_iff,
        decide_eq_false_iff_not] at h1 h2
      have hxy : x = y := by omega
      subst hxy
      have h1' : bytesLt a b = false := by
        rcases h1.2 with h | h
        · exact absurd rfl h
        · exact h
      have h2' : bytesLt b a = false := by
        rcases h2.2 with h | h
        · exact absurd rfl h
        · exact h
      rw [ih h1' h2']

theorem bytesLt_append_left (p a b : Bytes) : bytesLt (p ++ a) (p ++ b) = bytesLt a b := by
  induction p with
  | nil => rfl
  | cons x p ih => simp [bytesLt, ih]

theorem bytesLt_append_of_lt {p q : Bytes} (hlen : p.length = q.length)
    (h : bytesLt p q = true) (x y : Bytes) : bytesLt (p ++ x) (q ++ y) = true := by
  induction p generalizing q with
  | nil =>
    cases q with
    | nil => simp [bytesLt] at h
    | cons b q => simp at hlen
  | cons a p ih =>
    cases q with
    | nil => simp at hlen
    | cons b q =>
      simp only [List.length_cons, Nat.add_right_cancel_iff] at hlen
      simp only [bytesLt, List.cons_append, Bool.or_eq_true, Bool.and_eq_true,
        decide_eq_true_eq] at h ⊢
      rcases h with h | ⟨h, h'⟩
      · left; exact h
      · right; exact ⟨h, ih hlen h'⟩

theorem bytesLt_beBytes (w a b : Nat) :
    bytesLt (beBytes w a) (beBytes w b) = decide (a % 256 ^ w < b % 256 ^ w) := by
  induction w with
  | zero => simp [beBytes, bytesLt, Nat.mod_one]
  | succ w ih =>
    simp only [beBytes, bytesLt, ih]
    rw [Nat.mod_pow_succ, Nat.mod_pow_succ]
    have ha : a % 256 ^ w < 256 ^ w := Nat.mod_lt _ (by positivity)
    have hb : b % 256 ^ w < 256 ^ w := Nat.mod_lt _ (by positivity)
    generalize a % 256 ^ w = la at *
    generalize b % 256 ^ w = lb at *
    generalize a / 256 ^ w % 256 = ha' at *
    generalize b / 256 ^ w % 256 = hb' at *
    generalize 256 ^ w = B at *
    rw [Bool.eq_iff_iff]
    simp only [Bool.or_eq_true, Bool.and_eq_true, decide_eq_true_eq]
    constructor
    · rintro (h | ⟨h, h'⟩)
      · have : B * (ha' + 1) ≤ B * hb' := Nat.mul_le_mul_left _ h
        rw [Nat.mul_add] at this
        omega
      · subst h; omega
    · intro h
      by_cases h1 : ha' < hb'
      · left; exact h1
      · right
        by_cases h2 : ha' = hb'
        · subst h2; exact ⟨rfl, by omega⟩
        · exfalso
          have h3 : hb' + 1 ≤ ha' := by omega
          have : B * (hb' + 1) ≤ B * ha' := Nat.mul_le_mul_left _ h3
          rw [Nat.mul_add] at this
          omega

theorem bytesLt_putUint64 {a b : Nat} (ha : a < 2 ^ 64) (hb : b < 2 ^ 64) :
    bytesLt (putUint64 a) (putUint64 b) = decide (a < b) := by
  unfold putUint64
  rw [bytesLt_beBytes]
  have h : (256:Nat) ^ 8 = 2 ^ 64 := by norm_num
  rw [h, Nat.mod_eq_of_lt ha, Nat.mod_eq_of_lt hb]


/-! ## Encoding ids and the cutting loop -/

theorem encodeIds_nil : encodeIds [] = [] := rfl

theorem encodeIds_cons (x : Nat) (ids : List Nat) :
    encodeIds (x :: ids) = putUint64 x ++ encodeIds ids := by
  simp [encodeIds]

theorem encodeIds_append (a b : List Nat) : encodeIds (a ++ b) = encodeIds a ++ encodeIds b := by
  simp [encodeIds]

theorem encodeIds_length (ids : List Nat) : (encodeIds ids).length = 8 * ids.length := by
  induction ids with
  | nil => rfl
  | cons x ids ih =>
    rw [encodeIds_cons, List.length_append, ih, putUint64_length, List.length_cons]
    ring

theorem encodeAll_eq (ids : List Nat) (buf : Bytes) : encodeAll ids buf = buf ++ encodeIds ids := by
  induction ids generalizing buf with
  | nil => simp [encodeAll, encodeIds_nil]
  | cons x ids ih => rw [encodeAll, ih, encodeIds_cons, List.append_assoc]

theorem cutter_isEmpty (L : Nat) (ids cur : List Nat) :
    (cutter L ids cur).isEmpty = ids.isEmpty := by
  induction ids generalizing cur with
  | nil => simp [cutter]
  | cons x rest ih =>
    simp only [cutter, List.isEmpty_cons]
    split
    · rfl
    · rename_i h
      rw [ih]
      simp only [Bool.or_eq_true, not_or, Bool.not_eq_true] at h
      exact h.1

theorem regularLoop_eq_writeChunks (L : Nat) (k addr : Bytes) (ids cur : List Nat) (pc : Nat)
    (st : Store) :
    regularLoop L k addr ids (encodeIds cur) pc st =
      writeChunks k addr (cutter L ids cur) pc st := by
  induction ids generalizing cur pc st with
  | nil => simp [regularLoop, cutter, writeChunks]
  | cons x rest ih =>
    have hbuf : encodeIds cur ++ putUint64 x = encodeIds (cur ++ [x]) := by
      rw [encodeIds_append, encodeIds_cons, encodeIds_nil, List.append_nil]
    have hlen : (encodeIds cur ++ putUint64 x).length = 8 * (cur.length + 1) := by
      rw [hbuf, encodeIds_length]; simp
    simp only [regularLoop, cutter, hlen]
    split
    · simp only [writeChunks, cutter_isEmpty, hbuf]
      have h0 : encodeIds ([] : List Nat) = [] := rfl
      have := ih [] 
      rw [h0] at this
      rw [this]
      simp
    · rw [hbuf, ih]



theorem beBytes_congr (w a b : Nat) (h : a % 256 ^ w = b % 256 ^ w) :
    beBytes w a = beBytes w b := by
  induction w with
  | zero => rfl
  | succ w ih =>
    rw [Nat.mod_pow_succ, Nat.mod_pow_succ] at h
    have ha : a % 256 ^ w < 256 ^ w := Nat.mod_lt _ (by positivity)
    have hb : b % 256 ^ w < 256 ^ w := Nat.mod_lt _ (by positivity)
    have hlo : a % 256 ^ w = b % 256 ^ w := by
      have h1 := congrArg (· % 256 ^ w) h
      simp only [Nat.add_mul_mod_self_left, Nat.mod_mod] at h1
      exact h1
    have hhi : a / 256 ^ w % 256 = b / 256 ^ w % 256 := by
      rw [hlo] at h
      have h2 : 256 ^ w * (a / 256 ^ w % 256) = 256 ^ w * (b / 256 ^ w % 256) := by omega
      exact Nat.eq_of_mul_eq_mul_left (by positivity) h2
    simp only [beBytes, hhi, ih hlo]

theorem putUint64_congr {a b : Nat} (h : a % 2 ^ 64 = b % 2 ^ 64) : putUint64 a = putUint64 b := by
  apply beBytes_congr
  have h8 : (256:Nat) ^ 8 = 2 ^ 64 := by norm_num
  rw [h8]; exact h

theorem copyInto_of_length {n : Nat} {src : Bytes} (h : src.length = n) : copyInto n src = src := by
  simp [copyInto, h]

theorem chunkKey_eq {k : Bytes} (hk : lengthAddr ≤ k.length) (isLast : Bool) (ethTx : Nat) :
    chunkKey k isLast ethTx =
      k.take lengthAddr ++ (if isLast then putUint64 maxUint64 else putUint64 ethTx) := by
  unfold chunkKey
  rw [copyInto_of_length]
  simp [hk]

theorem cutter_flatten (L : Nat) (ids cur : List Nat) (h : ids ≠ []) :
    (cutter L ids cur).flatten = cur ++ ids := by
  induction ids generalizing cur with
  | nil => exact absurd rfl h
  | cons x rest ih =>
    simp only [cutter]
    split
    · cases rest with
      | nil => simp [cutter]
      | cons y rest' =>
        rw [List.flatten_cons, ih [] (by simp)]
        simp
    · rename_i hc
      have hr : rest ≠ [] := by
        intro h0; subst h0; simp at hc
      rw [ih _ hr]; simp

theorem cutter_pieces (L : Nat) (ids cur : List Nat)
    (hcur : ∀ j, 0 < j → j ≤ cur.length → 8 * j < L) :
    ∀ c ∈ cutter L ids cur, c ≠ [] ∧ ∀ j, 0 < j → j < c.length → 8 * j < L := by
  induction ids generalizing cur with
  | nil => simp [cutter]
  | cons x rest ih =>
    intro c hc
    simp only [cutter] at hc
    split at hc
    · rcases List.mem_cons.1 hc with hc | hc
      · subst hc
        refine ⟨by simp, ?_⟩
        intro j h0 hj
        apply hcur j h0
        simp at hj; omega
      · exact ih [] (by intro j h0 hj; simp at hj; omega) c hc
    · rename_i hcut
      simp only [Bool.or_eq_true, not_or, Bool.not_eq_true, decide_eq_false_iff_not, not_le] at hcut
      apply ih (cur ++ [x]) _ c hc
      intro j h0 hj
      simp only [List.length_append, List.length_singleton] at hj
      rcases Nat.lt_or_ge j (cur.length + 1) with h | h
      · exact hcur j h0 (by omega)
      · have : j = cur.length + 1 := by omega
        subst this; exact hcut.2

theorem cutter_nonfinal (L : Nat) (ids cur : List Nat) :
    ∀ c ∈ (cutter L ids cur).dropLast, L ≤ 8 * c.length := by
  induction ids generalizing cur with
  | nil => simp [cutter]
  | cons x rest ih =>
    intro c hc
    simp only [cutter] at hc
    split at hc
    · rename_i hcut
      cases rest with
      | nil => simp [cutter] at hc
      | cons y rest' =>
        have hne : cutter L (y :: rest') [] ≠ [] := by
          intro h0
          have := cutter_isEmpty L (y :: rest') []
          rw [h0] at this; simp at this
        rw [List.dropLast_cons_of_ne_nil hne] at hc
        rcases List.mem_cons.1 hc with hc | hc
        · subst hc
          simp at hcut
          simp; omega
        · exact ih [] c hc
    · exact ih _ c hc

theorem cutter_isCut (L : Nat) (ids : List Nat) : IsCut L ids (cutter L ids []) := by
  refine ⟨?_, cutter_pieces L ids [] (by intro j h0 hj; simp at hj; omega),
    cutter_nonfinal L ids []⟩
  cases ids with
  | nil => simp [cutter]
  | cons x rest => simpa using cutter_flatten L (x :: rest) [] (by simp)

theorem writeChunks_eq_applyWrites {k : Bytes} (hk : lengthAddr ≤ k.length) (cs : List (List Nat))
    (pc p : Nat) (hp : pc % 2 ^ 64 = p % 2 ^ 64) (st : Store) :
    writeChunks k (k.take lengthAddr) cs pc st =
      applyWrites (k.take lengthAddr) (specWrites (k.take lengthAddr) p cs) st := by
  induction cs generalizing pc p st with
  | nil => rfl
  | cons c cs ih =>
    have hA : (k.take lengthAddr).length = lengthAddr := by simp [hk]
    simp only [writeChunks, specWrites, applyWrites, writeRegularChunkAndCounter]
    rw [ih _ (p + c.length)]
    · congr 2
      · rw [chunkKey_eq hk]
      · rw [chunkKey_eq hk, List.drop_left' hA, RegularCounterSerializer]
        have hcnt : putUint64 ((pc + (encodeIds c).length / 8) % 2 ^ 64) =
            putUint64 (p + c.length) := by
          apply putUint64_congr
          rw [encodeIds_length, Nat.mul_div_cancel_left _ (by norm_num : 0 < 8), Nat.mod_mod]
          rw [Nat.add_mod, hp, ← Nat.add_mod]
        rw [hcnt]
        cases cs <;> simp [copyInto_of_length, putUint64_length, lengthChunk]
    · rw [encodeIds_length, Nat.mul_div_cancel_left _ (by norm_num : 0 < 8), Nat.mod_mod]
      rw [Nat.add_mod, hp, ← Nat.add_mod]


/-! ## Bitmaps and chunk values -/

theorem bmAdd_mem (x y : Nat) (l : Bitmap) : x ∈ bmAdd y l ↔ x = y ∨ x ∈ l := by
  induction l with
  | nil => simp [bmAdd]
  | cons z l ih =>
    simp only [bmAdd]
    split
    · simp
    · split
      · rename_i h; subst h; simp
      · simp only [List.mem_cons, ih]
        tauto

theorem bmAdd_sorted (y : Nat) (l : Bitmap) (h : l.Pairwise (fun a b => a < b)) :
    (bmAdd y l).Pairwise (fun a b => a < b) := by
  induction l with
  | nil => simp [bmAdd]
  | cons z l ih =>
    simp only [bmAdd]
    rw [List.pairwise_cons] at h
    split
    · rename_i hlt
      refine List.pairwise_cons.2 ⟨?_, List.pairwise_cons.2 h⟩
      intro a ha
      rcases List.mem_cons.1 ha with ha | ha
      · subst ha; exact hlt
      · exact Nat.lt_trans hlt (h.1 a ha)
    · split
      · exact List.pairwise_cons.2 h
      · rename_i h1 h2
        refine List.pairwise_cons.2 ⟨?_, ih h.2⟩
        intro a ha
        rcases (bmAdd_mem a y l).1 ha with ha | ha
        · subst ha; omega
        · exact h.1 a ha

theorem bmOr_mem (x : Nat) (a b : Bitmap) : x ∈ bmOr a b ↔ x ∈ a ∨ x ∈ b := by
  unfold bmOr
  induction b generalizing a with
  | nil => simp
  | cons y b ih =>
    simp only [List.foldl_cons, ih, bmAdd_mem, List.mem_cons]
    tauto

theorem bmOr_sorted (a b : Bitmap) (h : a.Pairwise (fun a b => a < b)) :
    (bmOr a b).Pairwise (fun a b => a < b) := by
  unfold bmOr
  induction b generalizing a with
  | nil => simpa using h
  | cons y b ih => exact ih _ (bmAdd_sorted y a h)

theorem sorted_ext {a b : List Nat} (ha : a.Pairwise (fun x y => x < y))
    (hb : b.Pairwise (fun x y => x < y)) (h : ∀ x, x ∈ a ↔ x ∈ b) : a = b := by
  have ha' : a.Sorted (· < ·) := ha
  have hb' : b.Sorted (· < ·) := hb
  apply List.eq_of_perm_of_sorted _ ha' hb'
  exact (List.perm_ext_iff_of_nodup ha'.nodup hb'.nodup).2 h

theorem putUint64_eq (x : Nat) : ∃ b0 b1 b2 b3 b4 b5 b6 b7,
    putUint64 x = [b0, b1, b2, b3, b4, b5, b6, b7] :=
  ⟨_, _, _, _, _, _, _, _, rfl⟩

theorem decodeChunk_encodeIds (ids : List Nat) (h : ∀ x ∈ ids, x < 2 ^ 64) (bm : Bitmap) :
    decodeChunk (encodeIds ids) bm = .ok (bmOr bm ids) := by
  induction ids generalizing bm with
  | nil => rfl
  | cons x ids ih =>
    have hx := getUint64_putUint64 x (h x (by simp)) []
    obtain ⟨b0, b1, b2, b3, b4, b5, b6, b7, hb⟩ := putUint64_eq x
    rw [encodeIds_cons, hb]
    rw [hb, List.append_nil] at hx
    simp only [List.cons_append, List.nil_append, decodeChunk, hx]
    show decodeChunk (encodeIds ids) (bmAdd x bm) = _
    rw [ih (fun y hy => h y (by simp [hy]))]
    rfl

theorem decodeIds_encodeIds_append (ids : List Nat) (h : ∀ x ∈ ids, x < 2 ^ 64) (rest : Bytes) :
    decodeIds (encodeIds ids ++ rest) = ids ++ decodeIds rest := by
  induction ids with
  | nil => rfl
  | cons x ids ih =>
    have hx := getUint64_putUint64 x (h x (by simp)) []
    obtain ⟨b0, b1, b2, b3, b4, b5, b6, b7, hb⟩ := putUint64_eq x
    rw [encodeIds_cons, hb]
    rw [hb, List.append_nil] at hx
    simp only [List.cons_append, List.nil_append, decodeIds, hx]
    show x :: decodeIds (encodeIds ids ++ rest) = _
    rw [ih (fun y hy => h y (by simp [hy]))]

theorem decodeIds_encodeIds (ids : List Nat) (h : ∀ x ∈ ids, x < 2 ^ 64) :
    decodeIds (encodeIds ids) = ids := by
  have := decodeIds_encodeIds_append ids h []
  simpa [decodeIds] using this


/-! ## The ordered table -/

theorem tableGet_chunksOf (A key : Bytes) (hkey : key.take lengthAddr = A) (t : Table) :
    tableGet key (chunksOf A t) = tableGet key t := by
  induction t with
  | nil => rfl
  | cons e t ih =>
    obtain ⟨k', v'⟩ := e
    unfold chunksOf at ih ⊢
    by_cases hk : k'.take lengthAddr = A
    · simp only [List.filter_cons, hk, decide_True, if_true, tableGet, ih]
    · have hne : key ≠ k' := by
        intro h; subst h; exact hk hkey
      simp only [List.filter_cons, hk, decide_False, tableGet, hne, if_false]
      simpa using ih

theorem mem_tablePut {k v : Bytes} {t : Table} {e : Bytes × Bytes} (h : e ∈ tablePut k v t) :
    e = (k, v) ∨ e ∈ t := by
  induction t with
  | nil => simpa [tablePut] using h
  | cons e' t ih =>
    obtain ⟨k', v'⟩ := e'
    simp only [tablePut] at h
    split at h
    · rcases List.mem_cons.1 h with h | h
      · exact Or.inl h
      · exact Or.inr h
    · split at h
      · rcases List.mem_cons.1 h with h | h
        · exact Or.inl h
        · exact Or.inr (List.mem_cons_of_mem _ h)
      · rcases List.mem_cons.1 h with h | h
        · exact Or.inr (by rw [h]; exact List.mem_cons_self _ _)
        · rcases ih h with h | h
          · exact Or.inl h
          · exact Or.inr (List.mem_cons_of_mem _ h)

theorem tablePut_sorted (k v : Bytes) (t : Table) (h : TableSorted t) :
    TableSorted (tablePut k v t) := by
  unfold TableSorted at h ⊢
  induction t with
  | nil => simp [tablePut]
  | cons e' t ih =>
    obtain ⟨k', v'⟩ := e'
    rw [List.pairwise_cons] at h
    simp only [tablePut]
    split
    · rename_i hlt
      refine List.pairwise_cons.2 ⟨?_, List.pairwise_cons.2 h⟩
      intro a ha
      rcases List.mem_cons.1 ha with ha | ha
      · subst ha; exact hlt
      · exact bytesLt_trans hlt (h.1 a ha)
    · split
      · rename_i h1 h2
        subst h2
        exact List.pairwise_cons.2 ⟨h.1, h.2⟩
      · rename_i h1 h2
        refine List.pairwise_cons.2 ⟨?_, ih h.2⟩
        intro a ha
        rcases mem_tablePut ha with ha | ha
        · subst ha
          cases hgt : bytesLt k' k with
          | true => rfl
          | false =>
            exact absurd (bytesLt_total (Bool.eq_false_iff.2 h1) hgt) h2
        · exact h.1 a ha

theorem tablePut_of_all_gt {k v : Bytes} {t : Table} (h : ∀ e ∈ t, bytesLt k e.1 = true) :
    tablePut k v t = (k, v) :: t := by
  cases t with
  | nil => rfl
  | cons e' t =>
    obtain ⟨k', v'⟩ := e'
    have := h (k', v') (List.mem_cons_self _ _)
    simp only at this
    simp [tablePut, this]

theorem tablePut_append {k v : Bytes} (l1 l2 : Table) (h : ∀ e ∈ l1, bytesLt e.1 k = true) :
    tablePut k v (l1 ++ l2) = l1 ++ tablePut k v l2 := by
  induction l1 with
  | nil => rfl
  | cons e' l1 ih =>
    obtain ⟨k', v'⟩ := e'
    have hlt : bytesLt k' k = true := h (k', v') (List.mem_cons_self _ _)
    have h1 : bytesLt k k' = false := bytesLt_asymm hlt
    have h2 : k ≠ k' := by
      intro heq; subst heq; rw [bytesLt_irrefl] at hlt; exact absurd hlt (by simp)
    simp only [List.cons_append, tablePut, h1, h2, if_false, Bool.false_eq_true]
    show (k', v') :: tablePut k v (l1 ++ l2) = _
    rw [ih (fun e he => h e (List.mem_cons_of_mem _ he))]

theorem tablePut_head (k v v' : Bytes) (t : Table) :
    tablePut k v ((k, v') :: t) = (k, v) :: t := by
  simp [tablePut, bytesLt_irrefl]

theorem chunksOf_tablePut_other {A key : Bytes} (hkey : key.take lengthAddr ≠ A) (v : Bytes)
    (t : Table) : chunksOf A (tablePut key v t) = chunksOf A t := by
  induction t with
  | nil => simp [tablePut, chunksOf, hkey]
  | cons e' t ih =>
    obtain ⟨k', v'⟩ := e'
    unfold chunksOf at ih ⊢
    simp only [tablePut]
    split
    · simp [List.filter_cons, hkey]
    · split
      · rename_i h1 h2
        subst h2
        simp [List.filter_cons, hkey]
      · simp only [List.filter_cons, ih]

theorem chunksOf_tablePut_same {A key : Bytes} (hkey : key.take lengthAddr = A) (v : Bytes)
    (t : Table) (hs : TableSorted t) :
    chunksOf A (tablePut key v t) = tablePut key v (chunksOf A t) := by
  induction t with
  | nil => simp [tablePut, chunksOf, hkey]
  | cons e' t ih =>
    obtain ⟨k', v'⟩ := e'
    unfold TableSorted at hs
    rw [List.pairwise_cons] at hs
    have ih' := ih hs.2
    unfold chunksOf at ih' ⊢
    simp only [tablePut]
    split
    · rename_i hlt
      have hall : ∀ e ∈ List.filter (fun e => decide (e.1.take lengthAddr = A)) ((k', v') :: t),
          bytesLt key e.1 = true := by
        intro e he
        have he' := List.mem_of_mem_filter he
        rcases List.mem_cons.1 he' with he' | he'
        · subst he'; exact hlt
        · exact bytesLt_trans hlt (hs.1 e he')
      rw [tablePut_of_all_gt hall]
      simp [List.filter_cons, hkey]
    · split
      · rename_i h1 h2
        subst h2
        simp [List.filter_cons, hkey, tablePut, bytesLt_irrefl]
      · rename_i h1 h2
        by_cases hk' : k'.take lengthAddr = A
        · simp only [List.filter_cons, hk', decide_True, if_true, ih', tablePut, h1, h2, if_false]
          simp
        · simp only [List.filter_cons, hk', decide_False, ih']
          simp

theorem chunksOf_sorted (A : Bytes) (t : Table) (hs : TableSorted t) :
    TableSorted (chunksOf A t) := List.Pairwise.filter _ hs


/-! ## The body of `loadFunc` -/

theorem dropLastCounter_nil {A : Bytes} {counter : DupTable} (h : counter A = []) :
    dropLastCounter A counter = counter := by
  funext a
  unfold dropLastCounter
  split
  · rename_i ha; subst ha; rw [h]; rfl
  · rfl

theorem scanCounter_ok {A : Bytes} {counter : DupTable} {sc : CounterScan}
    (h : scanCounter A counter = .ok sc) :
    sc.counter = dropLastCounter A counter ∧ sc.prevCounter = prevCount (counter A) ∧
      sc.found = !(counter A).isEmpty ∧
      (sc.isUniqueChunk = true ↔ ∃ b, counter A = [[b]]) ∧
      (sc.isUniqueChunk = true → sc.prevCounter = 0) := by
  unfold scanCounter at h
  rcases List.eq_nil_or_concat (counter A) with hd | ⟨l, v, hd⟩
  · simp only [hd, List.getLast?_nil] at h
    injection h with h
    subst h
    simp [dropLastCounter_nil hd, hd, prevCount]
  · have hlast : (counter A).getLast? = some v := by rw [hd]; simp
    have hdrop : (counter A).dropLast = l := by rw [hd]; simp
    have hfun : (fun a => if a = A then l else counter a) = dropLastCounter A counter := by
      funext a; simp [dropLastCounter, hdrop]
    simp only [hlast, hdrop, hfun] at h
    split at h
    · rename_i hv1
      split at h
      · exact absurd h (by simp)
      · rename_i hlen
        injection h with h
        subst h
        have hl : l = [] := by
          rw [hd] at hlen; simp at hlen; exact hlen
        subst hl
        obtain ⟨b, hb⟩ : ∃ b, v = [b] := List.length_eq_one.1 hv1
        subst hb
        refine ⟨rfl, ?_, ?_, ?_, fun _ => rfl⟩
        · simp [prevCount, hd]
        · simp [hd]
        · simp [hd]
    · rename_i hv1
      have hnot : ¬ ∃ b, counter A = [[b]] := by
        rintro ⟨b, hb⟩
        rw [hb] at hlast
        simp at hlast
        subst hlast
        exact hv1 rfl
      split at h
      · exact absurd h (by simp)
      · split at h
        · exact absurd h (by simp)
        · cases hl : l.getLast? with
          | none =>
            simp only [hl] at h
            injection h with h
            subst h
            refine ⟨rfl, ?_, ?_, ?_, fun _ => rfl⟩
            · simp [prevCount, hdrop, hl]
            · simp [hd]
            · simp [hnot]
          | some pv =>
            simp only [hl] at h
            split at h
            · exact absurd h (by simp)
            · injection h with h
              subst h
              refine ⟨rfl, ?_, ?_, ?_, ?_⟩
              · simp [prevCount, hdrop, hl]
              · simp [hd]
              · simp [hnot]
              · simp

theorem loadFunc_eq (L : Nat) (st : Store) (k : Bytes) (S M : Bitmap) (sc : CounterScan)
    (hk : k.length = lengthAddr) (hM : mergeLastChunk S k st.index = .ok M)
    (hsc : scanCounter k st.counter = .ok sc) :
    loadFunc L st k S = .ok (if optimizedBranch sc M then
        (writeOptimizedChunkAndCounter ⟨st.index, sc.counter⟩ k (encodeIds M) k sc.prevCounter).2
      else applyWrites k (specWrites k sc.prevCounter (cutter L M [])) ⟨st.index, sc.counter⟩) := by
  have htake : k.take lengthAddr = k := List.take_of_length_le (by omega)
  unfold loadFunc
  rw [if_neg (by omega)]
  simp only [htake, hM, hsc]
  split
  · rw [encodeAll_eq]; rfl
  · have h0 : encodeIds ([] : List Nat) = [] := rfl
    have h1 := regularLoop_eq_writeChunks L k k M [] sc.prevCounter ⟨st.index, sc.counter⟩
    rw [h0] at h1
    rw [h1]
    have h2 := writeChunks_eq_applyWrites (k := k) (by omega) (cutter L M []) sc.prevCounter
      sc.prevCounter rfl ⟨st.index, sc.counter⟩
    rw [htake] at h2
    rw [h2]


/-! ## Records written for one address -/

theorem applyWrites_index (A : Bytes) (ws : List ChunkWrite) (st : Store) :
    (applyWrites A ws st).index = putAll ws st.index := by
  induction ws generalizing st with
  | nil => rfl
  | cons w ws ih => simp only [applyWrites, putAll, ih]

theorem applyWrites_counter_same (A : Bytes) (ws : List ChunkWrite) (st : Store) :
    (applyWrites A ws st).counter A = insertAll ws (st.counter A) := by
  induction ws generalizing st with
  | nil => rfl
  | cons w ws ih => simp only [applyWrites, insertAll, ih, dupPut, if_true]

theorem applyWrites_counter_other {A B : Bytes} (h : B ≠ A) (ws : List ChunkWrite) (st : Store) :
    (applyWrites A ws st).counter B = st.counter B := by
  induction ws generalizing st with
  | nil => rfl
  | cons w ws ih => simp only [applyWrites, ih, dupPut, h, if_false]

theorem take_append_addr {A : Bytes} (hA : A.length = lengthAddr) (t : Bytes) :
    (A ++ t).take lengthAddr = A := List.take_left' hA

theorem specWrites_key {A : Bytes} (hA : A.length = lengthAddr) (p : Nat) (cs : List (List Nat)) :
    ∀ w ∈ specWrites A p cs, w.key.take lengthAddr = A := by
  induction cs generalizing p with
  | nil => simp [specWrites]
  | cons c cs ih =>
    intro w hw
    simp only [specWrites, List.mem_cons] at hw
    rcases hw with hw | hw
    · subst hw; exact take_append_addr hA _
    · exact ih _ w hw

theorem specWrites_singleton (A : Bytes) (p : Nat) (c : List Nat) :
    specWrites A p [c] =
      [⟨A ++ putUint64 maxUint64, encodeIds c,
        putUint64 (p + c.length) ++ putUint64 maxUint64⟩] := by
  simp [specWrites]

theorem specWrites_cons_cons (A : Bytes) (p : Nat) (c c2 : List Nat) (cs : List (List Nat)) :
    specWrites A p (c :: c2 :: cs) =
      ⟨A ++ putUint64 (c.getLast?.getD 0), encodeIds c,
        putUint64 (p + c.length) ++ putUint64 (c.getLast?.getD 0)⟩ ::
        specWrites A (p + c.length) (c2 :: cs) := by
  simp [specWrites]

theorem specWrites_append (A : Bytes) (p : Nat) (pre cut : List (List Nat)) (h : cut ≠ []) :
    specWrites A p (pre ++ cut) =
      nfWrites A p pre ++ specWrites A (p + pre.flatten.length) cut := by
  induction pre generalizing p with
  | nil => simp [nfWrites]
  | cons c pre ih =>
    have hne : pre ++ cut ≠ [] := by simp [h]
    obtain ⟨d, ds, hd⟩ := List.exists_cons_of_ne_nil hne
    rw [List.cons_append, hd, specWrites_cons_cons, ← hd, ih, nfWrites]
    simp [Nat.add_assoc]

theorem nfWrites_append (A : Bytes) (p : Nat) (a b : List (List Nat)) :
    nfWrites A p (a ++ b) = nfWrites A p a ++ nfWrites A (p + a.flatten.length) b := by
  induction a generalizing p with
  | nil => simp [nfWrites]
  | cons c a ih =>
    rw [List.cons_append, nfWrites, ih, nfWrites]
    simp [Nat.add_assoc]

theorem nfWrites_entry (A : Bytes) (p q : Nat) (cs : List (List Nat)) :
    (nfWrites A p cs).map ChunkWrite.entry = (nfWrites A q cs).map ChunkWrite.entry := by
  induction cs generalizing p q with
  | nil => rfl
  | cons c cs ih =>
    simp only [nfWrites, List.map_cons, ChunkWrite.entry]
    rw [ih (p + c.length) (q + c.length)]

theorem specWrites_entry (A : Bytes) (p q : Nat) (cs : List (List Nat)) :
    (specWrites A p cs).map ChunkWrite.entry = (specWrites A q cs).map ChunkWrite.entry := by
  induction cs generalizing p q with
  | nil => rfl
  | cons c cs ih =>
    simp only [specWrites, List.map_cons, ChunkWrite.entry]
    rw [ih (p + c.length) (q + c.length)]

theorem putAll_sorted (ws : List ChunkWrite) (t : Table) (h : TableSorted t) :
    TableSorted (putAll ws t) := by
  induction ws generalizing t with
  | nil => exact h
  | cons w ws ih => exact ih _ (tablePut_sorted _ _ _ h)

theorem chunksOf_putAll_same {A : Bytes} (ws : List ChunkWrite)
    (hk : ∀ w ∈ ws, w.key.take lengthAddr = A) (t : Table) (h : TableSorted t) :
    chunksOf A (putAll ws t) = putAll ws (chunksOf A t) := by
  induction ws generalizing t with
  | nil => rfl
  | cons w ws ih =>
    simp only [putAll]
    rw [ih (fun w' hw' => hk w' (List.mem_cons_of_mem _ hw')) _ (tablePut_sorted _ _ _ h)]
    rw [chunksOf_tablePut_same (hk w (List.mem_cons_self _ _)) _ _ h]

theorem chunksOf_putAll_other {A B : Bytes} (ws : List ChunkWrite)
    (hk : ∀ w ∈ ws, w.key.take lengthAddr = A) (hB : B ≠ A) (t : Table) :
    chunksOf B (putAll ws t) = chunksOf B t := by
  induction ws generalizing t with
  | nil => rfl
  | cons w ws ih =>
    simp only [putAll]
    rw [ih (fun w' hw' => hk w' (List.mem_cons_of_mem _ hw'))]
    apply chunksOf_tablePut_other
    rw [hk w (List.mem_cons_self _ _)]
    exact fun h => hB h.symm



theorem getLast_mem {c : List Nat} (h : c ≠ []) : c.getLast?.getD 0 ∈ c := by
  rw [List.getLast?_eq_getLast _ h]
  exact List.getLast_mem h

theorem mem_nfWrites_entry {A : Bytes} {q : Nat} {pre : List (List Nat)} {e : Bytes × Bytes}
    (h : e ∈ (nfWrites A q pre).map ChunkWrite.entry) :
    ∃ c ∈ pre, e = (A ++ putUint64 (c.getLast?.getD 0), encodeIds c) := by
  induction pre generalizing q with
  | nil => simp [nfWrites] at h
  | cons c pre ih =>
    simp only [nfWrites, List.map_cons, List.mem_cons] at h
    rcases h with h | h
    · exact ⟨c, by simp, h⟩
    · obtain ⟨c', hc', he⟩ := ih h
      exact ⟨c', by simp [hc'], he⟩

theorem key_lt_of_lt (A : Bytes) {x t : Nat} (hx : x < t) (ht : t < 2 ^ 64) :
    bytesLt (A ++ putUint64 x) (A ++ putUint64 t) = true := by
  rw [bytesLt_append_left, bytesLt_putUint64 (by omega) ht]
  simpa using hx

theorem maxUint64_lt : maxUint64 < 2 ^ 64 := by
  unfold maxUint64; norm_num

theorem lt_maxUint64_of_lt {x y : Nat} (h : x < y) (hy : y < 2 ^ 64) : x < maxUint64 := by
  unfold maxUint64; omega

theorem tablePut_final (A v : Bytes) (X : Table)
    (hX : X = [] ∨ ∃ old, X = [(A ++ putUint64 maxUint64, old)]) :
    tablePut (A ++ putUint64 maxUint64) v X = [(A ++ putUint64 maxUint64, v)] := by
  rcases hX with hX | ⟨old, hX⟩
  · subst hX; rfl
  · subst hX; exact tablePut_head _ _ _ _

theorem tablePut_nonfinal (A v : Bytes) {t : Nat} (ht : t < maxUint64) (X : Table)
    (hX : X = [] ∨ ∃ old, X = [(A ++ putUint64 maxUint64, old)]) :
    tablePut (A ++ putUint64 t) v X = (A ++ putUint64 t, v) :: X := by
  apply tablePut_of_all_gt
  intro e he
  rcases hX with hX | ⟨old, hX⟩
  · subst hX; simp at he
  · subst hX
    simp only [List.mem_singleton] at he
    subst he
    exact key_lt_of_lt A ht maxUint64_lt

theorem putAll_specWrites {A : Bytes} (p : Nat) (pre cut : List (List Nat)) (X : Table)
    (hX : X = [] ∨ ∃ old, X = [(A ++ putUint64 maxUint64, old)])
    (hcut : cut ≠ []) (hne : ∀ c ∈ pre ++ cut, c ≠ []) (hok : BitmapOk (pre ++ cut).flatten) :
    putAll (specWrites A p cut) ((nfWrites A 0 pre).map ChunkWrite.entry ++ X) =
      (nfWrites A 0 pre).map ChunkWrite.entry ++ (specWrites A p cut).map ChunkWrite.entry := by
  induction cut generalizing pre p with
  | nil => exact absurd rfl hcut
  | cons c cut ih =>
    have hcne : c ≠ [] := hne c (by simp)
    have hsorted : List.Pairwise (fun a b => a < b) (pre.flatten ++ (c ++ cut.flatten)) := by
      have := hok.1
      simpa using this
    have hbound : ∀ x ∈ c, x < 2 ^ 64 := fun x hx => hok.2 x (by simp [hx])
    have hpre : ∀ e ∈ (nfWrites A 0 pre).map ChunkWrite.entry, ∀ y ∈ c,
        ∃ x, e.1 = A ++ putUint64 x ∧ x < y := by
      intro e he y hy
      obtain ⟨c', hc', rfl⟩ := mem_nfWrites_entry he
      refine ⟨_, rfl, ?_⟩
      have hx : c'.getLast?.getD 0 ∈ pre.flatten :=
        List.mem_flatten.2 ⟨c', hc', getLast_mem (hne c' (by simp [hc']))⟩
      exact (List.pairwise_append.1 hsorted).2.2 _ hx y (by simp [hy])
    cases cut with
    | nil =>
      rw [specWrites_singleton]
      simp only [putAll, List.map_cons, List.map_nil, ChunkWrite.entry]
      rw [tablePut_append, tablePut_final A _ X hX]
      intro e he
      obtain ⟨x, hx, hlt⟩ := hpre e he _ (getLast_mem hcne)
      rw [hx]
      exact key_lt_of_lt A (lt_maxUint64_of_lt hlt (hbound _ (getLast_mem hcne))) maxUint64_lt
    | cons c2 cut =>
      have hc2ne : c2 ≠ [] := hne c2 (by simp)
      obtain ⟨z, hz⟩ := List.exists_mem_of_ne_nil c2 hc2ne
      have htz : c.getLast?.getD 0 < z := by
        have h1 := (List.pairwise_append.1 hsorted).2.1
        simp only [List.flatten_cons] at h1
        exact (List.pairwise_append.1 h1).2.2 _ (getLast_mem hcne) z (by simp [hz])
      have hzb : z < 2 ^ 64 := hok.2 z (by simp [hz])
      rw [specWrites_cons_cons, putAll]
      simp only [List.map_cons, ChunkWrite.entry]
      rw [tablePut_append, tablePut_nonfinal A _ (lt_maxUint64_of_lt htz hzb) X hX]
      · have hre : List.map ChunkWrite.entry (nfWrites A 0 pre) ++
            (A ++ putUint64 (c.getLast?.getD 0), encodeIds c) :: X =
            List.map ChunkWrite.entry (nfWrites A 0 (pre ++ [c])) ++ X := by
          rw [nfWrites_append]
          simp only [nfWrites, List.map_append, List.map_cons, List.map_nil, ChunkWrite.entry,
            List.append_assoc, List.singleton_append]
        rw [hre, ih (p + c.length) (pre ++ [c]) (by simp)
          (by intro c' hc'; exact hne c' (by simpa using hc'))
          (by simpa using hok)]
        rw [nfWrites_append]
        simp only [nfWrites, List.map_append, List.map_cons, List.map_nil, ChunkWrite.entry,
          List.append_assoc, List.singleton_append]
      · intro e he
        obtain ⟨x, hx, hlt⟩ := hpre e he _ (getLast_mem hcne)
        rw [hx]
        exact key_lt_of_lt A hlt (hbound _ (getLast_mem hcne))

theorem dupInsert_append {v : Bytes} {l : List Bytes} (h : ∀ w ∈ l, bytesLt w v = true) :
    dupInsert v l = l ++ [v] := by
  induction l with
  | nil => rfl
  | cons w l ih =>
    have hlt : bytesLt w v = true := h w (List.mem_cons_self _ _)
    have h1 : bytesLt v w = false := bytesLt_asymm hlt
    have h2 : v ≠ w := by
      intro heq; subst heq; rw [bytesLt_irrefl] at hlt; exact absurd hlt (by simp)
    simp only [dupInsert, h1, h2, if_false, Bool.false_eq_true, List.cons_append]
    rw [ih (fun w' hw' => h w' (List.mem_cons_of_mem _ hw'))]

theorem counter_lt {a b : Nat} (hab : a < b) (hb : b < 2 ^ 64) (s t : Bytes) :
    bytesLt (putUint64 a ++ s) (putUint64 b ++ t) = true := by
  apply bytesLt_append_of_lt
  · rw [putUint64_length, putUint64_length]
  · rw [bytesLt_putUint64 (by omega) hb]; simpa using hab

theorem insertAll_specWrites (A : Bytes) (p : Nat) (cut : List (List Nat)) (l : List Bytes)
    (hne : ∀ c ∈ cut, c ≠ []) (hbound : p + cut.flatten.length < 2 ^ 64)
    (hl : ∀ w ∈ l, ∀ q term, p < q → q < 2 ^ 64 → bytesLt w (putUint64 q ++ term) = true) :
    insertAll (specWrites A p cut) l = l ++ (specWrites A p cut).map ChunkWrite.counter := by
  induction cut generalizing p l with
  | nil => simp [specWrites, insertAll]
  | cons c cut ih =>
    have hc : 0 < c.length := List.length_pos.2 (hne c (by simp))
    have hb' : p + c.length + cut.flatten.length < 2 ^ 64 := by
      simp only [List.flatten_cons, List.length_append] at hbound; omega
    simp only [specWrites, insertAll, List.map_cons]
    rw [dupInsert_append (fun w hw => hl w hw _ _ (by omega) (by omega))]
    rw [ih (p + c.length) _ (fun c' hc' => hne c' (by simp [hc'])) hb']
    · simp
    · intro w hw q term hq hq2
      rcases List.mem_append.1 hw with hw | hw
      · exact hl w hw q term (by omega) hq2
      · simp only [List.mem_singleton] at hw
        subst hw
        exact counter_lt hq hq2 _ _


/-! ## The chunk invariants -/

theorem eq_nil_or_snoc {α : Type} (l : List α) : l = [] ∨ ∃ pre c, l = pre ++ [c] := by
  rcases List.eq_nil_or_concat l with h | ⟨pre, c, h⟩
  · exact Or.inl h
  · exact Or.inr ⟨pre, c, by rw [h, List.concat_eq_append]⟩

theorem chunkEntries_append (A : Bytes) (p : Nat) (pre cut : List (List Nat)) (h : cut ≠ []) :
    chunkEntries A (pre ++ cut) =
      (nfWrites A 0 pre).map ChunkWrite.entry ++ (specWrites A p cut).map ChunkWrite.entry := by
  unfold chunkEntries
  rw [specWrites_append A 0 pre cut h, List.map_append]
  rw [specWrites_entry A (0 + pre.flatten.length) p]

theorem chunkEntries_concat (A : Bytes) (pre : List (List Nat)) (c : List Nat) :
    chunkEntries A (pre ++ [c]) =
      (nfWrites A 0 pre).map ChunkWrite.entry ++ [(A ++ putUint64 maxUint64, encodeIds c)] := by
  rw [chunkEntries_append A 0 pre [c] (by simp), specWrites_singleton]
  rfl

theorem specWrites_values (A : Bytes) (p : Nat) (cs : List (List Nat)) :
    ((specWrites A p cs).map ChunkWrite.entry).map Prod.snd = cs.map encodeIds := by
  induction cs generalizing p with
  | nil => rfl
  | cons c cs ih =>
    simp only [specWrites, List.map_cons, ChunkWrite.entry]
    rw [ih]

theorem encodeIds_flatten (cs : List (List Nat)) :
    (cs.map encodeIds).flatten = encodeIds cs.flatten := by
  induction cs with
  | nil => rfl
  | cons c cs ih => simp only [List.map_cons, List.flatten_cons, ih, encodeIds_append]

theorem storedIds_of_inv {A : Bytes} {st : Store} {cs : List (List Nat)} (h : ChunkInv A st cs) :
    storedIds A st = cs.flatten := by
  unfold storedIds
  rw [h.2.1, chunkEntries, specWrites_values, encodeIds_flatten, decodeIds_encodeIds _ h.2.2.2.2]

theorem tableGet_append_of_ne {k : Bytes} (l1 l2 : Table) (h : ∀ e ∈ l1, e.1 ≠ k) :
    tableGet k (l1 ++ l2) = tableGet k l2 := by
  induction l1 with
  | nil => rfl
  | cons e l1 ih =>
    obtain ⟨k', v'⟩ := e
    have hne : k ≠ k' := fun heq => h (k', v') (List.mem_cons_self _ _) heq.symm
    simp only [List.cons_append, tableGet, hne, if_false]
    exact ih (fun e he => h e (List.mem_cons_of_mem _ he))

theorem ne_of_bytesLt {a b : Bytes} (h : bytesLt a b = true) : a ≠ b := by
  intro heq; subst heq; rw [bytesLt_irrefl] at h; exact absurd h (by simp)

theorem nfEntries_lt_final {A : Bytes} {pre : List (List Nat)} {c : List Nat}
    (hne : ∀ c' ∈ pre ++ [c], c' ≠ []) (hok : BitmapOk (pre ++ [c]).flatten) :
    ∀ e ∈ (nfWrites A 0 pre).map ChunkWrite.entry,
      bytesLt e.1 (A ++ putUint64 maxUint64) = true := by
  intro e he
  obtain ⟨c', hc', rfl⟩ := mem_nfWrites_entry he
  have hcne : c ≠ [] := hne c (by simp)
  have hsorted : List.Pairwise (fun a b => a < b) (pre.flatten ++ c) := by
    simpa using hok.1
  have hx : c'.getLast?.getD 0 ∈ pre.flatten :=
    List.mem_flatten.2 ⟨c', hc', getLast_mem (hne c' (by simp [hc']))⟩
  have hlt := (List.pairwise_append.1 hsorted).2.2 _ hx _ (getLast_mem hcne)
  exact key_lt_of_lt A (lt_maxUint64_of_lt hlt (hok.2 _ (by simp [getLast_mem hcne])))
    maxUint64_lt

theorem bmOr_nil_left (b : Bitmap) (hb : b.Pairwise (fun x y => x < y)) : bmOr [] b = b := by
  apply sorted_ext (bmOr_sorted [] b List.Pairwise.nil) hb
  intro x; rw [bmOr_mem]; simp

theorem mergeLastChunk_inv {A : Bytes} (hA : A.length = lengthAddr) {st : Store}
    {cs : List (List Nat)} (h : ChunkInv A st cs) (S : Bitmap) :
    mergeLastChunk S A st.index = .ok (bmOr S (cs.getLast?.getD [])) := by
  have hkey : (A ++ putUint64 maxUint64).take lengthAddr = A := take_append_addr hA _
  unfold mergeLastChunk
  simp only [copyInto_of_length hA]
  rw [← tableGet_chunksOf A _ hkey, h.2.1]
  rcases eq_nil_or_snoc cs with hcs | ⟨pre, c, hcs⟩
  · subst hcs; rfl
  · subst hcs
    have hok := h.2.2.2
    have hcb : ∀ x ∈ c, x < 2 ^ 64 := fun x hx => hok.2 x (by simp [hx])
    have hcs : c.Pairwise (fun x y => x < y) := by
      have := hok.1
      simp only [List.flatten_append, List.flatten_cons, List.flatten_nil, List.append_nil] at this
      exact (List.pairwise_append.1 this).2.1
    rw [chunkEntries_concat, tableGet_append_of_ne _ _
      (fun e he => ne_of_bytesLt (nfEntries_lt_final h.2.2.1 hok e he))]
    simp only [tableGet, if_true, decodeChunk_encodeIds c hcb, bmOr_nil_left c hcs]
    simp



theorem loadFunc_writes (L : Nat) (st : Store) (k : Bytes) (S M : Bitmap) (sc : CounterScan)
    (hk : k.length = lengthAddr) (hM : mergeLastChunk S k st.index = .ok M)
    (hsc : scanCounter k st.counter = .ok sc) :
    loadFunc L st k S = .ok (applyWrites k (loadWrites L k sc M) ⟨st.index, sc.counter⟩) := by
  rw [loadFunc_eq L st k S M sc hk hM hsc, loadWrites]
  split
  · simp only [writeOptimizedChunkAndCounter, applyWrites]
    rw [chunkKey_eq (by omega), List.take_of_length_le (by omega), encodeIds_length,
      Nat.mul_div_cancel_left _ (by norm_num : 0 < 8)]
    rfl
  · rfl

theorem loadWrites_entry (L : Nat) (A : Bytes) (sc : CounterScan) (M : Bitmap) :
    (loadWrites L A sc M).map ChunkWrite.entry =
      (specWrites A sc.prevCounter (loadChunks L sc M)).map ChunkWrite.entry := by
  unfold loadWrites loadChunks
  split
  · rw [specWrites_singleton]
    simp only [List.map_cons, List.map_nil, ChunkWrite.entry]
  · rfl

theorem putAll_congr {ws ws' : List ChunkWrite}
    (h : ws.map ChunkWrite.entry = ws'.map ChunkWrite.entry) (t : Table) :
    putAll ws t = putAll ws' t := by
  induction ws generalizing ws' t with
  | nil =>
    cases ws' with
    | nil => rfl
    | cons w' ws' => simp at h
  | cons w ws ih =>
    cases ws' with
    | nil => simp at h
    | cons w' ws' =>
      simp only [List.map_cons, List.cons.injEq, ChunkWrite.entry, Prod.mk.injEq] at h
      simp only [putAll, h.1.1, h.1.2]
      exact ih h.2 _

theorem loadFunc_index (L : Nat) (st : Store) (k : Bytes) (S M : Bitmap) (sc : CounterScan)
    (hk : k.length = lengthAddr) (hM : mergeLastChunk S k st.index = .ok M)
    (hsc : scanCounter k st.counter = .ok sc) :
    ∃ st', loadFunc L st k S = .ok st' ∧
      st' = applyWrites k (loadWrites L k sc M) ⟨st.index, sc.counter⟩ ∧
      st'.index = putAll (specWrites k sc.prevCounter (loadChunks L sc M)) st.index := by
  refine ⟨_, loadFunc_writes L st k S M sc hk hM hsc, rfl, ?_⟩
  rw [applyWrites_index]
  exact putAll_congr (loadWrites_entry L k sc M) _

theorem merged_ok {S last : Bitmap} (hS : BitmapOk S) (hl : ∀ x ∈ last, x < 2 ^ 64) :
    BitmapOk (bmOr S last) := by
  refine ⟨bmOr_sorted S last hS.1, ?_⟩
  intro x hx
  rcases (bmOr_mem x S last).1 hx with h | h
  · exact hS.2 x h
  · exact hl x h

theorem merged_ne_nil {S : Bitmap} (last : Bitmap) (hS : S ≠ []) : bmOr S last ≠ [] := by
  obtain ⟨x, hx⟩ := List.exists_mem_of_ne_nil S hS
  intro h
  have := (bmOr_mem x S last).2 (Or.inl hx)
  rw [h] at this
  simp at this

theorem chunkInv_step {A : Bytes} (hA : A.length = lengthAddr) {st : Store}
    {cs : List (List Nat)} (hinv : ChunkInv A st cs) (p : Nat) (newcs : List (List Nat))
    (ctr : DupTable) (hnew : newcs ≠ []) (hne : ∀ c ∈ newcs, c ≠ [])
    (hok : BitmapOk (cs.dropLast ++ newcs).flatten) :
    ChunkInv A ⟨putAll (specWrites A p newcs) st.index, ctr⟩ (cs.dropLast ++ newcs) := by
  obtain ⟨hsorted, hchunks, hcne, hcok⟩ := hinv
  have hne' : ∀ c ∈ cs.dropLast ++ newcs, c ≠ [] := by
    intro c hc
    rcases List.mem_append.1 hc with hc | hc
    · exact hcne c (List.mem_of_mem_dropLast hc)
    · exact hne c hc
  refine ⟨putAll_sorted _ _ hsorted, ?_, hne', hok⟩
  show chunksOf A (putAll (specWrites A p newcs) st.index) = _
  rw [chunksOf_putAll_same _ (specWrites_key hA p newcs) _ hsorted, hchunks]
  rw [chunkEntries_append A p _ newcs hnew]
  rcases eq_nil_or_snoc cs with hcs | ⟨pre, c, hcs⟩
  · subst hcs
    have := putAll_specWrites (A := A) p [] newcs [] (Or.inl rfl) hnew
      (by simpa using hne) (by simpa using hok)
    simpa [chunkEntries, specWrites, nfWrites] using this
  · subst hcs
    rw [List.dropLast_concat] at hok hne' ⊢
    rw [chunkEntries_concat]
    exact putAll_specWrites p pre newcs _ (Or.inr ⟨_, rfl⟩) hnew hne' hok



theorem getUint64_append (a rest : Bytes) (h : a.length = 8) :
    getUint64 (a ++ rest) = getUint64 a := by
  unfold getUint64
  rw [List.take_left' h, List.take_of_length_le (by omega)]

theorem scanCounter_readable (A : Bytes) (counter : DupTable) (h : CounterReadable (counter A)) :
    ∃ sc, scanCounter A counter = .ok sc := by
  unfold scanCounter
  rcases h with h | ⟨b, h⟩ | ⟨hlen, pre, cum, h⟩
  · simp [h]
  · simp [h]
  · have hlast : (counter A).getLast? = some (cum ++ putUint64 maxUint64) := by rw [h]; simp
    have hdrop : (counter A).dropLast = pre := by rw [h]; simp
    have h16 : (cum ++ putUint64 maxUint64).length = 16 := hlen _ (by rw [h]; simp)
    have hcum : cum.length = 8 := by
      rw [List.length_append, putUint64_length] at h16; omega
    have hterm : getUint64 (List.drop 8 (cum ++ putUint64 maxUint64)) = maxUint64 := by
      rw [List.drop_left' hcum]
      have := getUint64_putUint64 maxUint64 maxUint64_lt []
      simpa using this
    simp only [hlast, hdrop, h16, hterm]
    simp only [lengthCounter, lengthChunk]
    cases hp : pre.getLast? with
    | none => simp
    | some pv =>
      have hpv : pv.length = 16 := hlen pv (by
        rw [h]
        exact List.mem_append_left _ (List.mem_of_getLast?_eq_some hp))
      simp [hpv]

theorem Load_single (L : Nat) (st : Store) (k : Bytes) (S : Bitmap) :
    Load L st [(k, S)] = loadFunc L st k S := by
  simp only [Load]
  cases loadFunc L st k S <;> rfl

theorem loadChunks_flatten (L : Nat) (sc : CounterScan) (M : Bitmap) :
    (loadChunks L sc M).flatten = M := by
  unfold loadChunks
  split
  · simp
  · exact (cutter_isCut L M).1

theorem loadChunks_ne_nil (L : Nat) (sc : CounterScan) {M : Bitmap} (hM : M ≠ []) :
    ∀ c ∈ loadChunks L sc M, c ≠ [] := by
  unfold loadChunks
  split
  · intro c hc; simp at hc; subst hc; exact hM
  · intro c hc; exact ((cutter_isCut L M).2.1 c hc).1

theorem last_bound {cs : List (List Nat)} (h : BitmapOk cs.flatten) :
    ∀ x ∈ cs.getLast?.getD [], x < 2 ^ 64 := by
  intro x hx
  rcases eq_nil_or_snoc cs with hcs | ⟨pre, c, hcs⟩
  · subst hcs; simp at hx
  · subst hcs
    simp at hx
    exact h.2 x (by simp [hx])

theorem dropLast_ok {cs : List (List Nat)} (h : BitmapOk cs.flatten) :
    BitmapOk cs.dropLast.flatten ∧
      ∀ y ∈ cs.dropLast.flatten, ∀ x ∈ cs.getLast?.getD [], y < x := by
  rcases eq_nil_or_snoc cs with hcs | ⟨pre, c, hcs⟩
  · subst hcs; exact ⟨⟨by simp, by simp⟩, by simp⟩
  · subst hcs
    rw [List.dropLast_concat]
    have h1 := h.1
    simp only [List.flatten_append, List.flatten_cons, List.flatten_nil,
      List.append_nil] at h1
    refine ⟨⟨(List.pairwise_append.1 h1).1, fun x hx => h.2 x (by simp [hx])⟩, ?_⟩
    intro y hy x hx
    simp at hx
    exact (List.pairwise_append.1 h1).2.2 y hy x hx

theorem loadFunc_chunkInv (L : Nat) (st : Store) (A : Bytes) (S : Bitmap) (cs : List (List Nat))
    (hA : A.length = lengthAddr) (hS : S ≠ []) (hSok : BitmapOk S) (hinv : ChunkInv A st cs)
    (hgt : ∀ x ∈ S, ∀ y ∈ cs.dropLast.flatten, y < x) (sc : CounterScan)
    (hsc : scanCounter A st.counter = .ok sc) :
    ∃ st', loadFunc L st A S = .ok st' ∧
      st' = applyWrites A (loadWrites L A sc (bmOr S (cs.getLast?.getD [])))
        ⟨st.index, sc.counter⟩ ∧
      ChunkInv A st' (cs.dropLast ++ loadChunks L sc (bmOr S (cs.getLast?.getD []))) := by
  have hM := mergeLastChunk_inv hA hinv S
  obtain ⟨st', hload, hst', hidx⟩ := loadFunc_index L st A S _ sc hA hM hsc
  have hMok := merged_ok hSok (last_bound hinv.2.2.2)
  have hMne := merged_ne_nil (cs.getLast?.getD []) hS
  have hflat := loadChunks_flatten L sc (bmOr S (cs.getLast?.getD []))
  have hne := loadChunks_ne_nil L sc hMne
  have hnew : loadChunks L sc (bmOr S (cs.getLast?.getD [])) ≠ [] := by
    intro h0; rw [h0] at hflat; exact hMne hflat.symm
  have hpre := dropLast_ok hinv.2.2.2
  have hok : BitmapOk (cs.dropLast ++ loadChunks L sc (bmOr S (cs.getLast?.getD []))).flatten := by
    rw [List.flatten_append, hflat]
    refine ⟨List.pairwise_append.2 ⟨hpre.1.1, hMok.1, ?_⟩, ?_⟩
    · intro y hy x hx
      rcases (bmOr_mem x S _).1 hx with hx | hx
      · exact hgt x hx y hy
      · exact hpre.2 y hy x hx
    · intro x hx
      rcases List.mem_append.1 hx with hx | hx
      · exact hpre.1.2 x hx
      · exact hMok.2 x hx
  refine ⟨st', hload, hst', ?_⟩
  have := chunkInv_step hA hinv sc.prevCounter _ st'.counter hnew hne hok
  rw [← hidx] at this
  exact this



theorem loadFunc_counter_same {A : Bytes} {st : Store} {sc : CounterScan}
    (hsc : scanCounter A st.counter = .ok sc) (ws : List ChunkWrite) :
    (applyWrites A ws ⟨st.index, sc.counter⟩).counter A =
      insertAll ws (st.counter A).dropLast := by
  rw [applyWrites_counter_same, (scanCounter_ok hsc).1]
  simp [dropLastCounter]

theorem loadFunc_counter_other {A B : Bytes} (hB : B ≠ A) {st : Store} {sc : CounterScan}
    (hsc : scanCounter A st.counter = .ok sc) (ws : List ChunkWrite) :
    (applyWrites A ws ⟨st.index, sc.counter⟩).counter B = st.counter B := by
  rw [applyWrites_counter_other hB, (scanCounter_ok hsc).1]
  simp [dropLastCounter, hB]

theorem optimizedBranch_of_small {A : Bytes} {counter : DupTable} {sc : CounterScan}
    (hsc : scanCounter A counter = .ok sc) (hctr : counter A = [] ∨ ∃ b, counter A = [[b]])
    {M : Bitmap} (hM : M.length ≤ 256) : optimizedBranch sc M = true ∧ sc.prevCounter = 0 := by
  obtain ⟨-, hp, hf, hu, -⟩ := scanCounter_ok hsc
  have hp0 : sc.prevCounter = 0 := by
    rw [hp]
    rcases hctr with h | ⟨b, h⟩ <;> simp [h, prevCount]
  have hfu : (!sc.found || sc.isUniqueChunk) = true := by
    rcases hctr with h | ⟨b, h⟩
    · simp [hf, h]
    · have := hu.2 ⟨b, h⟩
      simp [this]
  have h64 : (2:Nat) ^ 64 = 18446744073709551616 := by norm_num
  refine ⟨?_, hp0⟩
  unfold optimizedBranch
  rw [hfu, hp0, h64]
  simp only [Bool.true_and, decide_eq_true_eq]
  omega


theorem optimized_byte (count : Nat) (h1 : 1 ≤ count) (h2 : count ≤ 256) :
    OptimizedCounterSerializer count = [count - 1] := by
  have h64 : (2:Nat) ^ 64 = 18446744073709551616 := by norm_num
  have h : (count + 18446744073709551616 - 1) % 18446744073709551616 % 256 = count - 1 := by
    omega
  simp only [OptimizedCounterSerializer, h64, h]


theorem optimizedBranch_iff {A : Bytes} {counter : DupTable} {sc : CounterScan}
    (hsc : scanCounter A counter = .ok sc) (M : Bitmap) :
    optimizedBranch sc M = true ↔ OptimizedPath (counter A) M := by
  obtain ⟨-, hp, hf, hu, hu0⟩ := scanCounter_ok hsc
  have hone : (∃ b, counter A = [[b]]) ↔
      ((counter A).length = 1 ∧ ∀ r ∈ counter A, r.length = 1) := by
    constructor
    · rintro ⟨b, h⟩; simp [h]
    · rintro ⟨h1, h2⟩
      obtain ⟨r, hr⟩ := List.length_eq_one.1 h1
      obtain ⟨b, hb⟩ := List.length_eq_one.1 (h2 r (by simp [hr]))
      exact ⟨b, by rw [hr, hb]⟩
  unfold optimizedBranch OptimizedPath
  simp only [Bool.and_eq_true, Bool.or_eq_true, Bool.not_eq_true', decide_eq_true_eq]
  constructor
  · rintro ⟨h1, h2⟩
    rcases h1 with h1 | h1
    · have hnil : counter A = [] := by
        rw [hf] at h1; simpa using h1
      refine ⟨Or.inl hnil, ?_⟩
      rw [hp, hnil] at h2
      simpa [prevCount] using h2
    · refine ⟨Or.inr (hone.1 (hu.1 h1)), ?_⟩
      rw [hu0 h1] at h2
      simpa using h2
  · rintro ⟨h1, h2⟩
    rcases h1 with h1 | h1
    · refine ⟨Or.inl (by rw [hf, h1]; rfl), ?_⟩
      rw [hp, h1]
      simpa [prevCount] using h2
    · have hu1 := hu.2 (hone.2 h1)
      refine ⟨Or.inr hu1, ?_⟩
      rw [hu0 hu1]
      simpa using h2



theorem cutter_cons (L x : Nat) (rest cur : List Nat) :
    cutter L (x :: rest) cur =
      if rest.isEmpty || decide (8 * (cur.length + 1) ≥ L) then
        (cur ++ [x]) :: cutter L rest []
      else cutter L rest (cur ++ [x]) := by
  rw [cutter]

theorem cutter_fill (L : Nat) (cur a b : List Nat) (ha : a ≠ []) (hb : b ≠ [])
    (hfull : L ≤ 8 * (cur.length + a.length))
    (hlow : ∀ j, 0 < j → j < cur.length + a.length → 8 * j < L) :
    cutter L (a ++ b) cur = (cur ++ a) :: cutter L b [] := by
  induction a generalizing cur with
  | nil => exact absurd rfl ha
  | cons x a ih =>
    have hne : (a ++ b).isEmpty = false := by
      cases a <;> cases b <;> simp_all
    rw [List.cons_append, cutter_cons]
    simp only [hne, Bool.false_or]
    cases a with
    | nil =>
      simp only [List.length_singleton] at hfull
      simp [hfull]
    | cons y a =>
      have hlt : 8 * (cur.length + 1) < L := hlow _ (by omega) (by simp)
      have hdec : decide (8 * (cur.length + 1) ≥ L) = false := by
        simp only [decide_eq_false_iff_not, not_le]; exact hlt
      simp only [hdec]
      have := ih (cur ++ [x]) (by simp)
        (by simp only [List.length_append, List.length_cons, List.length_nil] at hfull ⊢
            omega)
        (by intro j h0 hj
            simp only [List.length_append, List.length_cons, List.length_nil] at hj
            exact hlow j h0 (by simp only [List.length_cons]; omega))
      simp only [Bool.false_eq_true, if_false]
      rw [this]
      simp

theorem cutter_single (L : Nat) (cur ids : List Nat) (hids : ids ≠ [])
    (hlow : ∀ j, 0 < j → j < cur.length + ids.length → 8 * j < L) :
    cutter L ids cur = [cur ++ ids] := by
  induction ids generalizing cur with
  | nil => exact absurd rfl hids
  | cons x ids ih =>
    cases ids with
    | nil => simp [cutter]
    | cons y ids =>
      have hlt : 8 * (cur.length + 1) < L := hlow _ (by omega) (by simp)
      have hdec : decide (8 * (cur.length + 1) ≥ L) = false := by
        simp only [decide_eq_false_iff_not, not_le]; exact hlt
      rw [cutter_cons]
      simp only [List.isEmpty_cons, Bool.false_or, hdec, Bool.false_eq_true, if_false]
      have := ih (cur ++ [x]) (by simp)
        (by intro j h0 hj
            simp only [List.length_append, List.length_cons, List.length_nil] at hj
            exact hlow j h0 (by simp only [List.length_cons]; omega))
      rw [this]
      simp

theorem cutter_1950 :
    cutter 1950 (List.range' 1 257) [] = [List.range' 1 244, List.range' 245 13] := by
  have hsplit : List.range' 1 257 = List.range' 1 244 ++ List.range' 245 13 := by
    rw [List.range'_append]
  rw [hsplit, cutter_fill 1950 [] _ _ (by simp) (by simp) (by simp) (by simp; omega)]
  rw [cutter_single 1950 [] _ (by simp) (by simp; omega)]
  simp

theorem specWrites_value_flatten (A : Bytes) (p : Nat) (cs : List (List Nat)) :
    ((specWrites A p cs).map ChunkWrite.value).flatten = encodeIds cs.flatten := by
  induction cs generalizing p with
  | nil => rfl
  | cons c cs ih =>
    simp only [specWrites, List.map_cons, List.flatten_cons, ih, encodeIds_append]

theorem mem_specWrites_value {A : Bytes} {p : Nat} {cs : List (List Nat)} {w : ChunkWrite}
    (h : w ∈ specWrites A p cs) : ∃ c ∈ cs, w.value = encodeIds c := by
  induction cs generalizing p with
  | nil => simp [specWrites] at h
  | cons c cs ih =>
    simp only [specWrites, List.mem_cons] at h
    rcases h with h | h
    · exact ⟨c, by simp, by rw [h]⟩
    · obtain ⟨c', hc', hw⟩ := ih h
      exact ⟨c', by simp [hc'], hw⟩



theorem Load_fresh (L : Nat) (A : Bytes) (S : Bitmap) (hA : A.length = lengthAddr) :
    Load L Store.empty [(A, S)] =
      .ok (applyWrites A (loadWrites L A ⟨0, false, false, fun _ => []⟩ S) Store.empty) := by
  rw [Load_single]
  exact loadFunc_writes L Store.empty A S S ⟨0, false, false, fun _ => []⟩ hA rfl rfl

theorem optimizedBranch_fresh (S : Bitmap) (ctr : DupTable) (h : S.length < 2 ^ 64) :
    optimizedBranch ⟨0, false, false, ctr⟩ S = decide (S.length ≤ 256) := by
  unfold optimizedBranch
  simp only [Bool.not_false, Bool.or_false, Bool.true_and, Nat.zero_add]
  rw [Nat.mod_eq_of_lt h]

theorem loadWrites_regular (L : Nat) (A : Bytes) (sc : CounterScan) (M : Bitmap)
    (h : optimizedBranch sc M = false) :
    loadWrites L A sc M = specWrites A sc.prevCounter (cutter L M []) := by
  rw [loadWrites, h]; rfl

theorem loadWrites_optimized (L : Nat) (A : Bytes) (sc : CounterScan) (M : Bitmap)
    (h : optimizedBranch sc M = true) :
    loadWrites L A sc M = [⟨A ++ putUint64 maxUint64, encodeIds M,
      OptimizedCounterSerializer ((sc.prevCounter + M.length) % 2 ^ 64)⟩] := by
  rw [loadWrites, h]; rfl

theorem Load_fresh_257_at_1950 :
    Load 1950 Store.empty [(addr0, List.range' 1 257)] =
      .ok ⟨[(addr0 ++ putUint64 244, encodeIds (List.range' 1 244)),
            (addr0 ++ putUint64 maxUint64, encodeIds (List.range' 245 13))],
           dupPut addr0 (putUint64 257 ++ putUint64 maxUint64)
             (dupPut addr0 (putUint64 244 ++ putUint64 244) (fun _ => []))⟩ := by
  have hopt : optimizedBranch ⟨0, false, false, fun _ => []⟩ (List.range' 1 257) = false := by
    rw [optimizedBranch_fresh _ _ (by rw [List.length_range']; norm_num), List.length_range']
    rfl
  have hlast : (List.range' 1 244).getLast?.getD 0 = 244 := by
    rw [List.getLast?_range']; rfl
  have hlt : bytesLt (addr0 ++ putUint64 maxUint64) (addr0 ++ putUint64 244) = false := by
    decide
  have hne : addr0 ++ putUint64 maxUint64 ≠ addr0 ++ putUint64 244 := by decide
  rw [Load_fresh 1950 addr0 _ (by decide), loadWrites_regular _ _ _ _ hopt, cutter_1950,
    specWrites_cons_cons, specWrites_singleton, hlast]
  simp only [applyWrites, Store.empty, tablePut, hlt, hne, List.length_range', if_false,
    Bool.false_eq_true]



theorem chunk_size_of_cut {L : Nat} {M : Bitmap} {cs : List (List Nat)} (h : IsCut L M cs)
    {c : List Nat} (hc : c ∈ cs) :
    (encodeIds c).length < L + 8 ∨ (encodeIds c).length = 8 := by
  obtain ⟨hne, hlow⟩ := h.2.1 c hc
  have hpos : 0 < c.length := List.length_pos.2 hne
  rw [encodeIds_length]
  rcases Nat.lt_or_ge 1 c.length with h1 | h1
  · left
    have := hlow (c.length - 1) (by omega) (by omega)
    omega
  · right; omega



theorem sampleStore_chunkInv : ChunkInv addr0 sampleStore [[1, 2], [3]] :=
  ⟨by unfold TableSorted; decide, by decide, by decide, by unfold BitmapOk; decide⟩

theorem sampleStore_readable : CounterReadable (sampleStore.counter addr0) :=
  Or.inr (Or.inr ⟨by decide, [putUint64 2 ++ putUint64 2], putUint64 3, by decide⟩)


/-! ## The counter invariants -/

theorem regularCounters_concat (A : Bytes) (pre : List (List Nat)) (c : List Nat) :
    regularCounters A (pre ++ [c]) = (nfWrites A 0 pre).map ChunkWrite.counter ++
      [putUint64 (pre.flatten.length + c.length) ++ putUint64 maxUint64] := by
  unfold regularCounters
  rw [specWrites_append A 0 pre [c] (by simp), specWrites_singleton]
  simp

theorem regularCounters_append (A : Bytes) (pre cut : List (List Nat)) (h : cut ≠ []) :
    regularCounters A (pre ++ cut) = (nfWrites A 0 pre).map ChunkWrite.counter ++
      (specWrites A pre.flatten.length cut).map ChunkWrite.counter := by
  unfold regularCounters
  rw [specWrites_append A 0 pre cut h]
  simp

theorem mem_nfWrites_counter {A : Bytes} {p : Nat} {pre : List (List Nat)} {w : Bytes}
    (h : w ∈ (nfWrites A p pre).map ChunkWrite.counter) :
    ∃ q term, w = putUint64 q ++ term ∧ term.length = 8 ∧ q ≤ p + pre.flatten.length := by
  induction pre generalizing p with
  | nil => simp [nfWrites] at h
  | cons c pre ih =>
    simp only [nfWrites, List.map_cons, List.mem_cons] at h
    rcases h with h | h
    · refine ⟨p + c.length, _, h, putUint64_length _, ?_⟩
      simp only [List.flatten_cons, List.length_append]; omega
    · obtain ⟨q, term, hw, ht, hq⟩ := ih h
      refine ⟨q, term, hw, ht, ?_⟩
      simp only [List.flatten_cons, List.length_append]; omega

theorem nfWrites_counter_getLast (A : Bytes) (pre : List (List Nat)) (c : List Nat) :
    ((nfWrites A 0 (pre ++ [c])).map ChunkWrite.counter).getLast? =
      some (putUint64 (pre.flatten.length + c.length) ++ putUint64 (c.getLast?.getD 0)) := by
  rw [nfWrites_append]
  simp [nfWrites]

theorem prevCount_regular (A : Bytes) (pre : List (List Nat)) (v : Bytes)
    (hb : pre.flatten.length < 2 ^ 64) :
    prevCount ((nfWrites A 0 pre).map ChunkWrite.counter ++ [v]) = pre.flatten.length := by
  unfold prevCount
  rw [List.dropLast_concat]
  rcases eq_nil_or_snoc pre with h | ⟨pre', c, h⟩
  · subst h; rfl
  · subst h
    rw [nfWrites_counter_getLast]
    simp only
    have h8 : (putUint64 (pre'.flatten.length + c.length)).length = 8 := putUint64_length _
    rw [List.take_left' h8]
    have := getUint64_putUint64 (pre'.flatten.length + c.length) (by simpa using hb) []
    simpa using this

theorem counterInv_readable {A : Bytes} {st : Store} {cs : List (List Nat)}
    (h : CounterInv A st cs) : CounterReadable (st.counter A) := by
  rcases h with ⟨-, h⟩ | ⟨c, -, -, h⟩ | ⟨hne, -, h⟩
  · exact Or.inl h
  · exact Or.inr (Or.inl ⟨_, h⟩)
  · right; right
    rcases eq_nil_or_snoc cs with hcs | ⟨pre, c, hcs⟩
    · exact absurd hcs hne
    · subst hcs
      rw [h, regularCounters_concat]
      refine ⟨?_, _, _, rfl⟩
      intro r hr
      rcases List.mem_append.1 hr with hr | hr
      · obtain ⟨q, term, hw, ht, -⟩ := mem_nfWrites_counter hr
        rw [hw, List.length_append, putUint64_length, ht]
      · simp only [List.mem_singleton] at hr
        rw [hr, List.length_append, putUint64_length, putUint64_length]

theorem counterInv_scan {A : Bytes} {st : Store} {cs : List (List Nat)}
    (h : CounterInv A st cs) (hb : cs.flatten.length < 2 ^ 64) {sc : CounterScan}
    (hsc : scanCounter A st.counter = .ok sc) :
    sc.prevCounter = cs.dropLast.flatten.length ∧
      (st.counter A).dropLast = (nfWrites A 0 cs.dropLast).map ChunkWrite.counter ∧
      (cs.length ≤ 1 ∧ (st.counter A = [] ∨ ∃ b, st.counter A = [[b]]) ∨
        ∀ M, optimizedBranch sc M = false) := by
  obtain ⟨-, hp, hf, hu, -⟩ := scanCounter_ok hsc
  rcases h with ⟨hcs, h⟩ | ⟨c, hcs, -, h⟩ | ⟨hne, -, h⟩
  · subst hcs
    refine ⟨by rw [hp, h]; rfl, by rw [h]; rfl, Or.inl ⟨by simp, Or.inl h⟩⟩
  · subst hcs
    refine ⟨by rw [hp, h]; rfl, by rw [h]; rfl, Or.inl ⟨by simp, Or.inr ⟨_, h⟩⟩⟩
  · rcases eq_nil_or_snoc cs with hcs | ⟨pre, c, hcs⟩
    · exact absurd hcs hne
    · subst hcs
      have hpre : pre.flatten.length < 2 ^ 64 := by
        simp only [List.flatten_append, List.length_append] at hb; omega
      rw [regularCounters_concat] at h
      refine ⟨?_, ?_, Or.inr ?_⟩
      · rw [hp, h, prevCount_regular A pre _ hpre, List.dropLast_concat]
      · rw [h, List.dropLast_concat, List.dropLast_concat]
      · intro M
        have hfound : sc.found = true := by rw [hf, h]; simp
        have hnu : sc.isUniqueChunk = false := by
          cases hiu : sc.isUniqueChunk with
          | false => rfl
          | true =>
            obtain ⟨b, hb'⟩ := hu.1 hiu
            rw [h] at hb'
            have hlen := congrArg List.length hb'
            have hlast := congrArg List.getLast? hb'
            simp only [List.getLast?_concat, List.getLast?_singleton, Option.some.injEq] at hlast
            have := congrArg List.length hlast
            simp [putUint64_length] at this
        unfold optimizedBranch
        rw [hfound, hnu]; rfl



theorem bmAdd_length_le (x : Nat) (l : Bitmap) : (bmAdd x l).length ≤ l.length + 1 := by
  induction l with
  | nil => simp [bmAdd]
  | cons y l ih =>
    simp only [bmAdd]
    split
    · simp
    · split
      · simp
      · simp only [List.length_cons]; omega

theorem bmOr_length_le (a b : Bitmap) : (bmOr a b).length ≤ a.length + b.length := by
  unfold bmOr
  induction b generalizing a with
  | nil => simp
  | cons y b ih =>
    simp only [List.foldl_cons, List.length_cons]
    have h1 := ih (bmAdd y a)
    have h2 := bmAdd_length_le y a
    omega

theorem bmOr_length_ge (a b : Bitmap) (hb : b.Pairwise (fun x y => x < y)) :
    b.length ≤ (bmOr a b).length := by
  have hnd : b.Nodup := (show b.Sorted (· < ·) from hb).nodup
  have hsub : b ⊆ bmOr a b := fun x hx => (bmOr_mem x a b).2 (Or.inr hx)
  exact (List.subperm_of_subset hnd hsub).length_le

theorem last_sorted {cs : List (List Nat)} (h : BitmapOk cs.flatten) :
    (cs.getLast?.getD []).Pairwise (fun x y => x < y) := by
  rcases eq_nil_or_snoc cs with hcs | ⟨pre, c, hcs⟩
  · subst hcs; simp
  · subst hcs
    have h1 := h.1
    simp only [List.flatten_append, List.flatten_cons, List.flatten_nil,
      List.append_nil] at h1
    simpa using (List.pairwise_append.1 h1).2.1

theorem flatten_length_split (cs : List (List Nat)) :
    cs.flatten.length = cs.dropLast.flatten.length + (cs.getLast?.getD []).length := by
  rcases eq_nil_or_snoc cs with hcs | ⟨pre, c, hcs⟩
  · subst hcs; rfl
  · subst hcs; simp

theorem loadWrites_key {A : Bytes} (hA : A.length = lengthAddr) (L : Nat) (sc : CounterScan)
    (M : Bitmap) : ∀ w ∈ loadWrites L A sc M, w.key.take lengthAddr = A := by
  unfold loadWrites
  split
  · intro w hw
    simp only [List.mem_singleton] at hw
    subst hw; exact take_append_addr hA _
  · exact specWrites_key hA _ _

theorem loadFunc_inv_chunks (L : Nat) (st : Store) (A : Bytes) (S : Bitmap)
    (cs : List (List Nat))
    (hA : A.length = lengthAddr) (hS : S ≠ []) (hSok : BitmapOk S) (hinv : ChunkInv A st cs)
    (hctr : CounterInv A st cs) (hgt : ∀ x ∈ S, ∀ y ∈ cs.dropLast.flatten, y < x)
    (hbound : cs.flatten.length + S.length < 2 ^ 64) :
    ∃ st' sc, scanCounter A st.counter = .ok sc ∧ loadFunc L st A S = .ok st' ∧
      (loadChunks L sc (bmOr S (cs.getLast?.getD []))).flatten = bmOr S (cs.getLast?.getD []) ∧
      ChunkInv A st' (cs.dropLast ++ loadChunks L sc (bmOr S (cs.getLast?.getD []))) ∧
      CounterInv A st' (cs.dropLast ++ loadChunks L sc (bmOr S (cs.getLast?.getD []))) ∧
      (∀ B, B ≠ A → chunksOf B st'.index = chunksOf B st.index ∧
        st'.counter B = st.counter B) := by
  obtain ⟨sc, hsc⟩ := scanCounter_readable A st.counter (counterInv_readable hctr)
  obtain ⟨st', hload, hst', hinv'⟩ := loadFunc_chunkInv L st A S cs hA hS hSok hinv hgt sc hsc
  have hflat := loadChunks_flatten L sc (bmOr S (cs.getLast?.getD []))
  have hcsb : cs.flatten.length < 2 ^ 64 := by omega
  obtain ⟨hp, hdrop, hform⟩ := counterInv_scan hctr hcsb hsc
  have hMle := bmOr_length_le S (cs.getLast?.getD [])
  have hMge := bmOr_length_ge S (cs.getLast?.getD []) (last_sorted hinv.2.2.2)
  have hsplit := flatten_length_split cs
  have hMne := merged_ne_nil (cs.getLast?.getD []) hS
  generalize hMdef : bmOr S (cs.getLast?.getD []) = M at *
  have hMb : M.length < 2 ^ 64 := by omega
  have h64 : (2:Nat) ^ 64 = 18446744073709551616 := by norm_num
  refine ⟨st', sc, hsc, hload, hflat, hinv', ?_, ?_⟩
  · -- the counter records
    have hcounter : st'.counter A = insertAll (loadWrites L A sc M) (st.counter A).dropLast := by
      rw [hst']; exact loadFunc_counter_same hsc _
    cases hb : optimizedBranch sc M with
    | true =>
      rcases hform with ⟨hone, hsmall⟩ | hreg
      · have hd : cs.dropLast = [] := by
          match cs, hone with
          | [], _ => rfl
          | [c], _ => rfl
        have hp0 : sc.prevCounter = 0 := by rw [hp, hd]; rfl
        have h256 : M.length ≤ 256 := by
          unfold optimizedBranch at hb
          simp only [Bool.and_eq_true, decide_eq_true_eq] at hb
          have := hb.2
          rw [hp0, Nat.zero_add, Nat.mod_eq_of_lt hMb] at this
          exact this
        have hpos : 1 ≤ M.length := List.length_pos.2 hMne
        right; left
        refine ⟨M, by rw [hd, loadChunks, hb]; rfl, h256, ?_⟩
        rw [hcounter, loadWrites_optimized _ _ _ _ hb, hdrop, hd, hp0, Nat.zero_add,
          Nat.mod_eq_of_lt hMb, optimized_byte M.length hpos h256]
        rfl
      · rw [hreg M] at hb; exact absurd hb (by simp)
    | false =>
      have hchunks : loadChunks L sc M = cutter L M [] := by rw [loadChunks, hb]; rfl
      have hne : ∀ c ∈ cutter L M [], c ≠ [] := fun c hc => ((cutter_isCut L M).2.1 c hc).1
      have hcutflat : (cutter L M []).flatten = M := (cutter_isCut L M).1
      have hnew : cutter L M [] ≠ [] := by
        intro h0; rw [h0] at hcutflat; exact hMne hcutflat.symm
      right; right
      rw [hchunks]
      refine ⟨by simp [hnew], ?_, ?_⟩
      · -- not a single chunk of at most 256 ids
        have hlen : 1 ≤ (cutter L M []).length := List.length_pos.2 hnew
        have htot : (cs.dropLast ++ cutter L M []).flatten.length =
            cs.dropLast.flatten.length + M.length := by
          rw [List.flatten_append, List.length_append, hcutflat]
        rcases hctr with ⟨hcs, hc0⟩ | ⟨c, hcs, -, hc1⟩ | ⟨hcne, hp4, -⟩
        · -- fresh address: the optimized test failed on the count
          right
          have hfound : sc.found = false := by
            rw [(scanCounter_ok hsc).2.2.1, hc0]; rfl
          unfold optimizedBranch at hb
          rw [hfound, hp, hcs] at hb
          simp only [Bool.not_false, Bool.true_or, Bool.true_and, List.dropLast_nil,
            List.flatten_nil, List.length_nil, Nat.zero_add, decide_eq_false_iff_not,
            not_le] at hb
          rw [Nat.mod_eq_of_lt hMb] at hb
          rw [htot]; omega
        · right
          have hu : sc.isUniqueChunk = true := (scanCounter_ok hsc).2.2.2.1.2 ⟨_, hc1⟩
          unfold optimizedBranch at hb
          rw [hu, hp, hcs] at hb
          simp only [Bool.or_true, Bool.true_and, List.dropLast_single, List.flatten_nil,
            List.length_nil, Nat.zero_add, decide_eq_false_iff_not, not_le] at hb
          rw [Nat.mod_eq_of_lt hMb] at hb
          rw [htot]; omega
        · rcases hp4 with h2 | h2
          · left
            have hdl : cs.dropLast.length = cs.length - 1 := List.length_dropLast cs
            rw [List.length_append]; omega
          · right; rw [htot]; omega
      · rw [hcounter, loadWrites_regular _ _ _ _ hb, hdrop, hp,
          regularCounters_append A _ _ hnew]
        apply insertAll_specWrites A _ _ _ hne (by rw [hcutflat]; omega)
        intro w hw q term hq hq2
        obtain ⟨q', term', hw', -, hq'⟩ := mem_nfWrites_counter hw
        rw [hw']
        exact counter_lt (by omega) hq2 _ _
  · intro B hB
    rw [hst', applyWrites_index, loadFunc_counter_other hB hsc]
    exact ⟨chunksOf_putAll_other _ (loadWrites_key hA L sc M) hB _, rfl⟩

theorem loadFunc_inv (L : Nat) (st : Store) (A : Bytes) (S : Bitmap) (cs : List (List Nat))
    (hA : A.length = lengthAddr) (hS : S ≠ []) (hSok : BitmapOk S) (hinv : ChunkInv A st cs)
    (hctr : CounterInv A st cs) (hgt : ∀ x ∈ S, ∀ y ∈ cs.dropLast.flatten, y < x)
    (hbound : cs.flatten.length + S.length < 2 ^ 64) :
    ∃ st' newcs, loadFunc L st A S = .ok st' ∧
      newcs.flatten = bmOr S (cs.getLast?.getD []) ∧
      ChunkInv A st' (cs.dropLast ++ newcs) ∧ CounterInv A st' (cs.dropLast ++ newcs) ∧
      (∀ B, B ≠ A → chunksOf B st'.index = chunksOf B st.index ∧
        st'.counter B = st.counter B) := by
  obtain ⟨st', sc, -, hload, hflat, hinv', hctr', hframe⟩ :=
    loadFunc_inv_chunks L st A S cs hA hS hSok hinv hctr hgt hbound
  exact ⟨st', _, hload, hflat, hinv', hctr', hframe⟩



theorem drop_append_addr {A : Bytes} (hA : A.length = lengthAddr) (t : Bytes) :
    (A ++ t).drop lengthAddr = t := List.drop_left' hA

theorem specWrites_sizes (A : Bytes) (p : Nat) (cs : List (List Nat)) :
    ((specWrites A p cs).map ChunkWrite.entry).map (fun e => e.2.length / 8) =
      cs.map List.length := by
  induction cs generalizing p with
  | nil => rfl
  | cons c cs ih =>
    simp only [specWrites, List.map_cons, ChunkWrite.entry, ih, encodeIds_length]
    rw [Nat.mul_div_cancel_left _ (by norm_num : 0 < 8)]

theorem totalIds_of_inv {A : Bytes} {st : Store} {cs : List (List Nat)} (h : ChunkInv A st cs) :
    totalIds A st = cs.flatten.length := by
  unfold totalIds
  rw [h.2.1, chunkEntries, specWrites_sizes, List.length_flatten]

theorem mem_specWrites_shape {A : Bytes} {p : Nat} {cs : List (List Nat)} {w : ChunkWrite}
    (h : w ∈ specWrites A p cs) :
    ∃ t q, t.length = 8 ∧ w.key = A ++ t ∧ w.counter = putUint64 q ++ t := by
  induction cs generalizing p with
  | nil => simp [specWrites] at h
  | cons c cs ih =>
    simp only [specWrites, List.mem_cons] at h
    rcases h with h | h
    · subst h
      refine ⟨_, _, ?_, rfl, rfl⟩
      split <;> exact putUint64_length _
    · exact ih h

theorem specWrites_cumulative {A : Bytes} (hA : A.length = lengthAddr) (p : Nat)
    (cs : List (List Nat)) (hs : TableSorted ((specWrites A p cs).map ChunkWrite.entry))
    (hb : p + cs.flatten.length < 2 ^ 64) :
    ∀ w ∈ specWrites A p cs, w.counter.length = 16 ∧
      getUint64 w.counter = p +
        ((((specWrites A p cs).map ChunkWrite.entry).filter
          (fun e => !bytesLt (w.counter.drop 8) (e.1.drop lengthAddr))).map
          (fun e => e.2.length / 8)).sum := by
  induction cs generalizing p with
  | nil => simp [specWrites]
  | cons c cs ih =>
    have hb' : p + c.length + cs.flatten.length < 2 ^ 64 := by
      simp only [List.flatten_cons, List.length_append] at hb; omega
    unfold TableSorted at hs
    simp only [specWrites, List.map_cons, ChunkWrite.entry] at hs
    rw [List.pairwise_cons] at hs
    intro w hw
    simp only [specWrites, List.mem_cons] at hw
    generalize hterm : (if cs.isEmpty then putUint64 maxUint64
      else putUint64 (c.getLast?.getD 0)) = term at hw hs
    have hterm8 : term.length = 8 := by
      rw [← hterm]; split <;> exact putUint64_length _
    have hsz : (encodeIds c).length / 8 = c.length := by
      rw [encodeIds_length, Nat.mul_div_cancel_left _ (by norm_num : 0 < 8)]
    simp only [specWrites, List.map_cons, ChunkWrite.entry, hterm, List.filter_cons,
      drop_append_addr hA]
    rcases hw with hw | hw
    · subst hw
      have hdrop : (putUint64 (p + c.length) ++ term).drop 8 = term :=
        List.drop_left' (putUint64_length _)
      simp only [hdrop, bytesLt_irrefl, Bool.not_false, if_true, List.map_cons, List.sum_cons,
        hsz]
      have hrest : List.filter (fun e => !bytesLt term (List.drop lengthAddr e.1))
          (List.map ChunkWrite.entry (specWrites A (p + c.length) cs)) = [] := by
        rw [List.filter_eq_nil_iff]
        intro e he
        have hlt := hs.1 e he
        obtain ⟨w', hw', rfl⟩ := List.mem_map.1 he
        have hk := specWrites_key hA _ _ w' hw'
        have hkey : w'.entry.1 = A ++ w'.entry.1.drop lengthAddr := by
          conv_lhs => rw [← List.take_append_drop lengthAddr w'.entry.1]
          show List.take lengthAddr w'.key ++ _ = _
          rw [hk]
        rw [hkey, bytesLt_append_left] at hlt
        simp [hlt]
      rw [hrest]
      refine ⟨by rw [List.length_append, putUint64_length, hterm8], ?_⟩
      rw [getUint64_putUint64 _ (by omega)]
      simp
    · obtain ⟨h16, hcum⟩ := ih (p + c.length) hs.2 hb' w hw
      refine ⟨h16, ?_⟩
      have hlt := hs.1 w.entry (List.mem_map.2 ⟨w, hw, rfl⟩)
      rw [hcum]
      obtain ⟨t, q, ht8, hkey, hcounter⟩ := mem_specWrites_shape hw
      have hdrop : w.counter.drop 8 = t := by
        rw [hcounter]; exact List.drop_left' (putUint64_length _)
      have hlt' : bytesLt term t = true := by
        have : w.entry.1 = A ++ t := hkey
        rw [this, bytesLt_append_left] at hlt
        exact hlt
      rw [hdrop, bytesLt_asymm hlt']
      simp only [Bool.not_false, if_true, List.map_cons, List.sum_cons, hsz]
      omega



theorem inv_store_level {A : Bytes} (hA : A.length = lengthAddr) {st : Store}
    {cs : List (List Nat)} (hinv : ChunkInv A st cs) (hctr : CounterInv A st cs)
    (hb : cs.flatten.length < 2 ^ 64) :
    (∀ r ∈ st.counter A, r.length = 16 → getUint64 r = idsUpTo A st (r.drop 8)) ∧
      countOf (st.counter A) = totalIds A st := by
  rw [totalIds_of_inv hinv]
  rcases hctr with ⟨hcs, h⟩ | ⟨c, hcs, hc256, h⟩ | ⟨hne, -, h⟩
  · subst hcs
    rw [h]
    exact ⟨by simp, rfl⟩
  · subst hcs
    rw [h]
    have hpos : 1 ≤ c.length := List.length_pos.2 (hinv.2.2.1 c (by simp))
    refine ⟨by simp, ?_⟩
    simp only [countOf, List.getLast?_singleton, List.length_singleton, if_true, List.headD_cons,
      List.flatten_cons, List.flatten_nil, List.append_nil]
    omega
  · have hsorted : TableSorted ((specWrites A 0 cs).map ChunkWrite.entry) := by
      have := chunksOf_sorted A st.index hinv.1
      rw [hinv.2.1] at this
      exact this
    have hcum := specWrites_cumulative hA 0 cs hsorted (by omega)
    constructor
    · intro r hr _
      rw [h] at hr
      obtain ⟨w, hw, rfl⟩ := List.mem_map.1 hr
      rw [(hcum w hw).2, Nat.zero_add, idsUpTo, hinv.2.1]
      rfl
    · rcases eq_nil_or_snoc cs with hcs | ⟨pre, c, hcs⟩
      · exact absurd hcs hne
      · subst hcs
        rw [h, regularCounters_concat]
        simp only [countOf, List.getLast?_concat]
        rw [if_neg (by rw [List.length_append, putUint64_length, putUint64_length]; omega)]
        rw [getUint64_putUint64 _ (by simpa using hb)]
        simp


/-! ## Sequences of loads -/

theorem Load_append (L : Nat) (st : Store) (a b : List (Bytes × Bitmap)) :
    Load L st (a ++ b) =
      match Load L st a with
      | .error e => .error e
      | .ok st' => Load L st' b := by
  induction a generalizing st with
  | nil => rfl
  | cons e a ih =>
    obtain ⟨k, S⟩ := e
    simp only [List.cons_append, Load]
    cases loadFunc L st k S with
    | error e => rfl
    | ok st' => exact ih st'

theorem LoadSeq_eq_Load (L : Nat) (st : Store) (bs : List (List (Bytes × Bitmap))) :
    LoadSeq L st bs = Load L st bs.flatten := by
  induction bs generalizing st with
  | nil => rfl
  | cons b bs ih =>
    rw [LoadSeq, List.flatten_cons, Load_append]
    cases Load L st b with
    | error e => rfl
    | ok st' => exact ih st'

theorem idsFor_append (A : Bytes) (a b : List (Bytes × Bitmap)) :
    idsFor A (a ++ b) = idsFor A a ++ idsFor A b := by
  simp [idsFor]

theorem idsFor_single_same (A : Bytes) (S : Bitmap) : idsFor A [(A, S)] = S := by
  simp [idsFor]

theorem idsFor_single_other {A k : Bytes} (h : k ≠ A) (S : Bitmap) : idsFor A [(k, S)] = [] := by
  simp [idsFor, h]

theorem idsFor_cons_same (A : Bytes) (S : Bitmap) (es : List (Bytes × Bitmap)) :
    idsFor A ((A, S) :: es) = S ++ idsFor A es := by
  simp [idsFor]

theorem idsFor_cons_other {A k : Bytes} (h : k ≠ A) (S : Bitmap) (es : List (Bytes × Bitmap)) :
    idsFor A ((k, S) :: es) = idsFor A es := by
  simp [idsFor, h]

theorem mem_idsFor {A : Bytes} {es : List (Bytes × Bitmap)} {x : Nat} (h : x ∈ idsFor A es) :
    ∃ e ∈ es, e.1 = A ∧ x ∈ e.2 := by
  unfold idsFor at h
  obtain ⟨l, hl, hx⟩ := List.mem_flatten.1 h
  obtain ⟨e, he, rfl⟩ := List.mem_map.1 hl
  have := List.mem_filter.1 he
  exact ⟨e, this.1, by simpa using this.2, hx⟩

theorem idsFor_length_le (A : Bytes) (es : List (Bytes × Bitmap)) :
    (idsFor A es).length ≤ (es.map Prod.snd).flatten.length := by
  induction es with
  | nil => simp [idsFor]
  | cons e es ih =>
    obtain ⟨k, S⟩ := e
    by_cases h : k = A
    · subst h
      rw [idsFor_cons_same]
      simp only [List.map_cons, List.flatten_cons, List.length_append]
      omega
    · rw [idsFor_cons_other h]
      simp only [List.map_cons, List.flatten_cons, List.length_append]
      omega

theorem maxId_sorted_aux (l : List Nat) (a : Nat) (hl : l.Pairwise (fun x y => x < y))
    (ha : ∀ x ∈ l, a ≤ x) : l.foldl max a = l.getLast?.getD a := by
  induction l generalizing a with
  | nil => rfl
  | cons x l ih =>
    rw [List.pairwise_cons] at hl
    have hax : max a x = x := Nat.max_eq_right (ha x (by simp))
    rw [List.foldl_cons, hax, ih x hl.2 (fun y hy => Nat.le_of_lt (hl.1 y hy))]
    cases l with
    | nil => rfl
    | cons y l =>
      rw [List.getLast?_cons_cons, List.getLast?_eq_getLast _ (by simp)]
      rfl

theorem maxId_sorted (l : List Nat) (hl : l.Pairwise (fun x y => x < y)) :
    maxId l = l.getLast?.getD 0 :=
  maxId_sorted_aux l 0 hl (fun _ _ => Nat.zero_le _)



theorem storeInv_empty : StoreInv Store.empty [] := by
  intro A _
  refine ⟨[], rfl, ⟨?_, rfl, by simp, ?_⟩, Or.inl ⟨rfl, rfl⟩⟩
  · exact List.Pairwise.nil
  · exact ⟨List.Pairwise.nil, by simp⟩

theorem storeInv_step (L : Nat) (st : Store) (done : List (Bytes × Bitmap)) (k : Bytes)
    (S : Bitmap) (hG : StoreInv st done) (hk : k.length = lengthAddr) (hS : S ≠ [])
    (hSok : BitmapOk S) (hgt : ∀ x ∈ S, ∀ y ∈ idsFor k done, y < x)
    (hb : (idsFor k done).length + S.length < 2 ^ 64) :
    ∃ st', loadFunc L st k S = .ok st' ∧ StoreInv st' (done ++ [(k, S)]) := by
  obtain ⟨cs, hflat, hinv, hctr⟩ := hG k hk
  have hsub : ∀ y ∈ cs.dropLast.flatten, y ∈ cs.flatten := by
    intro y hy
    obtain ⟨c, hc, hyc⟩ := List.mem_flatten.1 hy
    exact List.mem_flatten.2 ⟨c, List.mem_of_mem_dropLast hc, hyc⟩
  have hgt' : ∀ x ∈ S, ∀ y ∈ cs.dropLast.flatten, y < x :=
    fun x hx y hy => hgt x hx y (by rw [← hflat]; exact hsub y hy)
  have hbound : cs.flatten.length + S.length < 2 ^ 64 := by
    rw [hflat]; exact hb
  obtain ⟨st', newcs, hload, hnew, hinv', hctr', hother⟩ :=
    loadFunc_inv L st k S cs hk hS hSok hinv hctr hgt' hbound
  refine ⟨st', hload, ?_⟩
  intro A hA
  by_cases hAk : A = k
  · subst hAk
    refine ⟨cs.dropLast ++ newcs, ?_, hinv', hctr'⟩
    rw [idsFor_append, idsFor_single_same, ← hflat, List.flatten_append, hnew]
    have hlast : bmOr S (cs.getLast?.getD []) = cs.getLast?.getD [] ++ S := by
      apply sorted_ext (bmOr_sorted _ _ hSok.1)
      · refine List.pairwise_append.2 ⟨last_sorted hinv.2.2.2, hSok.1, ?_⟩
        intro y hy x hx
        apply hgt x hx y
        rw [← hflat]
        rcases eq_nil_or_snoc cs with hcs | ⟨pre, c, hcs⟩
        · subst hcs; simp at hy
        · subst hcs
          simp at hy
          simp [hy]
      · intro x
        rw [bmOr_mem, List.mem_append]
        tauto
    rw [hlast]
    rcases eq_nil_or_snoc cs with hcs | ⟨pre, c, hcs⟩
    · subst hcs; simp
    · subst hcs; simp
  · obtain ⟨csA, hflatA, hinvA, hctrA⟩ := hG A hA
    obtain ⟨hch, hcn⟩ := hother A hAk
    refine ⟨csA, ?_, ⟨hinv'.1, by rw [hch]; exact hinvA.2.1, hinvA.2.2.1, hinvA.2.2.2⟩, ?_⟩
    · rw [idsFor_append, idsFor_single_other (fun h => hAk h.symm), List.append_nil, hflatA]
    · unfold CounterInv at hctrA ⊢
      rw [hcn]; exact hctrA

theorem Load_storeInv (L : Nat) (es : List (Bytes × Bitmap)) :
    ∀ (done : List (Bytes × Bitmap)) (st : Store), StoreInv st done → DeltasOk es →
      DeltasIncreasing (done ++ es) → (∀ A, (idsFor A (done ++ es)).length < 2 ^ 64) →
      ∃ st', Load L st es = .ok st' ∧ StoreInv st' (done ++ es) := by
  induction es with
  | nil =>
    intro done st hG _ _ _
    exact ⟨st, rfl, by simpa using hG⟩
  | cons e es ih =>
    intro done st hG hok hinc hb
    obtain ⟨k, S⟩ := e
    obtain ⟨hk, hS, hSok⟩ := hok (k, S) (by simp)
    have hgt : ∀ x ∈ S, ∀ y ∈ idsFor k done, y < x := by
      intro x hx y hy
      obtain ⟨d, hd, hdk, hyd⟩ := mem_idsFor hy
      unfold DeltasIncreasing at hinc
      have := (List.pairwise_append.1 hinc).2.2 d hd (k, S) (by simp)
      exact this hdk y hyd x hx
    have hb1 : (idsFor k done).length + S.length < 2 ^ 64 := by
      have := hb k
      rw [idsFor_append, idsFor_cons_same, List.length_append, List.length_append] at this
      omega
    obtain ⟨st1, hload1, hG1⟩ := storeInv_step L st done k S hG hk hS hSok hgt hb1
    have hassoc : done ++ (k, S) :: es = (done ++ [(k, S)]) ++ es := by simp
    obtain ⟨st', hload', hG'⟩ := ih (done ++ [(k, S)]) st1 hG1
      (fun e he => hok e (by simp [he])) (by rw [← hassoc]; exact hinc)
      (by rw [← hassoc]; exact hb)
    refine ⟨st', ?_, by rw [hassoc]; exact hG'⟩
    simp only [Load, hload1]
    exact hload'



theorem putUint64_injective {a b : Nat} (ha : a < 2 ^ 64) (hb : b < 2 ^ 64)
    (h : putUint64 a = putUint64 b) : a = b := by
  have h1 := beUint_putUint64 a ha
  have h2 := beUint_putUint64 b hb
  rw [h] at h1
  omega

theorem chunkInv_terminators {A : Bytes} (hA : A.length = lengthAddr) {st : Store}
    {cs : List (List Nat)} (hinv : ChunkInv A st cs) (hne : cs ≠ []) :
    ((chunksOf A st.index).filter
        (fun e => decide (e.1.drop lengthAddr = putUint64 maxUint64))).length = 1 ∧
      ∀ e ∈ chunksOf A st.index, e.1.drop lengthAddr ≠ putUint64 maxUint64 →
        decodeIds e.2 ≠ [] ∧ e.1.drop lengthAddr = putUint64 (maxId (decodeIds e.2)) := by
  rcases eq_nil_or_snoc cs with hcs | ⟨pre, c, hcs⟩
  · exact absurd hcs hne
  · subst hcs
    obtain ⟨-, hch, hcne, hok⟩ := hinv
    rw [hch, chunkEntries_concat]
    have hnf : ∀ e ∈ (nfWrites A 0 pre).map ChunkWrite.entry,
        e.1.drop lengthAddr ≠ putUint64 maxUint64 ∧ decodeIds e.2 ≠ [] ∧
          e.1.drop lengthAddr = putUint64 (maxId (decodeIds e.2)) := by
      intro e he
      have hlt := nfEntries_lt_final hcne hok e he
      obtain ⟨c', hc', rfl⟩ := mem_nfWrites_entry he
      have hc'mem : c' ∈ pre ++ [c] := by simp [hc']
      have hc'b : ∀ x ∈ c', x < 2 ^ 64 :=
        fun x hx => hok.2 x (List.mem_flatten.2 ⟨c', hc'mem, hx⟩)
      have hc's : c'.Pairwise (fun x y => x < y) := by
        have h1 := hok.1
        rw [List.pairwise_flatten] at h1
        exact h1.1 c' hc'mem
      simp only [drop_append_addr hA]
      rw [bytesLt_append_left] at hlt
      refine ⟨ne_of_bytesLt hlt, ?_, ?_⟩
      · rw [decodeIds_encodeIds c' hc'b]; exact hcne c' hc'mem
      · rw [decodeIds_encodeIds c' hc'b, maxId_sorted c' hc's]
    constructor
    · rw [List.filter_append]
      have h0 : List.filter (fun e => decide (List.drop lengthAddr e.1 = putUint64 maxUint64))
          (List.map ChunkWrite.entry (nfWrites A 0 pre)) = [] := by
        rw [List.filter_eq_nil_iff]
        intro e he
        simpa using (hnf e he).1
      rw [h0]
      simp [drop_append_addr hA]
    · intro e he hterm
      rcases List.mem_append.1 he with he | he
      · exact (hnf e he).2
      · simp only [List.mem_singleton] at he
        subst he
        exact absurd (drop_append_addr hA _) hterm


/-! ## Loads in any order -/

theorem loadFunc_ok_inv {L : Nat} {st st' : Store} {k : Bytes} {S : Bitmap}
    (h : loadFunc L st k S = .ok st') (hk : k.length = lengthAddr) :
    ∃ M sc, mergeLastChunk S k st.index = .ok M ∧ scanCounter k st.counter = .ok sc ∧
      st' = applyWrites k (loadWrites L k sc M) ⟨st.index, sc.counter⟩ := by
  have htake : k.take lengthAddr = k := List.take_of_length_le (by omega)
  cases hM : mergeLastChunk S k st.index with
  | error e =>
    unfold loadFunc at h
    rw [if_neg (by omega)] at h
    simp only [htake, hM] at h
    exact absurd h (by simp)
  | ok M =>
    cases hsc : scanCounter k st.counter with
    | error e =>
      unfold loadFunc at h
      rw [if_neg (by omega)] at h
      simp only [htake, hM, hsc] at h
      exact absurd h (by simp)
    | ok sc =>
      refine ⟨M, sc, rfl, rfl, ?_⟩
      have := loadFunc_writes L st k S M sc hk hM hsc
      rw [h] at this
      injection this

theorem loadFunc_frame {L : Nat} {st st' : Store} {k : Bytes} {S : Bitmap}
    (h : loadFunc L st k S = .ok st') (hk : k.length = lengthAddr) :
    (TableSorted st.index → TableSorted st'.index) ∧
      ∀ B, B ≠ k → chunksOf B st'.index = chunksOf B st.index ∧ st'.counter B = st.counter B := by
  obtain ⟨M, sc, -, hsc, hst'⟩ := loadFunc_ok_inv h hk
  subst hst'
  refine ⟨fun hs => ?_, fun B hB => ?_⟩
  · rw [applyWrites_index]; exact putAll_sorted _ _ hs
  · rw [applyWrites_index, loadFunc_counter_other hB hsc]
    exact ⟨chunksOf_putAll_other _ (loadWrites_key hk L sc M) hB _, rfl⟩

theorem tableGet_tablePut_same (k v : Bytes) (t : Table) :
    tableGet k (tablePut k v t) = some v := by
  induction t with
  | nil => simp [tablePut, tableGet]
  | cons e t ih =>
    obtain ⟨k', v'⟩ := e
    simp only [tablePut]
    split
    · simp [tableGet]
    · split
      · simp [tableGet]
      · rename_i h1 h2
        simp only [tableGet, h2, if_false]
        exact ih

theorem tableGet_tablePut_isSome (k k' v : Bytes) (t : Table)
    (h : (tableGet k t).isSome = true) : (tableGet k (tablePut k' v t)).isSome = true := by
  by_cases hk : k = k'
  · subst hk; rw [tableGet_tablePut_same]; rfl
  · induction t with
    | nil => simp [tableGet] at h
    | cons e t ih =>
      obtain ⟨k'', v''⟩ := e
      simp only [tablePut]
      split
      · simp only [tableGet, hk, if_false]; exact h
      · split
        · rename_i h1 h2
          subst h2
          simp only [tableGet, hk, if_false] at h ⊢
          exact h
        · simp only [tableGet] at h ⊢
          split
          · rfl
          · rename_i hne
            rw [if_neg hne] at h
            exact ih h

theorem tableGet_putAll_isSome (k : Bytes) (ws : List ChunkWrite) (t : Table)
    (h : (∃ w ∈ ws, w.key = k) ∨ (tableGet k t).isSome = true) :
    (tableGet k (putAll ws t)).isSome = true := by
  induction ws generalizing t with
  | nil =>
    rcases h with ⟨w, hw, -⟩ | h
    · simp at hw
    · exact h
  | cons w ws ih =>
    simp only [putAll]
    apply ih
    rcases h with ⟨w', hw', hk⟩ | h
    · rcases List.mem_cons.1 hw' with hw' | hw'
      · subst hw'
        right; rw [hk, tableGet_tablePut_same]; rfl
      · exact Or.inl ⟨w', hw', hk⟩
    · exact Or.inr (tableGet_tablePut_isSome _ _ _ _ h)

theorem putAll_append (a b : List ChunkWrite) (t : Table) :
    putAll (a ++ b) t = putAll b (putAll a t) := by
  induction a generalizing t with
  | nil => rfl
  | cons w a ih =>
    rw [List.cons_append, putAll, putAll]
    exact ih _

theorem mergeLastChunk_some {A : Bytes} (hA : A.length = lengthAddr) {index : Table}
    {ids : List Nat} (hget : tableGet (A ++ putUint64 maxUint64) index = some (encodeIds ids))
    (hok : BitmapOk ids) (S : Bitmap) : mergeLastChunk S A index = .ok (bmOr S ids) := by
  unfold mergeLastChunk
  simp only [copyInto_of_length hA, hget, decodeChunk_encodeIds ids hok.2, bmOr_nil_left ids hok.1]

theorem two_keys_length {k1 k2 : Bytes} (hne : k1 ≠ k2) (t : Table)
    (h1 : (tableGet k1 t).isSome = true) (h2 : (tableGet k2 t).isSome = true) :
    2 ≤ t.length := by
  match t with
  | [] => simp [tableGet] at h1
  | [(k, v)] =>
    simp only [tableGet] at h1 h2
    by_cases hk1 : k1 = k
    · by_cases hk2 : k2 = k
      · exact absurd (hk1.trans hk2.symm) hne
      · simp [hk2] at h2
    · simp [hk1] at h1
  | _ :: _ :: _ => simp

theorem mem_of_tableGet {k v : Bytes} {t : Table} (h : tableGet k t = some v) : (k, v) ∈ t := by
  induction t with
  | nil => simp [tableGet] at h
  | cons e t ih =>
    obtain ⟨k', v'⟩ := e
    simp only [tableGet] at h
    split at h
    · rename_i hk
      injection h with h
      subst hk; subst h
      exact List.mem_cons_self _ _
    · exact List.mem_cons_of_mem _ (ih h)



theorem nfWrites_counter_getLast_p (A : Bytes) (p : Nat) (pre : List (List Nat)) (c : List Nat) :
    ((nfWrites A p (pre ++ [c])).map ChunkWrite.counter).getLast? =
      some (putUint64 (p + pre.flatten.length + c.length) ++ putUint64 (c.getLast?.getD 0)) := by
  rw [nfWrites_append]
  simp [nfWrites]

theorem prevCount_concat (l : List Bytes) (x y : Bytes) :
    prevCount (l ++ [x]) = prevCount (l ++ [y]) := by
  unfold prevCount
  rw [List.dropLast_concat, List.dropLast_concat]

theorem isCut_last_ok {L : Nat} {M : Bitmap} (hM : BitmapOk M) {cpre : List (List Nat)}
    {clast : List Nat} (hcut : IsCut L M (cpre ++ [clast])) :
    BitmapOk clast ∧ clast ≠ [] ∧ M.length = cpre.flatten.length + clast.length ∧
      (∀ c ∈ cpre, c ≠ []) ∧
      ∀ x ∈ cpre.flatten, ∀ y ∈ clast, x < y := by
  have hflat : cpre.flatten ++ clast = M := by
    have := hcut.1
    simpa using this
  have hs := hM.1
  rw [← hflat] at hs
  refine ⟨⟨(List.pairwise_append.1 hs).2.1, fun x hx => hM.2 x (by rw [← hflat]; simp [hx])⟩,
    (hcut.2.1 clast (by simp)).1, by rw [← hflat]; simp,
    fun c hc => (hcut.2.1 c (by simp [hc])).1, (List.pairwise_append.1 hs).2.2⟩

theorem regularInv_step (L : Nat) (st : Store) (k : Bytes) (S : Bitmap) (n : Nat)
    (hk : k.length = lengthAddr) (hS : S ≠ []) (hSok : BitmapOk S)
    (hsorted : TableSorted st.index) (hR : RegularInv k st n) (hb : n + S.length < 2 ^ 64) :
    ∃ st', loadFunc L st k S = .ok st' ∧ RegularInv k st' (n + S.length) := by
  obtain ⟨ids, pre, p0, hidsok, hidsne, hget, hctr, hshape, hprev, hle, hp4⟩ := hR
  have hkey : (k ++ putUint64 maxUint64).take lengthAddr = k := take_append_addr hk _
  have hget' : tableGet (k ++ putUint64 maxUint64) st.index = some (encodeIds ids) := by
    rw [← tableGet_chunksOf k _ hkey]; exact hget
  have hM := mergeLastChunk_some hk hget' hidsok S
  have hMok : BitmapOk (bmOr S ids) := merged_ok hSok hidsok.2
  have hMne : bmOr S ids ≠ [] := merged_ne_nil ids hS
  have hMle := bmOr_length_le S ids
  have hMge := bmOr_length_ge S ids hidsok.1
  generalize bmOr S ids = M at *
  have h16 : ∀ r ∈ st.counter k, r.length = 16 := by
    intro r hr
    rw [hctr] at hr
    rcases List.mem_append.1 hr with hr | hr
    · obtain ⟨q, t, hrq, ht, -⟩ := hshape r hr
      rw [hrq, List.length_append, putUint64_length, ht]
    · simp only [List.mem_singleton] at hr
      rw [hr, List.length_append, putUint64_length, putUint64_length]
  have hread : CounterReadable (st.counter k) := Or.inr (Or.inr ⟨h16, pre, _, hctr⟩)
  obtain ⟨sc, hsc⟩ := scanCounter_readable k st.counter hread
  obtain ⟨-, hp, hf, hu, -⟩ := scanCounter_ok hsc
  have hbranch : optimizedBranch sc M = false := by
    have hfound : sc.found = true := by rw [hf, hctr]; simp
    have hnu : sc.isUniqueChunk = false := by
      cases hiu : sc.isUniqueChunk with
      | false => rfl
      | true =>
        obtain ⟨b, hb'⟩ := hu.1 hiu
        have := h16 [b] (by rw [hb']; simp)
        simp at this
    unfold optimizedBranch
    rw [hfound, hnu]; rfl
  have hp0 : sc.prevCounter = p0 := by rw [hp, hprev]
  have hload := loadFunc_writes L st k S M sc hk hM hsc
  rw [loadWrites_regular _ _ _ _ hbranch, hp0] at hload
  have hcut := cutter_isCut L M
  have hcutne : cutter L M [] ≠ [] := by
    intro h0
    have := hcut.1
    rw [h0] at this
    exact hMne this.symm
  obtain ⟨cpre, clast, hsplit⟩ : ∃ cpre clast, cutter L M [] = cpre ++ [clast] := by
    rcases eq_nil_or_snoc (cutter L M []) with h | h
    · exact absurd h hcutne
    · exact h
  rw [hsplit] at hload hcut
  obtain ⟨hclok, hclne, hMlen, hcprene, hcplt⟩ := isCut_last_ok hMok hcut
  have hwrites : specWrites k p0 (cpre ++ [clast]) = nfWrites k p0 cpre ++
      [⟨k ++ putUint64 maxUint64, encodeIds clast,
        putUint64 (p0 + cpre.flatten.length + clast.length) ++ putUint64 maxUint64⟩] := by
    rw [specWrites_append k p0 cpre [clast] (by simp), specWrites_singleton]
  have hdropc : (st.counter k).dropLast = pre := by rw [hctr, List.dropLast_concat]
  have hchunks : chunksOf k (putAll (specWrites k p0 (cpre ++ [clast])) st.index) =
      putAll (specWrites k p0 (cpre ++ [clast])) (chunksOf k st.index) :=
    chunksOf_putAll_same _ (specWrites_key hk _ _) _ hsorted
  refine ⟨_, hload, clast, pre ++ (nfWrites k p0 cpre).map ChunkWrite.counter,
    p0 + cpre.flatten.length, hclok, hclne, ?_, ?_, ?_, ?_, by omega, ?_⟩
  · -- the last chunk
    rw [applyWrites_index, hchunks, hwrites, putAll_append]
    exact tableGet_tablePut_same _ _ _
  · -- the counter records
    rw [loadFunc_counter_same hsc, hdropc]
    rw [insertAll_specWrites k p0 _ pre
      (by intro c hc
          rcases List.mem_append.1 hc with hc | hc
          · exact hcprene c hc
          · simp only [List.mem_singleton] at hc; rw [hc]; exact hclne)
      (by rw [hcut.1]; omega)
      (by intro w hw q term hq hq2
          obtain ⟨q', t', hw', -, hq'⟩ := hshape w hw
          rw [hw']
          exact counter_lt (by omega) hq2 _ _)]
    rw [hwrites]
    simp
  · -- the shape of the earlier records
    intro r hr
    rcases List.mem_append.1 hr with hr | hr
    · obtain ⟨q, t, hrq, ht, hq⟩ := hshape r hr
      exact ⟨q, t, hrq, ht, by omega⟩
    · exact mem_nfWrites_counter hr
  · -- the count read back by the next load
    rw [loadFunc_counter_same hsc, hdropc]
    rw [insertAll_specWrites k p0 _ pre
      (by intro c hc
          rcases List.mem_append.1 hc with hc | hc
          · exact hcprene c hc
          · simp only [List.mem_singleton] at hc; rw [hc]; exact hclne)
      (by rw [hcut.1]; omega)
      (by intro w hw q term hq hq2
          obtain ⟨q', t', hw', -, hq'⟩ := hshape w hw
          rw [hw']
          exact counter_lt (by omega) hq2 _ _)]
    rw [hwrites, List.map_append, ← List.append_assoc]
    simp only [List.map_cons, List.map_nil]
    rcases eq_nil_or_snoc cpre with hc0 | ⟨cpre', c', hc0⟩
    · subst hc0
      simp only [nfWrites, List.map_nil, List.append_nil, List.flatten_nil, List.length_nil,
        Nat.add_zero]
      rw [← hprev, hctr]
      exact prevCount_concat _ _ _
    · subst hc0
      unfold prevCount
      rw [List.dropLast_concat, List.getLast?_append, nfWrites_counter_getLast_p]
      simp only [Option.or_some]
      rw [List.take_left' (putUint64_length _)]
      have := getUint64_putUint64 (p0 + cpre'.flatten.length + c'.length)
        (by simp only [List.flatten_append, List.flatten_cons, List.flatten_nil,
              List.append_nil, List.length_append] at hMlen; omega) []
      simp only [List.append_nil] at this
      rw [this]
      simp
      omega
  · -- not a single chunk of at most 256 ids
    rcases hp4 with h256 | ⟨k', hk', hsome⟩
    · rcases eq_nil_or_snoc cpre with hc0 | ⟨cpre', c', hc0⟩
      · subst hc0
        left
        simp only [List.flatten_nil, List.length_nil, Nat.zero_add] at hMlen
        omega
      · right
        obtain ⟨c1, crest, hc1⟩ : ∃ c1 crest, cpre = c1 :: crest := by
          cases cpre with
          | nil => simp at hc0
          | cons c1 crest => exact ⟨c1, crest, rfl⟩
        subst hc1
        have hc1ne : c1 ≠ [] := hcprene c1 (by simp)
        obtain ⟨y, hy⟩ := List.exists_mem_of_ne_nil clast hclne
        have hlt : c1.getLast?.getD 0 < y :=
          hcplt _ (List.mem_flatten.2 ⟨c1, by simp, getLast_mem hc1ne⟩) y hy
        have hkey1 : k ++ putUint64 (c1.getLast?.getD 0) ≠ k ++ putUint64 maxUint64 :=
          ne_of_bytesLt (key_lt_of_lt k (lt_maxUint64_of_lt hlt (hclok.2 y hy)) maxUint64_lt)
        refine ⟨_, hkey1, ?_⟩
        rw [applyWrites_index, hchunks]
        apply tableGet_putAll_isSome
        left
        rw [hwrites]
        exact ⟨⟨k ++ putUint64 (c1.getLast?.getD 0), encodeIds c1,
          putUint64 (p0 + c1.length) ++ putUint64 (c1.getLast?.getD 0)⟩,
          by simp [nfWrites], rfl⟩
    · right
      refine ⟨k', hk', ?_⟩
      rw [applyWrites_index, hchunks]
      exact tableGet_putAll_isSome _ _ _ (Or.inr hsome)



theorem regularInv_of_inv {A : Bytes} {st : Store}
    {cs : List (List Nat)} (hinv : ChunkInv A st cs) (hctr : CounterInv A st cs)
    (h2 : 2 ≤ cs.length) {n : Nat} (hn : cs.flatten.length ≤ n) (hn64 : n < 2 ^ 64) :
    RegularInv A st n := by
  obtain ⟨pre, c, hcs⟩ : ∃ pre c, cs = pre ++ [c] := by
    rcases eq_nil_or_snoc cs with h | h
    · subst h; simp at h2
    · exact h
  subst hcs
  obtain ⟨c1, prest, hpre⟩ : ∃ c1 prest, pre = c1 :: prest := by
    cases pre with
    | nil => simp at h2
    | cons c1 prest => exact ⟨c1, prest, rfl⟩
  obtain ⟨-, hch, hcne, hok⟩ := hinv
  have hcounter : st.counter A = regularCounters A (pre ++ [c]) := by
    rcases hctr with ⟨h, -⟩ | ⟨c', h, -, -⟩ | ⟨-, -, h⟩
    · simp at h
    · rw [h] at h2
      simp at h2
    · exact h
  have hlen : (pre ++ [c]).flatten.length = pre.flatten.length + c.length := by simp
  have hlast := last_bound hok
  have hlasts := last_sorted hok
  simp only [List.getLast?_concat, Option.getD_some] at hlast hlasts
  have hfinal : tableGet (A ++ putUint64 maxUint64) (chunksOf A st.index) =
      some (encodeIds c) := by
    rw [hch, chunkEntries_concat, tableGet_append_of_ne _ _
      (fun e he => ne_of_bytesLt (nfEntries_lt_final hcne hok e he))]
    simp [tableGet]
  refine ⟨c, (nfWrites A 0 pre).map ChunkWrite.counter, pre.flatten.length, ⟨hlasts, hlast⟩,
    hcne c (by simp), hfinal, ?_, ?_, ?_, by omega, Or.inr ?_⟩
  · rw [hcounter, regularCounters_concat]
  · intro r hr
    obtain ⟨q, t, hrq, ht, hq⟩ := mem_nfWrites_counter hr
    exact ⟨q, t, hrq, ht, by omega⟩
  · rw [hcounter, regularCounters_concat]
    exact prevCount_regular A pre _ (by omega)
  · subst hpre
    have hkey1 := nfEntries_lt_final (A := A) hcne hok
      (A ++ putUint64 (c1.getLast?.getD 0), encodeIds c1) (by simp [nfWrites, ChunkWrite.entry])
    refine ⟨A ++ putUint64 (c1.getLast?.getD 0), ne_of_bytesLt hkey1, ?_⟩
    rw [hch, chunkEntries_concat]
    simp [nfWrites, ChunkWrite.entry, tableGet]

theorem anyOrderInv_frame {B : Bytes} {st st' : Store} {n n' : Nat}
    (hch : chunksOf B st'.index = chunksOf B st.index) (hcn : st'.counter B = st.counter B)
    (hs : TableSorted st'.index) (hn : n ≤ n') (h : AnyOrderInv B st n) :
    AnyOrderInv B st' n' := by
  rcases h with ⟨cs, hinv, hctr, hle⟩ | ⟨ids, pre, p0, h1, h2, h3, h4, h5, h6, h7, h8⟩
  · left
    refine ⟨cs, ⟨hs, by rw [hch]; exact hinv.2.1, hinv.2.2.1, hinv.2.2.2⟩, ?_, by omega⟩
    unfold CounterInv at hctr ⊢
    rw [hcn]; exact hctr
  · right
    refine ⟨ids, pre, p0, h1, h2, by rw [hch]; exact h3, by rw [hcn]; exact h4, h5,
      by rw [hcn]; exact h6, by omega, ?_⟩
    rw [hch]; exact h8

theorem anyOrderInv_step (L : Nat) (st : Store) (k : Bytes) (S : Bitmap) (n : Nat)
    (hk : k.length = lengthAddr) (hS : S ≠ []) (hSok : BitmapOk S)
    (hsorted : TableSorted st.index) (hW : AnyOrderInv k st n) (hb : n + S.length < 2 ^ 64) :
    ∃ st', loadFunc L st k S = .ok st' ∧ AnyOrderInv k st' (n + S.length) := by
  rcases hW with ⟨cs, hinv, hctr, hle⟩ | hR
  · rcases Nat.lt_or_ge 1 cs.length with h2 | h1
    · obtain ⟨st', hload, hR'⟩ := regularInv_step L st k S n hk hS hSok hsorted
        (regularInv_of_inv hinv hctr h2 hle (by omega)) hb
      exact ⟨st', hload, Or.inr hR'⟩
    · have hd : cs.dropLast = [] := by
        match cs, h1 with
        | [], _ => rfl
        | [c], _ => rfl
      obtain ⟨st', newcs, hload, hflat, hinv', hctr', -⟩ := loadFunc_inv L st k S cs hk hS hSok
        hinv hctr (by rw [hd]; simp) (by omega)
      refine ⟨st', hload, Or.inl ⟨_, hinv', hctr', ?_⟩⟩
      have h1' := bmOr_length_le S (cs.getLast?.getD [])
      have h2' := flatten_length_split cs
      rw [hd, List.nil_append, hflat]
      omega
  · obtain ⟨st', hload, hR'⟩ := regularInv_step L st k S n hk hS hSok hsorted hR hb
    exact ⟨st', hload, Or.inr hR'⟩

theorem Load_anyOrder (L : Nat) (es : List (Bytes × Bitmap)) :
    ∀ (done : List (Bytes × Bitmap)) (st : Store), TableSorted st.index →
      (∀ A, A.length = lengthAddr → AnyOrderInv A st (idsFor A done).length) → DeltasOk es →
      (∀ A, (idsFor A (done ++ es)).length < 2 ^ 64) →
      ∃ st', Load L st es = .ok st' ∧ TableSorted st'.index ∧
        ∀ A, A.length = lengthAddr → AnyOrderInv A st' (idsFor A (done ++ es)).length := by
  induction es with
  | nil =>
    intro done st hs hW _ _
    exact ⟨st, rfl, hs, by simpa using hW⟩
  | cons e es ih =>
    intro done st hs hW hok hb
    obtain ⟨k, S⟩ := e
    obtain ⟨hk, hS, hSok⟩ := hok (k, S) (by simp)
    have hb1 : (idsFor k done).length + S.length < 2 ^ 64 := by
      have := hb k
      rw [idsFor_append, idsFor_cons_same, List.length_append, List.length_append] at this
      omega
    obtain ⟨st1, hload1, hW1⟩ := anyOrderInv_step L st k S _ hk hS hSok hs (hW k hk) hb1
    obtain ⟨hs1, hframe⟩ := loadFunc_frame hload1 hk
    have hW1' : ∀ A, A.length = lengthAddr →
        AnyOrderInv A st1 (idsFor A (done ++ [(k, S)])).length := by
      intro A hA
      by_cases hAk : A = k
      · subst hAk
        rw [idsFor_append, idsFor_single_same, List.length_append]
        exact hW1
      · obtain ⟨hch, hcn⟩ := hframe A hAk
        rw [idsFor_append, idsFor_single_other (fun h => hAk h.symm), List.append_nil]
        exact anyOrderInv_frame hch hcn (hs1 hs) (Nat.le_refl _) (hW A hA)
    have hassoc : done ++ (k, S) :: es = (done ++ [(k, S)]) ++ es := by simp
    obtain ⟨st', hload', hs', hW'⟩ := ih (done ++ [(k, S)]) st1 (hs1 hs) hW1'
      (fun e he => hok e (by simp [he])) (by rw [← hassoc]; exact hb)
    refine ⟨st', ?_, hs', by rw [hassoc]; exact hW'⟩
    simp only [Load, hload1]; exact hload'

theorem specWrites_length (A : Bytes) (p : Nat) (cs : List (List Nat)) :
    (specWrites A p cs).length = cs.length := by
  induction cs generalizing p with
  | nil => rfl
  | cons c cs ih => simp only [specWrites, List.length_cons, ih]

theorem regularCounters_length16 (A : Bytes) (cs : List (List Nat)) :
    ∀ r ∈ regularCounters A cs, r.length = 16 := by
  intro r hr
  obtain ⟨w, hw, rfl⟩ := List.mem_map.1 hr
  obtain ⟨t, q, ht, -, hc⟩ := mem_specWrites_shape hw
  rw [hc, List.length_append, putUint64_length, ht]

theorem anyOrderInv_reading {A : Bytes} {st : Store} {n : Nat} (h : AnyOrderInv A st n) :
    ((∃ r ∈ st.counter A, r.length = 1) ↔
        ((chunksOf A st.index).length = 1 ∧
          ∀ e ∈ chunksOf A st.index, e.2.length / 8 ≤ 256)) ∧
      ((∃ r ∈ st.counter A, r.length = 1) → (st.counter A).length = 1) ∧
      ((¬ ∃ r ∈ st.counter A, r.length = 1) → ∀ r ∈ st.counter A, r.length = 16) := by
  have hsize : ∀ c : List Nat, (encodeIds c).length / 8 = c.length := by
    intro c
    rw [encodeIds_length, Nat.mul_div_cancel_left _ (by norm_num : 0 < 8)]
  rcases h with ⟨cs, hinv, hctr, -⟩ | ⟨ids, pre, p0, -, -, hget, hctr, hshape, -, -, hp4⟩
  · rcases hctr with ⟨hcs, hc⟩ | ⟨c, hcs, h256, hc⟩ | ⟨hne, hp4, hc⟩
    · subst hcs
      rw [hc, hinv.2.1]
      simp [chunkEntries, specWrites]
    · subst hcs
      rw [hc, hinv.2.1]
      simp [chunkEntries, specWrites, ChunkWrite.entry, hsize, h256]
    · have h16 := regularCounters_length16 A cs
      rw [← hc] at h16
      have hno : ¬ ∃ r ∈ st.counter A, r.length = 1 := by
        rintro ⟨r, hr, h1⟩
        have := h16 r hr
        omega
      refine ⟨⟨fun h => absurd h hno, ?_⟩, fun h => absurd h hno, fun _ => h16⟩
      rintro ⟨hlen, hall⟩
      rw [hinv.2.1] at hlen hall
      have hl : cs.length = 1 := by
        rw [chunkEntries, List.length_map, specWrites_length] at hlen
        exact hlen
      obtain ⟨c, hcs⟩ := List.length_eq_one.1 hl
      subst hcs
      have := hall (A ++ putUint64 maxUint64, encodeIds c)
        (by simp [chunkEntries, specWrites, ChunkWrite.entry])
      simp only [hsize] at this
      rcases hp4 with h | h
      · simp at h
      · simp at h; omega
  · have h16 : ∀ r ∈ st.counter A, r.length = 16 := by
      intro r hr
      rw [hctr] at hr
      rcases List.mem_append.1 hr with hr | hr
      · obtain ⟨q, t, hrq, ht, -⟩ := hshape r hr
        rw [hrq, List.length_append, putUint64_length, ht]
      · simp only [List.mem_singleton] at hr
        rw [hr, List.length_append, putUint64_length, putUint64_length]
    have hno : ¬ ∃ r ∈ st.counter A, r.length = 1 := by
      rintro ⟨r, hr, h1⟩
      have := h16 r hr
      omega
    refine ⟨⟨fun h => absurd h hno, ?_⟩, fun h => absurd h hno, fun _ => h16⟩
    rintro ⟨hlen, hall⟩
    rcases hp4 with h256 | ⟨k', hk', hsome⟩
    · have := hall _ (mem_of_tableGet hget)
      simp only [hsize] at this
      omega
    · have := two_keys_length hk' _ hsome (by rw [hget]; rfl)
      omega


/-- The tail of a cut is a cut of the remaining ids. -/
theorem isCut_tail {L : Nat} {c : List Nat} {rest : List (List Nat)} {ids : List Nat}
    (h : IsCut L ids (c :: rest)) : IsCut L rest.flatten rest := by
  refine ⟨rfl, fun x hx => h.2.1 x (List.mem_cons_of_mem _ hx), ?_⟩
  intro x hx
  apply h.2.2 x
  have hne : rest ≠ [] := by
    intro h0; subst h0; simp at hx
  rw [List.dropLast_cons_of_ne_nil hne]
  exact List.mem_cons_of_mem _ hx

/-- Two cuts of the same ids: the first chunk of one is no longer than that of the other. -/
theorem isCut_head_le {L : Nat} {ids c c' : List Nat} {rest rest' : List (List Nat)}
    (h : IsCut L ids (c :: rest)) (h' : IsCut L ids (c' :: rest')) :
    c.length ≤ c'.length := by
  rcases Nat.lt_or_ge c'.length c.length with hlt | hge
  · exfalso
    have hflat : c ++ rest.flatten = c' ++ rest'.flatten := by
      have h1 := h.1
      have h2 := h'.1
      simp only [List.flatten_cons] at h1 h2
      rw [h1, h2]
    have hc'ne : c' ≠ [] := (h'.2.1 c' (by simp)).1
    have hpos : 0 < c'.length := List.length_pos.2 hc'ne
    have hlow := (h.2.1 c (by simp)).2 c'.length hpos hlt
    have hrest' : rest' ≠ [] := by
      intro h0
      subst h0
      have := congrArg List.length hflat
      simp only [List.length_append, List.flatten_nil, List.length_nil] at this
      omega
    have hfull := h'.2.2 c' (by rw [List.dropLast_cons_of_ne_nil hrest']; simp)
    omega
  · exact hge

/-- The conditions of `IsCut` determine the split: a list of ids has one cut only. -/
theorem isCut_unique {L : Nat} {ids : List Nat} {cs cs' : List (List Nat)}
    (h : IsCut L ids cs) (h' : IsCut L ids cs') : cs = cs' := by
  induction cs generalizing ids cs' with
  | nil =>
    cases cs' with
    | nil => rfl
    | cons c' rest' =>
      exfalso
      have h1 := h.1
      have h2 := h'.1
      simp only [List.flatten_nil] at h1
      rw [← h1] at h2
      have hne := (h'.2.1 c' (by simp)).1
      simp only [List.flatten_cons, List.append_eq_nil] at h2
      exact hne h2.1
  | cons c rest ih =>
    cases cs' with
    | nil =>
      exfalso
      have h1 := h.1
      have h2 := h'.1
      simp only [List.flatten_nil] at h2
      rw [← h2] at h1
      have hne := (h.2.1 c (by simp)).1
      simp only [List.flatten_cons, List.append_eq_nil] at h1
      exact hne h1.1
    | cons c' rest' =>
      have hlen : c.length = c'.length :=
        Nat.le_antisymm (isCut_head_le h h') (isCut_head_le h' h)
      have hflat : c ++ rest.flatten = c' ++ rest'.flatten := by
        have h1 := h.1
        have h2 := h'.1
        simp only [List.flatten_cons] at h1 h2
        rw [h1, h2]
      obtain ⟨hc, hr⟩ := List.append_inj hflat hlen
      subst hc
      have ht := isCut_tail h
      have ht' := isCut_tail h'
      rw [← hr] at ht'
      rw [ih ht ht']

theorem beUint_lt (l : Bytes) (h : ∀ x ∈ l, x < 256) : beUint l < 256 ^ l.length := by
  induction l with
  | nil => simp [beUint]
  | cons x l ih =>
    rw [beUint_cons, List.length_cons, pow_succ]
    have hx : x < 256 := h x (by simp)
    have hl := ih (fun y hy => h y (by simp [hy]))
    nlinarith

theorem bytesLt_beUint (a b : Bytes) (hlen : a.length = b.length) (ha : ∀ x ∈ a, x < 256)
    (hb : ∀ x ∈ b, x < 256) : bytesLt a b = decide (beUint a < beUint b) := by
  induction a generalizing b with
  | nil =>
    cases b with
    | nil => simp [bytesLt, beUint]
    | cons y b => simp at hlen
  | cons x a ih =>
    cases b with
    | nil => simp at hlen
    | cons y b =>
      simp only [List.length_cons, Nat.add_right_cancel_iff] at hlen
      have hx : x < 256 := ha x (by simp)
      have hy : y < 256 := hb y (by simp)
      have ha' : ∀ z ∈ a, z < 256 := fun z hz => ha z (by simp [hz])
      have hb' : ∀ z ∈ b, z < 256 := fun z hz => hb z (by simp [hz])
      have hla := beUint_lt a ha'
      have hlb := beUint_lt b hb'
      rw [bytesLt, ih b hlen ha' hb', beUint_cons, beUint_cons, ← hlen]
      rw [← hlen] at hlb
      generalize 256 ^ a.length = P at hla hlb
      rcases Nat.lt_trichotomy x y with hxy | hxy | hxy
      · have : x * P + beUint a < y * P + beUint b := by nlinarith
        simp [hxy, this]
      · subst hxy
        simp
      · have : ¬ x * P + beUint a < y * P + beUint b := by
          intro hcon
          nlinarith
        have h1 : ¬ x < y := by omega
        have h2 : ¬ x = y := by omega
        simp [h1, h2, this]

theorem putUint64_maxUint64 : putUint64 maxUint64 = List.replicate 8 0xff := by decide

theorem regular_eq (count : Nat) (t : Bytes) (ht : t.length = 8) :
    RegularCounterSerializer count t = putUint64 count ++ t := by
  unfold RegularCounterSerializer
  rw [copyInto_of_length (by rw [ht]; rfl)]

theorem mapGet_mapSet_same (k : Bytes) (bm : Bitmap) (m : BitmapMap) :
    mapGet k (mapSet k bm m) = some bm := by
  induction m with
  | nil => simp [mapSet, mapGet]
  | cons e m ih =>
    obtain ⟨k', bm'⟩ := e
    unfold mapSet
    split
    · simp [mapGet]
    · rename_i hne
      simp [mapGet, hne, ih]

theorem mapGet_mapSet_other {k a : Bytes} (h : a ≠ k) (bm : Bitmap) (m : BitmapMap) :
    mapGet a (mapSet k bm m) = mapGet a m := by
  induction m with
  | nil => simp [mapSet, mapGet, h]
  | cons e m ih =>
    obtain ⟨k', bm'⟩ := e
    unfold mapSet
    split
    · rename_i hk
      subst hk
      simp [mapGet, h]
    · simp only [mapGet, ih]

theorem mapSet_of_get {k : Bytes} {bm : Bitmap} {m : BitmapMap} (h : mapGet k m = some bm) :
    mapSet k bm m = m := by
  induction m with
  | nil => simp [mapGet] at h
  | cons e m ih =>
    obtain ⟨k', bm'⟩ := e
    unfold mapGet at h
    unfold mapSet
    split
    · rename_i hk
      subst hk
      simp at h
      rw [h]
    · rename_i hne
      simp only [hne, if_false] at h
      rw [ih h]

theorem mapSet_mapSet (k : Bytes) (a b : Bitmap) (m : BitmapMap) :
    mapSet k b (mapSet k a m) = mapSet k b m := by
  induction m with
  | nil => simp [mapSet]
  | cons e m ih =>
    obtain ⟨k', bm'⟩ := e
    by_cases hk : k = k'
    · simp [mapSet, hk]
    · simp [mapSet, hk, ih]

theorem bmAdd_of_mem {x : Nat} {l : Bitmap} (hs : l.Pairwise (fun a b => a < b))
    (hx : x ∈ l) : bmAdd x l = l :=
  sorted_ext (bmAdd_sorted x l hs) hs (fun y => by
    rw [bmAdd_mem]
    constructor
    · rintro (h | h)
      · subst h; exact hx
      · exact h
    · exact Or.inr)

theorem bmAdd_idem (x : Nat) (l : Bitmap) : bmAdd x (bmAdd x l) = bmAdd x l := by
  induction l with
  | nil => simp [bmAdd]
  | cons y l ih =>
    by_cases h1 : x < y
    · simp [bmAdd, h1]
    · by_cases h2 : x = y
      · simp [bmAdd, h2]
      · simp [bmAdd, h1, h2, ih]

theorem needFlush64Loop_eq (serializedSize : Bitmap → Nat) (limit : Nat)
    (l : List (Bytes × Bitmap)) (size : Nat) (hsz : size < limit)
    (hsum : size + totalSize serializedSize l < 2 ^ 64) :
    needFlush64Loop serializedSize limit l size =
      decide (limit ≤ size + totalSize serializedSize l) := by
  induction l generalizing size with
  | nil =>
    simp only [needFlush64Loop, totalSize, List.map_nil, List.sum_nil, Nat.add_zero]
    simp
    exact hsz
  | cons e l ih =>
    obtain ⟨k, bm⟩ := e
    have hcons : totalSize serializedSize ((k, bm) :: l) =
        serializedSize bm + totalSize serializedSize l := by
      simp [totalSize]
    rw [hcons] at hsum ⊢
    have hmod : (size + serializedSize bm) % 2 ^ 64 = size + serializedSize bm :=
      Nat.mod_eq_of_lt (by omega)
    simp only [needFlush64Loop, hmod]
    split
    · rename_i hge
      symm
      simp only [decide_eq_true_eq]
      omega
    · rename_i hlt
      rw [ih (size + serializedSize bm) (by omega) (by omega)]
      congr 1
      rw [Nat.add_assoc]

theorem flushBitmaps64_eq (collector l : List (Bytes × Bitmap)) :
    flushBitmaps64 collector l = collector ++ l := by
  induction l generalizing collector with
  | nil => simp [flushBitmaps64]
  | cons e l ih =>
    obtain ⟨k, bm⟩ := e
    simp [flushBitmaps64, ih]

theorem totalSize_perm (serializedSize : Bitmap → Nat) {a b : List (Bytes × Bitmap)}
    (h : a.Perm b) : totalSize serializedSize a = totalSize serializedSize b := by
  unfold totalSize
  exact (h.map _).sum_eq

theorem scanCounterState_snd (addr : Bytes) (counter : DupTable) :
    (scanCounterState addr counter).2 = scanCounter addr counter := by
  unfold scanCounterState scanCounter
  cases h : (counter addr).getLast? with
  | none => simp only [h]
  | some v =>
    simp only [h]
    split
    · split <;> rfl
    · split
      · rfl
      · split
        · rfl
        · cases h2 : ((counter addr).dropLast).getLast? with
          | none => simp only [h2]
          | some p =>
            simp only [h2]
            split <;> rfl

/-- The state-passing model and `loadFunc` agree on what is returned. -/
theorem loadFunc_eq_state (L : Nat) (st : Store) (k : Bytes) (S : Bitmap) :
    loadFunc L st k S =
      match (loadFuncState L st k S).2 with
      | none => .ok (loadFuncState L st k S).1
      | some e => .error e := by
  unfold loadFunc loadFuncState
  split
  · rfl
  · simp only
    cases mergeLastChunk S (k.take lengthAddr) st.index with
    | error e => rfl
    | ok M =>
      simp only
      rw [← scanCounterState_snd]
      rcases hs : scanCounterState (k.take lengthAddr) st.counter with ⟨c, r⟩
      cases r with
      | error e => rfl
      | ok sc =>
        simp only
        split <;> rfl

theorem loadFuncState_scan_error (L : Nat) (st : Store) (A : Bytes) (S M : Bitmap)
    (c : DupTable) (e : String) (hA : A.length = lengthAddr)
    (hM : mergeLastChunk S A st.index = .ok M)
    (hs : scanCounterState A st.counter = (c, .error e)) :
    loadFuncState L st A S = (⟨st.index, c⟩, some e) ∧ Load L st [(A, S)] = .error e := by
  have htake : A.take lengthAddr = A := List.take_of_length_le (by omega)
  have h1 : loadFuncState L st A S = (⟨st.index, c⟩, some e) := by
    unfold loadFuncState
    rw [if_neg (by omega)]
    simp only [htake, hM, hs]
  refine ⟨h1, ?_⟩
  rw [Load_single, loadFunc_eq_state, h1]

theorem scanCounterState_of_last {A : Bytes} {counter : DupTable} {v : Bytes}
    (hlast : (counter A).getLast? = some v) :
    scanCounterState A counter =
      (if v.length = 1 then
        if (counter A).length ≠ 1 then
          (counter, .error "db possibly corrupted: optimized counter with duplicates")
        else (dropLastCounter A counter, .ok ⟨0, true, true, dropLastCounter A counter⟩)
      else if v.length < 16 then (counter, .error (shortRecordPanic v.length))
      else if getUint64 (v.drop 8) ≠ maxUint64 then
        (counter, .error "db possibly corrupted: last chunk is not 0xffffffffffffffff")
      else
        match (counter A).dropLast.getLast? with
        | none => (dropLastCounter A counter, .ok ⟨0, false, true, dropLastCounter A counter⟩)
        | some prevV =>
          if prevV.length < 8 then
            (dropLastCounter A counter, .error "panic: slice bounds out of range")
          else (dropLastCounter A counter,
            .ok ⟨getUint64 (prevV.take 8), false, true, dropLastCounter A counter⟩)) := by
  unfold scanCounterState
  simp only [hlast]
  rfl

theorem bytesLt_append_self (p x : Bytes) : bytesLt (p ++ x) p = false := by
  induction p with
  | nil => cases x <;> rfl
  | cons a p ih => simp [bytesLt, ih]

theorem prefix_of_between {token d : Bytes} (x : Bytes) (h1 : bytesLt d token = false)
    (h2 : bytesLt d (token ++ x) = true) : token <+: d := by
  induction token generalizing d with
  | nil => exact List.nil_prefix
  | cons a tk ih =>
    cases d with
    | nil => simp [bytesLt] at h1
    | cons b ds =>
      simp only [List.cons_append, bytesLt, Bool.or_eq_true, Bool.and_eq_true,
        decide_eq_true_eq] at h2
      simp only [bytesLt, Bool.or_eq_false_iff, Bool.and_eq_false_iff,
        decide_eq_false_iff_not] at h1
      rcases h2 with h2 | ⟨hab, h2⟩
      · exact absurd h2 h1.1
      · subst hab
        rcases h1.2 with h | h
        · exact absurd rfl h
        · rw [List.cons_prefix_cons]
          exact ⟨rfl, ih h h2⟩

theorem find_holding {l : List Bytes} {token x : Bytes}
    (hs : l.Pairwise (fun a b => bytesLt a b = true)) (hr : token ++ x ∈ l)
    (huniq : ∀ d ∈ l, token <+: d → d = token ++ x) :
    l.find? (fun d => !bytesLt d token) = some (token ++ x) := by
  induction l with
  | nil => simp at hr
  | cons d l ih =>
    by_cases hd : d = token ++ x
    · subst hd
      simp [List.find?, bytesLt_append_self]
    · have hr' : token ++ x ∈ l := by
        rcases List.mem_cons.1 hr with h | h
        · exact absurd h.symm hd
        · exact h
      have hlt : bytesLt d (token ++ x) = true := (List.pairwise_cons.1 hs).1 _ hr'
      have hdt : bytesLt d token = true := by
        cases h : bytesLt d token with
        | true => rfl
        | false => exact absurd (huniq d (by simp) (prefix_of_between x h hlt)) hd
      simp only [List.find?, hdt, Bool.not_true]
      exact ih (List.pairwise_cons.1 hs).2 hr' (fun e he => huniq e (List.mem_cons_of_mem _ he))

theorem hasPrefix_iff (s pre : Bytes) : hasPrefix s pre = true ↔ pre <+: s := by
  unfold hasPrefix
  exact List.isPrefixOf_iff_prefix

theorem seek_no_holding {l : List Bytes} {token : Bytes} (htok : token ≠ [])
    (hno : ∀ d ∈ l, ¬ token <+: d) (p : Bytes → Bool) :
    hasPrefix ((l.find? p).getD []) token = false := by
  cases h : hasPrefix ((l.find? p).getD []) token with
  | false => rfl
  | true =>
    exfalso
    rw [hasPrefix_iff] at h
    cases hf : l.find? p with
    | none =>
      rw [hf] at h
      simp only [Option.getD_none, List.prefix_nil] at h
      exact htok h
    | some d =>
      rw [hf] at h
      exact hno d (List.mem_of_find?_eq_some hf) h

theorem nextDup_single (e : Bytes × Bytes) : nextDup [e] = (none, [e]) := by
  obtain ⟨k, v⟩ := e
  rfl

theorem nextDup_same (k v v' : Bytes) (rest : DupCursor) :
    nextDup ((k, v) :: (k, v') :: rest) = (some (k, v'), (k, v') :: rest) := by
  simp [nextDup]

theorem nextDup_other {k k' : Bytes} (h : k' ≠ k) (v v' : Bytes) (rest : DupCursor) :
    nextDup ((k, v) :: (k', v') :: rest) = (none, (k, v) :: (k', v') :: rest) := by
  simp [nextDup, h]

theorem nextNoDup_single (e : Bytes × Bytes) : nextNoDup [e] = (none, [e]) := by
  obtain ⟨k, v⟩ := e
  rfl

theorem nextNoDup_other {k k' : Bytes} (h : k' ≠ k) (v v' : Bytes) (rest : DupCursor) :
    nextNoDup ((k, v) :: (k', v') :: rest) = (some (k', v'), (k', v') :: rest) := by
  simp [nextNoDup, h]

/-- The collecting loop returns the first `n` pairs from the cursor position on, whatever the
keys they are under. -/
theorem collectLoop_eq (f : Bytes → Bytes) (n : Nat) (s : DupCursor) (acc : List (Nat × Bytes))
    (hk : ∀ e ∈ s, 8 ≤ e.1.length) :
    collectLoop f n s.head? s acc =
      .ok (acc ++ (s.take n).map (fun e => (getUint64 e.1, f e.2))) := by
  induction n generalizing s acc with
  | zero =>
    cases s with
    | nil => simp [collectLoop]
    | cons e s => simp [collectLoop]
  | succ n ih =>
    cases s with
    | nil => simp [collectLoop]
    | cons e rest =>
      obtain ⟨k, v⟩ := e
      have hk8 : ¬ k.length < 8 := by
        have := hk (k, v) (by simp)
        simp only at this
        omega
      have hrest : ∀ e ∈ rest, 8 ≤ e.1.length := fun e he => hk e (List.mem_cons_of_mem _ he)
      simp only [List.head?_cons, collectLoop, if_neg hk8, List.take_succ_cons, List.map_cons]
      cases rest with
      | nil =>
        rw [nextDup_single]
        simp only [nextNoDup_single]
        simp
      | cons e' r =>
        obtain ⟨k', v'⟩ := e'
        by_cases hkk : k' = k
        · subst hkk
          rw [nextDup_same]
          simp only
          have := ih ((k', v') :: r) (acc ++ [(getUint64 k', f v)]) hrest
          simp only [List.head?_cons] at this
          rw [this]
          simp
        · rw [nextDup_other hkk]
          simp only
          rw [nextNoDup_other hkk]
          simp only
          have := ih ((k', v') :: r) (acc ++ [(getUint64 k, f v)]) hrest
          simp only [List.head?_cons] at this
          rw [this]
          simp

theorem positionLoop_none (n : Nat) (cur : DupCursor) (h : nextDup cur = (none, cur)) :
    positionLoop n (none, cur) = (none, cur) := by
  induction n with
  | zero => rfl
  | succ n ih => rw [positionLoop, h, ih]

theorem nextDup_last {k : Bytes} (v : Bytes) {rest : DupCursor} (h : OtherKey k rest) :
    nextDup ((k, v) :: rest) = (none, (k, v) :: rest) := by
  cases rest with
  | nil => exact nextDup_single _
  | cons e r =>
    obtain ⟨k', v'⟩ := e
    exact nextDup_other (h (k', v') rfl) v v' r

/-- Inside the values of one key the positioning loop advances one pair per iteration. -/
theorem positionLoop_run (k : Bytes) (j : Nat) (v0 : Bytes) (vs : List Bytes)
    (rest : DupCursor) (kv : Option (Bytes × Bytes)) (hj : j ≤ vs.length) :
    positionLoop j (kv, (k, v0) :: (vs.map (fun v => (k, v)) ++ rest)) =
      (if j = 0 then kv else (((k, v0) :: (vs.map (fun v => (k, v)) ++ rest)).drop j).head?,
        ((k, v0) :: (vs.map (fun v => (k, v)) ++ rest)).drop j) := by
  induction j generalizing v0 vs kv with
  | zero => simp [positionLoop]
  | succ j ih =>
    cases vs with
    | nil => simp at hj
    | cons v1 vs =>
      simp only [List.length_cons, Nat.add_le_add_iff_right] at hj
      simp only [List.map_cons, List.cons_append, positionLoop, nextDup_same]
      rw [ih v1 vs (some (k, v1)) hj]
      simp only [List.drop_succ_cons, Nat.add_one_ne_zero, if_false]
      by_cases h0 : j = 0
      · subst h0; simp
      · simp [h0]

/-- Past the values of the key the positioning loop ends on no pair. -/
theorem positionLoop_past (k : Bytes) (j : Nat) (v0 : Bytes) (vs : List Bytes)
    (rest : DupCursor) (kv : Option (Bytes × Bytes)) (hrest : OtherKey k rest)
    (hj : vs.length < j) :
    (positionLoop j (kv, (k, v0) :: (vs.map (fun v => (k, v)) ++ rest))).1 = none := by
  induction j generalizing v0 vs kv with
  | zero => simp at hj
  | succ j ih =>
    cases vs with
    | nil =>
      simp only [List.map_nil, List.nil_append, positionLoop, nextDup_last v0 hrest]
      rw [positionLoop_none j _ (nextDup_last v0 hrest)]
    | cons v1 vs =>
      simp only [List.length_cons, Nat.add_lt_add_iff_right] at hj
      simp only [List.map_cons, List.cons_append, positionLoop, nextDup_same]
      exact ih v1 vs (some (k, v1)) hj

theorem matchSeq_cons_length (x : Nat × List Bytes) (a : List (Nat × List Bytes)) :
    (matchSeq (x :: a)).length = x.2.length + (matchSeq a).length := by
  simp [matchSeq]

theorem counterTableOf_append (p : Nat) (a b : List (Nat × List Bytes)) :
    counterTableOf p (a ++ b) =
      counterTableOf p a ++ counterTableOf (p + (matchSeq a).length) b := by
  induction a generalizing p with
  | nil => simp [counterTableOf, matchSeq]
  | cons x a ih =>
    rw [List.cons_append, counterTableOf, ih, matchSeq_cons_length, counterTableOf,
      List.cons_append, Nat.add_assoc]

theorem counterTableOf_length (p : Nat) (a : List (Nat × List Bytes)) :
    (counterTableOf p a).length = a.length := by
  induction a generalizing p with
  | nil => rfl
  | cons x a ih => simp [counterTableOf, ih]

theorem counterTableOf_keys (p : Nat) (a : List (Nat × List Bytes)) :
    ∀ e ∈ counterTableOf p a, ∃ c, e.1 = EncodeTs c ∧ p ≤ c ∧ c ≤ p + (matchSeq a).length := by
  induction a generalizing p with
  | nil => simp [counterTableOf]
  | cons x a ih =>
    intro e he
    simp only [counterTableOf, List.mem_cons] at he
    have hlen : (matchSeq (x :: a)).length = x.2.length + (matchSeq a).length := by
      simp [matchSeq]
    rcases he with he | he
    · subst he
      exact ⟨p + x.2.length, rfl, by omega, by omega⟩
    · obtain ⟨c, hc, h1, h2⟩ := ih (p + x.2.length) e he
      exact ⟨c, hc, by omega, by omega⟩

theorem counterTableOf_getLast (p : Nat) (a : List (Nat × List Bytes)) (x : Nat × List Bytes) :
    (counterTableOf p (a ++ [x])).getLast? =
      some (EncodeTs (p + (matchSeq (a ++ [x])).length), EncodeTs x.1) := by
  rw [counterTableOf_append]
  simp [counterTableOf, matchSeq, Nat.add_assoc]

theorem matchTableOf_append (a b : List (Nat × List Bytes)) :
    matchTableOf (a ++ b) = matchTableOf a ++ matchTableOf b := by
  simp [matchTableOf]

theorem matchTableOf_length (a : List (Nat × List Bytes)) :
    (matchTableOf a).length = (matchSeq a).length := by
  induction a with
  | nil => rfl
  | cons x a ih =>
    simp only [matchTableOf, matchSeq, List.flatMap_cons, List.length_append,
      List.length_map] at ih ⊢
    rw [ih]

theorem matchTableOf_keys (a : List (Nat × List Bytes)) :
    ∀ e ∈ matchTableOf a, ∃ b ∈ a, e.1 = EncodeTs b.1 := by
  intro e he
  simp only [matchTableOf, List.mem_flatMap, List.mem_map] at he
  obtain ⟨b, hb, v, -, hv⟩ := he
  exact ⟨b, hb, by rw [← hv]⟩

theorem matchTableOf_decode (f : Bytes → Bytes) (a : List (Nat × List Bytes))
    (h : ∀ b ∈ a, b.1 < 2 ^ 64) :
    (matchTableOf a).map (fun e => (getUint64 e.1, f e.2)) =
      (matchSeq a).map (fun m => (m.1, f m.2)) := by
  induction a with
  | nil => rfl
  | cons x a ih =>
    have hx : getUint64 (EncodeTs x.1) = x.1 := by
      have := getUint64_putUint64 x.1 (h x (by simp)) []
      simpa [EncodeTs] using this
    simp only [matchTableOf, matchSeq, List.flatMap_cons, List.map_append, List.map_map] at ih ⊢
    rw [ih (fun b hb => h b (List.mem_cons_of_mem _ hb))]
    congr 1
    apply List.map_congr_left
    intro v _
    simp [hx]

theorem cursorSeek_append (a : Table) (e : Bytes × Bytes) (b : Table) (k : Bytes)
    (ha : ∀ x ∈ a, bytesLt x.1 k = true) (he : bytesLt e.1 k = false) :
    cursorSeek (a ++ e :: b) k = a.length := by
  unfold cursorSeek
  induction a with
  | nil => simp [List.findIdx_cons, he]
  | cons x a ih =>
    simp only [List.cons_append, List.findIdx_cons, ha x (by simp), Bool.not_true,
      List.length_cons]
    rw [cond_false, ih (fun y hy => ha y (List.mem_cons_of_mem _ hy))]

theorem cursorSeek_all (a : Table) (k : Bytes) (ha : ∀ x ∈ a, bytesLt x.1 k = true) :
    cursorSeek a k = a.length := by
  unfold cursorSeek
  induction a with
  | nil => rfl
  | cons x a ih =>
    simp only [List.findIdx_cons, ha x (by simp), Bool.not_true, List.length_cons]
    rw [cond_false, ih (fun y hy => ha y (List.mem_cons_of_mem _ hy))]

theorem dupSeekExact_append (a b : Table) (e : Bytes × Bytes) (ha : ∀ x ∈ a, x.1 ≠ e.1) :
    dupSeekExact (a ++ e :: b) e.1 = e :: b := by
  unfold dupSeekExact
  induction a with
  | nil => simp [List.dropWhile]
  | cons x a ih =>
    have hx : decide (x.1 ≠ e.1) = true := by simpa using ha x (by simp)
    rw [List.cons_append, List.dropWhile_cons, if_pos hx]
    exact ih (fun y hy => ha y (List.mem_cons_of_mem _ hy))

theorem rank_split (blocks : List (Nat × List Bytes)) (idx : Nat)
    (h : idx < (matchSeq blocks).length) :
    ∃ pre b post, blocks = pre ++ b :: post ∧ (matchSeq pre).length ≤ idx ∧
      idx < (matchSeq pre).length + b.2.length := by
  induction blocks generalizing idx with
  | nil => simp [matchSeq] at h
  | cons x a ih =>
    rw [matchSeq_cons_length] at h
    by_cases hx : idx < x.2.length
    · exact ⟨[], x, a, rfl, by simp [matchSeq], by simpa [matchSeq] using hx⟩
    · obtain ⟨pre, b, post, hab, h1, h2⟩ := ih (idx - x.2.length) (by omega)
      refine ⟨x :: pre, b, post, by rw [hab]; rfl, ?_, ?_⟩
      · rw [matchSeq_cons_length]; omega
      · rw [matchSeq_cons_length]; omega

theorem EncodeTs_length (n : Nat) : (EncodeTs n).length = 8 := putUint64_length n

theorem getUint64_EncodeTs (n : Nat) (h : n < 2 ^ 64) : getUint64 (EncodeTs n) = n := by
  have := getUint64_putUint64 n h []
  simpa [EncodeTs] using this

theorem bytesLt_EncodeTs {a b : Nat} (ha : a < 2 ^ 64) (hb : b < 2 ^ 64) :
    bytesLt (EncodeTs a) (EncodeTs b) = decide (a < b) := bytesLt_putUint64 ha hb

/-- What `genericMatchingList` computes once the counter entry, the previous total and the
first pair of the block are known. -/
theorem genericMatchingList_found (f : Bytes → Bytes) (ct mt : Table) (idx count : Nat)
    (hcount : count ≤ 500) (ck bv : Bytes) (prevTotal : Nat) (e : Bytes × Bytes)
    (rest : DupCursor)
    (hget : ct.get? (cursorSeek ct (EncodeTs ((idx + 1) % 2 ^ 64))) = some (ck, bv))
    (hprev : (match (if cursorSeek ct (EncodeTs ((idx + 1) % 2 ^ 64)) = 0 then none
        else (ct.get? (cursorSeek ct (EncodeTs ((idx + 1) % 2 ^ 64)) - 1)).map Prod.fst) with
      | none => Except.ok 0
      | some k => if k.length < 8 then Except.error "panic: index out of range"
        else Except.ok (getUint64 k)) = Except.ok prevTotal)
    (hseek : dupSeekExact mt bv = e :: rest) :
    genericMatchingList f ct mt idx count =
      collectLoop f count
        (positionLoop (((idx + 1) % 2 ^ 64 + 2 ^ 64 - prevTotal % 2 ^ 64 + 2 ^ 64 - 1) % 2 ^ 64)
          (some e, e :: rest)).1
        (positionLoop (((idx + 1) % 2 ^ 64 + 2 ^ 64 - prevTotal % 2 ^ 64 + 2 ^ 64 - 1) % 2 ^ 64)
          (some e, e :: rest)).2 [] := by
  obtain ⟨kk, vv⟩ := e
  unfold genericMatchingList
  rw [if_neg (by unfold MAX_MATCH_COUNT; omega)]
  simp only [hget, hprev, hseek]

/-- The shapes of what `stageForwardRun` does. -/
theorem stageForwardRun_shape (env : StageEnv) (ext : Bool) (s e : Nat) (sh : Bool) :
    (∃ err, env.executor s e (!ext) sh = .error err ∧
        stageForwardRun env ext s e sh = ([StageEvent.executor s e (!ext) sh], some err)) ∨
      (∃ n x, env.executor s e (!ext) sh = .ok n ∧
        stageForwardRun env ext s e sh =
          ([StageEvent.executor s e (!ext) sh, StageEvent.update n], x)) ∨
      (∃ n x, env.executor s e (!ext) sh = .ok n ∧ env.update n = none ∧
        stageForwardRun env ext s e sh =
          ([StageEvent.executor s e (!ext) sh, StageEvent.update n, StageEvent.commit], x)) := by
  unfold stageForwardRun
  cases hex : env.executor s e (!ext) sh with
  | error err => exact Or.inl ⟨err, rfl, rfl⟩
  | ok n =>
    simp only
    cases hup : env.update n with
    | some err => exact Or.inr (Or.inl ⟨n, _, rfl, rfl⟩)
    | none =>
      simp only
      cases ext with
      | true => exact Or.inr (Or.inl ⟨n, _, rfl, rfl⟩)
      | false =>
        simp only [Bool.not_false, if_true]
        cases env.commit with
        | some err => exact Or.inr (Or.inr ⟨n, _, rfl, hup, rfl⟩)
        | none => exact Or.inr (Or.inr ⟨n, _, rfl, hup, rfl⟩)

/-- The four shapes of what `stageForwardBody` does. -/
theorem stageForwardBody_shape (env : StageEnv) (p : Nat) (ext debug : Bool) (d1 d2 : Nat) :
    (∃ x, stageForwardBody env p ext debug d1 d2 = ([], x)) ∨
      (∃ s e sh err, env.executor s e (!ext) sh = .error err ∧
        stageForwardBody env p ext debug d1 d2 =
          ([StageEvent.executor s e (!ext) sh], some err)) ∨
      (∃ s e sh n x, env.executor s e (!ext) sh = .ok n ∧
        stageForwardBody env p ext debug d1 d2 =
          ([StageEvent.executor s e (!ext) sh, StageEvent.update n], x)) ∨
      (∃ s e sh n x, env.executor s e (!ext) sh = .ok n ∧ env.update n = none ∧
        stageForwardBody env p ext debug d1 d2 =
          ([StageEvent.executor s e (!ext) sh, StageEvent.update n, StageEvent.commit], x)) := by
  unfold stageForwardBody
  cases env.parentProgress with
  | error e => exact Or.inl ⟨_, rfl⟩
  | ok q =>
    simp only
    generalize (if debug = true then d1 else
      if p > 0 then (p + 1) % 2 ^ 64 else p) = s
    generalize (if debug = true then d2 else q) = e
    by_cases hgt : s > e
    · rw [if_pos hgt]
      exact Or.inl ⟨_, rfl⟩
    · rw [if_neg hgt]
      generalize (if debug = true then false else
        decide ((e + 2 ^ 64 - s + 1) % 2 ^ 64 ≤ SHORT_RANGE_EXECUTION_THRESHOLD)) = sh
      rcases stageForwardRun_shape env ext s e sh with ⟨err, h1, h2⟩ | ⟨n, x, h1, h2⟩ |
        ⟨n, x, h1, h2, h3⟩
      · exact Or.inr (Or.inl ⟨s, e, sh, err, h1, h2⟩)
      · exact Or.inr (Or.inr (Or.inl ⟨s, e, sh, n, x, h1, h2⟩))
      · exact Or.inr (Or.inr (Or.inr ⟨s, e, sh, n, x, h1, h2, h3⟩))

/-- `genericStageForwardImpl` is its body, wrapped by `BeginRw` and the deferred rollback when
it owns the transaction. -/
theorem genericStageForwardImpl_wrap (env : StageEnv) (p : Nat) (ext debug : Bool)
    (d1 d2 : Nat) :
    genericStageForwardImpl env p ext debug d1 d2 = ([], env.beginRw) ∧ env.beginRw ≠ none ∨
      genericStageForwardImpl env p ext debug d1 d2 =
        stageForwardBody env p ext debug d1 d2 ∨
      genericStageForwardImpl env p ext debug d1 d2 =
        (StageEvent.beginRw :: (stageForwardBody env p ext debug d1 d2).1 ++
          [StageEvent.rollback], (stageForwardBody env p ext debug d1 d2).2) := by
  unfold genericStageForwardImpl
  cases ext with
  | true => exact Or.inr (Or.inl rfl)
  | false =>
    simp only [Bool.not_false, if_true]
    cases h : env.beginRw with
    | some e => exact Or.inl ⟨rfl, by simp⟩
    | none => exact Or.inr (Or.inr rfl)

/-- An error of `NextDup` at its call number `i`, the earlier calls succeeding, is what the
loop of `getHoldings` returns (the values being `token ‖ ethTx`, 28 bytes at least). -/
theorem holdingsLoop_nextDup_error (f : Bytes → Bytes) (nd : Nat → Option String)
    (vs : List Bytes) (i0 i : Nat) (ret : List (Bytes × Nat)) (err : String)
    (hlen : ∀ v ∈ vs, lengthAddr + 8 ≤ v.length) (hi : i < i0 + vs.length) (hi0 : i0 ≤ i)
    (herr : nd i = some err) (hok : ∀ j, i0 ≤ j → j < i → nd j = none) :
    holdingsLoop f nd i0 vs ret = .error err := by
  induction vs generalizing i0 ret with
  | nil => simp at hi; omega
  | cons v rest ih =>
    have hv := hlen v (by simp)
    have h1 : ¬ v.length < lengthAddr := by omega
    have h2 : ¬ (v.drop lengthAddr).length < 8 := by
      rw [List.length_drop]; omega
    rw [holdingsLoop, if_neg h1, if_neg h2]
    by_cases heq : i = i0
    · subst heq
      simp only [herr]
    · have hnone : nd i0 = none := hok i0 (Nat.le_refl _) (by omega)
      simp only [hnone]
      apply ih (i0 + 1) _ (fun w hw => hlen w (List.mem_cons_of_mem _ hw))
      · simp only [List.length_cons] at hi; omega
      · omega
      · intro j hj1 hj2
        exact hok j (by omega) hj2

theorem findLastWithdrawal_none (body : Nat → Except String (List Withdrawal)) (U : Nat)
    (h : ∀ b, 1 ≤ b → b ≤ U → body b = .ok []) : findLastWithdrawal body U = .ok none := by
  induction U with
  | zero => rfl
  | succ n ih =>
    rw [findLastWithdrawal, h (n + 1) (by omega) (Nat.le_refl _)]
    simp only [List.getLast?_nil]
    exact ih (fun b h1 h2 => h b h1 (by omega))

theorem findLastWithdrawal_chain (chain : Nat → List Withdrawal) (U : Nat) :
    (findLastWithdrawal (fun b => .ok (chain b)) U = .ok none ∧
        ∀ b, 1 ≤ b → b ≤ U → chain b = []) ∨
      ∃ b w, 1 ≤ b ∧ b ≤ U ∧ (chain b).getLast? = some w ∧
        (∀ b', b < b' → b' ≤ U → chain b' = []) ∧
        findLastWithdrawal (fun b => .ok (chain b)) U = .ok (some w.Index) := by
  induction U with
  | zero => exact Or.inl ⟨rfl, fun b h1 h2 => by omega⟩
  | succ n ih =>
    cases hl : (chain (n + 1)).getLast? with
    | some w =>
      refine Or.inr ⟨n + 1, w, by omega, Nat.le_refl _, hl, fun b' h1 h2 => by omega, ?_⟩
      simp only [findLastWithdrawal, hl]
    | none =>
      have hnil : chain (n + 1) = [] := List.getLast?_eq_none_iff.1 hl
      rcases ih with ⟨h1, h2⟩ | ⟨b, w, hb1, hb2, hw, hab, hf⟩
      · refine Or.inl ⟨?_, ?_⟩
        · simp only [findLastWithdrawal, hl, h1]
        · intro b hb1 hb2
          rcases Nat.lt_or_eq_of_le hb2 with h | h
          · exact h2 b hb1 (by omega)
          · rw [h]; exact hnil
      · refine Or.inr ⟨b, w, hb1, by omega, hw, ?_, ?_⟩
        · intro b' h1 h2
          rcases Nat.lt_or_eq_of_le h2 with h | h
          · exact hab b' h1 (by omega)
          · rw [h]; exact hnil
        · simp only [findLastWithdrawal, hl, hf]

theorem unwindWithdrawals_ok {σ : Type} (UA : σ → Bytes → Nat → Except String σ)
    (hUA : ∀ s a i, ∃ s', UA s a i = .ok s') (ws : List Withdrawal) (st : σ)
    (calls : List (Bytes × Nat)) :
    ∃ st', unwindWithdrawals UA ws st calls =
      (st', calls ++ ws.map (fun w => (w.Address, w.Index)), none) := by
  induction ws generalizing st calls with
  | nil => exact ⟨st, by simp [unwindWithdrawals]⟩
  | cons w ws ih =>
    obtain ⟨s', hs'⟩ := hUA st w.Address w.Index
    obtain ⟨st', hst'⟩ := ih s' (calls ++ [(w.Address, w.Index)])
    exact ⟨st', by simp only [unwindWithdrawals, hs', hst', List.map_cons, List.append_assoc,
      List.singleton_append]⟩

theorem unwindLoop_ok {σ : Type} (chain : Nat → List Withdrawal)
    (UA : σ → Bytes → Nat → Except String σ) (hUA : ∀ s a i, ∃ s', UA s a i = .ok s')
    (stopped : Nat → Bool) (hstop : ∀ b, stopped b = false) (n b : Nat) (st : σ)
    (calls : List (Bytes × Nat)) :
    ∃ st', unwindLoop (fun b => .ok (chain b)) UA stopped n b st calls =
      (st', calls ++ (List.range' b n).flatMap
        (fun b => (chain b).map (fun w => (w.Address, w.Index))), none) := by
  induction n generalizing b st calls with
  | zero => exact ⟨st, by simp [unwindLoop]⟩
  | succ n ih =>
    simp only [unwindLoop, List.range'_succ, List.flatMap_cons]
    by_cases h0 : (chain b).length = 0
    · rw [if_pos h0]
      have hnil : chain b = [] := List.length_eq_zero.1 h0
      obtain ⟨st', hst'⟩ := ih (b + 1) st calls
      exact ⟨st', by rw [hst', hnil]; simp⟩
    · rw [if_neg h0]
      obtain ⟨s1, hs1⟩ := unwindWithdrawals_ok UA hUA (chain b) st calls
      obtain ⟨st', hst'⟩ := ih (b + 1) s1
        (calls ++ (chain b).map (fun w => (w.Address, w.Index)))
      exact ⟨st', by simp only [hs1, hstop b, Bool.false_eq_true, if_false, hst',
        List.append_assoc]⟩

theorem sampleChain_mono (b1 b2 : Nat) (h : b1 < b2) :
    ∀ w1 ∈ sampleChain b1, ∀ w2 ∈ sampleChain b2, w1.Index < w2.Index := by
  intro w1 h1 w2 h2
  unfold sampleChain at h1 h2
  split at h1
  · split at h2
    · simp only [List.mem_cons, List.mem_singleton, List.not_mem_nil, or_false] at h1 h2
      rcases h1 with rfl | rfl <;> rcases h2 with rfl | rfl <;> simp only <;> omega
    · simp at h2
  · simp at h1

theorem sampleChain_sorted (b : Nat) :
    (sampleChain b).Pairwise (fun w1 w2 => w1.Index < w2.Index) := by
  unfold sampleChain
  split <;> simp

theorem bmOr_append_of_lt {a b : Bitmap} (ha : a.Pairwise (fun x y => x < y))
    (hb : b.Pairwise (fun x y => x < y)) (hlt : ∀ x ∈ b, ∀ y ∈ a, x < y) :
    bmOr a b = b ++ a := by
  apply sorted_ext (bmOr_sorted a b ha)
  · exact List.pairwise_append.2 ⟨hb, ha, hlt⟩
  · intro x
    rw [bmOr_mem, List.mem_append]
    exact Or.comm

theorem cutter_resume {L : Nat} {a : List Nat} {pre : List (List Nat)} {last : List Nat}
    (h : cutter L a [] = pre ++ [last]) (b : List Nat) :
    cutter L (a ++ b) [] = pre ++ cutter L (last ++ b) [] := by
  have hcut := cutter_isCut L a
  rw [h] at hcut
  obtain ⟨hflat, hpieces, hnf⟩ := hcut
  have hlast : last ≠ [] := (hpieces last (by simp)).1
  have hcut2 := cutter_isCut L (last ++ b)
  obtain ⟨hflat2, hpieces2, hnf2⟩ := hcut2
  have hne2 : cutter L (last ++ b) [] ≠ [] := by
    intro h0
    rw [h0] at hflat2
    simp only [List.flatten_nil] at hflat2
    exact hlast (List.append_eq_nil.1 hflat2.symm).1
  apply isCut_unique (cutter_isCut L (a ++ b))
  refine ⟨?_, ?_, ?_⟩
  · rw [List.flatten_append, hflat2, ← hflat]
    simp
  · intro c hc
    rcases List.mem_append.1 hc with hc | hc
    · exact hpieces c (List.mem_append_left _ hc)
    · exact hpieces2 c hc
  · intro c hc
    rw [List.dropLast_append_of_ne_nil _ hne2] at hc
    rcases List.mem_append.1 hc with hc | hc
    · apply hnf c
      rw [List.dropLast_concat]
      exact hc
    · exact hnf2 c hc

theorem counterInv_unique {A : Bytes} {st st' : Store} {cs : List (List Nat)}
    (h : CounterInv A st cs) (h' : CounterInv A st' cs) : st.counter A = st'.counter A := by
  rcases h with ⟨hcs, hc⟩ | ⟨c, hcs, hle, hc⟩ | ⟨hne, hreg, hc⟩
  · rcases h' with ⟨-, hc'⟩ | ⟨c', hcs', -, -⟩ | ⟨hne', -, -⟩
    · rw [hc, hc']
    · rw [hcs] at hcs'; simp at hcs'
    · exact absurd hcs hne'
  · rcases h' with ⟨hcs', -⟩ | ⟨c', hcs', -, hc'⟩ | ⟨-, hreg', -⟩
    · rw [hcs] at hcs'; simp at hcs'
    · rw [hcs] at hcs'
      have : c = c' := by simpa using hcs'
      rw [hc, hc', this]
    · rw [hcs] at hreg'
      simp only [List.length_singleton, List.flatten_cons, List.flatten_nil, List.append_nil]
        at hreg'
      omega
  · rcases h' with ⟨hcs', -⟩ | ⟨c', hcs', hle', -⟩ | ⟨-, -, hc'⟩
    · exact absurd hcs' hne
    · rw [hcs'] at hreg
      simp only [List.length_singleton, List.flatten_cons, List.flatten_nil, List.append_nil]
        at hreg
      omega
    · rw [hc, hc']

theorem loadChunks_small {A : Bytes} {st : Store} {cs : List (List Nat)} {sc : CounterScan}
    (L : Nat) (hctr : CounterInv A st cs) (hsc : scanCounter A st.counter = .ok sc)
    (hlen : cs.length ≤ 1) (hsmall : cs.flatten.length ≤ 256) {M : Bitmap}
    (hM : M.length < 2 ^ 64) :
    loadChunks L sc M = if M.length ≤ 256 then [M] else cutter L M [] := by
  have hiff := optimizedBranch_iff hsc M
  have hpath : OptimizedPath (st.counter A) M ↔ M.length ≤ 256 := by
    unfold OptimizedPath
    rw [Nat.mod_eq_of_lt hM]
    rcases hctr with ⟨-, hc⟩ | ⟨c, -, -, hc⟩ | ⟨-, hreg, -⟩
    · rw [hc]; simp
    · rw [hc]; simp
    · omega
  unfold loadChunks
  by_cases h : M.length ≤ 256
  · rw [if_pos h, if_pos (hiff.2 (hpath.2 h))]
  · rw [if_neg h]
    have hb : optimizedBranch sc M = false := by
      cases hb : optimizedBranch sc M with
      | false => rfl
      | true => exact absurd (hpath.1 (hiff.1 hb)) h
    rw [hb]; rfl

theorem loadChunks_large {A : Bytes} {st : Store} {cs : List (List Nat)} {sc : CounterScan}
    (L : Nat) (hctr : CounterInv A st cs) (hsc : scanCounter A st.counter = .ok sc)
    (hreg : 2 ≤ cs.length ∨ 256 < cs.flatten.length) (M : Bitmap) :
    loadChunks L sc M = cutter L M [] := by
  have hiff := optimizedBranch_iff hsc M
  have hb : optimizedBranch sc M = false := by
    cases hb : optimizedBranch sc M with
    | false => rfl
    | true =>
      exfalso
      have hp := hiff.1 hb
      rcases hctr with ⟨hcs, -⟩ | ⟨c, hcs, hle, -⟩ | ⟨hne, -, hc⟩
      · rw [hcs] at hreg; simp at hreg
      · rw [hcs] at hreg
        simp only [List.length_singleton, List.flatten_cons, List.flatten_nil,
          List.append_nil] at hreg
        omega
      · have hlen : (st.counter A).length = cs.length := by
          rw [hc, regularCounters, List.length_map, specWrites_length]
        have hpos : 0 < cs.length := List.length_pos.2 hne
        rcases hp.1 with h0 | ⟨-, h1⟩
        · rw [h0] at hlen; simp at hlen; omega
        · obtain ⟨r, hr⟩ := List.exists_mem_of_length_pos (by omega : 0 < (st.counter A).length)
          have h16 := regularCounters_length16 A cs r (by rw [← hc]; exact hr)
          have := h1 r hr
          omega
  unfold loadChunks
  rw [hb]; rfl

theorem isCut_nonfinal_size {L : Nat} (hL : 0 < L) {M : List Nat} {cs : List (List Nat)}
    (h : IsCut L M cs) : ∀ c ∈ cs.dropLast, c.length = (L + 7) / 8 := by
  intro c hc
  obtain ⟨hne, hj⟩ := h.2.1 c (List.mem_of_mem_dropLast hc)
  have hge := h.2.2 c hc
  have hpos : 0 < c.length := List.length_pos.2 hne
  by_cases h1 : c.length = 1
  · omega
  · have := hj (c.length - 1) (by omega) (by omega)
    omega

theorem isCut_piece_size {L : Nat} (hL : 0 < L) {M : List Nat} {cs : List (List Nat)}
    (h : IsCut L M cs) : ∀ c ∈ cs, 1 ≤ c.length ∧ c.length ≤ (L + 7) / 8 := by
  intro c hc
  obtain ⟨hne, hj⟩ := h.2.1 c hc
  have hpos : 0 < c.length := List.length_pos.2 hne
  by_cases h1 : c.length = 1
  · omega
  · have := hj (c.length - 1) (by omega) (by omega)
    omega

theorem loadWrites_values (L : Nat) (A : Bytes) (sc : CounterScan) (M : Bitmap) :
    (loadWrites L A sc M).map ChunkWrite.value = (loadChunks L sc M).map encodeIds := by
  unfold loadWrites loadChunks
  split
  · rfl
  · have := specWrites_values A sc.prevCounter (cutter L M [])
    rw [List.map_map] at this
    exact this

theorem mem_putAll {ws : List ChunkWrite} {t : Table} {e : Bytes × Bytes}
    (h : e ∈ putAll ws t) : e ∈ t ∨ ∃ w ∈ ws, e = (w.key, w.value) := by
  induction ws generalizing t with
  | nil => exact Or.inl h
  | cons w ws ih =>
    rw [putAll] at h
    rcases ih h with h1 | ⟨w', hw', he⟩
    · rcases mem_tablePut h1 with h2 | h2
      · exact Or.inr ⟨w, by simp, h2⟩
      · exact Or.inl h2
    · exact Or.inr ⟨w', List.mem_cons_of_mem _ hw', he⟩

theorem mem_specWrites_nonfinal {A : Bytes} {p : Nat} {cs : List (List Nat)} {w : ChunkWrite}
    (h : w ∈ specWrites A p cs) :
    w.key = A ++ putUint64 maxUint64 ∨ ∃ c ∈ cs.dropLast, w.value = encodeIds c := by
  induction cs generalizing p with
  | nil => simp [specWrites] at h
  | cons c cs ih =>
    simp only [specWrites, List.mem_cons] at h
    rcases h with h | h
    · cases cs with
      | nil => left; rw [h]; rfl
      | cons c2 cs =>
        right
        exact ⟨c, by simp [List.dropLast], by rw [h]⟩
    · cases cs with
      | nil => simp [specWrites] at h
      | cons c2 cs =>
        rcases ih h with h1 | ⟨c', hc', hv⟩
        · exact Or.inl h1
        · exact Or.inr ⟨c', by
            rw [List.dropLast_cons_of_ne_nil (by simp)]
            exact List.mem_cons_of_mem _ hc', hv⟩

theorem loadFunc_sizes {L : Nat} (hL : 0 < L) {st st' : Store} {k : Bytes} {S : Bitmap}
    (h : loadFunc L st k S = .ok st') (hk : k.length = lengthAddr)
    (hP : ∀ e ∈ st.index, e.1.drop lengthAddr ≠ putUint64 maxUint64 →
      e.2.length = 8 * ((L + 7) / 8)) :
    ∀ e ∈ st'.index, e.1.drop lengthAddr ≠ putUint64 maxUint64 →
      e.2.length = 8 * ((L + 7) / 8) := by
  obtain ⟨M, sc, -, -, hst'⟩ := loadFunc_ok_inv h hk
  intro e he hterm
  rw [hst', applyWrites_index] at he
  rcases mem_putAll he with he | ⟨w, hw, hew⟩
  · exact hP e he hterm
  · cases hb : optimizedBranch sc M with
    | true =>
      rw [loadWrites_optimized _ _ _ _ hb] at hw
      simp only [List.mem_singleton] at hw
      exfalso
      apply hterm
      rw [hew, hw]
      exact drop_append_addr hk _
    | false =>
      rw [loadWrites_regular _ _ _ _ hb] at hw
      rcases mem_specWrites_nonfinal hw with hkey | ⟨c, hc, hv⟩
      · exfalso
        apply hterm
        rw [hew]
        show w.key.drop lengthAddr = _
        rw [hkey]
        exact drop_append_addr hk _
      · rw [hew]
        show w.value.length = _
        rw [hv, encodeIds_length, isCut_nonfinal_size hL (cutter_isCut L M) c hc]

theorem Load_sizes {L : Nat} (hL : 0 < L) (es : List (Bytes × Bitmap)) :
    ∀ (st st' : Store), Load L st es = .ok st' → (∀ e ∈ es, e.1.length = lengthAddr) →
      (∀ e ∈ st.index, e.1.drop lengthAddr ≠ putUint64 maxUint64 →
        e.2.length = 8 * ((L + 7) / 8)) →
      ∀ e ∈ st'.index, e.1.drop lengthAddr ≠ putUint64 maxUint64 →
        e.2.length = 8 * ((L + 7) / 8) := by
  induction es with
  | nil =>
    intro st st' h _ hP
    have : st = st' := by simpa [Load] using h
    rw [← this]; exact hP
  | cons x es ih =>
    intro st st' h hk hP
    obtain ⟨k, bm⟩ := x
    rw [Load] at h
    cases h1 : loadFunc L st k bm with
    | error err => rw [h1] at h; simp at h
    | ok st1 =>
      rw [h1] at h
      exact ih st1 st' h (fun e he => hk e (List.mem_cons_of_mem _ he))
        (loadFunc_sizes hL h1 (hk (k, bm) (by simp)) hP)

theorem takeWhile_dropWhile_split {α : Type} (p : α → Bool) (a : List α) (x : α) (b : List α)
    (ha : ∀ y ∈ a, p y = true) (hx : p x = false) :
    (a ++ x :: b).takeWhile p = a ∧ (a ++ x :: b).dropWhile p = x :: b := by
  induction a with
  | nil => simp [List.takeWhile_cons, List.dropWhile_cons, hx]
  | cons y a ih =>
    have hy : p y = true := ha y (by simp)
    have := ih (fun z hz => ha z (List.mem_cons_of_mem _ hz))
    simp only [List.cons_append, List.takeWhile_cons, List.dropWhile_cons, hy, if_true, this,
      and_self]

theorem dropWhile_head_false {α : Type} (p : α → Bool) (l : List α) (x : α) (b : List α)
    (h : l.dropWhile p = x :: b) : p x = false := by
  have hne : l.dropWhile p ≠ [] := by rw [h]; simp
  have := List.head_dropWhile_not p l hne
  simpa [h] using this

theorem deleteKeys_sorted (ks : List Bytes) (t : Table) (h : TableSorted t) :
    TableSorted (deleteKeys ks t) := List.Pairwise.filter _ h

theorem chunksOf_deleteKeys (A : Bytes) (ks : List Bytes) (t : Table) :
    chunksOf A (deleteKeys ks t) = deleteKeys ks (chunksOf A t) := by
  unfold chunksOf deleteKeys
  rw [List.filter_filter, List.filter_filter]
  apply List.filter_congr
  intro x _
  exact Bool.and_comm _ _

theorem chunksOf_deleteKeys_other {A B : Bytes} (hB : B ≠ A) (ks : List Bytes) (t : Table)
    (hks : ∀ k ∈ ks, k.take lengthAddr = A) :
    chunksOf B (deleteKeys ks t) = chunksOf B t := by
  unfold chunksOf deleteKeys
  rw [List.filter_filter]
  apply List.filter_congr
  intro x _
  by_cases hx : x.1.take lengthAddr = B
  · have : ks.contains x.1 = false := by
      cases hc : ks.contains x.1 with
      | false => rfl
      | true =>
        have hmem : x.1 ∈ ks := by simpa using hc
        exact absurd ((hks _ hmem).symm.trans hx).symm hB
    rw [this]
    simp [hx]
  · simp [hx]

theorem deleteKeys_split (a b : Table) (h : TableSorted (a ++ b)) :
    deleteKeys (b.map Prod.fst) (a ++ b) = a := by
  unfold deleteKeys
  obtain ⟨-, -, hab⟩ := List.pairwise_append.1 h
  rw [List.filter_append]
  have h1 : a.filter (fun e => !(b.map Prod.fst).contains e.1) = a := by
    rw [List.filter_eq_self]
    intro e he
    cases hc : (b.map Prod.fst).contains e.1 with
    | false => rfl
    | true =>
      exfalso
      have hmem : e.1 ∈ b.map Prod.fst := by simpa using hc
      obtain ⟨e', he', hk⟩ := List.mem_map.1 hmem
      have hlt := hab e he e' he'
      rw [hk, bytesLt_irrefl] at hlt
      exact Bool.false_ne_true hlt
  have h2 : b.filter (fun e => !(b.map Prod.fst).contains e.1) = [] := by
    rw [List.filter_eq_nil_iff]
    intro e he
    have hmem : e.1 ∈ b.map Prod.fst := List.mem_map_of_mem _ he
    simp [hmem]
  rw [h1, h2, List.append_nil]

theorem nfWrites_length (A : Bytes) (p : Nat) (cs : List (List Nat)) :
    (nfWrites A p cs).length = cs.length := by
  induction cs generalizing p with
  | nil => rfl
  | cons c cs ih => simp [nfWrites, ih]

theorem lastCum_nfWrites (A : Bytes) (pre : List (List Nat))
    (hb : pre.flatten.length < 2 ^ 64) :
    lastCum ((nfWrites A 0 pre).map ChunkWrite.counter) = pre.flatten.length := by
  unfold lastCum
  rcases eq_nil_or_snoc pre with h | ⟨pre', c, h⟩
  · subst h; rfl
  · subst h
    rw [nfWrites_counter_getLast]
    simp only
    have hlen : (pre' ++ [c]).flatten.length = pre'.flatten.length + c.length := by simp
    rw [hlen] at hb ⊢
    rw [List.take_left' (putUint64_length _)]
    have := getUint64_putUint64 (pre'.flatten.length + c.length) hb []
    rwa [List.append_nil] at this

theorem writeLastChunk_inv {A : Bytes} (hA : A.length = lengthAddr) (t : Table)
    (counter : DupTable) (preN : List (List Nat)) (lastc : List Nat)
    (hs : TableSorted t) (hch : chunksOf A t = (nfWrites A 0 preN).map ChunkWrite.entry)
    (hne : ∀ c ∈ preN ++ [lastc], c ≠ []) (hok : BitmapOk (preN ++ [lastc]).flatten)
    (hb : (preN ++ [lastc]).flatten.length < 2 ^ 64) :
    ChunkInv A (writeLastChunk A preN.length (encodeIds lastc) t
        ((nfWrites A 0 preN).map ChunkWrite.counter) counter) (preN ++ [lastc]) ∧
      CounterInv A (writeLastChunk A preN.length (encodeIds lastc) t
        ((nfWrites A 0 preN).map ChunkWrite.counter) counter) (preN ++ [lastc]) ∧
      ∀ B, B ≠ A →
        chunksOf B (writeLastChunk A preN.length (encodeIds lastc) t
          ((nfWrites A 0 preN).map ChunkWrite.counter) counter).index = chunksOf B t ∧
        (writeLastChunk A preN.length (encodeIds lastc) t
          ((nfWrites A 0 preN).map ChunkWrite.counter) counter).counter B = counter B := by
  have hkey : (A ++ putUint64 maxUint64).take lengthAddr = A := List.take_left' hA
  have hlen : (preN ++ [lastc]).flatten.length = preN.flatten.length + lastc.length := by simp
  rw [hlen] at hb
  have hlast : lastc ≠ [] := hne lastc (by simp)
  have hpos : 1 ≤ lastc.length := List.length_pos.2 hlast
  have hcum := lastCum_nfWrites A preN (by omega)
  have hcount : lastCum ((nfWrites A 0 preN).map ChunkWrite.counter) +
      (encodeIds lastc).length / 8 = preN.flatten.length + lastc.length := by
    rw [hcum, encodeIds_length, Nat.mul_div_cancel_left _ (by norm_num : 0 < 8)]
  refine ⟨⟨?_, ?_, hne, hok⟩, ?_, ?_⟩
  · exact tablePut_sorted _ _ _ hs
  · show chunksOf A (tablePut (A ++ putUint64 maxUint64) (encodeIds lastc) t) = _
    rw [chunksOf_tablePut_same hkey _ _ hs, hch, chunkEntries_concat]
    have := tablePut_append (k := A ++ putUint64 maxUint64) (v := encodeIds lastc)
      ((nfWrites A 0 preN).map ChunkWrite.entry) [] (nfEntries_lt_final hne hok)
    rw [List.append_nil] at this
    rw [this]
    rfl
  · unfold writeLastChunk
    simp only [hcount, if_true]
    by_cases hopt : preN.length = 0 ∧ preN.flatten.length + lastc.length ≤ 256
    · rw [if_pos hopt]
      have hpre : preN = [] := List.length_eq_zero.1 hopt.1
      subst hpre
      right; left
      refine ⟨lastc, rfl, by simpa using hopt.2, ?_⟩
      show (if A = A then _ else counter A) = _
      rw [if_pos rfl]
      simp only [List.flatten_nil, List.length_nil, Nat.zero_add]
      rw [optimized_byte lastc.length hpos (by simpa using hopt.2)]
    · rw [if_neg hopt]
      right; right
      refine ⟨by simp, ?_, ?_⟩
      · rw [hlen, List.length_append, List.length_singleton]
        by_cases h0 : preN.length = 0
        · right
          have := fun h => hopt ⟨h0, h⟩
          omega
        · left; omega
      · rw [regularCounters_concat]
        show (if A = A then _ else counter A) = _
        rw [if_pos rfl]
        apply dupInsert_append
        intro w hw
        obtain ⟨q, term, hw', -, hq⟩ := mem_nfWrites_counter hw
        rw [hw']
        exact counter_lt (by omega) hb _ _
  · intro B hB
    refine ⟨?_, ?_⟩
    · show chunksOf B (tablePut (A ++ putUint64 maxUint64) (encodeIds lastc) t) = _
      exact chunksOf_tablePut_other (by rw [hkey]; exact fun h => hB h.symm) _ _
    · show (if B = A then _ else counter B) = counter B
      rw [if_neg hB]

theorem unwindAddress_none (A : Bytes) (e : Nat) (st : Store)
    (h : (chunksOf A st.index).dropWhile
      (fun r => (decodeIds r.2).all (fun x => decide (x < e))) = []) :
    unwindAddress A e st = .ok st := by
  unfold unwindAddress
  simp only [h]

theorem filter_below_split {e : Nat} {pre fol : List (List Nat)} {f : List Nat}
    (hok : (pre ++ f :: fol).flatten.Pairwise (fun a b => a < b))
    (hpre : ∀ c ∈ pre, c.all (fun x => decide (x < e)) = true)
    (hf : f.all (fun x => decide (x < e)) = false) :
    (pre ++ f :: fol).flatten.filter (fun x => decide (x < e)) =
      pre.flatten ++ f.filter (fun x => decide (x < e)) := by
  rw [List.flatten_append, List.flatten_cons, List.filter_append, List.filter_append]
  rw [List.flatten_append, List.flatten_cons] at hok
  obtain ⟨-, hfok, -⟩ := List.pairwise_append.1 hok
  obtain ⟨-, -, hffol⟩ := List.pairwise_append.1 hfok
  have h1 : pre.flatten.filter (fun x => decide (x < e)) = pre.flatten := by
    rw [List.filter_eq_self]
    intro x hx
    obtain ⟨c, hc, hxc⟩ := List.mem_flatten.1 hx
    exact List.all_eq_true.1 (hpre c hc) x hxc
  have h2 : fol.flatten.filter (fun x => decide (x < e)) = [] := by
    rw [List.filter_eq_nil_iff]
    intro y hy hlt
    have hlt' : y < e := by simpa using hlt
    have hall : f.all (fun x => decide (x < e)) = true := by
      rw [List.all_eq_true]
      intro x hx
      have := hffol x hx y hy
      simp only [decide_eq_true_eq]
      omega
    rw [hall] at hf
    exact Bool.noConfusion hf
  rw [h1, h2, List.append_nil]

theorem runCalls_append {σ : Type} (UA : σ → Bytes → Nat → Except String σ)
    (a b : List (Bytes × Nat)) (st s1 : σ) (h : runCalls UA a st = .ok s1) :
    runCalls UA (a ++ b) st = runCalls UA b s1 := by
  induction a generalizing st with
  | nil =>
    simp only [runCalls, Except.ok.injEq] at h
    rw [h]; rfl
  | cons c a ih =>
    simp only [List.cons_append, runCalls] at h ⊢
    cases hc : UA st c.1 c.2 with
    | error e => rw [hc] at h; simp at h
    | ok s2 =>
      rw [hc] at h
      simp only at h ⊢
      exact ih s2 h

theorem unwindWithdrawals_run {σ : Type} (UA : σ → Bytes → Nat → Except String σ)
    (hUA : ∀ s a i, ∃ s', UA s a i = .ok s') (ws : List Withdrawal) (st : σ)
    (calls : List (Bytes × Nat)) :
    ∃ st', unwindWithdrawals UA ws st calls =
        (st', calls ++ ws.map (fun w => (w.Address, w.Index)), none) ∧
      runCalls UA (ws.map (fun w => (w.Address, w.Index))) st = .ok st' := by
  induction ws generalizing st calls with
  | nil => exact ⟨st, by simp [unwindWithdrawals], rfl⟩
  | cons w ws ih =>
    obtain ⟨s', hs'⟩ := hUA st w.Address w.Index
    obtain ⟨st', hst', hrun⟩ := ih s' (calls ++ [(w.Address, w.Index)])
    refine ⟨st', by simp only [unwindWithdrawals, hs', hst', List.map_cons, List.append_assoc,
      List.singleton_append], ?_⟩
    simp only [List.map_cons, runCalls, hs']
    exact hrun

theorem unwindLoop_run {σ : Type} (chain : Nat → List Withdrawal)
    (UA : σ → Bytes → Nat → Except String σ) (hUA : ∀ s a i, ∃ s', UA s a i = .ok s')
    (stopped : Nat → Bool) (hstop : ∀ b, stopped b = false) (n b : Nat) (st : σ)
    (calls : List (Bytes × Nat)) :
    ∃ st', unwindLoop (fun b => .ok (chain b)) UA stopped n b st calls =
        (st', calls ++ (List.range' b n).flatMap
          (fun b => (chain b).map (fun w => (w.Address, w.Index))), none) ∧
      runCalls UA ((List.range' b n).flatMap
        (fun b => (chain b).map (fun w => (w.Address, w.Index)))) st = .ok st' := by
  induction n generalizing b st calls with
  | zero => exact ⟨st, by simp [unwindLoop], rfl⟩
  | succ n ih =>
    simp only [unwindLoop, List.range'_succ, List.flatMap_cons]
    by_cases h0 : (chain b).length = 0
    · rw [if_pos h0]
      have hnil : chain b = [] := List.length_eq_zero.1 h0
      obtain ⟨st', hst', hrun⟩ := ih (b + 1) st calls
      exact ⟨st', by rw [hst', hnil]; simp, by rw [hnil]; simpa using hrun⟩
    · rw [if_neg h0]
      obtain ⟨s1, hs1, hrun1⟩ := unwindWithdrawals_run UA hUA (chain b) st calls
      obtain ⟨st', hst', hrun⟩ := ih (b + 1) s1
        (calls ++ (chain b).map (fun w => (w.Address, w.Index)))
      refine ⟨st', by simp only [hs1, hstop b, Bool.false_eq_true, if_false, hst',
        List.append_assoc], ?_⟩
      rw [runCalls_append UA _ _ st s1 hrun1]
      exact hrun

theorem unwindAddress_found (A : Bytes) (e : Nat) (st : Store) (before : Table)
    (found : Bytes × Bytes) (following : Table)
    (h1 : (chunksOf A st.index).takeWhile
      (fun r => (decodeIds r.2).all (fun x => decide (x < e))) = before)
    (h2 : (chunksOf A st.index).dropWhile
      (fun r => (decodeIds r.2).all (fun x => decide (x < e))) = found :: following) :
    unwindAddress A e st =
      if ((decodeIds found.2).filter (fun x => decide (x < e))).isEmpty then
        .ok ⟨deleteKeys ((found :: following).map Prod.fst) st.index,
          fun a => if a = A then
              (if before.length = 1 ∧ lastCum ((st.counter A).take before.length) ≤ 256 then
                [OptimizedCounterSerializer (lastCum ((st.counter A).take before.length))]
              else (st.counter A).take before.length)
            else st.counter a⟩
      else .ok (writeLastChunk A before.length
        (encodeIds ((decodeIds found.2).filter (fun x => decide (x < e))))
        (deleteKeys ((found :: following).map Prod.fst) st.index)
        ((st.counter A).take before.length) st.counter) := by
  unfold unwindAddress
  simp only [h1, h2]

theorem nfWrites_values (A : Bytes) (p : Nat) (pre : List (List Nat)) :
    ((nfWrites A p pre).map ChunkWrite.entry).map Prod.snd = pre.map encodeIds := by
  induction pre generalizing p with
  | nil => rfl
  | cons c pre ih =>
    simp only [nfWrites, List.map_cons, ChunkWrite.entry]
    rw [← ih (p + c.length)]

theorem chunkInv_last_key {A : Bytes} {st : Store} {cs : List (List Nat)}
    (h : ChunkInv A st cs) :
    chunksOf A st.index = [] ∨ ∃ v, (A ++ putUint64 maxUint64, v) ∈ chunksOf A st.index := by
  rcases eq_nil_or_snoc cs with h0 | ⟨pre, c, h1⟩
  · left; rw [h.2.1, h0]; rfl
  · right
    refine ⟨encodeIds c, ?_⟩
    rw [h.2.1, h1, chunkEntries_concat]
    simp

theorem chunkInv_ids {A : Bytes} {st : Store} {cs : List (List Nat)} (h : ChunkInv A st cs) :
    (∀ r ∈ chunksOf A st.index, ∀ x ∈ decodeIds r.2, x ∈ cs.flatten) ∧
      storedIds A st = cs.flatten := by
  refine ⟨?_, storedIds_of_inv h⟩
  intro r hr x hx
  rw [h.2.1] at hr
  obtain ⟨w, hw, rfl⟩ := List.mem_map.1 hr
  obtain ⟨c, hc, hv⟩ := mem_specWrites_value hw
  have hdec : decodeIds (encodeIds c) = c := by
    apply decodeIds_encodeIds
    intro y hy
    exact h.2.2.2.2 y (List.mem_flatten.2 ⟨c, hc, hy⟩)
  have hx' : x ∈ decodeIds w.value := hx
  rw [hv, hdec] at hx'
  exact List.mem_flatten.2 ⟨c, hc, hx'⟩

theorem unwindAddress_cases {A : Bytes} (hA : A.length = lengthAddr) (e : Nat) (st : Store)
    (cs : List (List Nat)) (hinv : ChunkInv A st cs) (hctr : CounterInv A st cs)
    (hb : cs.flatten.length < 2 ^ 64) :
    ∃ st', unwindAddress A e st = .ok st' ∧
      (∀ r ∈ chunksOf A st'.index, ∀ x ∈ decodeIds r.2, x < e) ∧
      storedIds A st' = cs.flatten.filter (fun x => decide (x < e)) ∧
      ((∃ cs', ChunkInv A st' cs' ∧ CounterInv A st' cs') ↔ onChunkBoundary e cs = false) ∧
      ∀ B, B ≠ A → chunksOf B st'.index = chunksOf B st.index ∧
        st'.counter B = st.counter B := by
  -- what the invariants of the result give
  have hgood : ∀ (st' : Store) (cs' : List (List Nat)), ChunkInv A st' cs' →
      cs'.flatten = cs.flatten.filter (fun x => decide (x < e)) →
      (∀ r ∈ chunksOf A st'.index, ∀ x ∈ decodeIds r.2, x < e) ∧
        storedIds A st' = cs.flatten.filter (fun x => decide (x < e)) := by
    intro st' cs' hinv' hflat
    obtain ⟨h1, h2⟩ := chunkInv_ids hinv'
    refine ⟨?_, by rw [h2, hflat]⟩
    intro r hr x hx
    have := h1 r hr x hx
    rw [hflat] at this
    simpa using (List.mem_filter.1 this).2
  obtain ⟨hs, hch, hne, hok⟩ := hinv
  have hsplit := List.takeWhile_append_dropWhile
    (fun c : List Nat => c.all (fun x => decide (x < e))) cs
  have hpreP : ∀ c ∈ cs.takeWhile (fun c : List Nat => c.all (fun x => decide (x < e))),
      c.all (fun x => decide (x < e)) = true := fun c hc =>
    List.mem_takeWhile_imp (p := fun c : List Nat => c.all (fun x => decide (x < e))) hc
  have hdec : ∀ c ∈ cs, decodeIds (encodeIds c) = c := by
    intro c hc
    apply decodeIds_encodeIds
    intro x hx
    exact hok.2 x (List.mem_flatten.2 ⟨c, hc, hx⟩)
  have hbd : onChunkBoundary e cs =
      (!(cs.takeWhile (fun c : List Nat => c.all (fun x => decide (x < e)))).isEmpty &&
        match cs.dropWhile (fun c : List Nat => c.all (fun x => decide (x < e))) with
        | [] => false
        | f :: _ => f.all (fun x => decide (e ≤ x))) := rfl
  generalize hpre : cs.takeWhile (fun c : List Nat => c.all (fun x => decide (x < e))) = pre
    at hsplit hpreP hbd
  cases hrest : cs.dropWhile (fun c : List Nat => c.all (fun x => decide (x < e))) with
  | nil =>
    -- no chunk holds an id at or above `e`
    rw [hrest] at hbd
    have hbd' : onChunkBoundary e cs = false := by rw [hbd]; simp
    have hall : ∀ c ∈ cs, c.all (fun x => decide (x < e)) = true :=
      List.dropWhile_eq_nil_iff.1 hrest
    have hnone : (chunksOf A st.index).dropWhile
        (fun r => (decodeIds r.2).all (fun x => decide (x < e))) = [] := by
      rw [List.dropWhile_eq_nil_iff, hch]
      intro r hr
      obtain ⟨w, hw, rfl⟩ := List.mem_map.1 hr
      obtain ⟨c, hc, hv⟩ := mem_specWrites_value hw
      show (decodeIds w.value).all _ = true
      rw [hv, hdec c hc]
      exact hall c hc
    have hflat : cs.flatten = cs.flatten.filter (fun x => decide (x < e)) := by
      symm
      rw [List.filter_eq_self]
      intro x hx
      obtain ⟨c, hc, hxc⟩ := List.mem_flatten.1 hx
      exact List.all_eq_true.1 (hall c hc) x hxc
    obtain ⟨g1, g2⟩ := hgood st cs ⟨hs, hch, hne, hok⟩ hflat
    exact ⟨st, unwindAddress_none A e st hnone, g1, g2,
      ⟨fun _ => hbd', fun _ => ⟨cs, ⟨hs, hch, hne, hok⟩, hctr⟩⟩, fun B _ => ⟨rfl, rfl⟩⟩
  | cons f fol =>
    rw [hrest] at hbd
    simp only at hbd
    have hf : f.all (fun x => decide (x < e)) = false :=
      dropWhile_head_false _ cs f fol hrest
    rw [hrest] at hsplit
    subst hsplit
    have hfdec : decodeIds (encodeIds f) = f := hdec f (by simp)
    have hent : chunksOf A st.index = (nfWrites A 0 pre).map ChunkWrite.entry ++
        (specWrites A 0 (f :: fol)).map ChunkWrite.entry := by
      rw [hch, chunkEntries_append A 0 pre (f :: fol) (by simp)]
    obtain ⟨found, following, hsw, hfv⟩ : ∃ found following,
        (specWrites A 0 (f :: fol)).map ChunkWrite.entry = found :: following ∧
          found.2 = encodeIds f := ⟨_, _, rfl, rfl⟩
    rw [hsw] at hent
    have hbefore : ∀ r ∈ (nfWrites A 0 pre).map ChunkWrite.entry,
        (decodeIds r.2).all (fun x => decide (x < e)) = true := by
      intro r hr
      obtain ⟨c, hc, hrc⟩ := mem_nfWrites_entry hr
      rw [hrc]
      show (decodeIds (encodeIds c)).all _ = true
      rw [hdec c (List.mem_append_left _ hc)]
      exact hpreP c hc
    have hfound : (decodeIds found.2).all (fun x => decide (x < e)) = false := by
      rw [hfv, hfdec]; exact hf
    obtain ⟨htw, hdw⟩ := takeWhile_dropWhile_split
      (fun r : Bytes × Bytes => (decodeIds r.2).all (fun x => decide (x < e)))
      ((nfWrites A 0 pre).map ChunkWrite.entry) found following hbefore hfound
    rw [← hent] at htw hdw
    have hun := unwindAddress_found A e st _ found following htw hdw
    rw [hfv, hfdec] at hun
    have hsorted : TableSorted ((nfWrites A 0 pre).map ChunkWrite.entry ++ found :: following) := by
      rw [← hent]; exact chunksOf_sorted A _ hs
    have hdel : chunksOf A (deleteKeys ((found :: following).map Prod.fst) st.index) =
        (nfWrites A 0 pre).map ChunkWrite.entry := by
      rw [chunksOf_deleteKeys, hent, deleteKeys_split _ _ hsorted]
    have hks : ∀ k ∈ (found :: following).map Prod.fst, k.take lengthAddr = A := by
      intro k hk
      obtain ⟨r, hr, rfl⟩ := List.mem_map.1 hk
      have hmem : r ∈ chunksOf A st.index := by rw [hent]; exact List.mem_append_right _ hr
      have := (List.mem_filter.1 hmem).2
      simpa using this
    have hlenb : ((nfWrites A 0 pre).map ChunkWrite.entry).length = pre.length := by
      rw [List.length_map, nfWrites_length]
    have hctrs : (st.counter A).take pre.length = (nfWrites A 0 pre).map ChunkWrite.counter := by
      rcases hctr with ⟨hcs, -⟩ | ⟨c, hcs, -, hc⟩ | ⟨-, -, hc⟩
      · simp at hcs
      · have hpre0 : pre = [] := by
          cases pre with
          | nil => rfl
          | cons p ps =>
            have := congrArg List.length hcs
            simp at this
        subst hpre0
        rfl
      · rw [hc, regularCounters_append A pre (f :: fol) (by simp)]
        exact List.take_left' (by rw [List.length_map, nfWrites_length])
    have hfilter := filter_below_split hok.1 hpreP hf
    have hfiltok : BitmapOk ((pre ++ f :: fol).flatten.filter (fun x => decide (x < e))) :=
      ⟨List.Pairwise.filter _ hok.1, fun x hx => hok.2 x (List.mem_filter.1 hx).1⟩
    have hfiltlen : ((pre ++ f :: fol).flatten.filter (fun x => decide (x < e))).length
        < 2 ^ 64 := Nat.lt_of_le_of_lt (List.length_filter_le _ _) hb
    have hs1 : TableSorted (deleteKeys ((found :: following).map Prod.fst) st.index) :=
      deleteKeys_sorted _ _ hs
    have hframe1 : ∀ B, B ≠ A →
        chunksOf B (deleteKeys ((found :: following).map Prod.fst) st.index) =
          chunksOf B st.index := fun B hB => chunksOf_deleteKeys_other hB _ _ hks
    rw [hlenb] at hun
    by_cases hk : (f.filter (fun x => decide (x < e))).isEmpty = true
    · -- the found chunk is emptied and deleted
      rw [if_pos hk] at hun
      have hk0 : f.filter (fun x => decide (x < e)) = [] := List.isEmpty_iff.1 hk
      rw [hk0, List.append_nil] at hfilter
      have hfall : f.all (fun x => decide (e ≤ x)) = true := by
        rw [List.all_eq_true]
        intro x hx
        have := List.filter_eq_nil_iff.1 hk0 x hx
        simp only [decide_eq_true_eq] at this ⊢
        omega
      rw [hfall, Bool.and_true] at hbd
      rcases eq_nil_or_snoc pre with hp | ⟨pre', cp, hp⟩
      · -- no chunk is left
        subst hp
        have hbd' : onChunkBoundary e ([] ++ f :: fol) = false := by rw [hbd]; rfl
        have hinv' : ChunkInv A ⟨deleteKeys ((found :: following).map Prod.fst) st.index,
            fun a => if a = A then [] else st.counter a⟩ [] :=
          ⟨hs1, by rw [hdel]; rfl, by simp, List.Pairwise.nil, by simp⟩
        have hun' : unwindAddress A e st =
            .ok ⟨deleteKeys ((found :: following).map Prod.fst) st.index,
              fun a => if a = A then [] else st.counter a⟩ := by
          rw [hun]
          simp [hctrs, nfWrites]
        obtain ⟨g1, g2⟩ := hgood _ [] hinv' hfilter.symm
        refine ⟨_, hun', g1, g2, ⟨fun _ => hbd', fun _ => ⟨[], hinv', Or.inl ⟨rfl, by simp⟩⟩⟩,
          ?_⟩
        intro B hB
        exact ⟨hframe1 B hB, by simp [hB]⟩
      · -- chunks are left before the deleted one, under their own keys
        subst hp
        have hbd' : onChunkBoundary e (pre' ++ [cp] ++ f :: fol) = true := by
          rw [hbd]; simp
        refine ⟨_, hun, ?_, ?_, ?_, ?_⟩
        · intro r hr x hx
          have hr' : r ∈ (nfWrites A 0 (pre' ++ [cp])).map ChunkWrite.entry := by
            rw [← hdel]; exact hr
          obtain ⟨c, hc, hrc⟩ := mem_nfWrites_entry hr'
          rw [hrc] at hx
          have hx' : x ∈ decodeIds (encodeIds c) := hx
          rw [hdec c (List.mem_append_left _ hc)] at hx'
          have := List.all_eq_true.1 (hpreP c hc) x hx'
          simpa using this
        · unfold storedIds
          show decodeIds ((chunksOf A (deleteKeys ((found :: following).map Prod.fst)
            st.index)).map Prod.snd).flatten = _
          rw [hdel, nfWrites_values, encodeIds_flatten, hfilter]
          apply decodeIds_encodeIds
          intro x hx
          exact hok.2 x (by
            rw [List.flatten_append]
            exact List.mem_append_left _ hx)
        · constructor
          · rintro ⟨cs', hinv', -⟩
            exfalso
            have hlast := chunkInv_last_key hinv'
            have hidx : chunksOf A (deleteKeys ((found :: following).map Prod.fst) st.index) =
                (nfWrites A 0 (pre' ++ [cp])).map ChunkWrite.entry := hdel
            rcases hlast with h0 | ⟨v, hv⟩
            · have h0' : chunksOf A (deleteKeys ((found :: following).map Prod.fst)
                  st.index) = [] := h0
              rw [hidx] at h0'
              have := congrArg List.length h0'
              rw [hlenb] at this
              simp at this
            · have hv' : (A ++ putUint64 maxUint64, v) ∈
                  chunksOf A (deleteKeys ((found :: following).map Prod.fst) st.index) := hv
              rw [hidx] at hv'
              have hne' : ∀ c' ∈ (pre' ++ [cp]) ++ [f], c' ≠ [] := by
                intro c' hc'
                apply hne c'
                rcases List.mem_append.1 hc' with h | h
                · exact List.mem_append_left _ h
                · simp only [List.mem_singleton] at h
                  rw [h]; simp
              have hok' : BitmapOk ((pre' ++ [cp]) ++ [f]).flatten := by
                have hsub : ((pre' ++ [cp]) ++ [f]).flatten.Sublist
                    (pre' ++ [cp] ++ f :: fol).flatten := by
                  simp only [List.flatten_append, List.flatten_cons, List.flatten_nil,
                    List.append_nil, List.append_assoc]
                  exact List.Sublist.append_left
                    (List.Sublist.append_left (List.sublist_append_left _ _) _) _
                exact ⟨hok.1.sublist hsub, fun x hx => hok.2 x (hsub.subset hx)⟩
              have hlt := nfEntries_lt_final hne' hok' _ hv'
              rw [bytesLt_irrefl] at hlt
              exact Bool.false_ne_true hlt
          · intro h
            rw [hbd'] at h
            exact absurd h (by simp)
        · intro B hB
          exact ⟨hframe1 B hB, by simp [hB]⟩
    · -- the found chunk keeps the ids below `e`
      rw [if_neg hk] at hun
      have hk0 : f.filter (fun x => decide (x < e)) ≠ [] := fun h => hk (List.isEmpty_iff.2 h)
      have hbd' : onChunkBoundary e (pre ++ f :: fol) = false := by
        rw [hbd]
        have : f.all (fun x => decide (e ≤ x)) = false := by
          cases hfa : f.all (fun x => decide (e ≤ x)) with
          | false => rfl
          | true =>
            exfalso
            apply hk0
            rw [List.filter_eq_nil_iff]
            intro x hx hlt
            have h1 := List.all_eq_true.1 hfa x hx
            simp only [decide_eq_true_eq] at h1 hlt
            omega
        rw [this, Bool.and_false]
      rw [hctrs] at hun
      have hflat : (pre ++ [f.filter (fun x => decide (x < e))]).flatten =
          (pre ++ f :: fol).flatten.filter (fun x => decide (x < e)) := by
        rw [hfilter]; simp
      have hne' : ∀ c ∈ pre ++ [f.filter (fun x => decide (x < e))], c ≠ [] := by
        intro c hc
        rcases List.mem_append.1 hc with hc | hc
        · exact hne c (List.mem_append_left _ hc)
        · simp only [List.mem_singleton] at hc
          rw [hc]; exact hk0
      obtain ⟨h1, h2, h3⟩ := writeLastChunk_inv hA _ st.counter pre
        (f.filter (fun x => decide (x < e))) hs1 hdel hne'
        (by rw [hflat]; exact hfiltok) (by rw [hflat]; exact hfiltlen)
      obtain ⟨g1, g2⟩ := hgood _ _ h1 hflat
      refine ⟨_, hun, g1, g2, ⟨fun _ => hbd', fun _ => ⟨_, h1, h2⟩⟩, ?_⟩
      intro B hB
      exact ⟨by rw [(h3 B hB).1, hframe1 B hB], (h3 B hB).2⟩

/-! ## The counter serializers -/

/-- C9: for every count with 1 ≤ count ≤ 256, `OptimizedCounterSerializer` returns exactly
one byte, and its value is count − 1. -/
theorem OptimizedCounterSerializer_spec (count : Nat) (h1 : 1 ≤ count) (h2 : count ≤ 256) :
    OptimizedCounterSerializer count = [count - 1] ∧ count - 1 < 256 :=
  ⟨optimized_byte count h1 h2, by omega⟩

/-- The test vector `TestOptimizedCounterSerializerMax`: 256 is serialized as `0xff`. -/
theorem OptimizedCounterSerializer_spec_witness :
    1 ≤ 256 ∧ 256 ≤ 256 ∧ OptimizedCounterSerializer 256 = [0xff] :=
  ⟨by decide, by decide, (OptimizedCounterSerializer_spec 256 (by decide) (by decide)).1⟩

/-- C10: for every `uint64` count and every 8-byte terminator `t`,
`RegularCounterSerializer count t` is 16 bytes long: the big-endian encoding of the count
(8 bytes whose big-endian value is the count) followed by `t` unchanged. -/
theorem RegularCounterSerializer_spec (count : Nat) (t : Bytes) (hc : count < 2 ^ 64)
    (ht : t.length = 8) :
    (RegularCounterSerializer count t).length = 16 ∧
      (RegularCounterSerializer count t).take 8 = putUint64 count ∧
      (RegularCounterSerializer count t).drop 8 = t ∧
      (∀ b ∈ putUint64 count, b < 256) ∧ beUint (putUint64 count) = count := by
  have hcopy : copyInto lengthChunk t = t := by
    simp [copyInto, lengthChunk, ht]
  have hlen : (putUint64 count).length = 8 := putUint64_length count
  unfold RegularCounterSerializer
  rw [hcopy]
  refine ⟨by simp [hlen, ht], ?_, ?_, beBytes_lt 8 count, beUint_putUint64 count hc⟩
  · exact List.take_left' hlen
  · exact List.drop_left' hlen

/-- The test vector `TestRegularCounterSerializer`. -/
theorem RegularCounterSerializer_spec_witness :
    RegularCounterSerializer 257 [0x12, 0x34, 0x56, 0x78, 0x12, 0x34, 0x56, 0x78] =
        [0, 0, 0, 0, 0, 0, 1, 1, 0x12, 0x34, 0x56, 0x78, 0x12, 0x34, 0x56, 0x78] ∧
      (RegularCounterSerializer 257 [0x12, 0x34, 0x56, 0x78, 0x12, 0x34, 0x56, 0x78]).length
        = 16 :=
  ⟨by decide,
   (RegularCounterSerializer_spec 257 [0x12, 0x34, 0x56, 0x78, 0x12, 0x34, 0x56, 0x78]
      (by decide) (by decide)).1⟩

/-! ## `Load`: one address, one delta -/

/-- C1: if the chunk records of address `A` satisfy the chunk invariants (chunks `cs`), the
counter records of `A` are readable, and `S` is a non-empty bitmap whose ids are all greater
than every id in the non-final chunks of `A`, then `Load` on `(A, S)` succeeds, and
afterwards the chunk values of `A`, concatenated in key order and decoded 8 bytes at a time,
are strictly ascending and hold exactly the ids stored before together with those of `S`. -/
theorem Load_stores_ascending_union (L : Nat) (st : Store) (A : Bytes) (S : Bitmap)
    (cs : List (List Nat)) (hA : A.length = lengthAddr) (hS : S ≠ []) (hSok : BitmapOk S)
    (hinv : ChunkInv A st cs) (hread : CounterReadable (st.counter A))
    (hgt : ∀ x ∈ S, ∀ y ∈ cs.dropLast.flatten, y < x) :
    ∃ st', Load L st [(A, S)] = .ok st' ∧
      (storedIds A st').Pairwise (fun a b => a < b) ∧
      (∀ x, x ∈ storedIds A st' ↔ x ∈ storedIds A st ∨ x ∈ S) := by
  obtain ⟨sc, hsc⟩ := scanCounter_readable A st.counter hread
  obtain ⟨st', hload, -, hinv'⟩ := loadFunc_chunkInv L st A S cs hA hS hSok hinv hgt sc hsc
  have hflat := loadChunks_flatten L sc (bmOr S (cs.getLast?.getD []))
  refine ⟨st', by rw [Load_single]; exact hload, ?_, ?_⟩
  · rw [storedIds_of_inv hinv']; exact hinv'.2.2.2.1
  · intro x
    rw [storedIds_of_inv hinv', storedIds_of_inv hinv, List.flatten_append, hflat,
      List.mem_append, bmOr_mem]
    rcases eq_nil_or_snoc cs with hcs | ⟨pre, c, hcs⟩
    · subst hcs; simp
    · subst hcs
      simp only [List.dropLast_concat, List.flatten_append, List.flatten_cons, List.flatten_nil,
        List.append_nil, List.mem_append, List.getLast?_concat, Option.getD_some]
      tauto


/-- C2: let the counter of address `A` be absent or a single 1-byte record, and let `A` have
no chunk other than (possibly) its last chunk.  If `M`, the ascending enumeration of the ids
of that chunk together with those of the non-empty delta `S`, has at most 256 elements, then
`Load` leaves `A` with exactly one chunk, keyed `A ‖ 0xffffffffffffffff`, whose value is the
ids of `M` packed big-endian in ascending order, and exactly one counter record, the single
byte `|M| − 1`. -/
theorem Load_small_address_optimized (L : Nat) (st : Store) (A : Bytes) (S M : Bitmap)
    (cs : List (List Nat)) (hA : A.length = lengthAddr) (hS : S ≠ []) (hSok : BitmapOk S)
    (hinv : ChunkInv A st cs) (hone : cs.length ≤ 1)
    (hctr : st.counter A = [] ∨ ∃ b, st.counter A = [[b]])
    (hMs : M.Pairwise (fun a b => a < b)) (hMmem : ∀ x, x ∈ M ↔ x ∈ cs.flatten ∨ x ∈ S)
    (hM256 : M.length ≤ 256) :
    ∃ st', Load L st [(A, S)] = .ok st' ∧
      chunksOf A st'.index = [(A ++ putUint64 maxUint64, encodeIds M)] ∧
      st'.counter A = [[M.length - 1]] := by
  have hread : CounterReadable (st.counter A) := by
    rcases hctr with h | h
    · exact Or.inl h
    · exact Or.inr (Or.inl h)
  obtain ⟨sc, hsc⟩ := scanCounter_readable A st.counter hread
  have hdrop : cs.dropLast = [] := by
    match cs, hone with
    | [], _ => rfl
    | [c], _ => rfl
  have hlast : cs.getLast?.getD [] = cs.flatten := by
    match cs, hone with
    | [], _ => rfl
    | [c], _ => simp
  have hgt : ∀ x ∈ S, ∀ y ∈ cs.dropLast.flatten, y < x := by
    rw [hdrop]; simp
  obtain ⟨st', hload, hst', hinv'⟩ := loadFunc_chunkInv L st A S cs hA hS hSok hinv hgt sc hsc
  have hMeq : bmOr S (cs.getLast?.getD []) = M := by
    apply sorted_ext (bmOr_sorted _ _ hSok.1) hMs
    intro x
    rw [bmOr_mem, hMmem, hlast]
    tauto
  rw [hMeq] at hst' hinv'
  obtain ⟨hopt, hp0⟩ := optimizedBranch_of_small hsc hctr hM256
  have hMne : M ≠ [] := by rw [← hMeq]; exact merged_ne_nil _ hS
  have hMpos : 1 ≤ M.length := List.length_pos.2 hMne
  refine ⟨st', by rw [Load_single]; exact hload, ?_, ?_⟩
  · rw [hinv'.2.1, hdrop, loadChunks, if_pos hopt]
    simp [chunkEntries, specWrites, ChunkWrite.entry]
  · rw [hst', loadFunc_counter_same hsc, loadWrites, if_pos hopt]
    have hd : (st.counter A).dropLast = [] := by
      rcases hctr with h | ⟨b, h⟩ <;> simp [h]
    have h64 : (2:Nat) ^ 64 = 18446744073709551616 := by norm_num
    have hmod : (sc.prevCounter + M.length) % 2 ^ 64 = M.length := by
      rw [hp0, h64]; omega
    rw [hd, hmod, optimized_byte M.length hMpos hM256]
    rfl


/-- C3: whenever `Load` takes the regular branch for address `A` (the last chunk merged into
`M`, the counter readable, the optimized test failing), with `p` the cumulative count of the
counter record before the deleted last one (0 if there is none), it splits `M` into
consecutive chunks `cs`, closing a chunk exactly when the buffer reaches `ChunkLimit` or no
id remains (which fixes the split: no other one meets the condition), and writes for them
the records of the spec: non-final chunks keyed by their last id, the final chunk by all
ones, each with the 16-byte counter `BE64(p + ids in chunks 1..i) ‖ terminator`. -/
theorem Load_regular_branch (L : Nat) (st : Store) (A : Bytes) (S M : Bitmap)
    (hA : A.length = lengthAddr) (hM : mergeLastChunk S A st.index = .ok M)
    (hread : CounterReadable (st.counter A)) (hreg : ¬ OptimizedPath (st.counter A) M) :
    ∃ cs, IsCut L M cs ∧ (∀ cs', IsCut L M cs' → cs' = cs) ∧
      Load L st [(A, S)] = .ok (applyWrites A (specWrites A (prevCount (st.counter A)) cs)
        ⟨st.index, dropLastCounter A st.counter⟩) := by
  obtain ⟨sc, hsc⟩ := scanCounter_readable A st.counter hread
  have hb : optimizedBranch sc M = false := by
    cases h : optimizedBranch sc M with
    | false => rfl
    | true => exact absurd ((optimizedBranch_iff hsc M).1 h) hreg
  obtain ⟨hc, hp, -, -, -⟩ := scanCounter_ok hsc
  refine ⟨cutter L M [], cutter_isCut L M,
    fun cs' h' => isCut_unique h' (cutter_isCut L M), ?_⟩
  rw [Load_single, loadFunc_writes L st A S M sc hA hM hsc, loadWrites, hb, ← hp, ← hc]
  rfl


/-- C7, as the code has it: once the last chunk is merged into `M` (fewer than 2^64 ids) and
the counter is readable, `Load` writes records `ws` whose values are consecutive pieces of
the packed ids of `M`, each a whole number of 8-byte ids.  On the optimized branch a value is
at most 2048 bytes, whatever `ChunkLimit` is; on the regular branch a value is less than
`ChunkLimit + 8` bytes (the chunk is closed once the buffer has reached `ChunkLimit`) or a
single id.  So a value stays within `ChunkLimit` when `ChunkLimit` is a multiple of 8 and at
least 2048. -/
theorem Load_chunk_value_sizes (L : Nat) (st : Store) (A : Bytes) (S M : Bitmap)
    (hA : A.length = lengthAddr) (hM : mergeLastChunk S A st.index = .ok M)
    (hread : CounterReadable (st.counter A)) (hcard : M.length < 2 ^ 64) :
    ∃ ws, Load L st [(A, S)] = .ok (applyWrites A ws ⟨st.index, dropLastCounter A st.counter⟩) ∧
      (ws.map ChunkWrite.value).flatten = encodeIds M ∧
      ∀ w ∈ ws, 8 ∣ w.value.length ∧
        (OptimizedPath (st.counter A) M → w.value.length ≤ 2048) ∧
        (¬ OptimizedPath (st.counter A) M → w.value.length < L + 8 ∨ w.value.length = 8) ∧
        (8 ∣ L → 2048 ≤ L → w.value.length ≤ L) := by
  obtain ⟨sc, hsc⟩ := scanCounter_readable A st.counter hread
  have hiff := optimizedBranch_iff hsc M
  refine ⟨loadWrites L A sc M, ?_, ?_, ?_⟩
  · rw [Load_single, loadFunc_writes L st A S M sc hA hM hsc, (scanCounter_ok hsc).1]
  · cases hb : optimizedBranch sc M with
    | true => rw [loadWrites_optimized _ _ _ _ hb]; simp
    | false =>
      rw [loadWrites_regular _ _ _ _ hb, specWrites_value_flatten, (cutter_isCut L M).1]
  · intro w hw
    cases hb : optimizedBranch sc M with
    | true =>
      have hopt := hiff.1 hb
      rw [loadWrites_optimized _ _ _ _ hb] at hw
      simp only [List.mem_singleton] at hw
      have hlen : w.value.length = 8 * M.length := by rw [hw]; exact encodeIds_length M
      have h256 : M.length ≤ 256 := by
        have := hopt.2
        rwa [Nat.mod_eq_of_lt hcard] at this
      refine ⟨⟨M.length, hlen⟩, fun _ => by omega, fun h => absurd hopt h, fun _ _ => by omega⟩
    | false =>
      have hnopt : ¬ OptimizedPath (st.counter A) M := by
        intro h; rw [hiff.2 h] at hb; exact absurd hb (by simp)
      rw [loadWrites_regular _ _ _ _ hb] at hw
      obtain ⟨c, hc, hv⟩ := mem_specWrites_value hw
      have hlen : w.value.length = 8 * c.length := by rw [hv]; exact encodeIds_length c
      have hsz := chunk_size_of_cut (cutter_isCut L M) hc
      rw [← hv] at hsz
      refine ⟨⟨c.length, hlen⟩, fun h => absurd h hnopt, fun _ => hsz, ?_⟩
      rintro ⟨q, hq⟩ h2048
      rcases hsz with hsz | hsz <;> omega

/-- C7 fails as stated: with `ChunkLimit = 1950`, loading the ids 1..245 into a fresh address
writes (optimized branch) a chunk value of 1960 bytes, and loading the ids 1..257 writes
(regular branch) a first chunk value of 1952 bytes; both exceed `ChunkLimit`. -/
theorem Load_chunk_value_above_ChunkLimit :
    (∃ st', Load 1950 Store.empty [(addr0, List.range' 1 245)] = .ok st' ∧
      st'.index = [(addr0 ++ putUint64 maxUint64, encodeIds (List.range' 1 245))] ∧
      (encodeIds (List.range' 1 245)).length = 1960) ∧
    (∃ st', Load 1950 Store.empty [(addr0, List.range' 1 257)] = .ok st' ∧
      st'.index = [(addr0 ++ putUint64 244, encodeIds (List.range' 1 244)),
        (addr0 ++ putUint64 maxUint64, encodeIds (List.range' 245 13))] ∧
      (encodeIds (List.range' 1 244)).length = 1952) := by
  constructor
  · have hopt : optimizedBranch ⟨0, false, false, fun _ => []⟩ (List.range' 1 245) = true := by
      rw [optimizedBranch_fresh _ _ (by rw [List.length_range']; norm_num), List.length_range']
      rfl
    refine ⟨_, Load_fresh 1950 addr0 _ (by decide), ?_, ?_⟩
    · rw [loadWrites_optimized _ _ _ _ hopt]
      rfl
    · rw [encodeIds_length, List.length_range']
  · refine ⟨_, Load_fresh_257_at_1950, rfl, ?_⟩
    rw [encodeIds_length, List.length_range']


/-- C8, as the code has it: for every `ChunkLimit` above 2048 and every address `A`, loading
the ids 1..257 into the empty store leaves a single chunk, keyed `A ‖ 0xffffffffffffffff`,
with a 2056-byte value, and for `A` a single 16-byte counter record: the big-endian count 257
followed by the all-ones terminator. -/
theorem Load_257_fresh_single_chunk (L : Nat) (A : Bytes) (hL : 2048 < L)
    (hA : A.length = lengthAddr) :
    ∃ st', Load L Store.empty [(A, List.range' 1 257)] = .ok st' ∧
      st'.index = [(A ++ putUint64 maxUint64, encodeIds (List.range' 1 257))] ∧
      (encodeIds (List.range' 1 257)).length = 2056 ∧
      st'.counter A = [putUint64 257 ++ putUint64 maxUint64] ∧
      (putUint64 257 ++ putUint64 maxUint64).length = 16 ∧
      getUint64 (putUint64 257 ++ putUint64 maxUint64) = 257 := by
  have hopt : optimizedBranch ⟨0, false, false, fun _ => []⟩ (List.range' 1 257) = false := by
    rw [optimizedBranch_fresh _ _ (by rw [List.length_range']; norm_num), List.length_range']
    rfl
  have hcut : cutter L (List.range' 1 257) [] = [List.range' 1 257] := by
    have hne : List.range' 1 257 ≠ [] :=
      List.ne_nil_of_length_pos (by rw [List.length_range']; norm_num)
    have hlow : ∀ j, 0 < j → j < ([] : List Nat).length + (List.range' 1 257).length →
        8 * j < L := by
      intro j _ hj
      rw [List.length_nil, List.length_range', Nat.zero_add] at hj
      omega
    rw [cutter_single L [] _ hne hlow, List.nil_append]
  refine ⟨_, Load_fresh L A _ hA, ?_, ?_, ?_, ?_, ?_⟩
  · rw [loadWrites_regular _ _ _ _ hopt, hcut, specWrites_singleton]
    rfl
  · rw [encodeIds_length, List.length_range']
  · rw [loadWrites_regular _ _ _ _ hopt, hcut, specWrites_singleton]
    simp only [applyWrites, Store.empty, dupPut, if_true, dupInsert, List.length_range',
      Nat.zero_add]
  · rw [List.length_append, putUint64_length, putUint64_length]
  · exact getUint64_putUint64 257 (by norm_num) _

/-- C8 fails as stated: with `ChunkLimit = 1950`, loading the ids 1..257 into a fresh address
leaves two chunks (244 ids keyed by the id 244, then 13 ids keyed by all ones) and two
counter records. -/
theorem Load_257_fresh_at_1950_two_chunks :
    ∃ st', Load 1950 Store.empty [(addr0, List.range' 1 257)] = .ok st' ∧
      st'.index = [(addr0 ++ putUint64 244, encodeIds (List.range' 1 244)),
        (addr0 ++ putUint64 maxUint64, encodeIds (List.range' 245 13))] ∧
      st'.index.length = 2 ∧
      st'.counter addr0 = [putUint64 244 ++ putUint64 244,
        putUint64 257 ++ putUint64 maxUint64] := by
  refine ⟨_, Load_fresh_257_at_1950, rfl, rfl, ?_⟩
  decide


/-! ## Concrete instances -/

/-- C1 at a concrete input: the delta `{3, 5}` loaded into the sample store. -/
theorem Load_stores_ascending_union_witness :
    ∃ st', Load 16 sampleStore [(addr0, [3, 5])] = .ok st' ∧
      (storedIds addr0 st').Pairwise (fun a b => a < b) ∧
      (∀ x, x ∈ storedIds addr0 st' ↔ x ∈ storedIds addr0 sampleStore ∨ x ∈ [3, 5]) :=
  Load_stores_ascending_union 16 sampleStore addr0 [3, 5] [[1, 2], [3]] (by decide) (by decide)
    (by unfold BitmapOk; decide)
    ⟨by unfold TableSorted; decide, by decide, by decide, by unfold BitmapOk; decide⟩
    (Or.inr (Or.inr ⟨by decide, [putUint64 2 ++ putUint64 2], putUint64 3, by decide⟩))
    (by decide)

/-- C2 at the input of scenario E1: the touches `{7, 42, 99}` on a fresh address. -/
theorem Load_small_address_optimized_witness :
    encodeIds [7, 42, 99] =
        [0, 0, 0, 0, 0, 0, 0, 7, 0, 0, 0, 0, 0, 0, 0, 42, 0, 0, 0, 0, 0, 0, 0, 99] ∧
      ∃ st', Load 1950 Store.empty [(addr0, [7, 42, 99])] = .ok st' ∧
        chunksOf addr0 st'.index = [(addr0 ++ putUint64 maxUint64, encodeIds [7, 42, 99])] ∧
        st'.counter addr0 = [[[7, 42, 99].length - 1]] :=
  ⟨by decide,
   Load_small_address_optimized 1950 Store.empty addr0 [7, 42, 99] [7, 42, 99] [] (by decide)
    (by decide) (by unfold BitmapOk; decide)
    ⟨by unfold TableSorted; decide, by decide, by decide, by unfold BitmapOk; decide⟩
    (by decide) (Or.inl rfl) (by decide) (by intro x; simp) (by decide)⟩

/-- C3 at a concrete input: the delta `{4, 5}` loaded into the sample store with
`ChunkLimit = 16`. -/
theorem Load_regular_branch_witness :
    ∃ cs, IsCut 16 [3, 4, 5] cs ∧ (∀ cs', IsCut 16 [3, 4, 5] cs' → cs' = cs) ∧
      Load 16 sampleStore [(addr0, [4, 5])] =
        .ok (applyWrites addr0 (specWrites addr0 (prevCount (sampleStore.counter addr0)) cs)
          ⟨sampleStore.index, dropLastCounter addr0 sampleStore.counter⟩) :=
  Load_regular_branch 16 sampleStore addr0 [4, 5] [3, 4, 5] (by decide) (by rfl)
    (Or.inr (Or.inr ⟨by decide, [putUint64 2 ++ putUint64 2], putUint64 3, by decide⟩))
    (by unfold OptimizedPath; decide)

/-- C7 (amended) at a concrete input. -/
theorem Load_chunk_value_sizes_witness :
    ∃ ws, Load 16 sampleStore [(addr0, [4, 5])] =
        .ok (applyWrites addr0 ws
          ⟨sampleStore.index, dropLastCounter addr0 sampleStore.counter⟩) ∧
      (ws.map ChunkWrite.value).flatten = encodeIds [3, 4, 5] ∧
      ∀ w ∈ ws, 8 ∣ w.value.length ∧
        (OptimizedPath (sampleStore.counter addr0) [3, 4, 5] → w.value.length ≤ 2048) ∧
        (¬ OptimizedPath (sampleStore.counter addr0) [3, 4, 5] →
          w.value.length < 16 + 8 ∨ w.value.length = 8) ∧
        (8 ∣ 16 → 2048 ≤ 16 → w.value.length ≤ 16) :=
  Load_chunk_value_sizes 16 sampleStore addr0 [4, 5] [3, 4, 5] (by decide) (by rfl)
    (Or.inr (Or.inr ⟨by decide, [putUint64 2 ++ putUint64 2], putUint64 3, by decide⟩))
    (by decide)

/-- C8 (amended) at `ChunkLimit = 4096` and the sample address. -/
theorem Load_257_fresh_single_chunk_witness :
    ∃ st', Load 4096 Store.empty [(addr0, List.range' 1 257)] = .ok st' ∧
      st'.index = [(addr0 ++ putUint64 maxUint64, encodeIds (List.range' 1 257))] ∧
      (encodeIds (List.range' 1 257)).length = 2056 ∧
      st'.counter addr0 = [putUint64 257 ++ putUint64 maxUint64] ∧
      (putUint64 257 ++ putUint64 maxUint64).length = 16 ∧
      getUint64 (putUint64 257 ++ putUint64 maxUint64) = 257 :=
  Load_257_fresh_single_chunk 4096 addr0 (by decide) (by decide)


/-- C4, as the code has it: if the records of `A` satisfy the chunk invariants and the counter
invariants (chunks `cs`), `S` is a non-empty bitmap whose ids are all greater than every id in
the non-final chunks of `A`, and the ids stay fewer than 2^64, then `Load` on `(A, S)`
succeeds and the invariants hold again; in particular every 16-byte counter record of `A`
then has `cumCount` equal to the number of ids in the chunks of `A` whose terminator is at
most the record's terminator, and the largest counter record decodes to the number of ids in
all chunks of `A`. -/
theorem Load_preserves_counter_invariant (L : Nat) (st : Store) (A : Bytes) (S : Bitmap)
    (cs : List (List Nat)) (hA : A.length = lengthAddr) (hS : S ≠ []) (hSok : BitmapOk S)
    (hinv : ChunkInv A st cs) (hctr : CounterInv A st cs)
    (hgt : ∀ x ∈ S, ∀ y ∈ cs.dropLast.flatten, y < x)
    (hbound : cs.flatten.length + S.length < 2 ^ 64) :
    ∃ st' cs', Load L st [(A, S)] = .ok st' ∧ ChunkInv A st' cs' ∧ CounterInv A st' cs' ∧
      (∀ r ∈ st'.counter A, r.length = 16 → getUint64 r = idsUpTo A st' (r.drop 8)) ∧
      countOf (st'.counter A) = totalIds A st' := by
  obtain ⟨st', newcs, hload, hflat, hinv', hctr', -⟩ :=
    loadFunc_inv L st A S cs hA hS hSok hinv hctr hgt hbound
  have hb' : (cs.dropLast ++ newcs).flatten.length < 2 ^ 64 := by
    have h1 := bmOr_length_le S (cs.getLast?.getD [])
    have h2 := flatten_length_split cs
    rw [List.flatten_append, List.length_append, hflat]
    omega
  obtain ⟨h4, hcount⟩ := inv_store_level hA hinv' hctr' hb'
  exact ⟨st', _, by rw [Load_single]; exact hload, hinv', hctr', h4, hcount⟩

/-- C4 fails as stated: the sample store satisfies the chunk and counter invariants for
`addr0`, yet after loading the delta `{1, 2}` (ids already stored in a non-final chunk) with
`ChunkLimit = 16` the counter records are (2, key 2), (4, key 2), (5, all ones) while the
chunks still hold 3 ids: the record (4, key 2) names a chunk of 2 ids and the largest record
decodes to 5. -/
theorem Load_unordered_delta_breaks_counter :
    ChunkInv addr0 sampleStore [[1, 2], [3]] ∧ CounterInv addr0 sampleStore [[1, 2], [3]] ∧
      (∀ r ∈ sampleStore.counter addr0, r.length = 16 →
        getUint64 r = idsUpTo addr0 sampleStore (r.drop 8)) ∧
      ∃ st', Load 16 sampleStore [(addr0, [1, 2])] = .ok st' ∧
        st'.counter addr0 = [putUint64 2 ++ putUint64 2, putUint64 4 ++ putUint64 2,
          putUint64 5 ++ putUint64 maxUint64] ∧
        idsUpTo addr0 st' (putUint64 2) = 2 ∧
        countOf (st'.counter addr0) = 5 ∧ totalIds addr0 st' = 3 := by
  refine ⟨sampleStore_chunkInv, Or.inr (Or.inr ⟨by decide, by decide, by decide⟩), by decide,
    _, rfl, by decide, by decide, by decide, by decide⟩

/-- C4 (amended) at a concrete input: the delta `{3, 5}` loaded into the sample store. -/
theorem Load_preserves_counter_invariant_witness :
    ∃ st' cs', Load 16 sampleStore [(addr0, [3, 5])] = .ok st' ∧ ChunkInv addr0 st' cs' ∧
      CounterInv addr0 st' cs' ∧
      (∀ r ∈ st'.counter addr0, r.length = 16 → getUint64 r = idsUpTo addr0 st' (r.drop 8)) ∧
      countOf (st'.counter addr0) = totalIds addr0 st' :=
  Load_preserves_counter_invariant 16 sampleStore addr0 [3, 5] [[1, 2], [3]] (by decide)
    (by decide) (by unfold BitmapOk; decide)
    ⟨by unfold TableSorted; decide, by decide, by decide, by unfold BitmapOk; decide⟩
    (Or.inr (Or.inr ⟨by decide, by decide, by decide⟩)) (by decide) (by decide)


/-! ## Sequences of `Load` from the empty store -/

/-- C5: after any sequence of `Load`s from the empty store, the entries being well-formed,
strictly increasing per address and fewer than 2^64 ids per address, every load succeeds and every
address that received at least one id has exactly one chunk whose key terminator is
`0xffffffffffffffff`, every other chunk of it having for key terminator the largest id in its
value. -/
theorem LoadSeq_terminators (L : Nat) (batches : List (List (Bytes × Bitmap)))
    (hok : DeltasOk batches.flatten) (hinc : DeltasIncreasing batches.flatten)
    (hb : ∀ A, (idsFor A batches.flatten).length < 2 ^ 64) :
    ∃ st', LoadSeq L Store.empty batches = .ok st' ∧
      ∀ A, A.length = lengthAddr → idsFor A batches.flatten ≠ [] →
        ((chunksOf A st'.index).filter
          (fun e => decide (e.1.drop lengthAddr = putUint64 maxUint64))).length = 1 ∧
        ∀ e ∈ chunksOf A st'.index, e.1.drop lengthAddr ≠ putUint64 maxUint64 →
          decodeIds e.2 ≠ [] ∧ e.1.drop lengthAddr = putUint64 (maxId (decodeIds e.2)) := by
  obtain ⟨st', hload, hG⟩ := Load_storeInv L batches.flatten [] Store.empty storeInv_empty hok
    (by simpa using hinc) (by simpa using hb)
  refine ⟨st', by rw [LoadSeq_eq_Load]; exact hload, ?_⟩
  intro A hA hids
  obtain ⟨cs, hflat, hinv, -⟩ := hG A hA
  apply chunkInv_terminators hA hinv
  intro h0
  rw [h0] at hflat
  simp at hflat
  exact hids hflat


/-- C6: after any sequence of `Load`s from the empty store (well-formed entries in any order,
fewer than 2^64 ids per address) every load succeeds, and for every address `A`: the counter of
`A` has a 1-byte record if and only if `A` has a single chunk holding at most 256 ids, in
which case that record is its only counter record; otherwise every counter record of `A` is
16 bytes long. -/
theorem LoadSeq_counter_forms (L : Nat) (batches : List (List (Bytes × Bitmap)))
    (hok : DeltasOk batches.flatten) (hb : ∀ A, (idsFor A batches.flatten).length < 2 ^ 64) :
    ∃ st', LoadSeq L Store.empty batches = .ok st' ∧
      ∀ A, A.length = lengthAddr →
        ((∃ r ∈ st'.counter A, r.length = 1) ↔
          ((chunksOf A st'.index).length = 1 ∧
            ∀ e ∈ chunksOf A st'.index, e.2.length / 8 ≤ 256)) ∧
        ((∃ r ∈ st'.counter A, r.length = 1) → (st'.counter A).length = 1) ∧
        ((¬ ∃ r ∈ st'.counter A, r.length = 1) → ∀ r ∈ st'.counter A, r.length = 16) := by
  have h0 : ∀ A, A.length = lengthAddr → AnyOrderInv A Store.empty (idsFor A []).length := by
    intro A hA
    obtain ⟨cs, hflat, hinv, hctr⟩ := storeInv_empty A hA
    refine Or.inl ⟨cs, hinv, hctr, ?_⟩
    rw [hflat]
  obtain ⟨st', hload, -, hW⟩ := Load_anyOrder L batches.flatten [] Store.empty
    List.Pairwise.nil h0 hok (by simpa using hb)
  exact ⟨st', by rw [LoadSeq_eq_Load]; exact hload, fun A hA => anyOrderInv_reading (hW A hA)⟩


/-- C5 at a concrete input: two loads, two addresses. -/
theorem LoadSeq_terminators_witness :
    ∃ st', LoadSeq 16 Store.empty
        [[(addr0, [1, 2, 3]), (List.replicate 20 1, [5])], [(addr0, [7, 9])]] = .ok st' ∧
      ∀ A, A.length = lengthAddr →
        idsFor A [(addr0, [1, 2, 3]), (List.replicate 20 1, [5]), (addr0, [7, 9])] ≠ [] →
        ((chunksOf A st'.index).filter
          (fun e => decide (e.1.drop lengthAddr = putUint64 maxUint64))).length = 1 ∧
        ∀ e ∈ chunksOf A st'.index, e.1.drop lengthAddr ≠ putUint64 maxUint64 →
          decodeIds e.2 ≠ [] ∧ e.1.drop lengthAddr = putUint64 (maxId (decodeIds e.2)) :=
  LoadSeq_terminators 16 [[(addr0, [1, 2, 3]), (List.replicate 20 1, [5])], [(addr0, [7, 9])]]
    (by unfold DeltasOk BitmapOk; decide) (by unfold DeltasIncreasing; decide)
    (fun A => Nat.lt_of_le_of_lt (idsFor_length_le A _) (by decide))

/-- C6 at a concrete input: three loads, the second one below the ids already stored. -/
theorem LoadSeq_counter_forms_witness :
    ∃ st', LoadSeq 16 Store.empty
        [[(addr0, [4, 5, 6])], [(addr0, [1, 2])], [(List.replicate 20 1, [5])]] = .ok st' ∧
      ∀ A, A.length = lengthAddr →
        ((∃ r ∈ st'.counter A, r.length = 1) ↔
          ((chunksOf A st'.index).length = 1 ∧
            ∀ e ∈ chunksOf A st'.index, e.2.length / 8 ≤ 256)) ∧
        ((∃ r ∈ st'.counter A, r.length = 1) → (st'.counter A).length = 1) ∧
        ((¬ ∃ r ∈ st'.counter A, r.length = 1) → ∀ r ∈ st'.counter A, r.length = 16) :=
  LoadSeq_counter_forms 16 [[(addr0, [4, 5, 6])], [(addr0, [1, 2])], [(List.replicate 20 1, [5])]]
    (by unfold DeltasOk BitmapOk; decide)
    (fun A => Nat.lt_of_le_of_lt (idsFor_length_le A _) (by decide))

/-! ## The counter serializers: the last record, reading back, the record order -/

/-- C11: for every `uint64` count, `LastCounterSerializer count` is 16 bytes long: the
big-endian encoding of the count (8 bytes whose big-endian value is the count) followed by
eight `0xff` bytes; it equals `RegularCounterSerializer` of the count and the terminator
`0xffffffffffffffff`. -/
theorem LastCounterSerializer_spec (count : Nat) (hc : count < 2 ^ 64) :
    (LastCounterSerializer count).length = 16 ∧
      LastCounterSerializer count = putUint64 count ++ List.replicate 8 0xff ∧
      (∀ b ∈ putUint64 count, b < 256) ∧ beUint (putUint64 count) = count ∧
      LastCounterSerializer count = RegularCounterSerializer count (List.replicate 8 0xff) := by
  have hlen : (putUint64 count).length = 8 := putUint64_length count
  refine ⟨?_, ?_, beBytes_lt 8 count, beUint_putUint64 count hc, ?_⟩
  · simp [LastCounterSerializer, hlen, putUint64_maxUint64]
  · rw [LastCounterSerializer, putUint64_maxUint64]
  · rw [regular_eq count _ (by simp), LastCounterSerializer, putUint64_maxUint64]

/-- The test vectors `TestLastCounterSerializerMin` and `TestLastCounterSerializerMax`. -/
theorem LastCounterSerializer_spec_witness :
    LastCounterSerializer 0 =
        [0, 0, 0, 0, 0, 0, 0, 0, 0xff, 0xff, 0xff, 0xff, 0xff, 0xff, 0xff, 0xff] ∧
      LastCounterSerializer (2 ^ 64 - 1) = List.replicate 16 0xff ∧
      LastCounterSerializer (2 ^ 64 - 1) =
        RegularCounterSerializer (2 ^ 64 - 1) (List.replicate 8 0xff) :=
  ⟨by decide, by decide, (LastCounterSerializer_spec (2 ^ 64 - 1) (by decide)).2.2.2.2⟩

/-- C12: each counter record read back the way `Load` dispatches, on the record length alone
(`len(counterV) == 1`, else the count is `Uint64` of the first 8 bytes and the terminator
the bytes from 8 on), gives what was serialized: the 1-byte record of a count in 1..256 read
as `byte + 1`; the 16-byte record of `RegularCounterSerializer count t`; and the 16-byte
record of `LastCounterSerializer count`, whose terminator reads `0xffffffffffffffff`. -/
theorem counter_round_trip (c count : Nat) (t : Bytes) (h1 : 1 ≤ c) (h2 : c ≤ 256)
    (hc : count < 2 ^ 64) (ht : t.length = 8) :
    ((OptimizedCounterSerializer c).length = 1 ∧
        (OptimizedCounterSerializer c).headD 0 + 1 = c) ∧
      ((RegularCounterSerializer count t).length = 16 ∧
        getUint64 ((RegularCounterSerializer count t).take 8) = count ∧
        (RegularCounterSerializer count t).drop 8 = t) ∧
      ((LastCounterSerializer count).length = 16 ∧
        getUint64 ((LastCounterSerializer count).take 8) = count ∧
        (LastCounterSerializer count).drop 8 = List.replicate 8 0xff ∧
        getUint64 ((LastCounterSerializer count).drop 8) = maxUint64) := by
  have hlen : (putUint64 count).length = 8 := putUint64_length count
  have hget : ∀ rest, getUint64 ((putUint64 count ++ rest).take 8) = count := by
    intro rest
    rw [List.take_left' hlen]
    have := getUint64_putUint64 count hc []
    simpa using this
  refine ⟨?_, ?_, ?_⟩
  · rw [optimized_byte c h1 h2]
    refine ⟨rfl, ?_⟩
    simp only [List.headD_cons]
    omega
  · rw [regular_eq count t ht]
    exact ⟨by simp [hlen, ht], hget t, List.drop_left' hlen⟩
  · unfold LastCounterSerializer
    refine ⟨by simp [hlen, putUint64_length], hget _, ?_, ?_⟩
    · rw [List.drop_left' hlen, putUint64_maxUint64]
    · rw [List.drop_left' hlen]
      have := getUint64_putUint64 maxUint64 maxUint64_lt []
      simpa using this

/-- C12 at the test vectors of `counter_test.go`: 256, and 257 with `0x1234567812345678`. -/
theorem counter_round_trip_witness :
    ((OptimizedCounterSerializer 256).length = 1 ∧
        (OptimizedCounterSerializer 256).headD 0 + 1 = 256) ∧
      ((RegularCounterSerializer 257 [0x12, 0x34, 0x56, 0x78, 0x12, 0x34, 0x56, 0x78]).length
          = 16 ∧
        getUint64 ((RegularCounterSerializer 257
          [0x12, 0x34, 0x56, 0x78, 0x12, 0x34, 0x56, 0x78]).take 8) = 257 ∧
        (RegularCounterSerializer 257 [0x12, 0x34, 0x56, 0x78, 0x12, 0x34, 0x56, 0x78]).drop 8
          = [0x12, 0x34, 0x56, 0x78, 0x12, 0x34, 0x56, 0x78]) ∧
      ((LastCounterSerializer 257).length = 16 ∧
        getUint64 ((LastCounterSerializer 257).take 8) = 257 ∧
        (LastCounterSerializer 257).drop 8 = List.replicate 8 0xff ∧
        getUint64 ((LastCounterSerializer 257).drop 8) = maxUint64) :=
  counter_round_trip 256 257 [0x12, 0x34, 0x56, 0x78, 0x12, 0x34, 0x56, 0x78]
    (by decide) (by decide) (by decide) (by decide)

/-- C13: on 16-byte counter records the bytewise lexicographic order is the numeric order on
`(cumCount, terminator)`: `RegularCounterSerializer c1 t1` sorts strictly before
`RegularCounterSerializer c2 t2` iff `c1 < c2`, or `c1 = c2` and `t1 < t2` as big-endian
numbers; so records sort by `cumCount`, and `LastCounterSerializer c` does not sort before
a regular record whose count is at most `c`. -/
theorem counter_record_order (c1 c2 : Nat) (t1 t2 : Bytes) (hc1 : c1 < 2 ^ 64)
    (hc2 : c2 < 2 ^ 64) (ht1 : t1.length = 8) (ht2 : t2.length = 8)
    (hb1 : ∀ x ∈ t1, x < 256) (hb2 : ∀ x ∈ t2, x < 256) :
    (bytesLt (RegularCounterSerializer c1 t1) (RegularCounterSerializer c2 t2) = true ↔
        c1 < c2 ∨ (c1 = c2 ∧ beUint t1 < beUint t2)) ∧
      (c1 < c2 →
        bytesLt (RegularCounterSerializer c1 t1) (RegularCounterSerializer c2 t2) = true) ∧
      (∀ c, c2 ≤ c → c < 2 ^ 64 →
        bytesLt (LastCounterSerializer c) (RegularCounterSerializer c2 t2) = false) := by
  have hlt : ∀ a b : Nat, a < 2 ^ 64 → b < 2 ^ 64 → a < b → ∀ x y : Bytes,
      bytesLt (putUint64 a ++ x) (putUint64 b ++ y) = true := by
    intro a b ha hb hab x y
    apply bytesLt_append_of_lt (by rw [putUint64_length, putUint64_length])
    rw [bytesLt_putUint64 ha hb]
    simpa using hab
  rw [regular_eq c1 t1 ht1, regular_eq c2 t2 ht2]
  refine ⟨?_, fun h => hlt c1 c2 hc1 hc2 h t1 t2, ?_⟩
  · rcases Nat.lt_trichotomy c1 c2 with h | h | h
    · simp [hlt c1 c2 hc1 hc2 h t1 t2, h]
    · subst h
      rw [bytesLt_append_left, bytesLt_beUint t1 t2 (by rw [ht1, ht2]) hb1 hb2]
      simp
    · rw [bytesLt_asymm (hlt c2 c1 hc2 hc1 h t2 t1)]
      have h1 : ¬ c1 < c2 := by omega
      have h2 : ¬ c1 = c2 := by omega
      simp [h1, h2]
  · intro c hle hc
    unfold LastCounterSerializer
    rcases Nat.lt_or_eq_of_le hle with h | h
    · exact bytesLt_asymm (hlt c2 c hc2 hc h t2 _)
    · subst h
      rw [bytesLt_append_left, bytesLt_beUint (putUint64 maxUint64) t2
        (by rw [putUint64_length, ht2]) (beBytes_lt 8 maxUint64) hb2,
        beUint_putUint64 maxUint64 maxUint64_lt]
      have := beUint_lt t2 hb2
      rw [ht2] at this
      have h8 : (256:Nat) ^ 8 = 18446744073709551616 := by norm_num
      have hm : maxUint64 = 18446744073709551615 := by unfold maxUint64; norm_num
      rw [h8] at this
      rw [hm]
      simp only [decide_eq_false_iff_not]
      omega

/-- C13 at concrete records: counts 2 and 3 with terminators 9 and 5. -/
theorem counter_record_order_witness :
    (bytesLt (RegularCounterSerializer 2 (putUint64 9))
          (RegularCounterSerializer 3 (putUint64 5)) = true ↔
        2 < 3 ∨ (2 = 3 ∧ beUint (putUint64 9) < beUint (putUint64 5))) ∧
      (2 < 3 →
        bytesLt (RegularCounterSerializer 2 (putUint64 9))
          (RegularCounterSerializer 3 (putUint64 5)) = true) ∧
      (∀ c, 3 ≤ c → c < 2 ^ 64 →
        bytesLt (LastCounterSerializer c) (RegularCounterSerializer 3 (putUint64 5)) = false) :=
  counter_record_order 2 3 (putUint64 9) (putUint64 5) (by decide) (by decide) (by decide)
    (by decide) (by decide) (by decide)

/-! ## The in-memory handler: `TouchIndex` and `Flush` -/

/-- C14: `TouchIndex addr idx` makes the in-memory set of `addr` its previous set (empty when
absent) with `idx` added, leaves the set of every other address and the collector as they
were, changes nothing when `idx` is already in the set of `addr`, and applied twice equals
applied once.  A bitmap is held as its ascending enumeration. -/
theorem TouchIndex_spec (h : StandardIndexHandler) (addr : Bytes) (idx : Nat)
    (hok : ∀ bm, mapGet addr h.bitmaps = some bm → bm.Pairwise (fun a b => a < b)) :
    (∃ bm', mapGet addr (TouchIndex h addr idx).bitmaps = some bm' ∧
        bm'.Pairwise (fun a b => a < b) ∧
        ∀ x, x ∈ bm' ↔ x ∈ (mapGet addr h.bitmaps).getD [] ∨ x = idx) ∧
      (∀ a, a ≠ addr → mapGet a (TouchIndex h addr idx).bitmaps = mapGet a h.bitmaps) ∧
      (TouchIndex h addr idx).collector = h.collector ∧
      (idx ∈ (mapGet addr h.bitmaps).getD [] → TouchIndex h addr idx = h) ∧
      TouchIndex (TouchIndex h addr idx) addr idx = TouchIndex h addr idx := by
  obtain ⟨bitmaps, collector⟩ := h
  cases hg : mapGet addr bitmaps with
  | none =>
    have hT : TouchIndex ⟨bitmaps, collector⟩ addr idx =
        ⟨mapSet addr (bmAdd idx []) (mapSet addr [] bitmaps), collector⟩ := by
      simp only [TouchIndex, hg]
    rw [hT]
    refine ⟨⟨_, mapGet_mapSet_same _ _ _, by simp [bmAdd], ?_⟩, ?_, rfl, ?_, ?_⟩
    · intro x; simp [bmAdd]
    · intro a ha
      simp only
      rw [mapGet_mapSet_other ha, mapGet_mapSet_other ha]
    · intro hx; simp at hx
    · simp only [TouchIndex, mapGet_mapSet_same, bmAdd_idem, mapSet_mapSet]
  | some bm =>
    have hs := hok bm hg
    have hT : TouchIndex ⟨bitmaps, collector⟩ addr idx =
        ⟨mapSet addr (bmAdd idx bm) bitmaps, collector⟩ := by
      simp only [TouchIndex, hg]
    rw [hT]
    refine ⟨⟨_, mapGet_mapSet_same _ _ _, bmAdd_sorted idx bm hs, ?_⟩, ?_, rfl, ?_, ?_⟩
    · intro x
      rw [bmAdd_mem]
      simp only [Option.getD_some]
      exact Or.comm
    · intro a ha
      exact mapGet_mapSet_other ha _ _
    · intro hx
      simp only [Option.getD_some] at hx
      rw [bmAdd_of_mem hs hx, mapSet_of_get hg]
    · simp only [TouchIndex, mapGet_mapSet_same, bmAdd_idem, mapSet_mapSet]

/-- C14 at a concrete input: the id 7 touched for an address that holds `{7, 42}`. -/
theorem TouchIndex_spec_witness :
    (∃ bm', mapGet addr0 (TouchIndex sampleHandler addr0 7).bitmaps = some bm' ∧
        bm'.Pairwise (fun a b => a < b) ∧
        ∀ x, x ∈ bm' ↔ x ∈ (mapGet addr0 sampleHandler.bitmaps).getD [] ∨ x = 7) ∧
      (∀ a, a ≠ addr0 →
        mapGet a (TouchIndex sampleHandler addr0 7).bitmaps = mapGet a sampleHandler.bitmaps) ∧
      (TouchIndex sampleHandler addr0 7).collector = sampleHandler.collector ∧
      (7 ∈ (mapGet addr0 sampleHandler.bitmaps).getD [] →
        TouchIndex sampleHandler addr0 7 = sampleHandler) ∧
      TouchIndex (TouchIndex sampleHandler addr0 7) addr0 7 =
        TouchIndex sampleHandler addr0 7 :=
  TouchIndex_spec sampleHandler addr0 7 (by
    intro bm hbm
    have h2 : mapGet addr0 sampleHandler.bitmaps = some [7, 42] := by
      simp [mapGet, sampleHandler]
    rw [h2] at hbm
    rw [← Option.some.inj hbm]
    decide)

/-- C15: whatever the orders in which the two `range` loops visit the map, `needFlush64`
answers whether the sum of the serialized sizes (a `uint64`: below 2^64) is at least
256 MiB; `Flush`
hands every buffered pair to the collector and empties the map when `force` is set or that
sum is at least 268435456, and otherwise collects nothing and leaves the handler as it
was. -/
theorem Flush_spec (serializedSize : Bitmap → Nat) (h : StandardIndexHandler) (force : Bool)
    (order1 order2 : List (Bytes × Bitmap)) (h1 : order1.Perm h.bitmaps)
    (h2 : order2.Perm h.bitmaps) (hsum : totalSize serializedSize h.bitmaps < 2 ^ 64) :
    needFlush64 serializedSize order1 bitmapsBufLimit =
        decide (268435456 ≤ totalSize serializedSize h.bitmaps) ∧
      (force = true ∨ 268435456 ≤ totalSize serializedSize h.bitmaps →
        (Flush serializedSize h force order1 order2).bitmaps = [] ∧
        (Flush serializedSize h force order1 order2).collector = h.collector ++ order2 ∧
        (Flush serializedSize h force order1 order2).collector.Perm
          (h.collector ++ h.bitmaps)) ∧
      (¬ (force = true ∨ 268435456 ≤ totalSize serializedSize h.bitmaps) →
        Flush serializedSize h force order1 order2 = h) := by
  have hlim : bitmapsBufLimit = 268435456 := by decide
  have hneed : needFlush64 serializedSize order1 bitmapsBufLimit =
      decide (268435456 ≤ totalSize serializedSize h.bitmaps) := by
    unfold needFlush64
    rw [needFlush64Loop_eq serializedSize bitmapsBufLimit order1 0 (by rw [hlim]; omega)
      (by rw [totalSize_perm serializedSize h1]; omega), totalSize_perm serializedSize h1, hlim]
    simp
  refine ⟨hneed, ?_, ?_⟩
  · intro hc
    have hcond : (force || needFlush64 serializedSize order1 bitmapsBufLimit) = true := by
      rw [hneed]
      rcases hc with hf | hs
      · simp [hf]
      · simp [hs]
    have hF : Flush serializedSize h force order1 order2 = ⟨[], h.collector ++ order2⟩ := by
      unfold Flush
      rw [if_pos hcond, flushBitmaps64_eq]
    rw [hF]
    exact ⟨rfl, rfl, List.Perm.append_left _ h2⟩
  · intro hc
    have hcond : (force || needFlush64 serializedSize order1 bitmapsBufLimit) = false := by
      rw [hneed]
      simp only [not_or] at hc
      simp [hc.1, hc.2]
    simp [Flush, hcond]

/-- C15 at a concrete input: the sample handler, its map visited in two different orders,
with `force` set. -/
theorem Flush_spec_witness :
    needFlush64 sampleSize [(List.replicate 20 1, [2]), (addr0, [7, 42])] bitmapsBufLimit =
        decide (268435456 ≤ totalSize sampleSize sampleHandler.bitmaps) ∧
      (true = true ∨ 268435456 ≤ totalSize sampleSize sampleHandler.bitmaps →
        (Flush sampleSize sampleHandler true [(List.replicate 20 1, [2]), (addr0, [7, 42])]
          [(addr0, [7, 42]), (List.replicate 20 1, [2])]).bitmaps = [] ∧
        (Flush sampleSize sampleHandler true [(List.replicate 20 1, [2]), (addr0, [7, 42])]
          [(addr0, [7, 42]), (List.replicate 20 1, [2])]).collector =
          sampleHandler.collector ++ [(addr0, [7, 42]), (List.replicate 20 1, [2])] ∧
        (Flush sampleSize sampleHandler true [(List.replicate 20 1, [2]), (addr0, [7, 42])]
          [(addr0, [7, 42]), (List.replicate 20 1, [2])]).collector.Perm
          (sampleHandler.collector ++ sampleHandler.bitmaps)) ∧
      (¬ (true = true ∨ 268435456 ≤ totalSize sampleSize sampleHandler.bitmaps) →
        Flush sampleSize sampleHandler true [(List.replicate 20 1, [2]), (addr0, [7, 42])]
          [(addr0, [7, 42]), (List.replicate 20 1, [2])] = sampleHandler) :=
  Flush_spec sampleSize sampleHandler true [(List.replicate 20 1, [2]), (addr0, [7, 42])]
    [(addr0, [7, 42]), (List.replicate 20 1, [2])]
    (List.Perm.swap _ _ _) (List.Perm.refl _) (by decide)

/-! ## `Load` on counter records it does not expect -/

/-- C16: when `Load` processes an address `A` (the last chunk, if any, merged into `M`) whose
largest counter record is 1 byte long while `A` has more than one counter record, or is 16
bytes long with a terminator other than `0xffffffffffffffff`, the step fails with a
`db possibly corrupted` error and leaves the index and counter tables as they were. -/
theorem Load_corrupted_counter (L : Nat) (st : Store) (A : Bytes) (S M : Bitmap) (v : Bytes)
    (hA : A.length = lengthAddr) (hM : mergeLastChunk S A st.index = .ok M)
    (hlast : (st.counter A).getLast? = some v)
    (hbad : (v.length = 1 ∧ 1 < (st.counter A).length) ∨
      (v.length = 16 ∧ getUint64 (v.drop 8) ≠ maxUint64)) :
    ∃ e, (e = "db possibly corrupted: optimized counter with duplicates" ∨
        e = "db possibly corrupted: last chunk is not 0xffffffffffffffff") ∧
      Load L st [(A, S)] = .error e ∧ loadFuncState L st A S = (st, some e) := by
  rcases hbad with ⟨h1, hmany⟩ | ⟨h16, hterm⟩
  · have hs : scanCounterState A st.counter =
        (st.counter, .error "db possibly corrupted: optimized counter with duplicates") := by
      rw [scanCounterState_of_last hlast, if_pos h1, if_pos (by omega)]
    obtain ⟨hst, hload⟩ := loadFuncState_scan_error L st A S M _ _ hA hM hs
    exact ⟨_, Or.inl rfl, hload, hst⟩
  · have hs : scanCounterState A st.counter =
        (st.counter, .error "db possibly corrupted: last chunk is not 0xffffffffffffffff") := by
      rw [scanCounterState_of_last hlast, if_neg (by omega), if_neg (by omega), if_pos hterm]
    obtain ⟨hst, hload⟩ := loadFuncState_scan_error L st A S M _ _ hA hM hs
    exact ⟨_, Or.inr rfl, hload, hst⟩

/-- C16 at a concrete input: the sample store with the terminator of its last counter record
changed to 7. -/
theorem Load_corrupted_counter_witness :
    ∃ e, (e = "db possibly corrupted: optimized counter with duplicates" ∨
        e = "db possibly corrupted: last chunk is not 0xffffffffffffffff") ∧
      Load 16 badTerminatorStore [(addr0, [5])] = .error e ∧
      loadFuncState 16 badTerminatorStore addr0 [5] = (badTerminatorStore, some e) :=
  Load_corrupted_counter 16 badTerminatorStore addr0 [5] [3, 5]
    (putUint64 3 ++ putUint64 7) (by decide) (by rfl) (by decide)
    (Or.inr ⟨by decide, by decide⟩)

/-- C17, as the code has it: a largest counter record whose length is not 1 is read as a
regular record whatever its length (the last chunk, if any, merged into `M`).  Below 16
bytes the step stops on a Go panic (`counterV[8:]`, or `Uint64` of fewer than 8 bytes) and
leaves the tables as they were; from 16 bytes on only bytes 8..15 are looked at: the step
returns the `db possibly corrupted` error when they are not all `0xff`, and otherwise accepts
the record as the last regular counter and writes the chunks and counters of `M`. -/
theorem Load_counter_other_length (L : Nat) (st : Store) (A : Bytes) (S M : Bitmap)
    (v : Bytes) (hA : A.length = lengthAddr) (hM : mergeLastChunk S A st.index = .ok M)
    (hlast : (st.counter A).getLast? = some v) (hlen : v.length ≠ 1) :
    (v.length < 16 →
        Load L st [(A, S)] = .error (shortRecordPanic v.length) ∧
        loadFuncState L st A S = (st, some (shortRecordPanic v.length))) ∧
      (16 ≤ v.length → getUint64 (v.drop 8) ≠ maxUint64 →
        Load L st [(A, S)] =
          .error "db possibly corrupted: last chunk is not 0xffffffffffffffff" ∧
        loadFuncState L st A S =
          (st, some "db possibly corrupted: last chunk is not 0xffffffffffffffff")) ∧
      (16 ≤ v.length → getUint64 (v.drop 8) = maxUint64 →
        (∀ p, (st.counter A).dropLast.getLast? = some p → 8 ≤ p.length) →
        Load L st [(A, S)] =
          .ok (applyWrites A (specWrites A (prevCount (st.counter A)) (cutter L M []))
            ⟨st.index, dropLastCounter A st.counter⟩)) := by
  refine ⟨?_, ?_, ?_⟩
  · intro h16
    have hs : scanCounterState A st.counter =
        (st.counter, .error (shortRecordPanic v.length)) := by
      rw [scanCounterState_of_last hlast, if_neg hlen, if_pos h16]
    obtain ⟨hst, hload⟩ := loadFuncState_scan_error L st A S M _ _ hA hM hs
    exact ⟨hload, hst⟩
  · intro h16 hterm
    have hs : scanCounterState A st.counter =
        (st.counter, .error "db possibly corrupted: last chunk is not 0xffffffffffffffff") := by
      rw [scanCounterState_of_last hlast, if_neg hlen, if_neg (by omega), if_pos hterm]
    obtain ⟨hst, hload⟩ := loadFuncState_scan_error L st A S M _ _ hA hM hs
    exact ⟨hload, hst⟩
  · intro h16 hterm hprev
    have hs : ∃ sc, scanCounter A st.counter = .ok sc ∧ sc.found = true ∧
        sc.isUniqueChunk = false := by
      rw [← scanCounterState_snd, scanCounterState_of_last hlast, if_neg hlen,
        if_neg (by omega), if_neg (by simpa using hterm)]
      cases hp : (st.counter A).dropLast.getLast? with
      | none => exact ⟨_, rfl, rfl, rfl⟩
      | some p =>
        have := hprev p hp
        simp only
        rw [if_neg (by omega)]
        exact ⟨_, rfl, rfl, rfl⟩
    obtain ⟨sc, hsc, hf, hu⟩ := hs
    obtain ⟨hc, hp, -, -, -⟩ := scanCounter_ok hsc
    have hb : optimizedBranch sc M = false := by
      simp [optimizedBranch, hf, hu]
    rw [Load_single, loadFunc_writes L st A S M sc hA hM hsc, loadWrites_regular L A sc M hb,
      hp, hc]

/-- C17 fails as stated: a 17-byte counter record whose bytes 8..15 are all `0xff` is taken
for a regular counter (the load of `{5}` succeeds and replaces it by the record of 2 ids),
and a 2-byte counter record stops the step on a panic, not on a corruption error. -/
theorem Load_odd_counter_lengths :
    (longRecordStore.counter addr0).map List.length = [17] ∧
      (∃ st', Load 16 longRecordStore [(addr0, [5])] = .ok st' ∧
        st'.index = [(addr0 ++ putUint64 maxUint64, encodeIds [3, 5])] ∧
        st'.counter addr0 = [putUint64 2 ++ putUint64 maxUint64]) ∧
      (shortRecordStore.counter addr0).map List.length = [2] ∧
      Load 16 shortRecordStore [(addr0, [5])] = .error "panic: slice bounds out of range" := by
  refine ⟨by decide, ⟨_, rfl, by decide, by decide⟩, by decide, by rfl⟩

/-- C17 (amended) at a concrete input: the 17-byte record of `longRecordStore` is accepted
as the last regular counter. -/
theorem Load_counter_other_length_witness :
    Load 16 longRecordStore [(addr0, [5])] =
      .ok (applyWrites addr0
        (specWrites addr0 (prevCount (longRecordStore.counter addr0)) (cutter 16 [3, 5] []))
        ⟨longRecordStore.index, dropLastCounter addr0 longRecordStore.counter⟩) :=
  (Load_counter_other_length 16 longRecordStore addr0 [5] [3, 5]
    (putUint64 1 ++ putUint64 maxUint64 ++ [0]) (by decide) (by rfl) (by decide)
    (by decide)).2.2 (by decide) (by decide) (by
      intro p hp
      have h0 : (longRecordStore.counter addr0).dropLast.getLast? = none := by decide
      rw [h0] at hp
      cases hp)

/-- C18, as the code has it: when address `A` has counter records (readable ones) but no
chunk under `A ‖ 0xffffffffffffffff`, `mergeLastChunk` takes the missing chunk for an empty
one and `Load` returns no error: it drops the last counter record and writes the chunks and
counters of the delta `S` alone, on the optimized branch when the test of line 172 holds and
after the previous cumulative count otherwise. -/
theorem Load_missing_last_chunk (L : Nat) (st : Store) (A : Bytes) (S : Bitmap)
    (hA : A.length = lengthAddr) (hne : st.counter A ≠ [])
    (hread : CounterReadable (st.counter A))
    (hno : tableGet (A ++ putUint64 maxUint64) st.index = none) :
    mergeLastChunk S A st.index = .ok S ∧
      ∃ st', Load L st [(A, S)] = .ok st' ∧
        (OptimizedPath (st.counter A) S →
          st' = applyWrites A [⟨A ++ putUint64 maxUint64, encodeIds S,
            OptimizedCounterSerializer (S.length % 2 ^ 64)⟩]
              ⟨st.index, dropLastCounter A st.counter⟩) ∧
        (¬ OptimizedPath (st.counter A) S →
          st' = applyWrites A (specWrites A (prevCount (st.counter A)) (cutter L S []))
            ⟨st.index, dropLastCounter A st.counter⟩) := by
  have hM : mergeLastChunk S A st.index = .ok S := by
    unfold mergeLastChunk
    rw [copyInto_of_length hA]
    simp only [hno]
  obtain ⟨sc, hsc⟩ := scanCounter_readable A st.counter hread
  obtain ⟨hc, hp, -, -, hu0⟩ := scanCounter_ok hsc
  refine ⟨hM, _, by rw [Load_single]; exact loadFunc_writes L st A S S sc hA hM hsc, ?_, ?_⟩
  · intro hopt
    have hb := (optimizedBranch_iff hsc S).2 hopt
    have hu : sc.isUniqueChunk = true := by
      rcases hopt.1 with h0 | h1
      · exact absurd h0 hne
      · have := (scanCounter_ok hsc).2.2.2.1
        apply this.2
        obtain ⟨r, hr⟩ := List.length_eq_one.1 h1.1
        have hr1 := h1.2 r (by rw [hr]; simp)
        obtain ⟨b, hb'⟩ := List.length_eq_one.1 hr1
        exact ⟨b, by rw [hr, hb']⟩
    rw [loadWrites_optimized L A sc S hb, hu0 hu, hc, Nat.zero_add]
  · intro hreg
    have hb : optimizedBranch sc S = false := by
      cases h : optimizedBranch sc S with
      | false => rfl
      | true => exact absurd ((optimizedBranch_iff hsc S).1 h) hreg
    rw [loadWrites_regular L A sc S hb, hp, hc]

/-- C18 fails as stated: `addr0` has a counter record (3 ids) and no chunk at all, yet the
load of `{9}` returns no error: it replaces the counter record by the record of 1 id and
writes the chunk `{9}`. -/
theorem Load_orphan_counter_no_error :
    orphanCounterStore.counter addr0 = [putUint64 3 ++ putUint64 maxUint64] ∧
      tableGet (addr0 ++ putUint64 maxUint64) orphanCounterStore.index = none ∧
      ∃ st', Load 16 orphanCounterStore [(addr0, [9])] = .ok st' ∧
        st'.index = [(addr0 ++ putUint64 maxUint64, encodeIds [9])] ∧
        st'.counter addr0 = [putUint64 1 ++ putUint64 maxUint64] := by
  refine ⟨by decide, by decide, _, rfl, by decide, by decide⟩

/-- C18 (amended) at a concrete input: the store with a counter record and no chunk. -/
theorem Load_missing_last_chunk_witness :
    mergeLastChunk [9] addr0 orphanCounterStore.index = .ok [9] ∧
      ∃ st', Load 16 orphanCounterStore [(addr0, [9])] = .ok st' ∧
        (OptimizedPath (orphanCounterStore.counter addr0) [9] →
          st' = applyWrites addr0 [⟨addr0 ++ putUint64 maxUint64, encodeIds [9],
            OptimizedCounterSerializer ([9].length % 2 ^ 64)⟩]
              ⟨orphanCounterStore.index, dropLastCounter addr0 orphanCounterStore.counter⟩) ∧
        (¬ OptimizedPath (orphanCounterStore.counter addr0) [9] →
          st' = applyWrites addr0
            (specWrites addr0 (prevCount (orphanCounterStore.counter addr0)) (cutter 16 [9] []))
            ⟨orphanCounterStore.index, dropLastCounter addr0 orphanCounterStore.counter⟩) :=
  Load_missing_last_chunk 16 orphanCounterStore addr0 [9] (by decide) (by decide)
    (Or.inr (Or.inr ⟨by decide, [], putUint64 3, by decide⟩)) (by decide)

/-! ## The optimized serializer above 256 -/

/-- C19, as the code has it: `OptimizedCounterSerializer` checks no range.  For a `uint64`
count above 256 it returns a 1-byte record all the same, the byte `(count − 1) mod 256`, which
is the record of the count `(count − 1) mod 256 + 1`.  The bound is kept by the caller: when
`Load` takes the optimized branch (the test of line 172) for a non-empty bitmap of fewer
than 2^64 ids, the count `writeOptimizedChunkAndCounter` serializes is within 1..256. -/
theorem OptimizedCounterSerializer_unchecked (count : Nat) (h : 256 < count)
    (hu : count < 2 ^ 64) :
    OptimizedCounterSerializer count = [(count - 1) % 256] ∧
      OptimizedCounterSerializer count = OptimizedCounterSerializer ((count - 1) % 256 + 1) ∧
      ∀ (st : Store) (A : Bytes) (sc : CounterScan) (M : Bitmap),
        scanCounter A st.counter = .ok sc → optimizedBranch sc M = true → M ≠ [] →
        M.length < 2 ^ 64 →
        1 ≤ (writeOptimizedChunkAndCounter ⟨st.index, sc.counter⟩ A (encodeIds M) A
          sc.prevCounter).1 ∧
        (writeOptimizedChunkAndCounter ⟨st.index, sc.counter⟩ A (encodeIds M) A
          sc.prevCounter).1 ≤ 256 := by
  have h64 : (2:Nat) ^ 64 = 18446744073709551616 := by norm_num
  rw [h64] at hu
  have hbyte : (count + 18446744073709551616 - 1) % 18446744073709551616 % 256 =
      (count - 1) % 256 := by omega
  refine ⟨?_, ?_, ?_⟩
  · simp only [OptimizedCounterSerializer, h64, hbyte]
  · have h2 : ((count - 1) % 256 + 1 + 18446744073709551616 - 1) % 18446744073709551616 % 256 =
        (count - 1) % 256 := by omega
    simp only [OptimizedCounterSerializer, h64, hbyte, h2]
  · intro st A sc M hsc hb hM hlen
    obtain ⟨-, hp, hf, hu1, hu0⟩ := scanCounter_ok hsc
    have hprev : sc.prevCounter = 0 := by
      cases hun : sc.isUniqueChunk with
      | true => exact hu0 hun
      | false =>
        have hfound : sc.found = false := by
          cases hfo : sc.found with
          | false => rfl
          | true => simp [optimizedBranch, hfo, hun] at hb
        rw [hfound] at hf
        have hnil : st.counter A = [] := by
          cases hl : st.counter A with
          | nil => rfl
          | cons a l => rw [hl] at hf; simp at hf
        rw [hp, hnil]
        rfl
    have hle : (sc.prevCounter + M.length) % 2 ^ 64 ≤ 256 := by
      simp only [optimizedBranch, Bool.and_eq_true, decide_eq_true_eq] at hb
      exact hb.2
    have hpos : 0 < M.length := List.length_pos.2 hM
    simp only [writeOptimizedChunkAndCounter, encodeIds_length, hprev, Nat.zero_add,
      Nat.mul_div_cancel_left _ (by norm_num : 0 < 8)]
    rw [hprev, Nat.zero_add] at hle
    rw [Nat.mod_eq_of_lt hlen] at hle ⊢
    omega

/-- C19 fails as stated: the count 257 is serialized without any error as the byte `0x00`,
the record of the count 1. -/
theorem OptimizedCounterSerializer_257 :
    OptimizedCounterSerializer 257 = [0x00] ∧
      OptimizedCounterSerializer 257 = OptimizedCounterSerializer 1 := by
  decide

/-- C19 (amended) at the count 257. -/
theorem OptimizedCounterSerializer_unchecked_witness :
    OptimizedCounterSerializer 257 = [(257 - 1) % 256] ∧
      OptimizedCounterSerializer 257 = OptimizedCounterSerializer ((257 - 1) % 256 + 1) ∧
      ∀ (st : Store) (A : Bytes) (sc : CounterScan) (M : Bitmap),
        scanCounter A st.counter = .ok sc → optimizedBranch sc M = true → M ≠ [] →
        M.length < 2 ^ 64 →
        1 ≤ (writeOptimizedChunkAndCounter ⟨st.index, sc.counter⟩ A (encodeIds M) A
          sc.prevCounter).1 ∧
        (writeOptimizedChunkAndCounter ⟨st.index, sc.counter⟩ A (encodeIds M) A
          sc.prevCounter).1 ≤ 256 :=
  OptimizedCounterSerializer_unchecked 257 (by decide) (by decide)

/-! ## Unwinding a holding -/

/-- C20: on a holdings table whose values for `holder` are in dup-sort order,
`UnwindAddressHolding holder token ethTx` does the following.  If the table holds the record
`token ‖ firstEthTx` and no other record of `holder` starts with `token`: for
`ethTx = firstEthTx` exactly that record is deleted and no error is returned; for
`ethTx > firstEthTx` the table is unchanged and no error is returned; for
`ethTx < firstEthTx` an error is returned and the table is unchanged.  If no record of
`holder` starts with `token`, the table is unchanged and no error is returned. -/
theorem UnwindAddressHolding_spec (t : DupTable) (holder token : Bytes) (ethTx : Nat)
    (htok : token.length = lengthAddr)
    (hsorted : (t holder).Pairwise (fun a b => bytesLt a b = true)) :
    (∀ f, f < 2 ^ 64 → token ++ putUint64 f ∈ t holder →
        (∀ d ∈ t holder, token <+: d → d = token ++ putUint64 f) →
        (ethTx = f →
          (UnwindAddressHolding t holder token ethTx).2 = none ∧
          (UnwindAddressHolding t holder token ethTx).1 =
            deleteExact t holder (token ++ putUint64 f) ∧
          (∀ d, d ∈ (UnwindAddressHolding t holder token ethTx).1 holder ↔
            d ∈ t holder ∧ d ≠ token ++ putUint64 f) ∧
          ∀ a, a ≠ holder → (UnwindAddressHolding t holder token ethTx).1 a = t a) ∧
        (f < ethTx → UnwindAddressHolding t holder token ethTx = (t, none)) ∧
        (ethTx < f → ∃ e, UnwindAddressHolding t holder token ethTx = (t, some e))) ∧
      ((∀ d ∈ t holder, ¬ token <+: d) →
        UnwindAddressHolding t holder token ethTx = (t, none)) := by
  have htne : token ≠ [] := by
    intro h0
    rw [h0] at htok
    simp [lengthAddr] at htok
  refine ⟨?_, ?_⟩
  · intro f hf hmem huniq
    have hseek : seekBothRange t holder token = token ++ putUint64 f := by
      unfold seekBothRange
      rw [find_holding hsorted hmem huniq]
      rfl
    have hpre : hasPrefix (token ++ putUint64 f) token = true :=
      (hasPrefix_iff _ _).2 (List.prefix_append _ _)
    have hdrop : (token ++ putUint64 f).drop lengthAddr = putUint64 f := by
      rw [← htok]
      exact List.drop_left' rfl
    have hget : getUint64 (putUint64 f) = f := by
      have := getUint64_putUint64 f hf []
      simpa using this
    have hlen : ¬ (token ++ putUint64 f).length < lengthAddr := by
      rw [List.length_append, htok]
      omega
    have hU : UnwindAddressHolding t holder token ethTx =
        if ethTx > f then (t, none)
        else if ethTx < f then (t, some "db possibly corrupted: trying to unwind")
        else (deleteExact t holder (token ++ putUint64 f), none) := by
      unfold UnwindAddressHolding
      simp only [hseek, hpre, hdrop, hget, putUint64_length, Bool.not_true]
      rw [if_neg (by simp), if_neg hlen, if_neg (by omega)]
    refine ⟨?_, ?_, ?_⟩
    · intro he
      subst he
      rw [hU, if_neg (by omega), if_neg (by omega)]
      refine ⟨rfl, rfl, ?_, ?_⟩
      · intro d
        simp only [deleteExact, if_true]
        have hnd : (t holder).Nodup := by
          apply List.Pairwise.imp _ hsorted
          intro a b hab heq
          subst heq
          rw [bytesLt_irrefl] at hab
          exact Bool.false_ne_true hab
        rw [hnd.mem_erase_iff]
        exact And.comm
      · intro a ha
        simp only [deleteExact, if_neg ha]
    · intro hgt
      rw [hU, if_pos hgt]
    · intro hlt
      rw [hU, if_neg (by omega), if_pos hlt]
      exact ⟨_, rfl⟩
  · intro hno
    unfold UnwindAddressHolding seekBothRange
    simp only [seek_no_holding htne hno, Bool.not_false, if_true]

/-- C20 at a concrete input: unwinding the event 5 of the first token of the sample
holdings deletes the record of that token and nothing else. -/
theorem UnwindAddressHolding_spec_witness :
    (UnwindAddressHolding sampleHoldings addr0 (List.replicate 20 1) 5).2 = none ∧
      (UnwindAddressHolding sampleHoldings addr0 (List.replicate 20 1) 5).1 =
        deleteExact sampleHoldings addr0 (List.replicate 20 1 ++ putUint64 5) ∧
      (∀ d, d ∈ (UnwindAddressHolding sampleHoldings addr0 (List.replicate 20 1) 5).1 addr0 ↔
        d ∈ sampleHoldings addr0 ∧ d ≠ List.replicate 20 1 ++ putUint64 5) ∧
      ∀ a, a ≠ addr0 →
        (UnwindAddressHolding sampleHoldings addr0 (List.replicate 20 1) 5).1 a =
          sampleHoldings a :=
  ((UnwindAddressHolding_spec sampleHoldings addr0 (List.replicate 20 1) 5 (by decide)
    (by decide)).1 5 (by decide) (by decide) (by decide)).1 rfl

/-! ## `genericMatchingList` -/

/-- C22: let the counter table hold, for each block with matches, the entry `cumulative number
of matches up to the block ↦ block` (8-byte big-endian), and the match table the matches of
each block under the block's key, the blocks in ascending order and `N < 2^64` matches in
all.  Then for every `idx` and every `count ≤ 500`, `genericMatchingList` returns, in order,
the `(blockNum, address)` pairs of ranks `idx, …, min(idx + count, N) − 1` of the match
sequence, crossing block boundaries as needed; for `idx ≥ N` it returns no result and no
error.  The address of a match is `BytesToAddress` of the stored value. -/
theorem genericMatchingList_spec (bytesToAddress : Bytes → Bytes)
    (blocks : List (Nat × List Bytes)) (idx count : Nat)
    (hasc : blocks.Pairwise (fun a b => a.1 < b.1)) (hlt : ∀ b ∈ blocks, b.1 < 2 ^ 64)
    (hne : ∀ b ∈ blocks, b.2 ≠ []) (hN : (matchSeq blocks).length < 2 ^ 64)
    (hidx : idx < 2 ^ 64) (hcount : count ≤ 500) :
    genericMatchingList bytesToAddress (counterTableOf 0 blocks) (matchTableOf blocks) idx
        count =
      .ok ((((matchSeq blocks).drop idx).take count).map
        (fun m => (m.1, bytesToAddress m.2))) := by
  have h64 : (2:Nat) ^ 64 = 18446744073709551616 := by norm_num
  have hdec := matchTableOf_decode bytesToAddress blocks hlt
  have hk8 : ∀ e ∈ matchTableOf blocks, 8 ≤ e.1.length := by
    intro e he
    obtain ⟨b, -, hb⟩ := matchTableOf_keys blocks e he
    rw [hb, EncodeTs_length]
  by_cases hin : idx < (matchSeq blocks).length
  · -- the rank exists
    obtain ⟨pre, b, post, hsplit, hP1, hP2⟩ := rank_split blocks idx hin
    subst hsplit
    have hNlen : (matchSeq (pre ++ b :: post)).length =
        (matchSeq pre).length + (b.2.length + (matchSeq post).length) := by
      simp [matchSeq]
    have hstart : (idx + 1) % 2 ^ 64 = idx + 1 := Nat.mod_eq_of_lt (by omega)
    obtain ⟨v0, vs, hb2⟩ : ∃ v0 vs, b.2 = v0 :: vs := by
      cases hb : b.2 with
      | nil => exact absurd hb (hne b (by simp))
      | cons v0 vs => exact ⟨v0, vs, rfl⟩
    have hblen : b.2.length = vs.length + 1 := by rw [hb2]; rfl
    have hct : counterTableOf 0 (pre ++ b :: post) =
        counterTableOf 0 pre ++ (EncodeTs ((matchSeq pre).length + b.2.length), EncodeTs b.1) ::
          counterTableOf ((matchSeq pre).length + b.2.length) post := by
      rw [counterTableOf_append, Nat.zero_add, counterTableOf]
    have hseekidx : cursorSeek (counterTableOf 0 (pre ++ b :: post)) (EncodeTs (idx + 1)) =
        pre.length := by
      rw [hct, cursorSeek_append, counterTableOf_length]
      · intro x hx
        obtain ⟨c, hc, -, hc2⟩ := counterTableOf_keys 0 pre x hx
        rw [hc, bytesLt_EncodeTs (by omega) (by omega)]
        simp only [decide_eq_true_eq]
        omega
      · rw [bytesLt_EncodeTs (by omega) (by omega)]
        simp only [decide_eq_false_iff_not]
        omega
    have hget : (counterTableOf 0 (pre ++ b :: post)).get?
        (cursorSeek (counterTableOf 0 (pre ++ b :: post)) (EncodeTs ((idx + 1) % 2 ^ 64))) =
        some (EncodeTs ((matchSeq pre).length + b.2.length), EncodeTs b.1) := by
      rw [hstart, hseekidx, hct, List.get?_eq_getElem?,
        List.getElem?_append_right (by rw [counterTableOf_length]), counterTableOf_length]
      simp
    have hprev : (match (if cursorSeek (counterTableOf 0 (pre ++ b :: post))
          (EncodeTs ((idx + 1) % 2 ^ 64)) = 0 then none
        else ((counterTableOf 0 (pre ++ b :: post)).get?
          (cursorSeek (counterTableOf 0 (pre ++ b :: post))
            (EncodeTs ((idx + 1) % 2 ^ 64)) - 1)).map Prod.fst) with
      | none => Except.ok 0
      | some k => if k.length < 8 then Except.error "panic: index out of range"
        else Except.ok (getUint64 k)) = Except.ok (matchSeq pre).length := by
      rw [hstart, hseekidx]
      rcases eq_nil_or_snoc pre with h0 | ⟨pre', x, hpre⟩
      · subst h0
        simp [matchSeq]
      · have hlen : pre.length = pre'.length + 1 := by rw [hpre]; simp
        have hlast := counterTableOf_getLast 0 pre' x
        rw [← hpre, Nat.zero_add] at hlast
        have hidxlast : (counterTableOf 0 (pre ++ b :: post)).get? (pre.length - 1) =
            some (EncodeTs (matchSeq pre).length, EncodeTs x.1) := by
          rw [hct, List.get?_eq_getElem?, List.getElem?_append_left
            (by rw [counterTableOf_length]; omega), ← hlast, List.getLast?_eq_getElem?,
            counterTableOf_length]
        rw [if_neg (by omega), hidxlast]
        simp only [Option.map_some', EncodeTs_length]
        rw [if_neg (by omega), getUint64_EncodeTs _ (by omega)]
    have hmt : matchTableOf (pre ++ b :: post) =
        matchTableOf pre ++ (EncodeTs b.1, v0) ::
          (vs.map (fun v => (EncodeTs b.1, v)) ++ matchTableOf post) := by
      rw [matchTableOf_append]
      congr 1
      simp [matchTableOf, hb2]
    have hbpre : ∀ x ∈ matchTableOf pre, x.1 ≠ EncodeTs b.1 := by
      intro x hx heq
      obtain ⟨b', hb', hk⟩ := matchTableOf_keys pre x hx
      rw [hk] at heq
      have h1 : b'.1 < b.1 := by
        have := (List.pairwise_append.1 hasc).2.2 b' hb' b (by simp)
        exact this
      have := putUint64_injective (hlt b' (by simp [hb'])) (hlt b (by simp)) heq
      omega
    have hseek : dupSeekExact (matchTableOf (pre ++ b :: post)) (EncodeTs b.1) =
        (EncodeTs b.1, v0) :: (vs.map (fun v => (EncodeTs b.1, v)) ++ matchTableOf post) := by
      rw [hmt]
      exact dupSeekExact_append _ _ (EncodeTs b.1, v0) hbpre
    rw [genericMatchingList_found bytesToAddress _ _ idx count hcount _ _ _ _ _ hget hprev hseek]
    have hj : ((idx + 1) % 2 ^ 64 + 2 ^ 64 - (matchSeq pre).length % 2 ^ 64 + 2 ^ 64 - 1) %
        2 ^ 64 = idx - (matchSeq pre).length := by
      rw [hstart, h64]
      rw [h64] at hN
      omega
    rw [hj, positionLoop_run (EncodeTs b.1) (idx - (matchSeq pre).length) v0 vs
      (matchTableOf post) (some (EncodeTs b.1, v0)) (by omega)]
    have hdrop : List.drop idx (matchTableOf (pre ++ b :: post)) =
        List.drop (idx - (matchSeq pre).length) ((EncodeTs b.1, v0) ::
          (vs.map (fun v => (EncodeTs b.1, v)) ++ matchTableOf post)) := by
      rw [hmt, List.drop_append_eq_append_drop, matchTableOf_length,
        List.drop_of_length_le (by rw [matchTableOf_length]; exact hP1), List.nil_append]
    rw [← hdrop]
    have hhead : (if idx - (matchSeq pre).length = 0 then some (EncodeTs b.1, v0)
        else (List.drop idx (matchTableOf (pre ++ b :: post))).head?) =
        (List.drop idx (matchTableOf (pre ++ b :: post))).head? := by
      split
      · rename_i h0
        rw [hdrop, h0]
        rfl
      · rfl
    simp only [hhead]
    rw [collectLoop_eq bytesToAddress count _ []
      (fun e he => hk8 e (List.mem_of_mem_drop he)), List.nil_append]
    simp only [List.map_take, List.map_drop, hdec]
  · -- the rank is past the last match
    have hempty : List.drop idx (matchSeq blocks) = [] :=
      List.drop_of_length_le (by omega)
    rw [hempty]
    simp only [List.take_nil, List.map_nil]
    by_cases hwrap : idx + 1 < 2 ^ 64
    · have hstart : (idx + 1) % 2 ^ 64 = idx + 1 := Nat.mod_eq_of_lt hwrap
      have hall : cursorSeek (counterTableOf 0 blocks) (EncodeTs (idx + 1)) =
          (counterTableOf 0 blocks).length := by
        apply cursorSeek_all
        intro x hx
        obtain ⟨c, hc, -, hc2⟩ := counterTableOf_keys 0 blocks x hx
        rw [hc, bytesLt_EncodeTs (by omega) hwrap]
        simp only [decide_eq_true_eq]
        omega
      unfold genericMatchingList
      rw [if_neg (by unfold MAX_MATCH_COUNT; omega)]
      simp only [hstart, hall, List.get?_eq_getElem?, List.getElem?_eq_none (Nat.le_refl _)]
    · have hstart : (idx + 1) % 2 ^ 64 = 0 := by
        rw [h64] at hwrap hidx ⊢
        omega
      cases blocks with
      | nil =>
        unfold genericMatchingList
        rw [if_neg (by unfold MAX_MATCH_COUNT; omega)]
        simp [counterTableOf, cursorSeek]
      | cons b post =>
        obtain ⟨v0, vs, hb2⟩ : ∃ v0 vs, b.2 = v0 :: vs := by
          cases hb : b.2 with
          | nil => exact absurd hb (hne b (by simp))
          | cons v0 vs => exact ⟨v0, vs, rfl⟩
        have hNlen := matchSeq_cons_length b post
        have hblen : b.2.length = vs.length + 1 := by rw [hb2]; rfl
        have hseek0 : cursorSeek (counterTableOf 0 (b :: post)) (EncodeTs 0) = 0 := by
          have := cursorSeek_append [] (EncodeTs (0 + b.2.length), EncodeTs b.1)
            (counterTableOf (0 + b.2.length) post) (EncodeTs 0) (by simp)
            (by
              rw [bytesLt_EncodeTs (by omega) (by omega)]
              simp)
          simpa [counterTableOf] using this
        have hget : (counterTableOf 0 (b :: post)).get?
            (cursorSeek (counterTableOf 0 (b :: post)) (EncodeTs ((idx + 1) % 2 ^ 64))) =
            some (EncodeTs (0 + b.2.length), EncodeTs b.1) := by
          rw [hstart, hseek0]
          rfl
        have hprev : (match (if cursorSeek (counterTableOf 0 (b :: post))
              (EncodeTs ((idx + 1) % 2 ^ 64)) = 0 then none
            else ((counterTableOf 0 (b :: post)).get?
              (cursorSeek (counterTableOf 0 (b :: post))
                (EncodeTs ((idx + 1) % 2 ^ 64)) - 1)).map Prod.fst) with
          | none => Except.ok 0
          | some k => if k.length < 8 then Except.error "panic: index out of range"
            else Except.ok (getUint64 k)) = Except.ok 0 := by
          rw [hstart, hseek0]
          rfl
        have hmt : matchTableOf (b :: post) = (EncodeTs b.1, v0) ::
            (vs.map (fun v => (EncodeTs b.1, v)) ++ matchTableOf post) := by
          simp [matchTableOf, hb2]
        have hseek : dupSeekExact (matchTableOf (b :: post)) (EncodeTs b.1) =
            (EncodeTs b.1, v0) ::
              (vs.map (fun v => (EncodeTs b.1, v)) ++ matchTableOf post) := by
          rw [hmt]
          exact dupSeekExact_append [] _ (EncodeTs b.1, v0) (by simp)
        have hother : OtherKey (EncodeTs b.1) (matchTableOf post) := by
          intro e he heq
          cases post with
          | nil => simp [matchTableOf] at he
          | cons b' post' =>
            have he' : e ∈ matchTableOf (b' :: post') := List.mem_of_mem_head? he
            obtain ⟨b2, hb2mem, hk⟩ := matchTableOf_keys _ e he'
            rw [hk] at heq
            have h1 : b.1 < b2.1 := (List.pairwise_cons.1 hasc).1 b2 hb2mem
            have := putUint64_injective (hlt b2 (List.mem_cons_of_mem _ hb2mem))
              (hlt b (by simp)) heq
            omega
        rw [genericMatchingList_found bytesToAddress _ _ idx count hcount _ _ _ _ _ hget hprev
          hseek]
        have hj : ((idx + 1) % 2 ^ 64 + 2 ^ 64 - 0 % 2 ^ 64 + 2 ^ 64 - 1) % 2 ^ 64 =
            2 ^ 64 - 1 := by
          rw [hstart, h64]
        rw [hj]
        have hpast := positionLoop_past (EncodeTs b.1) (2 ^ 64 - 1) v0 vs (matchTableOf post)
          (some (EncodeTs b.1, v0)) hother (by
            rw [h64] at hN ⊢
            omega)
        rw [hpast]
        cases count <;> rfl

/-- C22 at a concrete input: ranks 1, 2, 3 of the sample blocks, across the three blocks. -/
theorem genericMatchingList_spec_witness :
    genericMatchingList id (counterTableOf 0 sampleBlocks) (matchTableOf sampleBlocks) 1 3 =
        .ok ((((matchSeq sampleBlocks).drop 1).take 3).map (fun m => (m.1, id m.2))) ∧
      ((matchSeq sampleBlocks).drop 1).take 3 =
        [(3, List.replicate 20 2), (7, List.replicate 20 3), (9, List.replicate 20 4)] :=
  ⟨genericMatchingList_spec id sampleBlocks 1 3 (by decide) (by decide) (by decide) (by decide)
    (by decide) (by decide), by decide⟩

/-- C25: for every `count` above 500 (`MAX_MATCH_COUNT`), `genericMatchingList` returns the
error `maximum allowed results: 500` and no result, whatever `idx` and the two tables are:
the test comes before any table is read. -/
theorem genericMatchingList_max_count (bytesToAddress : Bytes → Bytes)
    (counterTable matchTable : Table) (idx count : Nat) (h : MAX_MATCH_COUNT < count) :
    genericMatchingList bytesToAddress counterTable matchTable idx count =
      .error "maximum allowed results: 500" := by
  unfold genericMatchingList
  rw [if_pos h]

/-- C25 at a concrete input: 501 results asked from the sample tables. -/
theorem genericMatchingList_max_count_witness :
    genericMatchingList id (counterTableOf 0 sampleBlocks) (matchTableOf sampleBlocks) 0 501 =
      .error "maximum allowed results: 500" :=
  genericMatchingList_max_count id _ _ 0 501 (by decide)

/-! ## The generic stage driver -/

/-- C23, as the code has it: without debug overrides, saved progress `p` and parent progress
`q` give `endBlock = q` and `startBlock = p + 1` when `p > 0`, but `startBlock = 0` when
`p = 0` (a stage that never ran starts at block 0).  The executor is invoked, once, with
these two values when `startBlock ≤ endBlock`; when `startBlock > endBlock` the stage
returns no error and does not invoke it. -/
theorem genericStageForwardImpl_range (env : StageEnv) (p q : Nat) (useExternalTx : Bool)
    (d1 d2 : Nat) (hp : p + 1 < 2 ^ 64) (hq : env.parentProgress = .ok q)
    (hbegin : useExternalTx = true ∨ env.beginRw = none) :
    (0 < p → p + 1 ≤ q → ∃ sh, StageEvent.executor (p + 1) q (!useExternalTx) sh ∈
        (genericStageForwardImpl env p useExternalTx false d1 d2).1) ∧
      (p = 0 → ∃ sh, StageEvent.executor 0 q (!useExternalTx) sh ∈
        (genericStageForwardImpl env p useExternalTx false d1 d2).1) ∧
      (0 < p → q < p + 1 →
        (genericStageForwardImpl env p useExternalTx false d1 d2).2 = none ∧
        ∀ s e i sh, StageEvent.executor s e i sh ∉
          (genericStageForwardImpl env p useExternalTx false d1 d2).1) ∧
      (∀ s e i sh, StageEvent.executor s e i sh ∈
          (genericStageForwardImpl env p useExternalTx false d1 d2).1 →
        s = (if p = 0 then 0 else p + 1) ∧ e = q) := by
  have hmod : (p + 1) % 2 ^ 64 = p + 1 := Nat.mod_eq_of_lt hp
  have hbody : ∀ r : List StageEvent × Option String,
      stageForwardBody env p useExternalTx false d1 d2 = r →
      ((genericStageForwardImpl env p useExternalTx false d1 d2).2 = r.2 ∧
        ∀ ev, (∃ s e i sh, ev = StageEvent.executor s e i sh) →
          (ev ∈ (genericStageForwardImpl env p useExternalTx false d1 d2).1 ↔ ev ∈ r.1)) := by
    intro r hr
    unfold genericStageForwardImpl
    cases useExternalTx with
    | true => simp [hr]
    | false =>
      have hb : env.beginRw = none := by
        rcases hbegin with h | h
        · exact absurd h (by simp)
        · exact h
      simp only [Bool.not_false, if_true, hb, hr]
      refine ⟨trivial, ?_⟩
      rintro ev ⟨s, e, i, sh, rfl⟩
      simp
  have hstart : (if p > 0 then (p + 1) % 2 ^ 64 else p) = if p = 0 then 0 else p + 1 := by
    by_cases h0 : p = 0
    · subst h0; simp
    · rw [if_pos (by omega), if_neg h0, hmod]
  -- the body, case by case
  have hB : stageForwardBody env p useExternalTx false d1 d2 =
      if (if p = 0 then 0 else p + 1) > q then ([], none) else
      stageForwardRun env useExternalTx (if p = 0 then 0 else p + 1) q
        (decide ((q + 2 ^ 64 - (if p = 0 then 0 else p + 1) + 1) % 2 ^ 64 ≤
          SHORT_RANGE_EXECUTION_THRESHOLD)) := by
    unfold stageForwardBody
    simp only [hq, hstart, Bool.false_eq_true, if_false]
  have hcall : ¬ (if p = 0 then 0 else p + 1) > q →
      ∃ sh rest, (stageForwardBody env p useExternalTx false d1 d2).1 =
        StageEvent.executor (if p = 0 then 0 else p + 1) q (!useExternalTx) sh :: rest ∧
        ∀ s e i sh', StageEvent.executor s e i sh' ∈ rest → False := by
    intro hle
    rw [hB, if_neg hle]
    rcases stageForwardRun_shape env useExternalTx (if p = 0 then 0 else p + 1) q
      (decide ((q + 2 ^ 64 - (if p = 0 then 0 else p + 1) + 1) % 2 ^ 64 ≤
        SHORT_RANGE_EXECUTION_THRESHOLD)) with ⟨err, -, h2⟩ | ⟨n, x, -, h2⟩ | ⟨n, x, -, -, h2⟩
    · rw [h2]; exact ⟨_, [], rfl, by simp⟩
    · rw [h2]; exact ⟨_, _, rfl, by simp⟩
    · rw [h2]; exact ⟨_, _, rfl, by simp⟩
  obtain ⟨hres, hmem⟩ := hbody _ rfl
  refine ⟨?_, ?_, ?_, ?_⟩
  · intro hp0 hle
    obtain ⟨sh, rest, h1, -⟩ := hcall (by rw [if_neg (by omega)]; omega)
    rw [if_neg (by omega)] at h1
    exact ⟨sh, (hmem _ ⟨_, _, _, _, rfl⟩).2 (by rw [h1]; simp)⟩
  · intro hp0
    obtain ⟨sh, rest, h1, -⟩ := hcall (by rw [if_pos hp0]; omega)
    rw [if_pos hp0] at h1
    exact ⟨sh, (hmem _ ⟨_, _, _, _, rfl⟩).2 (by rw [h1]; simp)⟩
  · intro hp0 hlt
    have hnil : stageForwardBody env p useExternalTx false d1 d2 = ([], none) := by
      rw [hB, if_neg (by omega : ¬ p = 0), if_pos (by omega)]
    refine ⟨by rw [hres, hnil], ?_⟩
    intro s e i sh hin
    have := (hmem _ ⟨s, e, i, sh, rfl⟩).1 hin
    rw [hnil] at this
    simp at this
  · intro s e i sh hin
    have hin' := (hmem _ ⟨s, e, i, sh, rfl⟩).1 hin
    by_cases hgt : (if p = 0 then 0 else p + 1) > q
    · rw [hB, if_pos hgt] at hin'
      simp at hin'
    · obtain ⟨sh0, rest, h1, h2⟩ := hcall hgt
      rw [h1, List.mem_cons] at hin'
      rcases hin' with h | h
      · injection h with hs he
        exact ⟨hs, he⟩
      · exact absurd h (fun h => h2 s e i sh h)

/-- C23 fails as stated: with saved progress 0 and parent progress 5 the executor is invoked
with `startBlock = 0`, not 1; with saved progress 7 and parent progress 3 it is not invoked
at all and the stage returns no error. -/
theorem genericStageForwardImpl_start_zero :
    genericStageForwardImpl (sampleStageEnv 5) 0 true false 0 0 =
        ([StageEvent.executor 0 5 false true, StageEvent.update 5], none) ∧
      genericStageForwardImpl (sampleStageEnv 3) 7 true false 0 0 = ([], none) := by
  constructor <;> rfl

/-- C23 (amended) at a concrete input: saved progress 7, parent progress 20, the stage owning
its transaction. -/
theorem genericStageForwardImpl_range_witness :
    ∃ sh, StageEvent.executor (7 + 1) 20 (!false) sh ∈
      (genericStageForwardImpl (sampleStageEnv 20) 7 false false 0 0).1 :=
  (genericStageForwardImpl_range (sampleStageEnv 20) 7 20 false 0 0 (by decide) rfl
    (Or.inr rfl)).1 (by decide) (by decide)

/-- C24: in every run of `genericStageForwardImpl`, if the executor it invoked returned an
error, the stage returns that same error and neither saves the progress nor commits; the
progress is saved only after the executor has returned without error, with the block number
the executor returned; and the commit comes only after the progress was saved without
error. -/
theorem genericStageForwardImpl_order (env : StageEnv) (p : Nat) (ext debug : Bool)
    (d1 d2 : Nat) :
    (∀ s e i sh err, StageEvent.executor s e i sh ∈
          (genericStageForwardImpl env p ext debug d1 d2).1 →
        env.executor s e i sh = .error err →
        (genericStageForwardImpl env p ext debug d1 d2).2 = some err ∧
        (∀ n, StageEvent.update n ∉ (genericStageForwardImpl env p ext debug d1 d2).1) ∧
        StageEvent.commit ∉ (genericStageForwardImpl env p ext debug d1 d2).1) ∧
      (∀ n, StageEvent.update n ∈ (genericStageForwardImpl env p ext debug d1 d2).1 →
        ∃ s e i sh, env.executor s e i sh = .ok n ∧
          Precedes (StageEvent.executor s e i sh) (StageEvent.update n)
            (genericStageForwardImpl env p ext debug d1 d2).1) ∧
      (StageEvent.commit ∈ (genericStageForwardImpl env p ext debug d1 d2).1 →
        ∃ n, env.update n = none ∧
          Precedes (StageEvent.update n) StageEvent.commit
            (genericStageForwardImpl env p ext debug d1 d2).1) := by
  rcases genericStageForwardImpl_wrap env p ext debug d1 d2 with ⟨hw, -⟩ | hw | hw
  · rw [hw]
    simp
  · rw [hw]
    rcases stageForwardBody_shape env p ext debug d1 d2 with
      ⟨x, hb⟩ | ⟨s0, e0, sh0, err0, hex, hb⟩ |
      ⟨s0, e0, sh0, n0, x, hex, hb⟩ | ⟨s0, e0, sh0, n0, x, hex, hup, hb⟩
    · rw [hb]; simp
    · rw [hb]
      refine ⟨?_, by simp, by simp⟩
      intro s e i sh err hin herr
      simp only [List.mem_singleton, StageEvent.executor.injEq] at hin
      obtain ⟨rfl, rfl, rfl, rfl⟩ := hin
      rw [hex] at herr
      injection herr with herr
      subst herr
      exact ⟨rfl, by simp, by simp⟩
    · rw [hb]
      refine ⟨?_, ?_, by simp⟩
      · intro s e i sh err hin herr
        simp only [List.mem_cons, StageEvent.executor.injEq, List.mem_singleton,
          reduceCtorEq, or_false, List.not_mem_nil] at hin
        obtain ⟨rfl, rfl, rfl, rfl⟩ := hin
        rw [hex] at herr
        exact absurd herr (by simp)
      · intro n hin
        simp only [List.mem_cons, reduceCtorEq, StageEvent.update.injEq, List.mem_singleton,
          false_or, List.not_mem_nil, or_false] at hin
        subst hin
        exact ⟨s0, e0, !ext, sh0, hex, [StageEvent.executor s0 e0 (!ext) sh0], [], rfl,
          by simp⟩
    · rw [hb]
      refine ⟨?_, ?_, ?_⟩
      · intro s e i sh err hin herr
        simp only [List.mem_cons, StageEvent.executor.injEq, List.mem_singleton,
          reduceCtorEq, or_false, List.not_mem_nil] at hin
        obtain ⟨rfl, rfl, rfl, rfl⟩ := hin
        rw [hex] at herr
        exact absurd herr (by simp)
      · intro n hin
        simp only [List.mem_cons, reduceCtorEq, StageEvent.update.injEq, List.mem_singleton,
          false_or, List.not_mem_nil, or_false] at hin
        subst hin
        exact ⟨s0, e0, !ext, sh0, hex, [StageEvent.executor s0 e0 (!ext) sh0],
          [StageEvent.commit], rfl, by simp⟩
      · intro _
        exact ⟨n0, hup, [StageEvent.executor s0 e0 (!ext) sh0, StageEvent.update n0], [], rfl,
          by simp⟩
  · rw [hw]
    rcases stageForwardBody_shape env p ext debug d1 d2 with
      ⟨x, hb⟩ | ⟨s0, e0, sh0, err0, hex, hb⟩ |
      ⟨s0, e0, sh0, n0, x, hex, hb⟩ | ⟨s0, e0, sh0, n0, x, hex, hup, hb⟩
    · rw [hb]; simp
    · rw [hb]
      refine ⟨?_, by simp, by simp⟩
      intro s e i sh err hin herr
      simp only [List.cons_append, List.nil_append, List.mem_cons, reduceCtorEq,
        StageEvent.executor.injEq, List.mem_singleton, false_or, or_false,
        List.not_mem_nil] at hin
      obtain ⟨rfl, rfl, rfl, rfl⟩ := hin
      rw [hex] at herr
      injection herr with herr
      subst herr
      exact ⟨rfl, by simp, by simp⟩
    · rw [hb]
      refine ⟨?_, ?_, by simp⟩
      · intro s e i sh err hin herr
        simp only [List.cons_append, List.nil_append, List.mem_cons, reduceCtorEq,
          StageEvent.executor.injEq, List.mem_singleton, false_or, or_false,
          List.not_mem_nil] at hin
        obtain ⟨rfl, rfl, rfl, rfl⟩ := hin
        rw [hex] at herr
        exact absurd herr (by simp)
      · intro n hin
        simp only [List.cons_append, List.nil_append, List.mem_cons, reduceCtorEq,
          StageEvent.update.injEq, List.mem_singleton, false_or, or_false,
          List.not_mem_nil] at hin
        subst hin
        exact ⟨s0, e0, !ext, sh0, hex,
          [StageEvent.beginRw, StageEvent.executor s0 e0 (!ext) sh0], [StageEvent.rollback],
          rfl, by simp⟩
    · rw [hb]
      refine ⟨?_, ?_, ?_⟩
      · intro s e i sh err hin herr
        simp only [List.cons_append, List.nil_append, List.mem_cons, reduceCtorEq,
          StageEvent.executor.injEq, List.mem_singleton, false_or, or_false,
          List.not_mem_nil] at hin
        obtain ⟨rfl, rfl, rfl, rfl⟩ := hin
        rw [hex] at herr
        exact absurd herr (by simp)
      · intro n hin
        simp only [List.cons_append, List.nil_append, List.mem_cons, reduceCtorEq,
          StageEvent.update.injEq, List.mem_singleton, false_or, or_false,
          List.not_mem_nil] at hin
        subst hin
        exact ⟨s0, e0, !ext, sh0, hex,
          [StageEvent.beginRw, StageEvent.executor s0 e0 (!ext) sh0],
          [StageEvent.commit, StageEvent.rollback], rfl, by simp⟩
      · intro _
        exact ⟨n0, hup,
          [StageEvent.beginRw, StageEvent.executor s0 e0 (!ext) sh0, StageEvent.update n0],
          [StageEvent.rollback], rfl, by simp⟩

/-- C24 at a concrete input: the executor is stopped while the stage owns its transaction;
the stage returns the executor's error after the deferred rollback, with no progress update
and no commit. -/
theorem genericStageForwardImpl_order_witness :
    genericStageForwardImpl (stoppedStageEnv 20) 7 false false 0 0 =
        ([StageEvent.beginRw, StageEvent.executor 8 20 true true, StageEvent.rollback],
          some "stopped") ∧
      (genericStageForwardImpl (stoppedStageEnv 20) 7 false false 0 0).2 = some "stopped" ∧
      (∀ n, StageEvent.update n ∉
        (genericStageForwardImpl (stoppedStageEnv 20) 7 false false 0 0).1) ∧
      StageEvent.commit ∉ (genericStageForwardImpl (stoppedStageEnv 20) 7 false false 0 0).1 :=
  ⟨rfl, (genericStageForwardImpl_order (stoppedStageEnv 20) 7 false false 0 0).1 8 20 true true
    "stopped" (by decide) rfl⟩

/-! ## `getHoldings` and storage errors -/

/-- C26, evaluated on the code: when `BeginRo` fails, with whatever error, `getHoldings`
returns no error and an empty result (`return nil, nil`); the errors of `CursorDupSort` and
of `SeekExact` are returned unchanged. -/
theorem getHoldings_BeginRo_error_dropped (bytesToAddress : Bytes → Bytes) (err : String)
    (cursor : Option String) (seek : Except String (List Bytes)) (nd : Nat → Option String) :
    getHoldings bytesToAddress ⟨some err, cursor, seek, nd⟩ = .ok [] ∧
      getHoldings bytesToAddress ⟨none, some err, seek, nd⟩ = .error err ∧
      getHoldings bytesToAddress ⟨none, none, .error err, nd⟩ = .error err :=
  ⟨rfl, rfl, rfl⟩

/-! ## Unwinding the withdrawals index -/

/-- C27: on a chain whose withdrawal indexes increase with the block number and with the
position inside a block (every body readable), the key `RunWithdrawalsBlockUnwind` gives to
the rewind of `OtsWithdrawalIdx2Block` is the largest withdrawal index of the blocks numbered
at most `UnwindPoint`, the table the run leaves is the one that rewind leaves, and a rewind
is made as soon as one of the blocks `1..UnwindPoint` has a withdrawal; the run fails with
the corruption error, before any `UnwindAddress` and with the unwinder's tables untouched,
when the rewind reports another key; otherwise (no `UnwindAddress` failing, no stop)
`UnwindAddress` is called with the address and index of every withdrawal of every block of
`(UnwindPoint, CurrentBlockNumber]`, in ascending block order and in-body order, and the
unwinder's tables are left in the state these calls, made one after the other, produce. -/
theorem RunWithdrawalsBlockUnwind_spec {σ : Type} (chain : Nat → List Withdrawal)
    (rewind : Table → Nat → Table × Except String Nat)
    (UnwindAddress : σ → Bytes → Nat → Except String σ) (stopped : Nat → Bool) (t : Table)
    (st : σ) (U cur : Nat)
    (hmono : ∀ b1 b2, b1 < b2 → ∀ w1 ∈ chain b1, ∀ w2 ∈ chain b2, w1.Index < w2.Index)
    (hpos : ∀ b, (chain b).Pairwise (fun w1 w2 => w1.Index < w2.Index))
    (hU : U + 1 < 2 ^ 64) :
    (∀ k, (RunWithdrawalsBlockUnwind (fun b => .ok (chain b)) rewind UnwindAddress stopped t st
          U cur).rewoundTo = some k →
        (∃ b, b ≤ U ∧ ∃ w ∈ chain b, w.Index = k) ∧
        (∀ b, b ≤ U → ∀ w ∈ chain b, w.Index ≤ k) ∧
        (RunWithdrawalsBlockUnwind (fun b => .ok (chain b)) rewind UnwindAddress stopped t st
          U cur).idx2Block = (rewind t k).1) ∧
      ((∃ b, 1 ≤ b ∧ b ≤ U ∧ chain b ≠ []) →
        ∃ k, (RunWithdrawalsBlockUnwind (fun b => .ok (chain b)) rewind UnwindAddress stopped t
          st U cur).rewoundTo = some k) ∧
      (∀ k k', (RunWithdrawalsBlockUnwind (fun b => .ok (chain b)) rewind UnwindAddress stopped
          t st U cur).rewoundTo = some k → (rewind t k).2 = .ok k' → k' ≠ k →
        (RunWithdrawalsBlockUnwind (fun b => .ok (chain b)) rewind UnwindAddress stopped t st U
          cur).err = some "couldn't find k to unwind; probably DB corruption" ∧
        (RunWithdrawalsBlockUnwind (fun b => .ok (chain b)) rewind UnwindAddress stopped t st U
          cur).calls = [] ∧
        (RunWithdrawalsBlockUnwind (fun b => .ok (chain b)) rewind UnwindAddress stopped t st U
          cur).unwinder = st) ∧
      ((∀ k, (RunWithdrawalsBlockUnwind (fun b => .ok (chain b)) rewind UnwindAddress stopped t
          st U cur).rewoundTo = some k → (rewind t k).2 = .ok k) →
        (∀ s a i, ∃ s', UnwindAddress s a i = .ok s') → (∀ b, stopped b = false) →
        (RunWithdrawalsBlockUnwind (fun b => .ok (chain b)) rewind UnwindAddress stopped t st U
          cur).err = none ∧
        (RunWithdrawalsBlockUnwind (fun b => .ok (chain b)) rewind UnwindAddress stopped t st U
          cur).calls = (List.range' (U + 1) (cur - U)).flatMap
            (fun b => (chain b).map (fun w => (w.Address, w.Index))) ∧
        runCalls UnwindAddress ((List.range' (U + 1) (cur - U)).flatMap
            (fun b => (chain b).map (fun w => (w.Address, w.Index)))) st =
          .ok (RunWithdrawalsBlockUnwind (fun b => .ok (chain b)) rewind UnwindAddress stopped
            t st U cur).unwinder) := by
  have hstart : (U + 1) % 2 ^ 64 = U + 1 := Nat.mod_eq_of_lt hU
  have hn : cur + 1 - (U + 1) = cur - U := by omega
  rcases findLastWithdrawal_chain chain U with ⟨hf, hnil⟩ | ⟨b, w, hb1, hb2, hw, hab, hf⟩
  · -- no withdrawal in the blocks 1..U
    have hR : RunWithdrawalsBlockUnwind (fun b => .ok (chain b)) rewind UnwindAddress stopped t
        st U cur =
        ⟨t, (unwindLoop (fun b => .ok (chain b)) UnwindAddress stopped (cur - U) (U + 1) st
            []).1, none,
          (unwindLoop (fun b => .ok (chain b)) UnwindAddress stopped (cur - U) (U + 1) st
            []).2.1,
          (unwindLoop (fun b => .ok (chain b)) UnwindAddress stopped (cur - U) (U + 1) st
            []).2.2⟩ := by
      unfold RunWithdrawalsBlockUnwind
      simp only [hf, hstart, hn]
    rw [hR]
    refine ⟨by simp, ?_, by simp, ?_⟩
    · rintro ⟨b, hb1, hb2, hne⟩
      exact absurd (hnil b hb1 hb2) hne
    · intro _ hUA hstop
      obtain ⟨st', hst', hrun⟩ := unwindLoop_run chain UnwindAddress hUA stopped hstop (cur - U)
        (U + 1) st []
      simp only [hst', List.nil_append]
      exact ⟨trivial, trivial, hrun⟩
  · -- the block b is the last one with a withdrawal
    have hwmem : w ∈ chain b := List.mem_of_getLast?_eq_some hw
    have hkey : (∃ b', b' ≤ U ∧ ∃ w' ∈ chain b', w'.Index = w.Index) ∧
        ∀ b', b' ≤ U → ∀ w' ∈ chain b', w'.Index ≤ w.Index := by
      refine ⟨⟨b, hb2, w, hwmem, rfl⟩, ?_⟩
      intro b' hb' w' hw'
      rcases Nat.lt_trichotomy b' b with h | h | h
      · exact Nat.le_of_lt (hmono b' b h w' hw' w hwmem)
      · subst h
        obtain ⟨l, hl⟩ : ∃ l, chain b' = l ++ [w] := by
          rcases eq_nil_or_snoc (chain b') with h0 | ⟨l, c, hc⟩
          · rw [h0] at hw; simp at hw
          · rw [hc] at hw
            simp at hw
            exact ⟨l, by rw [hc, hw]⟩
        rw [hl] at hw'
        rcases List.mem_append.1 hw' with h1 | h1
        · have hp := hpos b'
          rw [hl] at hp
          exact Nat.le_of_lt ((List.pairwise_append.1 hp).2.2 w' h1 w (by simp))
        · simp at h1
          rw [h1]
      · have := hab b' h hb'
        rw [this] at hw'
        simp at hw'
    cases hr : rewind t w.Index with
    | mk t' res =>
      cases res with
      | error e =>
        have hR : RunWithdrawalsBlockUnwind (fun b => .ok (chain b)) rewind UnwindAddress
            stopped t st U cur = ⟨t', st, some w.Index, [], some e⟩ := by
          unfold RunWithdrawalsBlockUnwind
          simp only [hf, hr]
        rw [hR]
        refine ⟨?_, fun _ => ⟨_, rfl⟩, ?_, ?_⟩
        · intro k hk
          simp only [Option.some.injEq] at hk
          rw [← hk]
          exact ⟨hkey.1, hkey.2, by rw [hr]⟩
        · intro k k' hk hk'
          simp only [Option.some.injEq] at hk
          rw [← hk, hr] at hk'
          exact absurd hk' (by simp)
        · intro hrew
          have := hrew w.Index rfl
          rw [hr] at this
          exact absurd this (by simp)
      | ok k0 =>
        by_cases hk0 : k0 ≠ w.Index
        · have hR : RunWithdrawalsBlockUnwind (fun b => .ok (chain b)) rewind UnwindAddress
              stopped t st U cur = ⟨t', st, some w.Index, [],
                some "couldn't find k to unwind; probably DB corruption"⟩ := by
            unfold RunWithdrawalsBlockUnwind
            simp only [hf, hr, if_pos hk0]
          rw [hR]
          refine ⟨?_, fun _ => ⟨_, rfl⟩, fun _ _ _ _ _ => ⟨rfl, rfl, rfl⟩, ?_⟩
          · intro k hk
            simp only [Option.some.injEq] at hk
            rw [← hk]
            exact ⟨hkey.1, hkey.2, by rw [hr]⟩
          · intro hrew
            have := hrew w.Index rfl
            rw [hr] at this
            simp only [Except.ok.injEq] at this
            exact absurd this hk0
        · have hR : RunWithdrawalsBlockUnwind (fun b => .ok (chain b)) rewind UnwindAddress
              stopped t st U cur =
              ⟨t', (unwindLoop (fun b => .ok (chain b)) UnwindAddress stopped (cur - U)
                  (U + 1) st []).1, some w.Index,
                (unwindLoop (fun b => .ok (chain b)) UnwindAddress stopped (cur - U) (U + 1)
                  st []).2.1,
                (unwindLoop (fun b => .ok (chain b)) UnwindAddress stopped (cur - U) (U + 1)
                  st []).2.2⟩ := by
            unfold RunWithdrawalsBlockUnwind
            simp only [hf, hr, if_neg hk0, hstart, hn]
          rw [hR]
          refine ⟨?_, fun _ => ⟨_, rfl⟩, ?_, ?_⟩
          · intro k hk
            simp only [Option.some.injEq] at hk
            rw [← hk]
            exact ⟨hkey.1, hkey.2, by rw [hr]⟩
          · intro k k' hk hk' hne
            simp only [Option.some.injEq] at hk
            rw [← hk, hr] at hk'
            simp only [Except.ok.injEq] at hk'
            rw [← hk, ← hk'] at hne
            exact absurd hne hk0
          · intro _ hUA hstop
            obtain ⟨st', hst', hrun⟩ := unwindLoop_run chain UnwindAddress hUA stopped hstop
              (cur - U) (U + 1) st []
            simp only [hst', List.nil_append]
            exact ⟨trivial, trivial, hrun⟩

/-- C30: if none of the blocks `1..UnwindPoint` has a withdrawal (in particular when
`UnwindPoint = 0`), `RunWithdrawalsBlockUnwind` does not call the rewind of
`OtsWithdrawalIdx2Block`: whatever the rest of the chain, the unwinder and the outcome of the
run, the table is left as it was, entries of blocks above the unwind point included. -/
theorem RunWithdrawalsBlockUnwind_no_rewind {σ : Type}
    (body : Nat → Except String (List Withdrawal))
    (rewind : Table → Nat → Table × Except String Nat)
    (UnwindAddress : σ → Bytes → Nat → Except String σ) (stopped : Nat → Bool) (t : Table)
    (st : σ) (U cur : Nat) (h : ∀ b, 1 ≤ b → b ≤ U → body b = .ok []) :
    (RunWithdrawalsBlockUnwind body rewind UnwindAddress stopped t st U cur).idx2Block = t ∧
      (RunWithdrawalsBlockUnwind body rewind UnwindAddress stopped t st U cur).rewoundTo =
        none := by
  unfold RunWithdrawalsBlockUnwind
  simp only [findLastWithdrawal_none body U h]
  exact ⟨trivial, trivial⟩

/-- C27 at a concrete input: the sample chain unwound from block 6 to block 3, with an
unwinder that records the calls it serves; the rewind key is 3, the last index of block 2,
the table keeps the entry of block 2 only, and the withdrawals of the blocks 4 and 6 are
unwound in order. -/
theorem RunWithdrawalsBlockUnwind_spec_witness :
    (RunWithdrawalsBlockUnwind (fun b => .ok (sampleChain b)) sampleRewind recordingUnwinder
        (fun _ => false) sampleIdx2Block [] 3 6).rewoundTo = some 3 ∧
      (RunWithdrawalsBlockUnwind (fun b => .ok (sampleChain b)) sampleRewind recordingUnwinder
        (fun _ => false) sampleIdx2Block [] 3 6).idx2Block = [(EncodeTs 3, EncodeTs 2)] ∧
      (RunWithdrawalsBlockUnwind (fun b => .ok (sampleChain b)) sampleRewind recordingUnwinder
        (fun _ => false) sampleIdx2Block [] 3 6).err = none ∧
      (RunWithdrawalsBlockUnwind (fun b => .ok (sampleChain b)) sampleRewind recordingUnwinder
        (fun _ => false) sampleIdx2Block [] 3 6).calls =
        [(addr0, 4), (List.replicate 20 1, 5), (addr0, 6), (List.replicate 20 1, 7)] ∧
      (RunWithdrawalsBlockUnwind (fun b => .ok (sampleChain b)) sampleRewind recordingUnwinder
        (fun _ => false) sampleIdx2Block [] 3 6).unwinder =
        [(addr0, 4), (List.replicate 20 1, 5), (addr0, 6), (List.replicate 20 1, 7)] := by
  have h3 : (RunWithdrawalsBlockUnwind (fun b => .ok (sampleChain b)) sampleRewind
      recordingUnwinder (fun _ => false) sampleIdx2Block [] 3 6).rewoundTo = some 3 := by rfl
  obtain ⟨h1, -, -, h4⟩ := RunWithdrawalsBlockUnwind_spec sampleChain sampleRewind
    recordingUnwinder (fun _ => false) sampleIdx2Block [] 3 6 sampleChain_mono
    sampleChain_sorted (by decide)
  have hs := h4
    (by
      intro k hk
      rw [h3] at hk
      rw [← Option.some.inj hk]
      rfl)
    (fun _ _ _ => ⟨_, rfl⟩) (fun _ => rfl)
  refine ⟨h3, ?_, hs.1, ?_, ?_⟩
  · rw [(h1 3 h3).2.2]; rfl
  · rw [hs.2.1]; rfl
  · have hrun := hs.2.2
    have hval : runCalls recordingUnwinder ((List.range' (3 + 1) (6 - 3)).flatMap
        (fun b => (sampleChain b).map (fun w => (w.Address, w.Index)))) [] =
        .ok [(addr0, 4), (List.replicate 20 1, 5), (addr0, 6), (List.replicate 20 1, 7)] := by
      rfl
    rw [hval] at hrun
    exact (Except.ok.inj hrun).symm

/-- C30 at a concrete input: the sample chain unwound from block 6 to block 1; block 1 has no
withdrawal, so the three entries of the table stay, those of the blocks 2, 4 and 6 that are
being unwound included. -/
theorem RunWithdrawalsBlockUnwind_no_rewind_witness :
    (RunWithdrawalsBlockUnwind (fun b => .ok (sampleChain b)) sampleRewind
        (fun (_ : Unit) _ _ => .ok ()) (fun _ => false) sampleIdx2Block () 1 6).idx2Block =
        sampleIdx2Block ∧
      (RunWithdrawalsBlockUnwind (fun b => .ok (sampleChain b)) sampleRewind
        (fun (_ : Unit) _ _ => .ok ()) (fun _ => false) sampleIdx2Block () 1 6).rewoundTo =
        none :=
  RunWithdrawalsBlockUnwind_no_rewind (fun b => .ok (sampleChain b)) sampleRewind
    (fun (_ : Unit) _ _ => .ok ()) (fun _ => false) sampleIdx2Block () 1 6 (by
      intro b h1 h2
      have hb : b = 1 := by omega
      subst hb
      rfl)

/-- C28: loading is compositional.  For an address `A` without chunk or counter records and
non-empty id sets `S1`, `S2` with every id of `S1` below every id of `S2`, running `Load` on
`(A, S1)` and then `Load` on `(A, S2)` succeeds and leaves exactly the chunk records and the
counter records for `A` that a single `Load` on `(A, S1 ∪ S2)` leaves, whatever form
(optimized or regular) the intermediate and the final state take. -/
theorem Load_compositional (L : Nat) (st : Store) (A : Bytes) (S1 S2 : Bitmap)
    (hA : A.length = lengthAddr) (hsorted : TableSorted st.index)
    (hfresh : chunksOf A st.index = [] ∧ st.counter A = [])
    (h1 : S1 ≠ []) (h2 : S2 ≠ []) (hS1 : BitmapOk S1) (hS2 : BitmapOk S2)
    (hlt : ∀ x ∈ S1, ∀ y ∈ S2, x < y) (hb : S1.length + S2.length < 2 ^ 64) :
    ∃ st12 st', LoadSeq L st [[(A, S1)], [(A, S2)]] = .ok st12 ∧
      Load L st [(A, S1 ++ S2)] = .ok st' ∧
      chunksOf A st12.index = chunksOf A st'.index ∧ st12.counter A = st'.counter A := by
  have hinv0 : ChunkInv A st [] :=
    ⟨hsorted, by rw [hfresh.1]; rfl, by simp, List.Pairwise.nil, by simp⟩
  have hctr0 : CounterInv A st [] := Or.inl ⟨rfl, hfresh.2⟩
  have hor : ∀ S : Bitmap, bmOr S (([] : List (List Nat)).getLast?.getD []) = S := fun _ => rfl
  have hS12 : BitmapOk (S1 ++ S2) := by
    refine ⟨List.pairwise_append.2 ⟨hS1.1, hS2.1, hlt⟩, ?_⟩
    intro x hx
    rcases List.mem_append.1 hx with hx | hx
    · exact hS1.2 x hx
    · exact hS2.2 x hx
  -- the first of the two loads
  obtain ⟨st1, sc0, hsc0, hload1, -, hinv1, hctr1, -⟩ :=
    loadFunc_inv_chunks L st A S1 [] hA h1 hS1 hinv0 hctr0 (by simp)
      (by simp only [List.flatten_nil, List.length_nil]; omega)
  rw [hor, List.dropLast_nil, List.nil_append] at hinv1 hctr1
  -- the single load
  obtain ⟨st', sc0', hsc0', hload', -, hinv', hctr', -⟩ :=
    loadFunc_inv_chunks L st A (S1 ++ S2) [] hA (by simp [h1]) hS12 hinv0 hctr0 (by simp)
      (by simp only [List.flatten_nil, List.length_nil, List.length_append]; omega)
  rw [hor, List.dropLast_nil, List.nil_append] at hinv' hctr'
  have hsceq : sc0' = sc0 := by
    have := hsc0'.symm.trans hsc0
    exact Except.ok.inj this
  rw [hsceq] at hinv' hctr'
  have hcs1 : loadChunks L sc0 S1 = if S1.length ≤ 256 then [S1] else cutter L S1 [] :=
    loadChunks_small L hctr0 hsc0 (by simp) (by simp) (by omega)
  have hcs' : loadChunks L sc0 (S1 ++ S2) =
      if (S1 ++ S2).length ≤ 256 then [S1 ++ S2] else cutter L (S1 ++ S2) [] :=
    loadChunks_small L hctr0 hsc0 (by simp) (by simp) (by rw [List.length_append]; omega)
  have hflat1 := loadChunks_flatten L sc0 S1
  -- the second of the two loads
  have hgt : ∀ x ∈ S2, ∀ y ∈ (loadChunks L sc0 S1).dropLast.flatten, y < x := by
    intro x hx y hy
    apply hlt y _ x hx
    rw [← hflat1]
    obtain ⟨c, hc, hyc⟩ := List.mem_flatten.1 hy
    exact List.mem_flatten.2 ⟨c, List.mem_of_mem_dropLast hc, hyc⟩
  obtain ⟨st12, sc1, hsc1, hload2, -, hinv2, hctr2, -⟩ :=
    loadFunc_inv_chunks L st1 A S2 (loadChunks L sc0 S1) hA h2 hS2 hinv1 hctr1 hgt
      (by rw [hflat1]; exact hb)
  have hseq : LoadSeq L st [[(A, S1)], [(A, S2)]] = .ok st12 := by
    simp only [LoadSeq, Load_single, hload1, hload2]
  have hone : Load L st [(A, S1 ++ S2)] = .ok st' := by rw [Load_single, hload']
  -- both runs leave the same list of chunks
  have hsame : (loadChunks L sc0 S1).dropLast ++
      loadChunks L sc1 (bmOr S2 ((loadChunks L sc0 S1).getLast?.getD [])) =
        loadChunks L sc0 (S1 ++ S2) := by
    by_cases hsmall : S1.length ≤ 256
    · have hc1 : loadChunks L sc0 S1 = [S1] := by rw [hcs1, if_pos hsmall]
      have hM : bmOr S2 (([S1] : List (List Nat)).getLast?.getD []) = S1 ++ S2 :=
        bmOr_append_of_lt hS2.1 hS1.1 hlt
      rw [hc1] at hctr1 ⊢
      rw [hM, List.dropLast_single, List.nil_append, hcs']
      exact loadChunks_small L hctr1 hsc1 (by simp) (by simpa using hsmall)
        (by rw [List.length_append]; omega)
    · have hc1 : loadChunks L sc0 S1 = cutter L S1 [] := by rw [hcs1, if_neg hsmall]
      have hne : cutter L S1 [] ≠ [] := by
        intro h0
        rw [hc1, h0] at hflat1
        exact h1 hflat1.symm
      rcases eq_nil_or_snoc (cutter L S1 []) with h0 | ⟨pre, last, hsnoc⟩
      · exact absurd h0 hne
      · have hcut := cutter_isCut L S1
        rw [hsnoc] at hcut
        obtain ⟨hlastok, -, -, -, -⟩ := isCut_last_ok hS1 hcut
        have hlastmem : ∀ x ∈ last, x ∈ S1 := by
          intro x hx
          rw [← hcut.1]
          exact List.mem_flatten.2 ⟨last, by simp, hx⟩
        have hM : bmOr S2 ((pre ++ [last]).getLast?.getD []) = last ++ S2 := by
          rw [List.getLast?_concat]
          exact bmOr_append_of_lt hS2.1 hlastok.1 (fun x hx y hy => hlt x (hlastmem x hx) y hy)
        have hbig : loadChunks L sc0 (S1 ++ S2) = cutter L (S1 ++ S2) [] := by
          rw [hcs', if_neg (by rw [List.length_append]; omega)]
        rw [hc1, hsnoc] at hctr1 ⊢
        rw [hM, List.dropLast_concat, hbig, cutter_resume hsnoc S2]
        congr 1
        apply loadChunks_large L hctr1 hsc1
        right
        rw [← hsnoc, (cutter_isCut L S1).1]
        omega
  rw [hsame] at hinv2 hctr2
  refine ⟨st12, st', hseq, hone, ?_, counterInv_unique hctr2 hctr'⟩
  rw [hinv2.2.1, hinv'.2.1]

/-- C28 at a concrete input: `[1, 2, 3]` then `[4, 5]` against `[1, 2, 3, 4, 5]` at once, for
the fresh address `addr0`. -/
theorem Load_compositional_witness :
    ∃ st12 st', LoadSeq 16 Store.empty [[(addr0, [1, 2, 3])], [(addr0, [4, 5])]] = .ok st12 ∧
      Load 16 Store.empty [(addr0, [1, 2, 3] ++ [4, 5])] = .ok st' ∧
      chunksOf addr0 st12.index = chunksOf addr0 st'.index ∧
      st12.counter addr0 = st'.counter addr0 :=
  Load_compositional 16 Store.empty addr0 [1, 2, 3] [4, 5] (by decide) List.Pairwise.nil
    ⟨rfl, rfl⟩ (by decide) (by decide) (by unfold BitmapOk; decide)
    (by unfold BitmapOk; decide) (by decide) (by decide)

/-- C29: with a positive `ChunkLimit`, every chunk `Load` writes other than the last one holds
exactly `⌈ChunkLimit / 8⌉` ids, its value being `8 · ⌈ChunkLimit / 8⌉` bytes long, and the
last chunk written on the regular path holds between 1 and `⌈ChunkLimit / 8⌉` ids.  As a
consequence, any sequence of `Load` runs from the empty store on well-formed entries succeeds
and leaves every chunk record that is not keyed by the all-ones terminator, of every address,
with a value of that same size. -/
theorem Load_chunk_sizes (L : Nat) (hL : 0 < L) :
    (∀ (st : Store) (A : Bytes) (S M : Bitmap) (sc : CounterScan), A.length = lengthAddr →
      mergeLastChunk S A st.index = .ok M → scanCounter A st.counter = .ok sc →
      Load L st [(A, S)] = .ok (applyWrites A (loadWrites L A sc M) ⟨st.index, sc.counter⟩) ∧
      (∀ w ∈ (loadWrites L A sc M).dropLast, ∃ c, w.value = encodeIds c ∧
        c.length = (L + 7) / 8 ∧ w.value.length = 8 * ((L + 7) / 8)) ∧
      (optimizedBranch sc M = false → ∀ w, (loadWrites L A sc M).getLast? = some w →
        ∃ c, w.value = encodeIds c ∧ 1 ≤ c.length ∧ c.length ≤ (L + 7) / 8)) ∧
    (∀ bs : List (List (Bytes × Bitmap)), DeltasOk bs.flatten →
      (∀ A, (idsFor A bs.flatten).length < 2 ^ 64) →
      ∃ st', LoadSeq L Store.empty bs = .ok st' ∧
        ∀ A, ∀ e ∈ chunksOf A st'.index, e.1.drop lengthAddr ≠ putUint64 maxUint64 →
          e.2.length = 8 * ((L + 7) / 8)) := by
  constructor
  · intro st A S M sc hA hM hsc
    refine ⟨by rw [Load_single]; exact loadFunc_writes L st A S M sc hA hM hsc, ?_, ?_⟩
    · intro w hw
      have hv : w.value ∈ ((loadChunks L sc M).dropLast).map encodeIds := by
        rw [List.map_dropLast, ← loadWrites_values, ← List.map_dropLast]
        exact List.mem_map_of_mem _ hw
      obtain ⟨c, hc, hcv⟩ := List.mem_map.1 hv
      have hlen : c.length = (L + 7) / 8 := by
        unfold loadChunks at hc
        split at hc
        · simp at hc
        · exact isCut_nonfinal_size hL (cutter_isCut L M) c hc
      exact ⟨c, hcv.symm, hlen, by rw [← hcv, encodeIds_length, hlen]⟩
    · intro hb w hw
      have hv : (loadChunks L sc M).getLast?.map encodeIds = some w.value := by
        rw [← List.getLast?_map, ← loadWrites_values, List.getLast?_map, hw]
        rfl
      cases hl : (loadChunks L sc M).getLast? with
      | none => rw [hl] at hv; simp at hv
      | some c =>
        rw [hl] at hv
        simp only [Option.map_some', Option.some.injEq] at hv
        have hc : c ∈ cutter L M [] := by
          have := List.mem_of_getLast?_eq_some hl
          rw [loadChunks, hb] at this
          exact this
        exact ⟨c, hv.symm, isCut_piece_size hL (cutter_isCut L M) c hc⟩
  · intro bs hok hbound
    obtain ⟨st', hload, -, -⟩ := Load_anyOrder L bs.flatten [] Store.empty List.Pairwise.nil
      (fun A _ => Or.inl ⟨[], ⟨List.Pairwise.nil, rfl, by simp, List.Pairwise.nil, by simp⟩,
        Or.inl ⟨rfl, rfl⟩, by simp⟩) hok (by simpa using hbound)
    refine ⟨st', by rw [LoadSeq_eq_Load]; exact hload, ?_⟩
    intro A e he
    exact Load_sizes hL bs.flatten Store.empty st' hload (fun x hx => (hok x hx).1)
      (by intro x hx; simp [Store.empty] at hx) e (List.mem_of_mem_filter he)

/-- C29 at concrete inputs.  A chunk limit of 16 bytes (2 ids per chunk) and the sample
store, whose last chunk `[3]` is re-cut with the ids 4 and 5 on the regular path: the chunk
`[3, 4]` written first holds 2 ids and the final chunk `[5]` holds 1.  And the chunk limit
1950 with 257 ids loaded into the empty store: the chunk keyed by 244 is there and every chunk
not keyed by all ones is 1952 bytes long. -/
theorem Load_chunk_sizes_witness :
    (Load 16 sampleStore [(addr0, [4, 5])] =
        .ok (applyWrites addr0
          (loadWrites 16 addr0 ⟨2, false, true, dropLastCounter addr0 sampleStore.counter⟩
            [3, 4, 5])
          ⟨sampleStore.index, dropLastCounter addr0 sampleStore.counter⟩) ∧
      (loadWrites 16 addr0 ⟨2, false, true, dropLastCounter addr0 sampleStore.counter⟩
        [3, 4, 5]).map ChunkWrite.value = [encodeIds [3, 4], encodeIds [5]] ∧
      (∀ w ∈ (loadWrites 16 addr0 ⟨2, false, true, dropLastCounter addr0 sampleStore.counter⟩
          [3, 4, 5]).dropLast,
        ∃ c, w.value = encodeIds c ∧ c.length = (16 + 7) / 8 ∧
          w.value.length = 8 * ((16 + 7) / 8)) ∧
      (∀ w, (loadWrites 16 addr0 ⟨2, false, true, dropLastCounter addr0 sampleStore.counter⟩
          [3, 4, 5]).getLast? = some w →
        ∃ c, w.value = encodeIds c ∧ 1 ≤ c.length ∧ c.length ≤ (16 + 7) / 8)) ∧
    (∃ st', LoadSeq 1950 Store.empty [[(addr0, List.range' 1 257)]] = .ok st' ∧
      (addr0 ++ putUint64 244, encodeIds (List.range' 1 244)) ∈ chunksOf addr0 st'.index ∧
      ∀ A, ∀ e ∈ chunksOf A st'.index, e.1.drop lengthAddr ≠ putUint64 maxUint64 →
        e.2.length = 8 * ((1950 + 7) / 8)) := by
  constructor
  · obtain ⟨h1, h2, h3⟩ := (Load_chunk_sizes 16 (by decide)).1 sampleStore addr0 [4, 5]
      [3, 4, 5]
      ⟨2, false, true, dropLastCounter addr0 sampleStore.counter⟩ (by decide) (by rfl) (by rfl)
    exact ⟨h1, by rfl, h2, h3 (by rfl)⟩
  · have hok : DeltasOk
        ([[(addr0, List.range' 1 257)]] : List (List (Bytes × Bitmap))).flatten := by
      intro e he
      simp only [List.flatten_cons, List.flatten_nil, List.append_nil, List.mem_singleton] at he
      subst he
      refine ⟨by decide, List.ne_nil_of_length_pos (by rw [List.length_range']; norm_num),
        List.pairwise_lt_range' 1 257, ?_⟩
      intro x hx
      have := (List.mem_range'_1.1 hx).2
      omega
    obtain ⟨st', hload, hsz⟩ := (Load_chunk_sizes 1950 (by decide)).2
      [[(addr0, List.range' 1 257)]] hok
      (fun A => Nat.lt_of_le_of_lt (idsFor_length_le A _)
        (by simp only [List.flatten_cons, List.flatten_nil, List.append_nil, List.map_cons,
          List.map_nil, List.sum_cons, List.sum_nil, List.length_range']; norm_num))
    refine ⟨st', hload, ?_, hsz⟩
    rw [LoadSeq_eq_Load] at hload
    have h257 := Load_fresh_257_at_1950
    simp only [List.flatten_cons, List.flatten_nil, List.append_nil] at hload
    rw [h257] at hload
    rw [← Except.ok.inj hload]
    simp only [chunksOf, List.filter_cons, List.mem_cons]
    have hk : (addr0 ++ putUint64 244).take lengthAddr = addr0 := List.take_left' (by decide)
    simp [hk]

/-- C21, as the steps of spec 4.5 have it: on a store satisfying the chunk and counter
invariants for `addr` (chunks `cs`), `UnwindAddress(addr, e)` succeeds; afterwards no chunk
of `addr` holds an id `≥ e`, every id `< e` stored before is still stored (the stored ids are
exactly the earlier ones below `e`, in order), and the records of the other addresses are as
before; the chunks and counters of `addr` satisfy the chunk and counter invariants again
exactly when `e` does not fall on a chunk boundary inside the address. -/
theorem UnwindAddress_spec (A : Bytes) (e : Nat) (st : Store) (cs : List (List Nat))
    (hA : A.length = lengthAddr) (hinv : ChunkInv A st cs) (hctr : CounterInv A st cs)
    (hb : cs.flatten.length < 2 ^ 64) :
    ∃ st', UnwindAddress st A e = .ok st' ∧
      (∀ r ∈ chunksOf A st'.index, ∀ x ∈ decodeIds r.2, x < e) ∧
      (∀ x ∈ storedIds A st, x < e → x ∈ storedIds A st') ∧
      storedIds A st' = (storedIds A st).filter (fun x => decide (x < e)) ∧
      ((∃ cs', ChunkInv A st' cs' ∧ CounterInv A st' cs') ↔ onChunkBoundary e cs = false) ∧
      ∀ B, B ≠ A → chunksOf B st'.index = chunksOf B st.index ∧
        st'.counter B = st.counter B := by
  obtain ⟨st', hun, hlt, hids, hiff, hframe⟩ := unwindAddress_cases hA e st cs hinv hctr hb
  have hids' : storedIds A st' = (storedIds A st).filter (fun x => decide (x < e)) := by
    rw [hids, storedIds_of_inv hinv]
  refine ⟨st', hun, hlt, ?_, hids', hiff, hframe⟩
  intro x hx hxe
  rw [hids']
  exact List.mem_filter.2 ⟨hx, by simpa using hxe⟩

/-- C21 as stated fails on the steps of spec 4.5: the sample store with the chunks `[1, 2]`,
`[3, 4]` and `[5]` satisfies the chunk and counter invariants; unwound to the id 5 it keeps
the chunks `[1, 2]` and `[3, 4]` under their own keys 2 and 4, so that no chunk carries the
all-ones terminator and the invariants do not hold for any list of chunks. -/
theorem UnwindAddress_boundary_no_last_chunk :
    ChunkInv addr0 threeChunkStore [[1, 2], [3, 4], [5]] ∧
      CounterInv addr0 threeChunkStore [[1, 2], [3, 4], [5]] ∧
      ∃ st', UnwindAddress threeChunkStore addr0 5 = .ok st' ∧
        st'.index = [(addr0 ++ putUint64 2, encodeIds [1, 2]),
          (addr0 ++ putUint64 4, encodeIds [3, 4])] ∧
        ¬ ∃ cs', ChunkInv addr0 st' cs' ∧ CounterInv addr0 st' cs' := by
  refine ⟨⟨by unfold TableSorted; decide, by decide, by decide, by unfold BitmapOk; decide⟩,
    Or.inr (Or.inr ⟨by decide, by decide, by decide⟩), _, rfl, by decide, ?_⟩
  rintro ⟨cs', hinv', -⟩
  rcases chunkInv_last_key hinv' with h0 | ⟨v, hv⟩
  · revert h0; decide
  · have hv' : (addr0 ++ putUint64 maxUint64, v) ∈
        [(addr0 ++ putUint64 2, encodeIds [1, 2]), (addr0 ++ putUint64 4, encodeIds [3, 4])] :=
      hv
    simp only [List.mem_cons, Prod.mk.injEq, List.mem_singleton, List.not_mem_nil,
      or_false] at hv'
    rcases hv' with ⟨h, -⟩ | ⟨h, -⟩
    · revert h; decide
    · revert h; decide

/-- C21 (amended) at a concrete input: the sample store with the chunks `[1, 2]`, `[3, 4]` and
`[5]` unwound to the id 4, inside the chunk `[3, 4]`: the chunks `[1, 2]` and `[3]` are left,
the latter under the all-ones terminator, and the invariants hold again. -/
theorem UnwindAddress_spec_witness :
    ∃ st', UnwindAddress threeChunkStore addr0 4 = .ok st' ∧
      st'.index = [(addr0 ++ putUint64 2, encodeIds [1, 2]),
        (addr0 ++ putUint64 maxUint64, encodeIds [3])] ∧
      (∀ r ∈ chunksOf addr0 st'.index, ∀ x ∈ decodeIds r.2, x < 4) ∧
      (∀ x ∈ storedIds addr0 threeChunkStore, x < 4 → x ∈ storedIds addr0 st') ∧
      storedIds addr0 st' =
        (storedIds addr0 threeChunkStore).filter (fun x => decide (x < 4)) ∧
      (∃ cs', ChunkInv addr0 st' cs' ∧ CounterInv addr0 st' cs') ∧
      ∀ B, B ≠ addr0 → chunksOf B st'.index = chunksOf B threeChunkStore.index ∧
        st'.counter B = threeChunkStore.counter B := by
  obtain ⟨st', hun, h1, h2, h3, h4, h5⟩ := UnwindAddress_spec addr0 4 threeChunkStore
    [[1, 2], [3, 4], [5]] (by decide)
    ⟨by unfold TableSorted; decide, by decide, by decide, by unfold BitmapOk; decide⟩
    (Or.inr (Or.inr ⟨by decide, by decide, by decide⟩)) (by decide)
  refine ⟨st', hun, ?_, h1, h2, h3, h4.2 (by decide), h5⟩
  have hval : UnwindAddress threeChunkStore addr0 4 = .ok
      ⟨[(addr0 ++ putUint64 2, encodeIds [1, 2]), (addr0 ++ putUint64 maxUint64, encodeIds [3])],
        fun a => if a = addr0 then
          dupInsert (LastCounterSerializer 3) [putUint64 2 ++ putUint64 2]
        else threeChunkStore.counter a⟩ := by rfl
  rw [hval] at hun
  rw [← Except.ok.inj hun]

end Ots
